import Mathlib

/-! CSR graph store of the subgraph-matching engine (`graph.h`)

A shallow embedding of `class Graph`: the compressed-sparse-row adjacency
store, its text and compressed loaders, the persistence format, the label
reverse index, the edge-existence query and the core decomposition.

Conventions of the embedding.

* `ui` values (`unsigned int`, also `VertexID` and `LabelID`) are naturals;
  every `ui` operation that can wrap is written with an explicit reduction
  modulo `2 ^ 32` (`wrap`, `uiSub`).  `int` values are integers; the
  conversions between the two are `toInt` and `ofInt`.
* A heap array is a `List`.  Reading or writing outside the array is
  undefined in C++; the embedding returns `none` there.
* `new T[k]` yields indeterminate cells; they are filled from a parameter
  `junk`, so that nothing proved depends on their initial value.
-/

namespace SubgraphMatching

/-! ## Machine integers -/

/-- Number of values of the 32-bit `unsigned int` type `ui`. -/
def UI_SIZE : Nat := 4294967296

/-- Largest `int` plus one. -/
def INT_SIZE : Nat := 2147483648

/-- Result of a `ui` operation: reduction modulo `2 ^ 32`. -/
def wrap (x : Nat) : Nat := x % 4294967296

/-- Subtraction `a - b` of two `ui` values. -/
def uiSub (a b : Nat) : Nat := (a % 4294967296 + 4294967296 - b % 4294967296) % 4294967296

/-- Conversion `ui -> int` (two's complement). -/
def toInt (x : Nat) : Int :=
  if x % 4294967296 < 2147483648 then ((x % 4294967296 : Nat) : Int)
  else ((x % 4294967296 : Nat) : Int) - 4294967296

/-- Conversion `int -> ui` (two's complement). -/
def ofInt (x : Int) : Nat := (x % 4294967296).toNat

/-! ## Arrays -/

/-- Freshly allocated array `new ui[k]`: `k` cells of indeterminate content. -/
def newArray (junk : Nat → Nat) (k : Nat) : List Nat := (List.range k).map junk

/-- Array write `a[i] = x`; undefined outside the array. -/
def writeAt {α : Type} (a : List α) (i : Nat) (x : α) : Option (List α) :=
  if i < a.length then some (a.set i x) else none

/-- Array cell addressed by an `int` index. -/
def readInt {α : Type} (a : List α) (i : Int) : Option α :=
  if 0 ≤ i then a[i.toNat]? else none

/-- Array write through an `int` index. -/
def writeInt {α : Type} (a : List α) (i : Int) (x : α) : Option (List α) :=
  if 0 ≤ i then writeAt a i.toNat x else none

/-! ## The label-frequency map (`std::unordered_map<LabelID, ui>`) -/

/-- Lookup `m.find(key)`: the stored count, or `none` when the key is absent. -/
def mapFind : List (Nat × Nat) → Nat → Option Nat
  | [], _ => none
  | (k, x) :: m, key => if k = key then some x else mapFind m key

/-- Assignment `m[key] = val`: overwrite the entry, or add it when absent. -/
def mapSet : List (Nat × Nat) → Nat → Nat → List (Nat × Nat)
  | [], key, val => [(key, val)]
  | (k, x) :: m, key, val => if k = key then (k, val) :: m else (k, x) :: mapSet m key val

/-- Access `m[key]` as performed by `operator[]`: an absent key is inserted
with the value `0`; returns the map after the access and the value. -/
def mapAccess (m : List (Nat × Nat)) (key : Nat) : List (Nat × Nat) × Nat :=
  match mapFind m key with
  | some x => (m, x)
  | none => (mapSet m key 0, 0)

/-! ## The graph object -/

/-- Data members of `class Graph` (the neighbour-label histogram `nlf_` of the
optional optimized mode apart). -/
structure Graph where
  vertices_count_ : Nat
  edges_count_ : Nat
  labels_count_ : Nat
  max_degree_ : Nat
  max_label_frequency_ : Nat
  offsets_ : List Nat
  neighbors_ : List Nat
  labels_ : List Nat
  reverse_index_offsets_ : List Nat
  reverse_index_ : List Nat
  core_table_ : List Int
  core_length_ : Nat
  labels_frequency_ : List (Nat × Nat)
deriving DecidableEq

namespace Graph

/-- Constructor `Graph(enable_label_offset)`: all counters zero, all arrays
null, empty frequency map. -/
def new : Graph :=
  { vertices_count_ := 0, edges_count_ := 0, labels_count_ := 0, max_degree_ := 0,
    max_label_frequency_ := 0, offsets_ := [], neighbors_ := [], labels_ := [],
    reverse_index_offsets_ := [], reverse_index_ := [], core_table_ := [],
    core_length_ := 0, labels_frequency_ := [] }

def getLabelsCount (g : Graph) : Nat := g.labels_count_

def getVerticesCount (g : Graph) : Nat := g.vertices_count_

def getEdgesCount (g : Graph) : Nat := g.edges_count_

def getGraphMaxDegree (g : Graph) : Nat := g.max_degree_

def getGraphMaxLabelFrequency (g : Graph) : Nat := g.max_label_frequency_

/-- Degree accessor: `offsets_[id + 1] - offsets_[id]` in `ui` arithmetic. -/
def getVertexDegree (g : Graph) (id : Nat) : Option Nat := do
  let hi ← g.offsets_[wrap (id + 1)]?
  let lo ← g.offsets_[id]?
  pure (uiSub hi lo)

/-- Frequency accessor: `0` for an absent label, else the stored count. -/
def getLabelsFrequency (g : Graph) (label : Nat) : Nat :=
  match mapFind g.labels_frequency_ label with
  | none => 0
  | some x => x

/-- Core accessor: `core_table_[id]` converted to `ui`. -/
def getCoreValue (g : Graph) (id : Nat) : Option Nat :=
  (g.core_table_[id]?).map ofInt

def get2CoreSize (g : Graph) : Nat := g.core_length_

def getVertexLabel (g : Graph) (id : Nat) : Option Nat := g.labels_[id]?

/-- The `count` cells of array `a` that start at index `start`; undefined when
the range leaves the array. -/
def view (a : List Nat) (start count : Nat) : Option (List Nat) :=
  if start + count ≤ a.length then some ((a.drop start).take count) else none

/-- Neighbour accessor.  The C++ returns the pointer `neighbors_ + offsets_[id]`
and the count `offsets_[id + 1] - offsets_[id]`; the embedding returns the
cells this pair denotes. -/
def getVertexNeighbors (g : Graph) (id : Nat) : Option (List Nat) := do
  let hi ← g.offsets_[wrap (id + 1)]?
  let lo ← g.offsets_[id]?
  view g.neighbors_ lo (uiSub hi lo)

/-- Reverse-index accessor: the cells denoted by the pointer
`reverse_index_ + reverse_index_offsets_[id]` and the count
`reverse_index_offsets_[id + 1] - reverse_index_offsets_[id]`. -/
def getVerticesByLabel (g : Graph) (id : Nat) : Option (List Nat) := do
  let hi ← g.reverse_index_offsets_[wrap (id + 1)]?
  let lo ← g.reverse_index_offsets_[id]?
  view g.reverse_index_ lo (uiSub hi lo)

/-- The `while (begin <= end)` loop of `checkEdgeExistence`.  The first argument
bounds the number of iterations; `none` is returned when it is exhausted or
when `neighbors[mid]` lies outside the slice. -/
def searchLoop (neighbors : List Nat) (u : Nat) : Nat → Int → Int → Option Bool
  | 0, _, _ => none
  | fuel + 1, begin, end_ =>
    if begin ≤ end_ then
      let mid := begin + ((end_ - begin) >>> (1 : Nat))
      match readInt neighbors mid with
      | none => none
      | some x =>
        if x = u then some true
        else if x > u then searchLoop neighbors u fuel begin (mid - 1)
        else searchLoop neighbors u fuel (mid + 1) end_
    else some false

/-- Edge test `checkEdgeExistence(u, v)`: swap when `u` has the smaller degree,
then binary search for `u` in the slice of `v`. -/
def checkEdgeExistence (g : Graph) (u v : Nat) : Option Bool := do
  let du ← g.getVertexDegree u
  let dv ← g.getVertexDegree v
  let (u, v) := if du < dv then (v, u) else (u, v)
  let neighbors ← g.getVertexNeighbors v
  let count := neighbors.length
  searchLoop neighbors u (count + 1) 0 (toInt (uiSub count 1))

/-! ## The label reverse index -/

/-- First loop of `BuildReverseIndex`, iteration `i`:
`reverse_index_offsets_[i + 1] = total; total += labels_frequency_[i];`.
The state is the offset array, the frequency map and `total`. -/
def reverseOffsetStep (st : List Nat × List (Nat × Nat) × Nat) (i : Nat) :
    Option (List Nat × List (Nat × Nat) × Nat) := do
  let offs ← writeAt st.1 (i + 1) st.2.2
  let acc := mapAccess st.2.1 i
  pure (offs, acc.1, wrap (st.2.2 + acc.2))

/-- Second loop of `BuildReverseIndex`, iteration `i`:
`reverse_index_[reverse_index_offsets_[labels_[i] + 1]++] = i;`.
The state is the offset array and the index array. -/
def reverseFillStep (labels : List Nat) (st : List Nat × List Nat) (i : Nat) :
    Option (List Nat × List Nat) := do
  let label ← labels[i]?
  let slot ← st.1[wrap (label + 1)]?
  let offs ← writeAt st.1 (wrap (label + 1)) (wrap (slot + 1))
  let index ← writeAt st.2 slot i
  pure (offs, index)

/-- Method `Graph::BuildReverseIndex`. -/
def BuildReverseIndex (junk : Nat → Nat) (g : Graph) : Option Graph := do
  let reverse_index_ := newArray junk g.vertices_count_
  let offs := newArray junk (wrap (g.labels_count_ + 1))
  let offs ← writeAt offs 0 0
  let st ← (List.range g.labels_count_).foldlM reverseOffsetStep (offs, g.labels_frequency_, 0)
  let st2 ← (List.range g.vertices_count_).foldlM (reverseFillStep g.labels_) (st.1, reverse_index_)
  pure { g with reverse_index_offsets_ := st2.1, reverse_index_ := st2.2,
                labels_frequency_ := st.2.1 }

/-! ## Shared pieces of the two loaders -/

/-- Frequency update for one label, with the running `max_label_id`:
an absent label is inserted with count `0` and may raise `max_label_id`;
then the count is incremented. -/
def countLabel (st : List (Nat × Nat) × Nat) (label : Nat) : List (Nat × Nat) × Nat :=
  let st1 : List (Nat × Nat) × Nat :=
    match mapFind st.1 label with
    | none => (mapSet st.1 label 0, if label > st.2 then label else st.2)
    | some _ => st
  let acc := mapAccess st1.1 label
  (mapSet acc.1 label (wrap (acc.2 + 1)), st1.2)

/-- Value of `labels_count_`: the larger of `(ui) labels_frequency_.size()` and
`max_label_id + 1`, the sum taken in `ui`. -/
def labelsCount (freq : List (Nat × Nat)) (max_label_id : Nat) : Nat :=
  if wrap freq.length > wrap (max_label_id + 1) then wrap freq.length else wrap (max_label_id + 1)

/-- Loop `for (auto element : labels_frequency_)` raising `max_label_frequency_`. -/
def maxFrequency (freq : List (Nat × Nat)) (start : Nat) : Nat :=
  freq.foldl (fun m element => if element.2 > m then element.2 else m) start

/-- Call `std::sort(a + lo, a + hi)`: undefined unless `lo <= hi <= length`. -/
def sortRange (a : List Nat) (lo hi : Nat) : Option (List Nat) :=
  if lo ≤ hi ∧ hi ≤ a.length then
    some (a.take lo ++ (((a.drop lo).take (hi - lo)).insertionSort (fun x y => x ≤ y) ++ a.drop hi))
  else none

/-- Block write of `words` into `a` from index `start` on (the effect of a
stream `read` that delivered `words`); undefined when it leaves the array. -/
def writeBlock (a : List Nat) (start : Nat) (words : List Nat) : Option (List Nat) :=
  if start + words.length ≤ a.length then
    some (a.take start ++ (words ++ a.drop (start + words.length)))
  else none

/-! ## The text loader -/

/-- One record of the text format: `v <id> <label> <degree>` or `e <begin> <end>`. -/
inductive Record where
  | v (id label degree : Nat)
  | e (begin end_ : Nat)
deriving DecidableEq

/-- Content of a text graph file: the header counts and the records in file
order.  Every number is a `ui` value as extracted by `infile >> x`. -/
structure TextFile where
  vertices_count : Nat
  edges_count : Nat
  records : List Record

/-- Local state of the record loop of `loadGraphFromFile`. -/
structure TextState where
  g : Graph
  max_label_id : Nat
  neighbors_offset : List Nat

/-- Body of `while (infile >> type)` for one record. -/
def readRecord (st : TextState) : Record → Option TextState
  | Record.v id label degree => do
    let labels ← writeAt st.g.labels_ id label
    let base ← st.g.offsets_[id]?
    let offsets ← writeAt st.g.offsets_ (wrap (id + 1)) (wrap (base + degree))
    let max_degree := if degree > st.g.max_degree_ then degree else st.g.max_degree_
    let fr := countLabel (st.g.labels_frequency_, st.max_label_id) label
    pure { st with
      g := { st.g with labels_ := labels, offsets_ := offsets, max_degree_ := max_degree,
                       labels_frequency_ := fr.1 },
      max_label_id := fr.2 }
  | Record.e begin end_ => do
    let ob ← st.g.offsets_[begin]?
    let cb ← st.neighbors_offset[begin]?
    let neighbors ← writeAt st.g.neighbors_ (wrap (ob + cb)) end_
    let oe ← st.g.offsets_[end_]?
    let ce ← st.neighbors_offset[end_]?
    let neighbors ← writeAt neighbors (wrap (oe + ce)) begin
    let c1 ← st.neighbors_offset[begin]?
    let cursor ← writeAt st.neighbors_offset begin (wrap (c1 + 1))
    let c2 ← cursor[end_]?
    let cursor ← writeAt cursor end_ (wrap (c2 + 1))
    pure { st with g := { st.g with neighbors_ := neighbors }, neighbors_offset := cursor }

/-- Sorting loop of the text loader, iteration `i`:
`std::sort(neighbors_ + offsets_[i], neighbors_ + offsets_[i + 1])`. -/
def sortStep (offsets : List Nat) (neighbors : List Nat) (i : Nat) : Option (List Nat) := do
  let lo ← offsets[i]?
  let hi ← offsets[i + 1]?
  sortRange neighbors lo hi

/-- First part of `loadGraphFromFile`: the header, the allocations and the
record loop. -/
def loadRecords (junk : Nat → Nat) (g : Graph) (file : TextFile) : Option TextState := do
  let n := file.vertices_count
  let offsets ← writeAt (newArray junk (wrap (n + 1))) 0 0
  let g0 : Graph := { g with
    vertices_count_ := n, edges_count_ := file.edges_count,
    offsets_ := offsets, neighbors_ := newArray junk (wrap (file.edges_count * 2)),
    labels_ := newArray junk n, labels_count_ := 0, max_degree_ := 0 }
  file.records.foldlM readRecord
    { g := g0, max_label_id := 0, neighbors_offset := List.replicate n 0 }

/-- Method `Graph::loadGraphFromFile` on an opened file: the record loop, then
`labels_count_`, `max_label_frequency_`, the sorting loop and the reverse index. -/
def loadGraphFromFile (junk : Nat → Nat) (g : Graph) (file : TextFile) : Option Graph := do
  let st ← loadRecords junk g file
  let g1 : Graph := { st.g with
    labels_count_ := labelsCount st.g.labels_frequency_ st.max_label_id,
    max_label_frequency_ := maxFrequency st.g.labels_frequency_ st.g.max_label_frequency_ }
  let neighbors ← (List.range g1.vertices_count_).foldlM (sortStep g1.offsets_) g1.neighbors_
  BuildReverseIndex junk { g1 with neighbors_ := neighbors }

/-! ## The compressed loader and the compressed writer -/

/-- The three binary streams, each as its sequence of 32-bit words. -/
structure Streams where
  degree : List Nat
  edge : List Nat
  label : List Nat
deriving DecidableEq

/-- Prefix-sum loop, iteration `i` (for `i = k + 1`):
`offsets_[i] = offsets_[i - 1] + degrees[i - 1]`. -/
def prefixStep (degrees : List Nat) (offsets : List Nat) (k : Nat) : Option (List Nat) := do
  let prev ← offsets[k]?
  let d ← degrees[k]?
  writeAt offsets (k + 1) (wrap (prev + d))

/-- Adjacency loop, iteration `i`: skip a zero degree; otherwise raise
`max_degree_`, read `degrees[i]` words of the edge stream to
`neighbors_ + offsets_[i]` and sort up to `neighbors_ + offsets_[i + 1]`.
The state is `neighbors_`, the unread rest of the stream and `max_degree_`. -/
def adjacencyStep (degrees offsets : List Nat) (st : List Nat × List Nat × Nat) (i : Nat) :
    Option (List Nat × List Nat × Nat) := do
  let d ← degrees[i]?
  if d > 0 then do
    let max_degree := if d > st.2.2 then d else st.2.2
    let lo ← offsets[i]?
    let neighbors ← writeBlock st.1 lo (st.2.1.take d)
    let hi ← offsets[i + 1]?
    let neighbors ← sortRange neighbors lo hi
    pure (neighbors, st.2.1.drop d, max_degree)
  else pure st

/-- Label-frequency loop of the compressed loader, iteration `i`. -/
def labelStep (labels : List Nat) (st : List (Nat × Nat) × Nat) (i : Nat) :
    Option (List (Nat × Nat) × Nat) := do
  let label ← labels[i]?
  pure (countLabel st label)

/-- Method `Graph::loadGraphFromFileCompressed` on three opened files.  The
first word of the degree stream is read into `int_size` and not used. -/
def loadGraphFromFileCompressed (junk : Nat → Nat) (g : Graph) (file : Streams) : Option Graph := do
  let n := (file.degree[1]?).getD g.vertices_count_
  let m := (file.degree[2]?).getD g.edges_count_
  let offsets := newArray junk (wrap (n + 1))
  let degrees ← writeBlock (newArray junk n) 0 ((file.degree.drop 3).take n)
  let neighbors := newArray junk (m * 2)
  let offsets ← writeAt offsets 0 0
  let offsets ← (List.range n).foldlM (prefixStep degrees) offsets
  let st ← (List.range n).foldlM (adjacencyStep degrees offsets) (neighbors, file.edge, 0)
  let labels ← writeBlock (newArray junk n) 0 (file.label.take n)
  let fr ← (List.range n).foldlM (labelStep labels) (g.labels_frequency_, 0)
  BuildReverseIndex junk { g with
    vertices_count_ := n, edges_count_ := m, offsets_ := offsets, neighbors_ := st.1,
    max_degree_ := st.2.2, labels_ := labels, labels_frequency_ := fr.1,
    labels_count_ := labelsCount fr.1 fr.2,
    max_label_frequency_ := maxFrequency fr.1 g.max_label_frequency_ }

/-- Degree loop of the writer, iteration `i`:
`degrees[i] = offsets_[i + 1] - offsets_[i]`. -/
def degreeStep (offsets : List Nat) (degrees : List Nat) (i : Nat) : Option (List Nat) := do
  let hi ← offsets[i + 1]?
  let lo ← offsets[i]?
  writeAt degrees i (uiSub hi lo)

/-- Method `Graph::storeComparessedGraph`: the words written to the three files. -/
def storeComparessedGraph (junk : Nat → Nat) (g : Graph) : Option Streams := do
  let degrees ← (List.range g.vertices_count_).foldlM (degreeStep g.offsets_)
    (newArray junk g.vertices_count_)
  let edge ← view g.neighbors_ 0 (g.edges_count_ * 2)
  let label ← view g.labels_ 0 g.vertices_count_
  pure { degree := [4, g.vertices_count_, g.edges_count_] ++ degrees, edge := edge, label := label }

/-! ## Core decomposition -/

/-- Freshly allocated array `new int[k]`. -/
def newIntArray (junk : Nat → Nat) (k : Nat) : List Int := (List.range k).map (fun i => toInt (junk i))

/-- Working arrays of `buildCoreTable`. -/
structure CoreState where
  core_table_ : List Int
  vertices : List Int
  position : List Int
  offset : List Int
deriving DecidableEq

/-- First loop of `buildCoreTable`, iteration `i`:
`core_table_[i] = degree; degree_bin[degree] += 1;`.
The state is `core_table_` and `degree_bin`. -/
def coreInitStep (g : Graph) (st : List Int × List Int) (i : Nat) : Option (List Int × List Int) := do
  let d ← g.getVertexDegree i
  let degree := toInt d
  let core ← writeAt st.1 i degree
  let b ← readInt st.2 degree
  let bin ← writeInt st.2 degree (b + 1)
  pure (core, bin)

/-- Second loop, iteration `i`: `offset[i] = start; start += degree_bin[i];`.
The state is `offset` and `start`. -/
def coreOffsetStep (degree_bin : List Int) (st : List Int × Int) (i : Nat) : Option (List Int × Int) := do
  let offset ← writeAt st.1 i st.2
  let b ← degree_bin[i]?
  pure (offset, st.2 + b)

/-- Third loop, iteration `i`:
`position[i] = offset[degree]; vertices[position[i]] = i; offset[degree] += 1;`. -/
def corePlaceStep (g : Graph) (s : CoreState) (i : Nat) : Option CoreState := do
  let d ← g.getVertexDegree i
  let degree := toInt d
  let o ← readInt s.offset degree
  let position ← writeAt s.position i o
  let p ← position[i]?
  let vertices ← writeInt s.vertices p (i : Int)
  let o ← readInt s.offset degree
  let offset ← writeInt s.offset degree (o + 1)
  pure { s with position := position, vertices := vertices, offset := offset }

/-- Fourth loop, iteration `i = k + 1` (run for `i` from `max_degree` down to `1`):
`offset[i] = offset[i - 1]`. -/
def coreShiftStep (offset : List Int) (k : Nat) : Option (List Int) := do
  let o ← offset[k]?
  writeAt offset (k + 1) o

/-- Body of `if (core_table_[u] > core_table_[v])`: move `u` to the front of
its bucket, advance the bucket start, decrement the core value of `u`. -/
def coreDemote (s : CoreState) (u : Int) : Option CoreState := do
  let cur_degree_u ← readInt s.core_table_ u
  let position_u ← readInt s.position u
  let position_w ← readInt s.offset cur_degree_u
  let w ← readInt s.vertices position_w
  let s1 ← if u ≠ w then (do
      let position ← writeInt s.position u position_w
      let position ← writeInt position w position_u
      let vertices ← writeInt s.vertices position_u w
      let vertices ← writeInt vertices position_w u
      pure { s with position := position, vertices := vertices })
    else pure s
  let o ← readInt s1.offset cur_degree_u
  let offset ← writeInt s1.offset cur_degree_u (o + 1)
  let c ← readInt s1.core_table_ u
  let core ← writeInt s1.core_table_ u (c - 1)
  pure { s1 with offset := offset, core_table_ := core }

/-- Inner loop body for the neighbour entry `x` of the vertex `v`:
`int u = neighbors[j]; if (core_table_[u] > core_table_[v]) ...`. -/
def coreVisit (v : Int) (s : CoreState) (x : Nat) : Option CoreState := do
  let u := toInt x
  let cu ← readInt s.core_table_ u
  let cv ← readInt s.core_table_ v
  if cu > cv then coreDemote s u else pure s

/-- Main loop, iteration `i`: `v = vertices[i]`, then the inner loop over the
neighbours of `v`. -/
def coreProcess (g : Graph) (s : CoreState) (i : Nat) : Option CoreState := do
  let v ← s.vertices[i]?
  let neighbors ← g.getVertexNeighbors (ofInt v)
  neighbors.foldlM (coreVisit v) s

/-- Final loop, iteration `i`: `if (core_table_[i] > 1) core_length_ += 1;`. -/
def coreLengthStep (core : List Int) (len : Nat) (i : Nat) : Option Nat := do
  let c ← core[i]?
  pure (if c > 1 then wrap (len + 1) else len)

/-- Working arrays of `buildCoreTable` after its four set-up loops. -/
def coreSetup (junk : Nat → Nat) (g : Graph) : Option CoreState := do
  let vertices_count := toInt g.getVerticesCount
  let max_degree := toInt g.getGraphMaxDegree
  if vertices_count < 0 ∨ max_degree + 1 < 0 then none
  let n := vertices_count.toNat
  let bins := (max_degree + 1).toNat
  let core := newIntArray junk g.vertices_count_
  let vertices := newIntArray junk n
  let position := newIntArray junk n
  let offset := newIntArray junk bins
  let degree_bin := List.replicate bins (0 : Int)
  let st ← (List.range n).foldlM (coreInitStep g) (core, degree_bin)
  let st2 ← (List.range bins).foldlM (coreOffsetStep st.2) (offset, 0)
  let s ← (List.range n).foldlM (corePlaceStep g)
    { core_table_ := st.1, vertices := vertices, position := position, offset := st2.1 }
  let offset ← (List.range max_degree.toNat).reverse.foldlM coreShiftStep s.offset
  let offset ← writeAt offset 0 0
  pure { s with offset := offset }

/-- Method `Graph::buildCoreTable`. -/
def buildCoreTable (junk : Nat → Nat) (g : Graph) : Option Graph := do
  let s0 ← coreSetup junk g
  let s ← (List.range (toInt g.getVerticesCount).toNat).foldlM (coreProcess g) s0
  let len ← (List.range g.vertices_count_).foldlM (coreLengthStep s.core_table_) g.core_length_
  pure { g with core_table_ := s.core_table_, core_length_ := len }

/-! ## Neighbour-label histograms (mode `OPTIMIZED_LABELED_GRAPH == 1`) -/

/-- Inner loop body of `BuildNLF` for the neighbour `u` of the vertex `i`:
`label = getVertexLabel(u); if (nlf_[i].find(label) == nlf_[i].end())
nlf_[i][label] = 0; nlf_[i][label] += 1;`.  The state is the map `nlf_[i]`. -/
def nlfStep (g : Graph) (m : List (Nat × Nat)) (u : Nat) : Option (List (Nat × Nat)) := do
  let label ← g.getVertexLabel u
  let m1 := match mapFind m label with
    | none => mapSet m label 0
    | some _ => m
  let acc := mapAccess m1 label
  pure (mapSet acc.1 label (wrap (acc.2 + 1)))

/-- Outer loop body of `BuildNLF` for the vertex `i`: the inner loop over
`getVertexNeighbors(i)` acting on `nlf_[i]`.  The state is the array `nlf_`. -/
def nlfVertexStep (g : Graph) (nlf : List (List (Nat × Nat))) (i : Nat) :
    Option (List (List (Nat × Nat))) := do
  let neighbors ← g.getVertexNeighbors i
  let m0 ← nlf[i]?
  let m ← neighbors.foldlM (nlfStep g) m0
  writeAt nlf i m

/-- Method `Graph::BuildNLF`, as the array `nlf_` it builds:
`new std::unordered_map<LabelID, ui>[vertices_count_]` holds empty maps, then
one pass over the vertices. -/
def BuildNLF (g : Graph) : Option (List (List (Nat × Nat))) :=
  (List.range g.vertices_count_).foldlM (nlfVertexStep g) (List.replicate g.vertices_count_ [])

/-- Accessor `getVertexNLF(id)`: the map `nlf_[id]`. -/
def getVertexNLF (nlf : List (List (Nat × Nat))) (id : Nat) : Option (List (Nat × Nat)) :=
  nlf[id]?

/-! ## Properties of a store, used to state the contracts -/

/-- Adjacency slice of vertex `v` as seen through `getVertexNeighbors` (empty
where the accessor is undefined). -/
def adj (g : Graph) (v : Nat) : List Nat := (g.getVertexNeighbors v).getD []

/-- Degree of vertex `v` as seen through `getVertexDegree`. -/
def degree (g : Graph) (v : Nat) : Nat := (g.getVertexDegree v).getD 0

/-- Count stored for `label` in a frequency map, `0` when absent (what
`getLabelsFrequency` returns). -/
def freqOf (m : List (Nat × Nat)) (label : Nat) : Nat :=
  match mapFind m label with
  | none => 0
  | some x => x

/-- Number of vertices whose label is below `l`. -/
def bucketStart (labels : List Nat) (l : Nat) : Nat := labels.countP (fun x => decide (x < l))

/-- Vertices carrying the label `l`, in ascending order of vertex id. -/
def verticesWithLabel (labels : List Nat) (l : Nat) : List Nat :=
  (List.range labels.length).filter (fun v => decide (labels[v]? = some l))

/-- Precondition of `BuildReverseIndex`: the frequency map counts the vertices of
each label below `labels_count_`, every label is below `labels_count_`, and the
sizes are representable in `ui`. -/
structure LabelsReady (g : Graph) : Prop where
  vertices_lt : g.vertices_count_ < UI_SIZE
  labels_count_lt : g.labels_count_ + 1 < UI_SIZE
  labels_length : g.labels_.length = g.vertices_count_
  labels_lt : ∀ x ∈ g.labels_, x < g.labels_count_
  frequency : ∀ l, l < g.labels_count_ → g.getLabelsFrequency l = g.labels_.count l

/-- Invariant of the first loop of `BuildReverseIndex`. -/
def OffsetInv (labels : List Nat) (freq0 : List (Nat × Nat)) (L : Nat) (i : Nat)
    (st : List Nat × List (Nat × Nat) × Nat) : Prop :=
  st.1.length = L + 1 ∧ st.1[0]? = some 0 ∧
  (∀ j, j < i → st.1[j + 1]? = some (bucketStart labels j)) ∧
  st.2.2 = bucketStart labels i ∧ ∀ l, freqOf st.2.1 l = freqOf freq0 l

/-- Invariant of the second loop of `BuildReverseIndex`. -/
def FillInv (labels : List Nat) (L : Nat) (i : Nat) (st : List Nat × List Nat) : Prop :=
  st.1.length = L + 1 ∧ st.2.length = labels.length ∧ st.1[0]? = some 0 ∧
  (∀ l, l < L → st.1[l + 1]? = some (bucketStart labels l + (labels.take i).count l)) ∧
  (∀ l, l < L → (st.2.drop (bucketStart labels l)).take ((labels.take i).count l) =
      (List.range i).filter (fun v => decide (labels[v]? = some l)))

/-! ### Vocabulary for text inputs -/

/-- Vertex records of a record list, in file order, as `(id, label, degree)`. -/
def vertexRecords : List Record → List (Nat × Nat × Nat)
  | [] => []
  | Record.v id label degree :: rest => (id, label, degree) :: vertexRecords rest
  | Record.e _ _ :: rest => vertexRecords rest

/-- Edge records of a record list, in file order, as `(begin, end)`. -/
def edgeRecords : List Record → List (Nat × Nat)
  | [] => []
  | Record.v _ _ _ :: rest => edgeRecords rest
  | Record.e begin end_ :: rest => (begin, end_) :: edgeRecords rest

/-- Ids of the vertex records, in file order. -/
def vertexIds (rs : List Record) : List Nat := (vertexRecords rs).map (fun r => r.1)

/-- Labels declared by the vertex records, in file order. -/
def declaredLabels (rs : List Record) : List Nat := (vertexRecords rs).map (fun r => r.2.1)

/-- Degrees declared by the vertex records, in file order. -/
def declaredDegrees (rs : List Record) : List Nat := (vertexRecords rs).map (fun r => r.2.2)

/-- Number of edge-record endpoints at vertex `v` (a record `e v v` counts twice). -/
def endpointCount (edges : List (Nat × Nat)) (v : Nat) : Nat :=
  edges.countP (fun e => decide (e.1 = v)) + edges.countP (fun e => decide (e.2 = v))

/-- Opposite endpoints of the edge records incident to `v`, in file order. -/
def oppositeEndpoints : List (Nat × Nat) → Nat → List Nat
  | [], _ => []
  | (b, e) :: rest, v =>
    (if b = v then [e] else []) ++ ((if e = v then [b] else []) ++ oppositeEndpoints rest v)

/-- Every number of the file is a `ui` value. -/
def TextFile.InRange (file : TextFile) : Prop :=
  file.vertices_count < UI_SIZE ∧ file.edges_count < UI_SIZE ∧
  ∀ r ∈ file.records, match r with
    | Record.v id label degree => id < UI_SIZE ∧ label < UI_SIZE ∧ degree < UI_SIZE
    | Record.e begin end_ => begin < UI_SIZE ∧ end_ < UI_SIZE

/-- The vertex records are one per id `0 .. n-1`, in increasing id order. -/
def TextFile.VerticesInOrder (file : TextFile) : Prop :=
  vertexIds file.records = List.range file.vertices_count

/-- The vertex records are exactly one per id `0 .. n-1`, in any order. -/
def TextFile.OneRecordPerVertex (file : TextFile) : Prop :=
  (vertexIds file.records).Perm (List.range file.vertices_count)

/-- The header edge count is the number of edge records, every endpoint is a
vertex id, and each declared degree is the number of edge-record endpoints at
that vertex. -/
def TextFile.DegreesMatch (file : TextFile) : Prop :=
  (edgeRecords file.records).length = file.edges_count ∧
  (∀ e ∈ edgeRecords file.records, e.1 < file.vertices_count ∧ e.2 < file.vertices_count) ∧
  declaredDegrees file.records =
    (List.range file.vertices_count).map (endpointCount (edgeRecords file.records))

/-- State of the text loader after the records `done`, as far as the vertex
records determine it. -/
structure VertexInv (n : Nat) (g : Graph) (done : List Record) (st : TextState) : Prop where
  vertices_count : st.g.vertices_count_ = n
  offsets_length : st.g.offsets_.length = n + 1
  labels_length : st.g.labels_.length = n
  offsets : ∀ j, j ≤ (vertexRecords done).length →
    st.g.offsets_[j]? = some (wrap (((declaredDegrees done).take j).sum))
  labels : ∀ j, j < (vertexRecords done).length → st.g.labels_[j]? = (declaredLabels done)[j]?
  frequency : (st.g.labels_frequency_, st.max_label_id) =
    (declaredLabels done).foldl countLabel (g.labels_frequency_, 0)
  max_degree : st.g.max_degree_ = (declaredDegrees done).foldl (fun a d => if d > a then d else a) 0
  max_label_frequency : st.g.max_label_frequency_ = g.max_label_frequency_

/-- State of the text loader right after its allocations (`offsets` is the
offset array after `offsets_[0] = 0`). -/
def textStart (junk : Nat → Nat) (g : Graph) (file : TextFile) : TextState :=
  { g := { g with
      vertices_count_ := file.vertices_count, edges_count_ := file.edges_count,
      offsets_ := (newArray junk (file.vertices_count + 1)).set 0 0,
      neighbors_ := newArray junk (wrap (file.edges_count * 2)),
      labels_ := newArray junk file.vertices_count, labels_count_ := 0, max_degree_ := 0 },
    max_label_id := 0, neighbors_offset := List.replicate file.vertices_count 0 }

/-- Parts of the loader state that no record changes in size. -/
def TextFrame (file : TextFile) (st : TextState) : Prop :=
  st.g.edges_count_ = file.edges_count ∧
  st.g.neighbors_.length = wrap (file.edges_count * 2) ∧
  st.neighbors_offset.length = file.vertices_count

/-- Cells of the array `a` between the offsets of vertex `v` and of vertex `v + 1`. -/
def sliceOf (offs a : List Nat) (v : Nat) : List Nat :=
  (a.drop (offs.getD v 0)).take (offs.getD (v + 1) 0 - offs.getD v 0)

/-- Invariant of the sorting loop of the text loader before iteration `i`:
`nb0` is the array the loop started from. -/
structure SortInv (offs nb0 : List Nat) (i : Nat) (nb : List Nat) : Prop where
  length : nb.length = nb0.length
  defined : ∀ j, j ≤ i → 0 < i → j < offs.length
  mono : ∀ j, j < i → offs.getD j 0 ≤ offs.getD (j + 1) 0
  bound : 0 < i → offs.getD i 0 ≤ nb0.length
  rest : nb.drop (offs.getD i 0) = nb0.drop (offs.getD i 0)
  sorted : ∀ v, v < i → (sliceOf offs nb v).Pairwise (fun a b => a ≤ b)
  perm : ∀ v, v < i → (sliceOf offs nb v).Perm (sliceOf offs nb0 v)

/-- Number of vertices `v` with `getVertexLabel(v) = l`. -/
def verticesLabelled (g : Graph) (l : Nat) : Nat :=
  ((List.range g.vertices_count_).filter (fun v => decide (g.getVertexLabel v = some l))).length

/-- The frequency accessors agree with the labels of the store: every
`getLabelsFrequency(l)` is the number of vertices labelled `l`, and
`getGraphMaxLabelFrequency()` is the largest of these numbers. -/
def FrequenciesExact (g : Graph) : Prop :=
  (∀ l, g.getLabelsFrequency l = g.verticesLabelled l) ∧
  (∀ l, g.getLabelsFrequency l ≤ g.getGraphMaxLabelFrequency) ∧
  ∃ l, g.getLabelsFrequency l = g.getGraphMaxLabelFrequency

/-- Vertex count that the compressed loader takes from the degree stream (the
previous value when the stream is too short to hold it). -/
def Streams.vertexCount (g : Graph) (file : Streams) : Nat := (file.degree[1]?).getD g.vertices_count_

/-- Edge count that the compressed loader takes from the degree stream. -/
def Streams.edgeCount (g : Graph) (file : Streams) : Nat := (file.degree[2]?).getD g.edges_count_

/-- Invariant of the adjacency loop of the compressed loader before iteration
`i`, for an array of `len` cells. -/
structure AdjInv (offs : List Nat) (len : Nat) (i : Nat) (nb : List Nat) : Prop where
  length : nb.length = len
  mono : ∀ j, j < i → offs.getD j 0 ≤ offs.getD (j + 1) 0
  bound : offs.getD i 0 ≤ len
  sorted : ∀ v, v < i → (sliceOf offs nb v).Pairwise (fun a b => a ≤ b)

/-- Record `v <id> <label> <degree>` of a triple. -/
def Record.ofVertex (r : Nat × Nat × Nat) : Record := Record.v r.1 r.2.1 r.2.2

/-- Record `e <begin> <end>` of a pair. -/
def Record.ofEdge (e : Nat × Nat) : Record := Record.e e.1 e.2

/-- All vertex records precede all edge records. -/
def TextFile.VerticesFirst (file : TextFile) : Prop :=
  file.records = (vertexRecords file.records).map Record.ofVertex ++
    (edgeRecords file.records).map Record.ofEdge

/-- No edge record joins a vertex to itself. -/
def TextFile.NoSelfLoops (file : TextFile) : Prop :=
  ∀ e ∈ edgeRecords file.records, e.1 ≠ e.2

/-- Every label leaves room for the reverse index (`labels_count_ + 1` entries)
to be allocated: `label + 2` is representable in `ui`. -/
def TextFile.LabelsFit (file : TextFile) : Prop :=
  ∀ l ∈ declaredLabels file.records, l + 2 < UI_SIZE

/-- State of the text loader after the edge records `done`, all vertex records
having been read before (`s0` is the state at that point, `degs` the declared
degrees): the cursors count the endpoints seen, and the filled part of each
slice lists the opposite endpoints in file order. -/
structure EdgeInv (n : Nat) (degs : List Nat) (s0 : TextState) (done : List (Nat × Nat))
    (st : TextState) : Prop where
  graph : st.g = { s0.g with neighbors_ := st.g.neighbors_ }
  max_label_id : st.max_label_id = s0.max_label_id
  length : st.g.neighbors_.length = s0.g.neighbors_.length
  cursor_length : st.neighbors_offset.length = n
  cursor : ∀ v, v < n → st.neighbors_offset[v]? = some (endpointCount done v)
  slice : ∀ v, v < n →
    (st.g.neighbors_.drop ((degs.take v).sum)).take (endpointCount done v) =
      oppositeEndpoints done v

/-- What the text loader must have stored for the input `file`: for every
vertex the declared label, the declared degree, and as neighbours the ascending
sorted list of the opposite endpoints of its edge records. -/
def LoadedFrom (file : TextFile) (g : Graph) : Prop :=
  ∀ v, v < file.vertices_count →
    g.getVertexLabel v = (declaredLabels file.records)[v]? ∧
    g.getVertexDegree v = (declaredDegrees file.records)[v]? ∧
    ∃ N, g.getVertexNeighbors v = some N ∧ N.Pairwise (fun a b => a ≤ b) ∧
      N.Perm (oppositeEndpoints (edgeRecords file.records) v)

/-- Degrees of the vertices `0 .. n-1` as differences of consecutive offsets. -/
def degreesOf (offs : List Nat) (n : Nat) : List Nat :=
  (List.range n).map (fun i => offs.getD (i + 1) 0 - offs.getD i 0)

/-- A store that can be written out and read back: `offsets_` has
`vertices_count_ + 1` non-decreasing entries from `0` to `2 * edges_count_`,
`neighbors_` has `2 * edges_count_` entries, `labels_` has `vertices_count_`
entries, every adjacency slice is sorted ascending, and the sizes are
representable in `ui`. -/
structure Storable (g : Graph) : Prop where
  vertices_lt : g.vertices_count_ + 1 < UI_SIZE
  edges_lt : g.edges_count_ * 2 < UI_SIZE
  offsets_length : g.offsets_.length = g.vertices_count_ + 1
  offsets_zero : g.offsets_[0]? = some 0
  offsets_last : g.offsets_[g.vertices_count_]? = some (g.edges_count_ * 2)
  offsets_mono : ∀ j, j < g.vertices_count_ → g.offsets_.getD j 0 ≤ g.offsets_.getD (j + 1) 0
  neighbors_length : g.neighbors_.length = g.edges_count_ * 2
  labels_length : g.labels_.length = g.vertices_count_
  sorted : ∀ v, v < g.vertices_count_ →
    (sliceOf g.offsets_ g.neighbors_ v).Pairwise (fun a b => a ≤ b)

/-- The frequency map counts the vertices of each label. -/
def FrequencyCounts (g : Graph) : Prop :=
  ∀ l, g.getLabelsFrequency l = g.labels_.count l

/-- Invariant of the adjacency loop of the compressed loader when it reads back
the edge stream written for the store `(offs, nbrs)`. -/
structure RoundInv (offs nbrs : List Nat) (i : Nat) (st : List Nat × List Nat × Nat) : Prop where
  length : st.1.length = nbrs.length
  filled : st.1.take (offs.getD i 0) = nbrs.take (offs.getD i 0)
  stream : st.2.1 = nbrs.drop (offs.getD i 0)

/-- The store that the compressed loader hands to `BuildReverseIndex` when it
reads back the streams written for `g` (`max_degree` is the largest degree met). -/
def reloaded (g : Graph) (max_degree : Nat) : Graph :=
  { Graph.new with
    vertices_count_ := g.vertices_count_, edges_count_ := g.edges_count_,
    offsets_ := g.offsets_, neighbors_ := g.neighbors_, max_degree_ := max_degree,
    labels_ := g.labels_,
    labels_frequency_ := (g.labels_.foldl countLabel ([], 0)).1,
    labels_count_ := labelsCount (g.labels_.foldl countLabel ([], 0)).1
      (g.labels_.foldl countLabel ([], 0)).2,
    max_label_frequency_ := maxFrequency (g.labels_.foldl countLabel ([], 0)).1 0 }

/-- CSR shape: `offsets_` has `vertices_count_ + 1` non-decreasing entries that
all point into `neighbors_`, and the sizes are representable in `ui`. -/
structure Shaped (g : Graph) : Prop where
  vertices_lt : g.vertices_count_ + 1 < UI_SIZE
  offsets_length : g.offsets_.length = g.vertices_count_ + 1
  offsets_mono : g.offsets_.Pairwise (fun a b => a ≤ b)
  offsets_le : ∀ x ∈ g.offsets_, x ≤ g.neighbors_.length
  neighbors_lt : g.neighbors_.length < UI_SIZE

/-- Every adjacency slice is sorted ascending (repetitions allowed). -/
def SortedSlices (g : Graph) : Prop :=
  ∀ v, v < g.vertices_count_ → (g.adj v).Pairwise (fun a b => a ≤ b)

/-- Every adjacency slice is strictly ascending. -/
def StrictSlices (g : Graph) : Prop :=
  ∀ v, v < g.vertices_count_ → (g.adj v).Pairwise (fun a b => a < b)

/-- Every degree is representable in `int`. -/
def DegreesFitInt (g : Graph) : Prop :=
  ∀ v, v < g.vertices_count_ → (g.adj v).length < INT_SIZE

/-- Adjacency is symmetric: `u` is in the slice of `v` iff `v` is in the slice of `u`. -/
def Symmetric (g : Graph) : Prop :=
  ∀ u v, u < g.vertices_count_ → v < g.vertices_count_ → (u ∈ g.adj v ↔ v ∈ g.adj u)

/-! ### Vocabulary for the core decomposition -/

/-- A well-formed adjacency store: CSR shape, every neighbour id a vertex,
adjacency symmetric, no self-loops, no duplicate neighbours, `max_degree_` the
largest vertex degree, and a vertex count representable in `int`. -/
structure WellFormed (g : Graph) : Prop where
  shaped : g.Shaped
  count_lt : g.vertices_count_ < INT_SIZE
  in_range : ∀ v, v < g.vertices_count_ → ∀ u ∈ g.adj v, u < g.vertices_count_
  symmetric : g.Symmetric
  no_self_loops : ∀ v, v < g.vertices_count_ → v ∉ g.adj v
  no_duplicates : ∀ v, v < g.vertices_count_ → (g.adj v).Nodup
  max_degree_ge : ∀ v, v < g.vertices_count_ → (g.adj v).length ≤ g.max_degree_
  max_degree_attained : g.max_degree_ = 0 ∨
    ∃ v, v < g.vertices_count_ ∧ (g.adj v).length = g.max_degree_

/-- Degree of `x` inside the subgraph induced by the vertex set `S`. -/
def degreeIn (g : Graph) (S : Finset Nat) (x : Nat) : Nat :=
  (g.adj x).countP (fun y => decide (y ∈ S))

/-- The vertex set `S` induces a subgraph in which every vertex has degree at
least `k`. -/
def InducesMinDegree (g : Graph) (S : Finset Nat) (k : Nat) : Prop :=
  (∀ x ∈ S, x < g.vertices_count_) ∧ ∀ x ∈ S, k ≤ g.degreeIn S x

/-- The number `k` is the coreness of `v`: the largest `k` such that `v` belongs
to some induced subgraph in which every vertex has degree at least `k`. -/
def IsCoreness (g : Graph) (v k : Nat) : Prop :=
  (∃ S : Finset Nat, v ∈ S ∧ g.InducesMinDegree S k) ∧
  ∀ (k' : Nat) (S : Finset Nat), v ∈ S → g.InducesMinDegree S k' → k' ≤ k

/-- Contents of the four working arrays of `buildCoreTable`, as functions:
`c` for `core_table_`, `vert` for `vertices`, `pos` for `position`, `bin` for
`offset`. -/
structure Ghost where
  c : Nat → Nat
  vert : Nat → Nat
  pos : Nat → Nat
  bin : Nat → Nat

/-- The `int` array `l` has `n` cells and holds the values of `f`. -/
def Rep (l : List Int) (f : Nat → Nat) (n : Nat) : Prop :=
  l.length = n ∧ ∀ x, x < n → l[x]? = some ((f x : Nat) : Int)

/-- The working arrays hold the values of the ghost state. -/
def Represents (s : CoreState) (γ : Ghost) (n md : Nat) : Prop :=
  Rep s.core_table_ γ.c n ∧ Rep s.vertices γ.vert n ∧ Rep s.position γ.pos n ∧
    Rep s.offset γ.bin (md + 1)

/-- Effect of the demotion of `u` on the ghost state: `u` is swapped with the
first vertex `w` of its bucket, the bucket start advances, the core value of `u`
drops by one. -/
def Ghost.demote (γ : Ghost) (u : Nat) : Ghost :=
  { c := Function.update γ.c u (γ.c u - 1),
    pos := Function.update (Function.update γ.pos u (γ.bin (γ.c u)))
      (γ.vert (γ.bin (γ.c u))) (γ.pos u),
    vert := Function.update (Function.update γ.vert (γ.pos u) (γ.vert (γ.bin (γ.c u))))
      (γ.bin (γ.c u)) u,
    bin := Function.update γ.bin (γ.c u) (γ.bin (γ.c u) + 1) }

/-- The neighbour `x` of `u` has already looked at `u`: `x` was processed at an
earlier position than `i`, or `x` is the vertex being processed and `u` is among
the neighbours `done` it has gone through. -/
def handled (γ : Ghost) (i : Nat) (done : List Nat) (x u : Nat) : Bool :=
  decide (γ.pos x < i) || (decide (x = γ.vert i) && decide (u ∈ done))

/-- Invariant of the main loop of `buildCoreTable` while position `i` is being
processed and the neighbours `done` of `vertices[i]` have been gone through. -/
structure CoreInv (g : Graph) (i : Nat) (done : List Nat) (γ : Ghost) : Prop where
  pos_lt : ∀ x, x < g.vertices_count_ → γ.pos x < g.vertices_count_
  vert_pos : ∀ x, x < g.vertices_count_ → γ.vert (γ.pos x) = x
  vert_lt : ∀ p, p < g.vertices_count_ → γ.vert p < g.vertices_count_
  pos_vert : ∀ p, p < g.vertices_count_ → γ.pos (γ.vert p) = p
  bins : ∀ d, d ≤ g.max_degree_ → ∀ p, p < g.vertices_count_ →
    (p < γ.bin d ↔ γ.c (γ.vert p) < d)
  core_le : ∀ x, x < g.vertices_count_ → γ.c x ≤ g.max_degree_
  lower : ∀ u, u < g.vertices_count_ →
    γ.c u ≤ (g.adj u).countP (fun x => !(handled γ i done x u) || decide (γ.c u ≤ γ.c x))
  upperA : ∀ u, u < g.vertices_count_ → i ≤ γ.pos u →
    (g.adj u).length ≤ γ.c u + (g.adj u).countP (fun x => handled γ i done x u)
  upperB : ∀ u, u < g.vertices_count_ → γ.pos u < i →
    (g.adj u).countP (fun x => decide (γ.pos u < γ.pos x)) ≤ γ.c u

/-- Invariant of the inner loop: the main invariant, and the bound on the
neighbours of the vertex being processed that are placed after it. -/
structure InnerInv (g : Graph) (i : Nat) (done : List Nat) (γ : Ghost) : Prop where
  inv : CoreInv g i done γ
  current : (g.adj (γ.vert i)).countP (fun x => decide (i < γ.pos x)) ≤ γ.c (γ.vert i)

/-- Number of vertices among the first `i` whose degree is `k`: the content of
`degree_bin[k]` after `i` iterations of the first loop. -/
def degreeCount (g : Graph) (i k : Nat) : Nat :=
  (List.range i).countP (fun x => decide ((g.adj x).length = k))

/-- Number of vertices of degree below `k`: the start of bucket `k`. -/
def degreeBelow (g : Graph) (k : Nat) : Nat :=
  (List.range g.vertices_count_).countP (fun x => decide ((g.adj x).length < k))

/-- Position given to vertex `x` by the third loop: the start of its bucket plus
the number of earlier vertices of the same degree. -/
def degreeRank (g : Graph) (x : Nat) : Nat :=
  g.degreeBelow (g.adj x).length + g.degreeCount x (g.adj x).length

/-- Ghost state on entry to the main loop, read off the working arrays. -/
def Ghost.initial (g : Graph) (vertices : List Int) : Ghost :=
  { c := fun x => (g.adj x).length,
    vert := fun p => (vertices.getD p 0).toNat,
    pos := g.degreeRank,
    bin := g.degreeBelow }

/-! ### Vocabulary for the set-up loops on an arbitrary store -/

/-- Number of `x < i` with `d x = k`. -/
def rankCount (d : Nat → Nat) (i k : Nat) : Nat :=
  (List.range i).countP (fun x => decide (d x = k))

/-- Number of `x < n` with `d x < k`. -/
def rankBelow (d : Nat → Nat) (n k : Nat) : Nat :=
  (List.range n).countP (fun x => decide (d x < k))

/-- Rank of `x` among `0 .. n-1` ordered by `d`, ties broken by index. -/
def rankOf (d : Nat → Nat) (n x : Nat) : Nat :=
  rankBelow d n (d x) + rankCount d x (d x)

/-- Degree of `x` as `buildCoreTable` reads it: `int degree = getVertexDegree(x)`
(as a natural number; `0` where that `int` is negative). -/
def coreDegree (g : Graph) (x : Nat) : Nat := (toInt (g.degree x)).toNat

/-- Number of buckets minus one: `int max_degree = getGraphMaxDegree()`. -/
def coreMaxDegree (g : Graph) : Nat := (toInt g.max_degree_).toNat

/-- What the set-up loops of `buildCoreTable` need in order to stay inside
their arrays: the vertex count and `max_degree_` are non-negative as `int`, and
every degree is defined, non-negative as `int` and at most `max_degree_`. -/
structure CoreReady (g : Graph) : Prop where
  count_lt : g.vertices_count_ < INT_SIZE
  max_degree_nonneg : 0 ≤ toInt g.max_degree_
  degree : ∀ x, x < g.vertices_count_ →
    ∃ d, g.getVertexDegree x = some d ∧ 0 ≤ toInt d ∧ (toInt d).toNat ≤ g.coreMaxDegree

/-- Contents of the working arrays on entry to the main loop, determined by the
store alone: core values are the degrees, vertices are ranked by degree. -/
def Ghost.setup (g : Graph) : Ghost :=
  { c := g.coreDegree,
    vert := fun p => ((List.range g.vertices_count_).find?
      (fun x => decide (rankOf g.coreDegree g.vertices_count_ x = p))).getD 0,
    pos := rankOf g.coreDegree g.vertices_count_,
    bin := rankBelow g.coreDegree g.vertices_count_ }

/-- Bounds on the cells of `core_table_`: `n` cells, each between `0` and `M`. -/
def CoreBounds (n M : Nat) (s : CoreState) : Prop :=
  s.core_table_.length = n ∧ ∀ x ∈ s.core_table_, 0 ≤ x ∧ x ≤ ((M : Nat) : Int)

/-- A freshly loaded graph: the result of one of the two loaders on a newly
constructed `Graph` (for the text loader, on an input whose numbers are `ui`
values). -/
def FreshlyLoaded (g : Graph) : Prop :=
  (∃ (junk : Nat → Nat) (file : TextFile),
    file.InRange ∧ loadGraphFromFile junk Graph.new file = some g) ∨
  (∃ (junk : Nat → Nat) (file : Streams), loadGraphFromFileCompressed junk Graph.new file = some g)

/-- Working arrays of `buildCoreTable` when its main loop is at position `i` and
has gone through the first `j` neighbours of `vertices[i]`. -/
def coreStateAt (junk : Nat → Nat) (g : Graph) (i j : Nat) : Option CoreState := do
  let s0 ← coreSetup junk g
  let s ← (List.range i).foldlM (coreProcess g) s0
  let v ← s.vertices[i]?
  let neighbors ← g.getVertexNeighbors (ofInt v)
  (neighbors.take j).foldlM (coreVisit v) s

/-- Effect of an edge record `e b e` read in the state `st`: `e` goes to the
slot `offsets_[b] + cursor[b]`, `b` to the slot `offsets_[e] + cursor[e]`, the two
slots are distinct cells of `neighbors_`, nothing else of the graph changes, and
the cursors of `b` and of `e` advance by one each. -/
def WritesTwoSlots (st : TextState) (b e : Nat) (st' : TextState) : Prop :=
  ∃ ob oe cb ce, st.g.offsets_[b]? = some ob ∧ st.g.offsets_[e]? = some oe ∧
    st.neighbors_offset[b]? = some cb ∧ st.neighbors_offset[e]? = some ce ∧
    ob + cb ≠ oe + ce ∧ ob + cb < st.g.neighbors_.length ∧ oe + ce < st.g.neighbors_.length ∧
    st'.g = { st.g with neighbors_ := (st.g.neighbors_.set (ob + cb) e).set (oe + ce) b } ∧
    st'.neighbors_offset = (st.neighbors_offset.set b (cb + 1)).set e (ce + 1) ∧
    st'.max_label_id = st.max_label_id

/-- Number of entries `u` of the list `N` with `getVertexLabel(u) = l`. -/
def labelledIn (g : Graph) (N : List Nat) (l : Nat) : Nat :=
  N.countP (fun u => decide (g.getVertexLabel u = some l))

/-- The map `m` is the label histogram of the vertex list `N`: its keys are
distinct, it maps `l` to the number of entries of `N` labelled `l` and has no
entry for a label that no entry of `N` carries, and its values sum to the
length of `N`. -/
def IsHistogram (g : Graph) (N : List Nat) (m : List (Nat × Nat)) : Prop :=
  (m.map (fun p => p.1)).Nodup ∧
  (∀ l, mapFind m l = if g.labelledIn N l = 0 then none else some (g.labelledIn N l)) ∧
  (m.map (fun p => p.2)).sum = N.length

/-- Core value of `v` as `getCoreValue` returns it (`0` where undefined). -/
def coreValue (g : Graph) (v : Nat) : Nat := (g.getCoreValue v).getD 0

/-! ## Sample inputs and stores -/

/-- The text input `t 3 2 / v 0 5 1 / v 1 5 2 / v 2 7 1 / e 0 1 / e 1 2`. -/
def pathFile : TextFile :=
  { vertices_count := 3, edges_count := 2,
    records := [Record.v 0 5 1, Record.v 1 5 2, Record.v 2 7 1, Record.e 0 1, Record.e 1 2] }

/-- The text input `t 2 2 / v 0 0 2 / v 1 0 2 / e 0 1 / e 0 1`, which lists the
edge `0 - 1` twice. -/
def doubleEdgeFile : TextFile :=
  { vertices_count := 2, edges_count := 2,
    records := [Record.v 0 0 2, Record.v 1 0 2, Record.e 0 1, Record.e 0 1] }

/-- The graph that `loadGraphFromFile` builds from `doubleEdgeFile`. -/
def doubleEdgeLoaded : Graph :=
  { vertices_count_ := 2, edges_count_ := 2, labels_count_ := 1, max_degree_ := 2,
    max_label_frequency_ := 2, offsets_ := [0, 2, 4], neighbors_ := [1, 1, 0, 0],
    labels_ := [0, 0], reverse_index_offsets_ := [0, 2], reverse_index_ := [0, 1],
    core_table_ := [], core_length_ := 0, labels_frequency_ := [(0, 2)] }

/-- The text input `t 2 0 / v 0 5 0 / v 0 5 0 / v 1 5 0`, which declares vertex
`0` twice. -/
def repeatedVertexFile : TextFile :=
  { vertices_count := 2, edges_count := 0,
    records := [Record.v 0 5 0, Record.v 0 5 0, Record.v 1 5 0] }

/-- The graph that `loadGraphFromFile` builds from `repeatedVertexFile`: two
vertices labelled `5`, and a frequency of `3` for the label `5`. -/
def repeatedVertexLoaded : Graph :=
  { vertices_count_ := 2, edges_count_ := 0, labels_count_ := 6, max_degree_ := 0,
    max_label_frequency_ := 3, offsets_ := [0, 0, 0], neighbors_ := [],
    labels_ := [5, 5], reverse_index_offsets_ := [0, 0, 0, 0, 0, 0, 2], reverse_index_ := [0, 1],
    core_table_ := [], core_length_ := 0,
    labels_frequency_ := [(5, 3), (0, 0), (1, 0), (2, 0), (3, 0), (4, 0)] }

/-- The graph that `loadGraphFromFile` builds from `pathFile`. -/
def pathLoaded : Graph :=
  { vertices_count_ := 3, edges_count_ := 2, labels_count_ := 8, max_degree_ := 2,
    max_label_frequency_ := 2, offsets_ := [0, 1, 3, 4], neighbors_ := [1, 0, 2, 1],
    labels_ := [5, 5, 7], reverse_index_offsets_ := [0, 0, 0, 0, 0, 0, 2, 2, 3],
    reverse_index_ := [0, 1, 2], core_table_ := [], core_length_ := 0,
    labels_frequency_ := [(5, 2), (7, 1), (0, 0), (1, 0), (2, 0), (3, 0), (4, 0), (6, 0)] }

/-- A store with three labelled vertices, before its reverse index is built. -/
def labelledGraph : Graph :=
  { Graph.new with
    vertices_count_ := 3, labels_count_ := 2, labels_ := [1, 0, 1],
    labels_frequency_ := [(1, 2), (0, 1)] }

/-- The 4-cycle `0 - 1 - 2 - 3 - 0` with the pendant vertex `4` attached to `0`. -/
def pendantCycleGraph : Graph :=
  { Graph.new with
    vertices_count_ := 5, edges_count_ := 5, max_degree_ := 3,
    offsets_ := [0, 3, 5, 7, 9, 10], neighbors_ := [1, 3, 4, 0, 2, 1, 3, 0, 2, 0],
    labels_ := [0, 0, 0, 0, 0] }

/-- The store `pendantCycleGraph` after one call of `buildCoreTable`. -/
def pendantCycleCored : Graph :=
  { pendantCycleGraph with core_table_ := [2, 2, 2, 2, 1], core_length_ := 4 }

/-- The store `pendantCycleGraph` after two calls of `buildCoreTable`. -/
def pendantCycleTwice : Graph :=
  { pendantCycleGraph with core_table_ := [2, 2, 2, 2, 1], core_length_ := 8 }

/-- The text input `t 5 5 / v 0 0 3 / v 1 0 2 / v 2 0 2 / v 3 0 2 / v 4 0 1 /
e 0 1 / e 1 2 / e 2 3 / e 3 0 / e 0 4`: the 4-cycle with a pendant vertex. -/
def pendantCycleFile : TextFile :=
  { vertices_count := 5, edges_count := 5,
    records := [Record.v 0 0 3, Record.v 1 0 2, Record.v 2 0 2, Record.v 3 0 2, Record.v 4 0 1,
      Record.e 0 1, Record.e 1 2, Record.e 2 3, Record.e 3 0, Record.e 0 4] }

/-- The graph that `loadGraphFromFile` builds from `pendantCycleFile`. -/
def pendantCycleLoaded : Graph :=
  { pendantCycleGraph with
    labels_count_ := 1, max_label_frequency_ := 5, reverse_index_offsets_ := [0, 5],
    reverse_index_ := [0, 1, 2, 3, 4], labels_frequency_ := [(0, 5)] }

/-- The text input `t 1 1 / v 0 5 2 / e 0 0`: one vertex with a self-loop, its
declared degree counting both endpoints of the loop. -/
def selfLoopFile : TextFile :=
  { vertices_count := 1, edges_count := 1, records := [Record.v 0 5 2, Record.e 0 0] }

/-- The text input `t 1 0 / v 0 4294967295 0`: one vertex carrying the largest
`ui` label. -/
def maxLabelFile : TextFile :=
  { vertices_count := 1, edges_count := 0, records := [Record.v 0 4294967295 0] }

/-- The text input `t 2 0 / v 0 0 0 / v 1 0 0`: two isolated vertices, no edge. -/
def edgelessFile : TextFile :=
  { vertices_count := 2, edges_count := 0, records := [Record.v 0 0 0, Record.v 1 0 0] }

/-- The graph that `loadGraphFromFile` builds from `edgelessFile` in a newly
constructed `Graph`. -/
def edgelessLoaded : Graph :=
  { Graph.new with
    vertices_count_ := 2, labels_count_ := 1, max_label_frequency_ := 2,
    offsets_ := [0, 0, 0], labels_ := [0, 0], reverse_index_offsets_ := [0, 2],
    reverse_index_ := [0, 1], labels_frequency_ := [(0, 2)] }

/-- A small store: the path `0 - 1 - 2`. -/
def pathGraph : Graph :=
  { Graph.new with
    vertices_count_ := 3, edges_count_ := 2, max_degree_ := 2,
    offsets_ := [0, 1, 3, 4], neighbors_ := [1, 0, 2, 1], labels_ := [5, 5, 7] }

end Graph

end SubgraphMatching

namespace SubgraphMatching
namespace Graph

/-! ## Auxiliary lemmas -/

theorem wrap_of_lt {x : Nat} (h : x < UI_SIZE) : wrap x = x := Nat.mod_eq_of_lt h

theorem uiSub_of_le {a b : Nat} (hab : b ≤ a) (ha : a < UI_SIZE) : uiSub a b = a - b := by
  unfold uiSub UI_SIZE at *
  omega

theorem getElem_le_of_pairwise {l : List Nat} (h : l.Pairwise (fun a b => a ≤ b)) {i j : Nat}
    (hij : i ≤ j) (hj : j < l.length) (hi : i < l.length) : l[i] ≤ l[j] := by
  rcases Nat.eq_or_lt_of_le hij with rfl | hlt
  · exact le_refl _
  · exact (List.pairwise_iff_getElem.1 h) i j (by omega) hj hlt

/-- Under the CSR shape both accessors are defined on every vertex. -/
theorem Shaped.neighbors_eq {g : Graph} (hS : g.Shaped) {v : Nat} (hv : v < g.vertices_count_) :
    ∃ lo hi, g.offsets_[v]? = some lo ∧ g.offsets_[v + 1]? = some hi ∧ lo ≤ hi ∧
      hi ≤ g.neighbors_.length ∧
      g.getVertexNeighbors v = some ((g.neighbors_.drop lo).take (hi - lo)) ∧
      g.getVertexDegree v = some (hi - lo) := by
  have hlen := hS.offsets_length
  have h1 : v < g.offsets_.length := by omega
  have h2 : v + 1 < g.offsets_.length := by omega
  have hle : g.offsets_[v] ≤ g.offsets_[v + 1] := getElem_le_of_pairwise hS.offsets_mono (by omega) h2 h1
  have hhi : g.offsets_[v + 1] ≤ g.neighbors_.length := hS.offsets_le _ (List.getElem_mem h2)
  have hw : wrap (v + 1) = v + 1 := wrap_of_lt (by have := hS.vertices_lt; omega)
  have hsub : uiSub g.offsets_[v + 1] g.offsets_[v] = g.offsets_[v + 1] - g.offsets_[v] :=
    uiSub_of_le hle (by have := hS.neighbors_lt; omega)
  refine ⟨g.offsets_[v], g.offsets_[v + 1], List.getElem?_eq_getElem h1, List.getElem?_eq_getElem h2,
    hle, hhi, ?_, ?_⟩
  · simp only [getVertexNeighbors, hw, List.getElem?_eq_getElem h1, List.getElem?_eq_getElem h2,
      Option.bind_eq_bind, Option.some_bind, hsub, view]
    rw [if_pos (by omega)]
  · simp only [getVertexDegree, hw, List.getElem?_eq_getElem h1, List.getElem?_eq_getElem h2,
      Option.bind_eq_bind, Option.some_bind, hsub]
    rfl

theorem Shaped.getVertexNeighbors_adj {g : Graph} (hS : g.Shaped) {v : Nat}
    (hv : v < g.vertices_count_) : g.getVertexNeighbors v = some (g.adj v) := by
  obtain ⟨lo, hi, _, _, _, _, h, _⟩ := hS.neighbors_eq hv
  simp [adj, h]

theorem Shaped.getVertexDegree_adj {g : Graph} (hS : g.Shaped) {v : Nat}
    (hv : v < g.vertices_count_) : g.getVertexDegree v = some (g.adj v).length := by
  obtain ⟨lo, hi, _, _, _, hhi, h, hd⟩ := hS.neighbors_eq hv
  simp only [adj, h, hd, Option.getD_some, List.length_take, List.length_drop]
  congr 1; omega


theorem shr_one (x : Int) : x >>> (1 : Nat) = x / 2 := by
  rw [Int.shiftRight_eq_div_pow]; norm_num

theorem searchLoop_correct (l : List Nat) (u : Nat) (hs : l.Pairwise (· ≤ ·)) :
    ∀ (fuel : Nat) (b e : Int), 0 ≤ b → e < l.length → 0 < fuel → e - b + 1 < fuel →
      (∀ k : Nat, (hk : k < l.length) → (k : Int) < b → l[k] < u) →
      (∀ k : Nat, (hk : k < l.length) → e < (k : Int) → u < l[k]) →
      searchLoop l u fuel b e = some (decide (u ∈ l)) := by
  intro fuel
  induction fuel with
  | zero => intro b e hb he hf; omega
  | succ fuel ih =>
    intro b e hb he _ hf hlo hhi
    unfold searchLoop
    by_cases hbe : b ≤ e
    · simp only [hbe, if_true, shr_one]
      have hm0 : 0 ≤ b + (e - b) / 2 := by omega
      have hm1 : (b + (e - b) / 2).toNat < l.length := by omega
      have hmb : b ≤ b + (e - b) / 2 := by omega
      have hme : b + (e - b) / 2 ≤ e := by omega
      simp only [readInt, hm0, if_true, List.getElem?_eq_getElem hm1]
      by_cases hx : l[(b + (e - b) / 2).toNat] = u
      · simp only [hx, if_true]
        have : u ∈ l := hx ▸ List.getElem_mem hm1
        simp [this]
      · simp only [hx, if_false]
        rw [List.pairwise_iff_getElem] at hs
        by_cases hgt : l[(b + (e - b) / 2).toNat] > u
        · simp only [hgt, if_true]
          apply ih _ _ hb (by omega) (by omega) (by omega) hlo
          intro k hk hek
          by_cases hkm : k = (b + (e - b) / 2).toNat
          · subst hkm; exact hgt
          · have := hs (b + (e - b) / 2).toNat k hm1 hk (by omega)
            omega
        · simp only [hgt, if_false]
          apply ih _ _ (by omega) he (by omega) (by omega) _ hhi
          intro k hk hkb
          by_cases hkm : k = (b + (e - b) / 2).toNat
          · subst hkm; omega
          · have := hs k (b + (e - b) / 2).toNat hk hm1 (by omega)
            omega
    · simp only [hbe, if_false]
      have : u ∉ l := by
        intro hmem
        obtain ⟨k, hk, rfl⟩ := List.getElem_of_mem hmem
        by_cases h1 : (k : Int) < b
        · have := hlo k hk h1; omega
        · have := hhi k hk (by omega); omega
      simp [this]


theorem searchLoop_slice (l : List Nat) (u : Nat) (hs : l.Pairwise (fun a b => a ≤ b))
    (hlen : l.length < INT_SIZE) :
    searchLoop l u (l.length + 1) 0 (toInt (uiSub l.length 1)) = some (decide (u ∈ l)) := by
  have he : toInt (uiSub l.length 1) = (l.length : Int) - 1 := by
    unfold toInt uiSub
    unfold INT_SIZE at hlen
    by_cases h0 : l.length = 0
    · simp [h0]
    · have h1 : (l.length % 4294967296 + 4294967296 - 1 % 4294967296) % 4294967296 = l.length - 1 := by
        omega
      rw [h1]
      have h2 : (l.length - 1) % 4294967296 = l.length - 1 := by omega
      rw [h2, if_pos (by omega)]
      omega
  rw [he]
  apply searchLoop_correct l u hs _ _ _ (le_refl _) (by omega) (by omega) (by push_cast; omega)
  · intro k hk hk0; omega
  · intro k hk hk0; omega


theorem checkEdgeExistence_eq (g : Graph) (hS : g.Shaped) (hsorted : g.SortedSlices)
    (hfit : g.DegreesFitInt) (u v : Nat) (hu : u < g.vertices_count_) (hv : v < g.vertices_count_) :
    g.checkEdgeExistence u v =
      some (if (g.adj u).length < (g.adj v).length then decide (v ∈ g.adj u) else decide (u ∈ g.adj v)) := by
  unfold checkEdgeExistence
  rw [hS.getVertexDegree_adj hu, hS.getVertexDegree_adj hv]
  show (match (if (g.adj u).length < (g.adj v).length then (v, u) else (u, v)) with
    | (u, v) => (g.getVertexNeighbors v).bind fun neighbors =>
        searchLoop neighbors u (neighbors.length + 1) 0 (toInt (uiSub neighbors.length 1))) = _
  by_cases hlt : (g.adj u).length < (g.adj v).length
  · rw [if_pos hlt, if_pos hlt]
    show (g.getVertexNeighbors u).bind _ = _
    rw [hS.getVertexNeighbors_adj hu, Option.some_bind]
    exact searchLoop_slice _ _ (hsorted u hu) (hfit u hu)
  · rw [if_neg hlt, if_neg hlt]
    show (g.getVertexNeighbors v).bind _ = _
    rw [hS.getVertexNeighbors_adj hv, Option.some_bind]
    exact searchLoop_slice _ _ (hsorted v hv) (hfit v hv)

theorem pathGraph_shaped : pathGraph.Shaped where
  vertices_lt := by decide
  offsets_length := by decide
  offsets_mono := by decide
  offsets_le := by decide
  neighbors_lt := by decide

theorem pathGraph_sorted : pathGraph.SortedSlices := by
  intro v hv
  have : v = 0 ∨ v = 1 ∨ v = 2 := by
    have : v < 3 := hv
    omega
  rcases this with rfl | rfl | rfl <;> decide

theorem pathGraph_fit : pathGraph.DegreesFitInt := by
  intro v hv
  have : v = 0 ∨ v = 1 ∨ v = 2 := by
    have : v < 3 := hv
    omega
  rcases this with rfl | rfl | rfl <;> decide


theorem pathGraph_symmetric : pathGraph.Symmetric := by
  intro u v hu hv
  have hu3 : u = 0 ∨ u = 1 ∨ u = 2 := by
    have : u < 3 := hu
    omega
  have hv3 : v = 0 ∨ v = 1 ∨ v = 2 := by
    have : v < 3 := hv
    omega
  rcases hu3 with rfl | rfl | rfl <;> rcases hv3 with rfl | rfl | rfl <;> decide


/-! ## Loops as monadic folds -/

theorem foldlM_range_succ {σ : Type} (f : σ → Nat → Option σ) (n : Nat) (s0 : σ) :
    (List.range (n + 1)).foldlM f s0 = ((List.range n).foldlM f s0).bind (fun s => f s n) := by
  rw [List.range_succ, List.foldlM_append]
  cases h : List.foldlM f s0 (List.range n) <;> simp [h, List.foldlM]

/-- Total-correctness rule for a counted loop: an invariant that every
iteration is defined on and preserves holds after the loop, which is defined. -/
theorem foldlM_range_total {σ : Type} (f : σ → Nat → Option σ) (P : Nat → σ → Prop) (n : Nat)
    (s0 : σ) (h0 : P 0 s0)
    (hstep : ∀ i, i < n → ∀ s, P i s → ∃ s', f s i = some s' ∧ P (i + 1) s') :
    ∃ s', (List.range n).foldlM f s0 = some s' ∧ P n s' := by
  induction n with
  | zero => exact ⟨s0, by simp [List.foldlM], h0⟩
  | succ n ih =>
    obtain ⟨s1, h1, hP1⟩ := ih (fun i hi s hs => hstep i (by omega) s hs)
    obtain ⟨s2, h2, hP2⟩ := hstep n (by omega) s1 hP1
    exact ⟨s2, by rw [foldlM_range_succ, h1]; exact h2, hP2⟩

/-- Partial-correctness rule for a counted loop. -/
theorem foldlM_range_partial {σ : Type} (f : σ → Nat → Option σ) (P : Nat → σ → Prop) (n : Nat)
    (s0 : σ) (h0 : P 0 s0)
    (hstep : ∀ i, i < n → ∀ s s', P i s → f s i = some s' → P (i + 1) s')
    {s' : σ} (h : (List.range n).foldlM f s0 = some s') : P n s' := by
  induction n generalizing s' with
  | zero =>
    simp [List.foldlM] at h
    subst h; exact h0
  | succ n ih =>
    rw [foldlM_range_succ] at h
    cases h1 : List.foldlM f s0 (List.range n) with
    | none => rw [h1] at h; simp at h
    | some s1 =>
      rw [h1] at h
      exact hstep n (by omega) s1 s' (ih (fun i hi s t hs => hstep i (by omega) s t hs) h1) h

theorem foldlM_list_total {σ α : Type} (f : σ → α → Option σ) (P : List α → σ → Prop)
    (l : List α) (s0 : σ) (h0 : P [] s0)
    (hstep : ∀ (done : List α) (x : α) (rest : List α), l = done ++ x :: rest → ∀ s, P done s →
      ∃ s', f s x = some s' ∧ P (done ++ [x]) s') :
    ∃ s', l.foldlM f s0 = some s' ∧ P l s' := by
  suffices H : ∀ (rest done : List α) (s : σ), l = done ++ rest → P done s →
      ∃ s', rest.foldlM f s = some s' ∧ P l s' from H l [] s0 rfl h0
  intro rest
  induction rest with
  | nil =>
    intro done s hl hs
    simp only [List.append_nil] at hl
    subst hl
    exact ⟨s, rfl, hs⟩
  | cons x rest ih =>
    intro done s hl hs
    obtain ⟨s1, h1, hP1⟩ := hstep done x rest hl s hs
    obtain ⟨s2, h2, hP2⟩ := ih (done ++ [x]) s1 (by simp [hl]) hP1
    exact ⟨s2, by simp [List.foldlM, h1, h2], hP2⟩

theorem foldlM_list_partial {σ α : Type} (f : σ → α → Option σ) (P : List α → σ → Prop)
    (l : List α) (s0 : σ) (h0 : P [] s0)
    (hstep : ∀ (done : List α) (x : α) (rest : List α), l = done ++ x :: rest → ∀ s s', P done s →
      f s x = some s' → P (done ++ [x]) s')
    {s' : σ} (h : l.foldlM f s0 = some s') : P l s' := by
  suffices H : ∀ (rest done : List α) (s : σ), l = done ++ rest → P done s →
      rest.foldlM f s = some s' → P l s' from H l [] s0 rfl h0 h
  intro rest
  induction rest with
  | nil =>
    intro done s hl hs hf
    simp only [List.append_nil] at hl
    simp [List.foldlM] at hf
    subst hl; subst hf
    exact hs
  | cons x rest ih =>
    intro done s hl hs hf
    cases h1 : f s x with
    | none => simp [List.foldlM, h1] at hf
    | some s1 =>
      simp only [List.foldlM, h1, Option.bind_eq_bind, Option.some_bind] at hf
      exact ih (done ++ [x]) s1 (by simp [hl]) (hstep done x rest hl s s1 hs h1) hf


/-! ## The frequency map -/

theorem mapFind_mapSet (m : List (Nat × Nat)) (k x k' : Nat) :
    mapFind (mapSet m k x) k' = if k = k' then some x else mapFind m k' := by
  induction m with
  | nil => simp [mapSet, mapFind]
  | cons p m ih =>
    obtain ⟨a, b⟩ := p
    by_cases hak : a = k
    · subst hak
      by_cases hk : a = k' <;> simp [mapSet, mapFind, hk]
    · by_cases hk : k = k'
      · subst hk
        simp [mapSet, mapFind, hak, ih]
      · by_cases ha : a = k'
        · subst ha
          simp [mapSet, mapFind, hak, hk]
        · simp [mapSet, mapFind, hak, hk, ha, ih]

theorem freqOf_mapSet (m : List (Nat × Nat)) (k x k' : Nat) :
    freqOf (mapSet m k x) k' = if k = k' then x else freqOf m k' := by
  unfold freqOf
  rw [mapFind_mapSet]
  by_cases hk : k = k' <;> simp [hk]

theorem mapAccess_snd (m : List (Nat × Nat)) (k : Nat) : (mapAccess m k).2 = freqOf m k := by
  unfold mapAccess freqOf
  cases mapFind m k <;> rfl

theorem freqOf_mapAccess (m : List (Nat × Nat)) (k k' : Nat) :
    freqOf (mapAccess m k).1 k' = freqOf m k' := by
  unfold mapAccess
  cases h : mapFind m k with
  | some x => rfl
  | none =>
    show freqOf (mapSet m k 0) k' = _
    rw [freqOf_mapSet]
    by_cases hk : k = k'
    · subst hk; simp [freqOf, h]
    · simp [hk]

theorem getLabelsFrequency_eq (g : Graph) (l : Nat) :
    g.getLabelsFrequency l = freqOf g.labels_frequency_ l := rfl

/-! ## Buckets of the reverse index -/

theorem bucketStart_succ (labels : List Nat) (l : Nat) :
    bucketStart labels (l + 1) = bucketStart labels l + labels.count l := by
  unfold bucketStart
  induction labels with
  | nil => simp
  | cons a t ih =>
    simp only [List.countP_cons, List.count_cons, ih]
    by_cases h1 : a < l
    · have h2 : a < l + 1 := by omega
      have h3 : ¬ a = l := by omega
      simp [h1, h2, h3]
      omega
    · by_cases h3 : a = l
      · subst h3; simp
        omega
      · have h2 : ¬ a < l + 1 := by omega
        simp [h1, h2, h3]

theorem bucketStart_mono (labels : List Nat) {a b : Nat} (h : a ≤ b) :
    bucketStart labels a ≤ bucketStart labels b := by
  induction h with
  | refl => exact le_refl _
  | step _ ih => rw [bucketStart_succ]; omega

theorem bucketStart_le_length (labels : List Nat) (l : Nat) : bucketStart labels l ≤ labels.length :=
  List.countP_le_length _

theorem bucketStart_eq_length (labels : List Nat) (L : Nat) (h : ∀ x ∈ labels, x < L) :
    bucketStart labels L = labels.length := by
  unfold bucketStart
  rw [List.countP_eq_length]
  intro a ha
  simpa using h a ha

theorem count_take_succ (labels : List Nat) (i : Nat) (hi : i < labels.length) (l : Nat) :
    (labels.take (i + 1)).count l = (labels.take i).count l + if labels[i] = l then 1 else 0 := by
  rw [List.take_succ, List.getElem?_eq_getElem hi]
  simp only [Option.toList, List.count_append, List.count_cons, List.count_nil, beq_iff_eq]
  omega

theorem count_take_lt (labels : List Nat) (i : Nat) (hi : i < labels.length) :
    (labels.take i).count labels[i] < labels.count labels[i] := by
  have h1 := count_take_succ labels i hi labels[i]
  have h2 : (labels.take (i + 1)).count labels[i] ≤ labels.count labels[i] :=
    (List.take_sublist _ _).count_le _
  simp at h1
  omega

theorem count_take_le (labels : List Nat) (i : Nat) (l : Nat) :
    (labels.take i).count l ≤ labels.count l := (List.take_sublist _ _).count_le _

theorem filter_range_succ (p : Nat → Bool) (i : Nat) :
    (List.range (i + 1)).filter p = (List.range i).filter p ++ if p i then [i] else [] := by
  rw [List.range_succ, List.filter_append]
  by_cases h : p i <;> simp [h]

/-! ## Slices of an array under a write -/

theorem take_drop_set_of_outside {α : Type} (a : List α) (k s c : Nat) (x : α)
    (h : k < s ∨ s + c ≤ k) : ((a.set k x).drop s).take c = (a.drop s).take c := by
  apply List.ext_getElem?
  intro j
  by_cases hj : j < c
  · rw [List.getElem?_take_of_lt hj, List.getElem?_take_of_lt hj, List.getElem?_drop, List.getElem?_drop,
      List.getElem?_set_ne (by omega)]
  · rw [List.getElem?_take_eq_none (by omega), List.getElem?_take_eq_none (by omega)]

theorem take_drop_set_snoc {α : Type} (a : List α) (s c : Nat) (x : α) (h : s + c < a.length) :
    ((a.set (s + c) x).drop s).take (c + 1) = (a.drop s).take c ++ [x] := by
  apply List.ext_getElem?
  intro j
  have hlen : ((a.drop s).take c).length = c := by
    rw [List.length_take, List.length_drop]; omega
  by_cases hj : j < c
  · rw [List.getElem?_take_of_lt (by omega), List.getElem?_drop, List.getElem?_set_ne (by omega),
      List.getElem?_append_left (by omega), List.getElem?_take_of_lt hj, List.getElem?_drop]
  · by_cases hjc : j = c
    · subst hjc
      rw [List.getElem?_take_of_lt (by omega), List.getElem?_drop, List.getElem?_set_self,
        List.getElem?_append_right (by omega), hlen]
      · simp
      · exact h
    · rw [List.getElem?_take_eq_none (by omega), List.getElem?_append_right (by omega), hlen]
      have : j - c = (j - c - 1) + 1 := by omega
      rw [this]; simp


theorem length_newArray (junk : Nat → Nat) (k : Nat) : (newArray junk k).length = k := by
  simp [newArray]

theorem writeAt_eq_some {α : Type} {a : List α} {i : Nat} (x : α) (h : i < a.length) :
    writeAt a i x = some (a.set i x) := by
  simp [writeAt, h]

theorem writeAt_some_iff {α : Type} {a b : List α} {i : Nat} {x : α} :
    writeAt a i x = some b ↔ i < a.length ∧ b = a.set i x := by
  unfold writeAt
  by_cases h : i < a.length <;> simp [h, eq_comm]

theorem reverseOffsetStep_inv (labels : List Nat) (freq0 : List (Nat × Nat)) (L : Nat)
    (hn : labels.length < UI_SIZE) (hfreq : ∀ l, l < L → freqOf freq0 l = labels.count l)
    (i : Nat) (hi : i < L) (st : List Nat × List (Nat × Nat) × Nat)
    (h : OffsetInv labels freq0 L i st) :
    ∃ st', reverseOffsetStep st i = some st' ∧ OffsetInv labels freq0 L (i + 1) st' := by
  obtain ⟨hlen, h0, hpre, htot, hfr⟩ := h
  have hw : i + 1 < st.1.length := by omega
  refine ⟨((st.1.set (i + 1) st.2.2), (mapAccess st.2.1 i).1, wrap (st.2.2 + (mapAccess st.2.1 i).2)), ?_, ?_⟩
  · simp [reverseOffsetStep, writeAt_eq_some _ hw]
  · refine ⟨by simp [hlen], ?_, ?_, ?_, ?_⟩
    · show (st.1.set (i + 1) st.2.2)[0]? = some 0
      rw [List.getElem?_set_ne (by omega)]; exact h0
    · intro j hj
      show (st.1.set (i + 1) st.2.2)[j + 1]? = _
      by_cases hji : j = i
      · subst hji
        rw [List.getElem?_set_self hw, htot]
      · rw [List.getElem?_set_ne (by omega)]
        exact hpre j (by omega)
    · show wrap (st.2.2 + (mapAccess st.2.1 i).2) = _
      rw [mapAccess_snd, hfr, hfreq i hi, htot, ← bucketStart_succ]
      exact wrap_of_lt (lt_of_le_of_lt (bucketStart_le_length _ _) hn)
    · intro l
      show freqOf (mapAccess st.2.1 i).1 l = _
      rw [freqOf_mapAccess, hfr]

theorem reverseFillStep_inv (labels : List Nat) (L : Nat)
    (hn : labels.length < UI_SIZE) (hL : L + 1 < UI_SIZE) (hlt : ∀ x ∈ labels, x < L)
    (i : Nat) (hi : i < labels.length) (st : List Nat × List Nat)
    (h : FillInv labels L i st) :
    ∃ st', reverseFillStep labels st i = some st' ∧ FillInv labels L (i + 1) st' := by
  obtain ⟨hlen, hlen2, h0, hoff, hfill⟩ := h
  have hlab : labels[i] < L := hlt _ (List.getElem_mem hi)
  have hw : wrap (labels[i] + 1) = labels[i] + 1 := wrap_of_lt (by omega)
  have hslot := hoff labels[i] hlab
  have hc1 := count_take_lt labels i hi
  have hb1 := bucketStart_succ labels labels[i]
  have hb2 := bucketStart_le_length labels (labels[i] + 1)
  have hs : bucketStart labels labels[i] + (labels.take i).count labels[i] < st.2.length := by omega
  have hw2 : wrap (bucketStart labels labels[i] + (labels.take i).count labels[i] + 1) =
      bucketStart labels labels[i] + (labels.take i).count labels[i] + 1 := wrap_of_lt (by omega)
  refine ⟨(st.1.set (labels[i] + 1) (bucketStart labels labels[i] + (labels.take i).count labels[i] + 1),
    st.2.set (bucketStart labels labels[i] + (labels.take i).count labels[i]) i), ?_, ?_⟩
  · simp only [reverseFillStep, List.getElem?_eq_getElem hi, hw, hslot, Option.bind_eq_bind,
      Option.some_bind, hw2]
    rw [writeAt_eq_some _ (by omega), writeAt_eq_some _ hs]
    rfl
  · refine ⟨by simp [hlen], by simp [hlen2], ?_, ?_, ?_⟩
    · show (st.1.set _ _)[0]? = some 0
      rw [List.getElem?_set_ne (by omega)]; exact h0
    · intro l hl
      show (st.1.set _ _)[l + 1]? = _
      rw [count_take_succ labels i hi l]
      by_cases hll : labels[i] = l
      · subst hll
        rw [List.getElem?_set_self (by omega)]
        simp
        omega
      · rw [List.getElem?_set_ne (by omega), hoff l hl]
        simp [hll]
    · intro l hl
      show ((st.2.set _ _).drop _).take _ = _
      rw [count_take_succ labels i hi l, filter_range_succ]
      by_cases hll : labels[i] = l
      · subst hll
        simp only [if_true, List.getElem?_eq_getElem hi, decide_True]
        rw [take_drop_set_snoc _ _ _ _ hs, hfill _ hl]
      · have hdec : decide (labels[i]? = some l) = false := by
          simp [List.getElem?_eq_getElem hi, hll]
        simp only [hll, if_false, hdec, Bool.false_eq_true, List.append_nil, Nat.add_zero]
        rw [take_drop_set_of_outside, hfill l hl]
        have hcl := count_take_le labels i l
        have hbl := bucketStart_succ labels l
        rcases Nat.lt_or_gt_of_ne hll with hlt1 | hgt1
        · left
          have := bucketStart_mono labels (show labels[i] + 1 ≤ l by omega)
          omega
        · right
          have := bucketStart_mono labels (show l + 1 ≤ labels[i] by omega)
          omega

/-- Fields that `BuildReverseIndex` leaves alone, and the meaning of the
frequency map, whenever the call is defined. -/
theorem BuildReverseIndex_frame {junk : Nat → Nat} {g g' : Graph}
    (h : BuildReverseIndex junk g = some g') :
    g'.vertices_count_ = g.vertices_count_ ∧ g'.edges_count_ = g.edges_count_ ∧
    g'.labels_count_ = g.labels_count_ ∧ g'.max_degree_ = g.max_degree_ ∧
    g'.max_label_frequency_ = g.max_label_frequency_ ∧ g'.offsets_ = g.offsets_ ∧
    g'.neighbors_ = g.neighbors_ ∧ g'.labels_ = g.labels_ ∧ g'.core_table_ = g.core_table_ ∧
    g'.core_length_ = g.core_length_ ∧
    ∀ l, g'.getLabelsFrequency l = g.getLabelsFrequency l := by
  unfold BuildReverseIndex at h
  simp only [Option.bind_eq_bind, Option.bind_eq_some] at h
  obtain ⟨offs, _, st, hst, st2, _, hg⟩ := h
  simp only [Option.pure_def, Option.some.injEq] at hg
  subst hg
  refine ⟨rfl, rfl, rfl, rfl, rfl, rfl, rfl, rfl, rfl, rfl, ?_⟩
  intro l
  have hP := foldlM_range_partial reverseOffsetStep
    (fun _ s => ∀ l, freqOf s.2.1 l = freqOf g.labels_frequency_ l) g.labels_count_
    (offs, g.labels_frequency_, 0) (fun _ => rfl)
    (by
      intro i _ s s' hs hstep
      unfold reverseOffsetStep at hstep
      simp only [Option.bind_eq_bind, Option.bind_eq_some, Option.pure_def, Option.some.injEq] at hstep
      obtain ⟨_, _, rfl⟩ := hstep
      intro l
      show freqOf (mapAccess s.2.1 i).1 l = _
      rw [freqOf_mapAccess, hs]) hst
  exact hP l

/-- Total correctness of `BuildReverseIndex`: on a prepared store the call is
defined and bucket `l` lists the vertices labelled `l` in ascending order. -/
theorem BuildReverseIndex_total (junk : Nat → Nat) (g : Graph) (hR : g.LabelsReady) :
    ∃ g', BuildReverseIndex junk g = some g' ∧
      ∀ l, l < g.labels_count_ → g'.getVerticesByLabel l = some (verticesWithLabel g.labels_ l) := by
  have hn : g.labels_.length < UI_SIZE := by rw [hR.labels_length]; exact hR.vertices_lt
  have hwL : wrap (g.labels_count_ + 1) = g.labels_count_ + 1 := wrap_of_lt hR.labels_count_lt
  have hfreq : ∀ l, l < g.labels_count_ → freqOf g.labels_frequency_ l = g.labels_.count l :=
    hR.frequency
  -- first loop
  obtain ⟨st, hst, hI1⟩ := foldlM_range_total reverseOffsetStep
    (OffsetInv g.labels_ g.labels_frequency_ g.labels_count_) g.labels_count_
    ((newArray junk (g.labels_count_ + 1)).set 0 0, g.labels_frequency_, 0)
    ⟨by simp [length_newArray], by
        rw [List.getElem?_set_self (by simp [length_newArray])],
      fun j hj => absurd hj (Nat.not_lt_zero _), by simp [bucketStart], fun _ => rfl⟩
    (reverseOffsetStep_inv g.labels_ g.labels_frequency_ g.labels_count_ hn hfreq)
  obtain ⟨hlen1, h01, hpre1, _, _⟩ := hI1
  -- second loop
  obtain ⟨st2, hst2, hI2⟩ := foldlM_range_total (reverseFillStep g.labels_)
    (FillInv g.labels_ g.labels_count_) g.vertices_count_
    (st.1, newArray junk g.vertices_count_)
    ⟨hlen1, by rw [length_newArray, hR.labels_length], h01,
      fun l hl => by simpa using hpre1 l hl, fun l hl => by simp⟩
    (fun i hi s hs => reverseFillStep_inv g.labels_ g.labels_count_ hn hR.labels_count_lt
      hR.labels_lt i (by rw [hR.labels_length]; exact hi) s hs)
  obtain ⟨hlen2, hlenr, h02, hoff2, hfill2⟩ := hI2
  have hrun : BuildReverseIndex junk g = some { g with
      reverse_index_offsets_ := st2.1, reverse_index_ := st2.2, labels_frequency_ := st.2.1 } := by
    have hw0 : writeAt (newArray junk (g.labels_count_ + 1)) 0 0 =
        some ((newArray junk (g.labels_count_ + 1)).set 0 0) :=
      writeAt_eq_some _ (by simp [length_newArray])
    simp only [BuildReverseIndex, hwL, hw0, Option.bind_eq_bind, Option.some_bind, hst, hst2]
    rfl
  refine ⟨_, hrun, ?_⟩
  · intro l hl
    have htake : g.labels_.take g.vertices_count_ = g.labels_ := by
      rw [← hR.labels_length, List.take_length]
    have hhi : st2.1[l + 1]? = some (bucketStart g.labels_ (l + 1)) := by
      rw [hoff2 l hl, htake, bucketStart_succ]
    have hlo : st2.1[l]? = some (bucketStart g.labels_ l) := by
      rcases Nat.eq_zero_or_pos l with rfl | hpos
      · rw [h02]; simp [bucketStart]
      · have := hoff2 (l - 1) (by omega)
        rw [htake, ← bucketStart_succ] at this
        have e : l - 1 + 1 = l := by omega
        rw [e] at this
        exact this
    have hwl : wrap (l + 1) = l + 1 := wrap_of_lt (by have := hR.labels_count_lt; omega)
    have hsub : uiSub (bucketStart g.labels_ (l + 1)) (bucketStart g.labels_ l) = g.labels_.count l := by
      rw [uiSub_of_le (bucketStart_mono _ (by omega))
        (lt_of_le_of_lt (bucketStart_le_length _ _) hn), bucketStart_succ]
      omega
    show getVerticesByLabel _ l = _
    simp only [getVerticesByLabel, hwl, hhi, hlo, Option.bind_eq_bind, Option.some_bind, hsub, view]
    have hb := bucketStart_succ g.labels_ l
    have hb2 := bucketStart_le_length g.labels_ (l + 1)
    rw [if_pos (by omega)]
    have := hfill2 l hl
    rw [htake] at this
    rw [this]
    simp [verticesWithLabel, hR.labels_length]


theorem length_filter_range_labels (labels : List Nat) (l : Nat) (i : Nat) (hi : i ≤ labels.length) :
    ((List.range i).filter (fun v => decide (labels[v]? = some l))).length = (labels.take i).count l := by
  induction i with
  | zero => simp
  | succ i ih =>
    have hi' : i < labels.length := by omega
    rw [filter_range_succ, count_take_succ labels i hi' l, List.length_append, ih (by omega),
      List.getElem?_eq_getElem hi']
    by_cases h : labels[i] = l <;> simp [h]

theorem length_verticesWithLabel (labels : List Nat) (l : Nat) :
    (verticesWithLabel labels l).length = labels.count l := by
  unfold verticesWithLabel
  rw [length_filter_range_labels labels l labels.length (le_refl _), List.take_length]

theorem sum_count_range (labels : List Nat) (k : Nat) :
    ((List.range k).map (fun l => labels.count l)).sum = bucketStart labels k := by
  induction k with
  | zero => simp [bucketStart]
  | succ k ih => rw [List.range_succ, List.map_append, List.sum_append, ih, bucketStart_succ]; simp

theorem labelledGraph_ready : labelledGraph.LabelsReady where
  vertices_lt := by decide
  labels_count_lt := by decide
  labels_length := by decide
  labels_lt := by decide
  frequency := by
    intro l hl
    have : l = 0 ∨ l = 1 := by
      have : l < 2 := hl
      omega
    rcases this with rfl | rfl <;> decide


/-! ## Record lists -/

theorem vertexRecords_append (a b : List Record) :
    vertexRecords (a ++ b) = vertexRecords a ++ vertexRecords b := by
  induction a with
  | nil => rfl
  | cons r a ih => cases r <;> simp [vertexRecords, ih]

theorem edgeRecords_append (a b : List Record) :
    edgeRecords (a ++ b) = edgeRecords a ++ edgeRecords b := by
  induction a with
  | nil => rfl
  | cons r a ih => cases r <;> simp [edgeRecords, ih]

theorem vertexIds_append (a b : List Record) : vertexIds (a ++ b) = vertexIds a ++ vertexIds b := by
  simp [vertexIds, vertexRecords_append]

theorem declaredLabels_append (a b : List Record) :
    declaredLabels (a ++ b) = declaredLabels a ++ declaredLabels b := by
  simp [declaredLabels, vertexRecords_append]

theorem declaredDegrees_append (a b : List Record) :
    declaredDegrees (a ++ b) = declaredDegrees a ++ declaredDegrees b := by
  simp [declaredDegrees, vertexRecords_append]

theorem eq_length_of_append_cons_eq_range {l1 l2 : List Nat} {a n : Nat}
    (h : l1 ++ a :: l2 = List.range n) : a = l1.length ∧ l1.length < n := by
  have hlen : (l1 ++ a :: l2).length = n := by rw [h, List.length_range]
  have hlt : l1.length < n := by
    rw [← hlen, List.length_append, List.length_cons]; omega
  have h1 : (l1 ++ a :: l2)[l1.length]? = some a := by
    rw [List.getElem?_append_right (le_refl _)]; simp
  rw [h, List.getElem?_range hlt] at h1
  exact ⟨by simpa using h1.symm, hlt⟩

theorem sum_take_le (l : List Nat) (j : Nat) : (l.take j).sum ≤ l.sum := by
  conv_rhs => rw [← List.take_append_drop j l]
  rw [List.sum_append]; omega

/-! ## The record loop: vertex records -/

theorem readRecord_vertex_inv (n : Nat) (g : Graph) (hn : n + 1 < UI_SIZE)
    (done : List Record) (id label degree : Nat)
    (hid : id = (vertexRecords done).length) (hlt : id < n)
    (st : TextState) (h : VertexInv n g done st) :
    ∃ st', readRecord st (Record.v id label degree) = some st' ∧
      VertexInv n g (done ++ [Record.v id label degree]) st' ∧
      st'.neighbors_offset = st.neighbors_offset ∧ st'.g.neighbors_ = st.g.neighbors_ ∧
      st'.g.edges_count_ = st.g.edges_count_ := by
  have hw : wrap (id + 1) = id + 1 := wrap_of_lt (by omega)
  have hbase := h.offsets id (by omega)
  have hlen : (declaredDegrees done).length = id := by simp [declaredDegrees, hid]
  have htake : (declaredDegrees done).take id = declaredDegrees done := by
    rw [← hlen, List.take_length]
  have hw2 : wrap (wrap (declaredDegrees done).sum + degree) =
      wrap ((declaredDegrees done).sum + degree) := by
    unfold wrap; exact Nat.mod_add_mod _ _ _
  rw [htake] at hbase
  refine ⟨{ st with
      g := { st.g with
        labels_ := st.g.labels_.set id label,
        offsets_ := st.g.offsets_.set (id + 1) (wrap ((declaredDegrees done).sum + degree)),
        max_degree_ := if degree > st.g.max_degree_ then degree else st.g.max_degree_,
        labels_frequency_ := (countLabel (st.g.labels_frequency_, st.max_label_id) label).1 },
      max_label_id := (countLabel (st.g.labels_frequency_, st.max_label_id) label).2 },
    ?_, ?_, rfl, rfl, rfl⟩
  · simp only [readRecord, hw, hbase, Option.bind_eq_bind, Option.some_bind, hw2]
    rw [writeAt_eq_some _ (by rw [h.labels_length]; exact hlt),
      writeAt_eq_some _ (by rw [h.offsets_length]; omega)]
    rfl
  · have hvr : vertexRecords (done ++ [Record.v id label degree]) =
        vertexRecords done ++ [(id, label, degree)] := by
      simp [vertexRecords_append, vertexRecords]
    have hdl : declaredLabels (done ++ [Record.v id label degree]) = declaredLabels done ++ [label] := by
      simp [declaredLabels, hvr]
    have hdd : declaredDegrees (done ++ [Record.v id label degree]) =
        declaredDegrees done ++ [degree] := by
      simp [declaredDegrees, hvr]
    have hll : (declaredLabels done).length = id := by simp [declaredLabels, hid]
    constructor
    · exact h.vertices_count
    · simp [h.offsets_length]
    · simp [h.labels_length]
    · intro j hj
      rw [hvr, List.length_append, List.length_singleton, ← hid] at hj
      show (st.g.offsets_.set (id + 1) _)[j]? = _
      rw [hdd]
      by_cases hje : j = id + 1
      · subst hje
        rw [List.getElem?_set_self (by rw [h.offsets_length]; omega)]
        rw [List.take_of_length_le (by simp [hlen]), List.sum_append]
        simp
      · rw [List.getElem?_set_ne (by omega), h.offsets j (by omega),
          List.take_append_of_le_length (by omega)]
    · intro j hj
      rw [hvr, List.length_append, List.length_singleton, ← hid] at hj
      show (st.g.labels_.set id label)[j]? = _
      rw [hdl]
      by_cases hje : j = id
      · subst hje
        rw [List.getElem?_set_self (by rw [h.labels_length]; exact hlt),
          List.getElem?_append_right (by omega), hll]
        simp
      · rw [List.getElem?_set_ne (by omega), h.labels j (by omega),
          List.getElem?_append_left (by omega)]
    · show countLabel (st.g.labels_frequency_, st.max_label_id) label = _
      rw [hdl, List.foldl_append, ← h.frequency]
      rfl
    · show (if degree > st.g.max_degree_ then degree else st.g.max_degree_) = _
      rw [hdd, List.foldl_append, ← h.max_degree]
      rfl
    · exact h.max_label_frequency

theorem readRecord_edge_frame {st st' : TextState} {b e : Nat}
    (h : readRecord st (Record.e b e) = some st') :
    ∃ nb, st'.g = { st.g with neighbors_ := nb } ∧ nb.length = st.g.neighbors_.length ∧
      st'.max_label_id = st.max_label_id ∧
      st'.neighbors_offset.length = st.neighbors_offset.length ∧
      b < st.neighbors_offset.length ∧ e < st.neighbors_offset.length := by
  simp only [readRecord, Option.bind_eq_bind, Option.bind_eq_some, Option.pure_def,
    Option.some.injEq, writeAt_some_iff] at h
  obtain ⟨ob, _, cb, hcb, nb1, ⟨_, rfl⟩, oe, _, ce, hce, nb2, ⟨_, rfl⟩, c1, _, cur1, ⟨_, rfl⟩,
    c2, _, cur2, ⟨_, rfl⟩, rfl⟩ := h
  refine ⟨_, rfl, by simp, rfl, by simp, ?_, ?_⟩
  · exact (List.getElem?_eq_some_iff.1 hcb).1
  · exact (List.getElem?_eq_some_iff.1 hce).1

theorem readRecord_edge_inv (n : Nat) (g : Graph) (done : List Record) (b e : Nat)
    (st st' : TextState) (h : VertexInv n g done st)
    (hstep : readRecord st (Record.e b e) = some st') :
    VertexInv n g (done ++ [Record.e b e]) st' := by
  obtain ⟨nb, hg, _, hmax, _, _, _⟩ := readRecord_edge_frame hstep
  have hvr : vertexRecords (done ++ [Record.e b e]) = vertexRecords done := by
    simp [vertexRecords_append, vertexRecords]
  have hdl : declaredLabels (done ++ [Record.e b e]) = declaredLabels done := by
    simp [declaredLabels, hvr]
  have hdd : declaredDegrees (done ++ [Record.e b e]) = declaredDegrees done := by
    simp [declaredDegrees, hvr]
  constructor
  · rw [hg]; exact h.vertices_count
  · rw [hg]; exact h.offsets_length
  · rw [hg]; exact h.labels_length
  · rw [hg, hvr, hdd]; exact h.offsets
  · rw [hg, hvr, hdl]; exact h.labels
  · rw [hg, hmax, hdl]; exact h.frequency
  · rw [hg, hdd]; exact h.max_degree
  · rw [hg]; exact h.max_label_frequency


theorem loadRecords_eq (junk : Nat → Nat) (g : Graph) (file : TextFile)
    (hn : file.vertices_count + 1 < UI_SIZE) :
    loadRecords junk g file = file.records.foldlM readRecord (textStart junk g file) := by
  have hw : wrap (file.vertices_count + 1) = file.vertices_count + 1 := wrap_of_lt hn
  have hw0 : writeAt (newArray junk (file.vertices_count + 1)) 0 0 =
      some ((newArray junk (file.vertices_count + 1)).set 0 0) :=
    writeAt_eq_some _ (by simp [length_newArray])
  simp only [loadRecords, hw, hw0, Option.bind_eq_bind, Option.some_bind]
  rfl

theorem textStart_inv (junk : Nat → Nat) (g : Graph) (file : TextFile) :
    VertexInv file.vertices_count g [] (textStart junk g file) ∧
      TextFrame file (textStart junk g file) := by
  refine ⟨⟨rfl, by simp [textStart, length_newArray], by simp [textStart, length_newArray],
    ?_, ?_, rfl, rfl, rfl⟩, rfl, by simp [textStart, length_newArray], by simp [textStart]⟩
  · intro j hj
    have : j = 0 := by simpa [vertexRecords] using hj
    subst this
    show ((newArray junk (file.vertices_count + 1)).set 0 0)[0]? = _
    rw [List.getElem?_set_self (by simp [length_newArray])]
    simp [wrap]
  · intro j hj
    simp [vertexRecords] at hj

/-- Partial correctness of the record loop for the vertex data, edge records
interleaved at will. -/
theorem loadRecords_vertex_inv (junk : Nat → Nat) (g : Graph) (file : TextFile)
    (hn : file.vertices_count + 1 < UI_SIZE) (hord : file.VerticesInOrder)
    {st : TextState} (h : loadRecords junk g file = some st) :
    VertexInv file.vertices_count g file.records st ∧ TextFrame file st := by
  rw [loadRecords_eq junk g file hn] at h
  refine foldlM_list_partial readRecord
    (fun done s => VertexInv file.vertices_count g done s ∧ TextFrame file s)
    file.records _ (textStart_inv junk g file) ?_ h
  intro done x rest hl s s' hs hstep
  cases x with
  | v id label degree =>
    have hids : vertexIds done ++ id :: vertexIds rest = List.range file.vertices_count := by
      have := hord
      unfold TextFile.VerticesInOrder at this
      rw [hl, vertexIds_append] at this
      simpa [vertexIds, vertexRecords] using this
    obtain ⟨hid, hlt⟩ := eq_length_of_append_cons_eq_range hids
    obtain ⟨s2, h2, hinv, hcur, hnb, hec⟩ := readRecord_vertex_inv file.vertices_count g hn done id
      label degree (by simpa [vertexIds] using hid) (by rw [hid]; exact hlt) s hs.1
    rw [hstep] at h2
    cases h2
    exact ⟨hinv, by rw [hec]; exact hs.2.1, by rw [hnb]; exact hs.2.2.1, by rw [hcur]; exact hs.2.2.2⟩
  | e b e =>
    obtain ⟨nb, hg, hlen, _, hcl, _, _⟩ := readRecord_edge_frame hstep
    exact ⟨readRecord_edge_inv _ g done b e s s' hs.1 hstep,
      by rw [hg]; exact hs.2.1, by rw [hg]; exact hlen.trans hs.2.2.1, hcl.trans hs.2.2.2⟩

/-- Total correctness of the record loop on a block of vertex records. -/
theorem vertexBlock_total (n : Nat) (g : Graph) (hn : n + 1 < UI_SIZE) (vs : List Record)
    (hall : ∀ r ∈ vs, ∃ id label degree, r = Record.v id label degree)
    (hord : vertexIds vs = List.range n)
    (st0 : TextState) (h0 : VertexInv n g [] st0) :
    ∃ st, vs.foldlM readRecord st0 = some st ∧ VertexInv n g vs st ∧
      st.neighbors_offset = st0.neighbors_offset ∧ st.g.neighbors_ = st0.g.neighbors_ ∧
      st.g.edges_count_ = st0.g.edges_count_ := by
  refine foldlM_list_total readRecord
    (fun done s => VertexInv n g done s ∧ s.neighbors_offset = st0.neighbors_offset ∧
      s.g.neighbors_ = st0.g.neighbors_ ∧ s.g.edges_count_ = st0.g.edges_count_)
    vs st0 ⟨h0, rfl, rfl, rfl⟩ ?_
  intro done x rest hl s hs
  obtain ⟨id, label, degree, rfl⟩ := hall x (by rw [hl]; simp)
  have hids : vertexIds done ++ id :: vertexIds rest = List.range n := by
    rw [hl, vertexIds_append] at hord
    simpa [vertexIds, vertexRecords] using hord
  obtain ⟨hid, hlt⟩ := eq_length_of_append_cons_eq_range hids
  obtain ⟨s2, h2, hinv, hcur, hnb, hec⟩ := readRecord_vertex_inv n g hn done id
    label degree (by simpa [vertexIds] using hid) (by rw [hid]; exact hlt) s hs.1
  exact ⟨s2, h2, hinv, hcur.trans hs.2.1, hnb.trans hs.2.2.1, hec.trans hs.2.2.2⟩


/-! ## Sorting a range of an array -/

theorem sortRange_some {a b : List Nat} {lo hi : Nat} (h : sortRange a lo hi = some b) :
    lo ≤ hi ∧ hi ≤ a.length ∧ b.length = a.length ∧ b.take lo = a.take lo ∧
      b.drop hi = a.drop hi ∧
      (b.drop lo).take (hi - lo) = ((a.drop lo).take (hi - lo)).insertionSort (fun x y => x ≤ y) := by
  unfold sortRange at h
  by_cases hc : lo ≤ hi ∧ hi ≤ a.length
  · rw [if_pos hc] at h
    simp only [Option.some.injEq] at h
    subst h
    obtain ⟨h1, h2⟩ := hc
    have hl1 : (a.take lo).length = lo := by rw [List.length_take]; omega
    have hl2 : (((a.drop lo).take (hi - lo)).insertionSort (fun x y => x ≤ y)).length = hi - lo := by
      rw [List.length_insertionSort, List.length_take, List.length_drop]; omega
    refine ⟨h1, h2, ?_, ?_, ?_, ?_⟩
    · simp only [List.length_append, hl1, hl2, List.length_drop]; omega
    · exact List.take_left' hl1
    · rw [← List.append_assoc]
      exact List.drop_left' (by rw [List.length_append, hl1, hl2]; omega)
    · rw [List.drop_left' hl1]
      exact List.take_left' hl2
  · rw [if_neg hc] at h
    cases h

theorem slice_eq_of_take_eq {a b : List Nat} {lo s c : Nat} (h : a.take lo = b.take lo)
    (hs : s + c ≤ lo) : (a.drop s).take c = (b.drop s).take c := by
  apply List.ext_getElem?
  intro j
  by_cases hj : j < c
  · rw [List.getElem?_take_of_lt hj, List.getElem?_take_of_lt hj, List.getElem?_drop,
      List.getElem?_drop]
    have h1 : (a.take lo)[s + j]? = (b.take lo)[s + j]? := by rw [h]
    rwa [List.getElem?_take_of_lt (by omega), List.getElem?_take_of_lt (by omega)] at h1
  · rw [List.getElem?_take_eq_none (by omega), List.getElem?_take_eq_none (by omega)]

theorem slice_eq_of_drop_eq {a b : List Nat} {lo s : Nat} (c : Nat) (h : a.drop lo = b.drop lo)
    (hs : lo ≤ s) : (a.drop s).take c = (b.drop s).take c := by
  have e : s = lo + (s - lo) := by omega
  rw [e, ← List.drop_drop, ← List.drop_drop, h]

theorem drop_eq_of_drop_eq {a b : List Nat} {lo s : Nat} (h : a.drop lo = b.drop lo)
    (hs : lo ≤ s) : a.drop s = b.drop s := by
  have e : s = lo + (s - lo) := by omega
  rw [e, ← List.drop_drop, ← List.drop_drop, h]

theorem mono_chain (o : Nat → Nat) (i : Nat) (h : ∀ j, j < i → o j ≤ o (j + 1)) :
    ∀ a b, a ≤ b → b ≤ i → o a ≤ o b := by
  intro a b hab
  induction hab with
  | refl => intro _; exact le_refl _
  | step hle ih =>
    intro hb
    exact le_trans (ih (by omega)) (h _ (by omega))


theorem getD_eq_of_getElem? {l : List Nat} {i x : Nat} (h : l[i]? = some x) : l.getD i 0 = x := by
  simp [List.getD, h]

theorem sortStep_inv (offs nb0 : List Nat) (i : Nat) (nb nb' : List Nat)
    (h : SortInv offs nb0 i nb) (hstep : sortStep offs nb i = some nb') :
    SortInv offs nb0 (i + 1) nb' := by
  simp only [sortStep, Option.bind_eq_bind, Option.bind_eq_some] at hstep
  obtain ⟨lo, hlo, hi, hhi, hsort⟩ := hstep
  obtain ⟨hle, hbound, hlen, htake, hdrop, hslice⟩ := sortRange_some hsort
  have elo : offs.getD i 0 = lo := getD_eq_of_getElem? hlo
  have ehi : offs.getD (i + 1) 0 = hi := getD_eq_of_getElem? hhi
  have hrest := h.rest
  rw [elo] at hrest
  constructor
  · rw [hlen, h.length]
  · intro j hj _
    have := (List.getElem?_eq_some_iff.1 hhi).1
    omega
  · intro j hj
    by_cases hji : j = i
    · subst hji; rw [elo, ehi]; exact hle
    · exact h.mono j (by omega)
  · intro _
    rw [ehi, ← h.length]; exact hbound
  · rw [ehi, hdrop]
    exact drop_eq_of_drop_eq hrest hle
  · intro v hv
    by_cases hvi : v = i
    · subst hvi
      unfold sliceOf
      rw [elo, ehi, hslice]
      exact List.sorted_insertionSort _ _
    · have hv' : v < i := by omega
      have hchain := mono_chain (fun j => offs.getD j 0) i h.mono
      have h1 : offs.getD v 0 ≤ offs.getD (v + 1) 0 := h.mono v hv'
      have h2 : offs.getD (v + 1) 0 ≤ lo := by rw [← elo]; exact hchain (v + 1) i (by omega) (le_refl _)
      have : sliceOf offs nb' v = sliceOf offs nb v := by
        unfold sliceOf
        exact slice_eq_of_take_eq htake (by omega)
      rw [this]
      exact h.sorted v hv'
  · intro v hv
    by_cases hvi : v = i
    · subst hvi
      unfold sliceOf
      rw [elo, ehi, hslice, slice_eq_of_drop_eq (hi - lo) hrest (le_refl _)]
      exact List.perm_insertionSort _ _
    · have hv' : v < i := by omega
      have hchain := mono_chain (fun j => offs.getD j 0) i h.mono
      have h1 : offs.getD v 0 ≤ offs.getD (v + 1) 0 := h.mono v hv'
      have h2 : offs.getD (v + 1) 0 ≤ lo := by rw [← elo]; exact hchain (v + 1) i (by omega) (le_refl _)
      have : sliceOf offs nb' v = sliceOf offs nb v := by
        unfold sliceOf
        exact slice_eq_of_take_eq htake (by omega)
      rw [this]
      exact h.perm v hv'

theorem sortInv_zero (offs nb0 : List Nat) : SortInv offs nb0 0 nb0 where
  length := rfl
  defined := fun j _ h => absurd h (Nat.lt_irrefl 0)
  mono := fun j h => absurd h (Nat.not_lt_zero _)
  bound := fun h => absurd h (Nat.lt_irrefl 0)
  rest := rfl
  sorted := fun v h => absurd h (Nat.not_lt_zero _)
  perm := fun v h => absurd h (Nat.not_lt_zero _)

/-- Partial correctness of the sorting loop, for arbitrary offsets. -/
theorem sortLoop_inv {offs nb0 nb : List Nat} {n : Nat}
    (h : (List.range n).foldlM (sortStep offs) nb0 = some nb) : SortInv offs nb0 n nb :=
  foldlM_range_partial (sortStep offs) (SortInv offs nb0) n nb0 (sortInv_zero offs nb0)
    (fun i _ s s' hs hstep => sortStep_inv offs nb0 i s s' hs hstep) h

/-- Total correctness of the sorting loop on non-decreasing offsets that stay
inside the array. -/
theorem sortLoop_total (offs nb0 : List Nat) (n : Nat) (hlen : n < offs.length)
    (hmono : ∀ j, j < n → offs.getD j 0 ≤ offs.getD (j + 1) 0)
    (hbound : offs.getD n 0 ≤ nb0.length) :
    ∃ nb, (List.range n).foldlM (sortStep offs) nb0 = some nb ∧ SortInv offs nb0 n nb := by
  refine foldlM_range_total (sortStep offs) (SortInv offs nb0) n nb0 (sortInv_zero offs nb0) ?_
  intro i hi s hs
  have h1 : i < offs.length := by omega
  have h2 : i + 1 < offs.length := by omega
  have hchain := mono_chain (fun j => offs.getD j 0) n hmono
  have e1 : offs.getD i 0 = offs[i] := by simp [List.getD, List.getElem?_eq_getElem h1]
  have e2 : offs.getD (i + 1) 0 = offs[i + 1] := by simp [List.getD, List.getElem?_eq_getElem h2]
  have hle : offs[i] ≤ offs[i + 1] := by rw [← e1, ← e2]; exact hmono i hi
  have hb : offs[i + 1] ≤ s.length := by
    rw [hs.length, ← e2]; exact le_trans (hchain (i + 1) n (by omega) (le_refl _)) hbound
  have hdef : sortStep offs s i = some (s.take offs[i] ++
      (((s.drop offs[i]).take (offs[i + 1] - offs[i])).insertionSort (fun x y => x ≤ y) ++
        s.drop offs[i + 1])) := by
    simp only [sortStep, List.getElem?_eq_getElem h1, List.getElem?_eq_getElem h2,
      Option.bind_eq_bind, Option.some_bind, sortRange]
    rw [if_pos ⟨hle, hb⟩]
  exact ⟨_, hdef, sortStep_inv offs nb0 i s _ hs hdef⟩


/-! ## The text loader as a whole -/

theorem loadRecords_count_lt {junk : Nat → Nat} {g : Graph} {file : TextFile} {st : TextState}
    (hn : file.vertices_count < UI_SIZE) (h : loadRecords junk g file = some st) :
    file.vertices_count + 1 < UI_SIZE := by
  simp only [loadRecords, Option.bind_eq_bind, Option.bind_eq_some, writeAt_some_iff] at h
  obtain ⟨offs, ⟨h0, _⟩, _⟩ := h
  rw [length_newArray] at h0
  unfold wrap at h0
  unfold UI_SIZE at *
  omega

theorem loadGraphFromFile_some {junk : Nat → Nat} {g g' : Graph} {file : TextFile}
    (h : loadGraphFromFile junk g file = some g') :
    ∃ st nb, loadRecords junk g file = some st ∧
      (List.range st.g.vertices_count_).foldlM (sortStep st.g.offsets_) st.g.neighbors_ = some nb ∧
      BuildReverseIndex junk { st.g with
        labels_count_ := labelsCount st.g.labels_frequency_ st.max_label_id,
        max_label_frequency_ := maxFrequency st.g.labels_frequency_ st.g.max_label_frequency_,
        neighbors_ := nb } = some g' := by
  simp only [loadGraphFromFile, Option.bind_eq_bind, Option.bind_eq_some] at h
  obtain ⟨st, hst, nb, hnb, hg⟩ := h
  exact ⟨st, nb, hst, hnb, hg⟩

theorem sum_take_lt_of_mono (degs : List Nat) (hd : ∀ d ∈ degs, d < UI_SIZE)
    (hmono : ∀ j, j < degs.length → wrap ((degs.take j).sum) ≤ wrap ((degs.take (j + 1)).sum)) :
    ∀ j, j ≤ degs.length → (degs.take j).sum < UI_SIZE := by
  intro j
  induction j with
  | zero => intro _; simp [UI_SIZE]
  | succ j ih =>
    intro hj
    have hj' : j < degs.length := by omega
    have ih' := ih (by omega)
    have hm := hmono j hj'
    have hdj := hd degs[j] (List.getElem_mem hj')
    rw [List.sum_take_succ degs j hj'] at hm ⊢
    unfold wrap at hm
    unfold UI_SIZE at *
    omega

theorem sum_map_indicator (a n : Nat) :
    ((List.range n).map (fun v => if a = v then 1 else 0)).sum = if a < n then 1 else 0 := by
  induction n with
  | zero => simp
  | succ n ih =>
    rw [List.range_succ, List.map_append, List.sum_append, ih]
    by_cases h1 : a < n
    · have h3 : ¬ a = n := by omega
      have h4 : a < n + 1 := by omega
      simp [h1, h3, h4]
    · by_cases h2 : a = n
      · subst h2; simp
      · have : ¬ a < n + 1 := by omega
        simp [h1, h2, this]

theorem sum_endpointCount (n : Nat) (edges : List (Nat × Nat))
    (h : ∀ e ∈ edges, e.1 < n ∧ e.2 < n) :
    ((List.range n).map (endpointCount edges)).sum = 2 * edges.length := by
  induction edges with
  | nil =>
    have : endpointCount [] = fun _ => 0 := by
      funext v; simp [endpointCount]
    simp [this]
  | cons e es ih =>
    have hes := ih (fun x hx => h x (List.mem_cons_of_mem _ hx))
    obtain ⟨h1, h2⟩ := h e (List.mem_cons_self _ _)
    have key : ∀ v, endpointCount (e :: es) v =
        ((if e.1 = v then 1 else 0) + (if e.2 = v then 1 else 0)) + endpointCount es v := by
      intro v
      simp only [endpointCount, List.countP_cons, decide_eq_true_eq]
      omega
    have e1 : (List.range n).map (endpointCount (e :: es)) =
        (List.range n).map (fun v => ((if e.1 = v then 1 else 0) + (if e.2 = v then 1 else 0)) +
          endpointCount es v) := List.map_congr_left (fun v _ => key v)
    rw [e1, List.sum_map_add, List.sum_map_add, sum_map_indicator, sum_map_indicator, hes,
      if_pos h1, if_pos h2, List.length_cons]
    omega


theorem mem_declaredDegrees {rs : List Record} {d : Nat} (h : d ∈ declaredDegrees rs) :
    ∃ id label, Record.v id label d ∈ rs := by
  induction rs with
  | nil => simp [declaredDegrees, vertexRecords] at h
  | cons r rs ih =>
    cases r with
    | v id label degree =>
      simp only [declaredDegrees, vertexRecords, List.map_cons, List.mem_cons] at h
      rcases h with rfl | h
      · exact ⟨id, label, List.mem_cons_self _ _⟩
      · obtain ⟨i, l, hm⟩ := ih h
        exact ⟨i, l, List.mem_cons_of_mem _ hm⟩
    | e b e =>
      obtain ⟨i, l, hm⟩ := ih h
      exact ⟨i, l, List.mem_cons_of_mem _ hm⟩

theorem declaredDegrees_lt {file : TextFile} (hr : file.InRange) :
    ∀ d ∈ declaredDegrees file.records, d < UI_SIZE := by
  intro d hd
  obtain ⟨id, label, hm⟩ := mem_declaredDegrees hd
  exact (hr.2.2 _ hm).2.2

theorem length_declaredDegrees {file : TextFile} (hord : file.VerticesInOrder) :
    (declaredDegrees file.records).length = file.vertices_count := by
  have := congrArg List.length hord
  simpa [vertexIds, declaredDegrees] using this

/-- Offsets and degrees that the text loader produces from vertex records in
increasing id order: the prefix sums of the declared degrees, without wrap. -/
theorem loadGraphFromFile_offsets_eq {junk : Nat → Nat} {g g' : Graph} {file : TextFile}
    (hr : file.InRange) (hord : file.VerticesInOrder)
    (h : loadGraphFromFile junk g file = some g') :
    g'.vertices_count_ = file.vertices_count ∧ g'.edges_count_ = file.edges_count ∧
    file.vertices_count + 1 < UI_SIZE ∧
    (declaredDegrees file.records).sum < UI_SIZE ∧
    (∀ j, j ≤ file.vertices_count →
      g'.offsets_[j]? = some (((declaredDegrees file.records).take j).sum)) ∧
    (∀ v, v < file.vertices_count →
      g'.getVertexDegree v = (declaredDegrees file.records)[v]?) := by
  obtain ⟨st, nb, hst, hnb, hbri⟩ := loadGraphFromFile_some h
  have hn1 := loadRecords_count_lt hr.1 hst
  obtain ⟨hV, hF⟩ := loadRecords_vertex_inv junk g file hn1 hord hst
  obtain ⟨fn, fm, _, _, _, foff, _, _, _, _, _⟩ := BuildReverseIndex_frame hbri
  have hlen := length_declaredDegrees hord
  have hvl : (vertexRecords file.records).length = file.vertices_count := by
    simpa [declaredDegrees] using hlen
  rw [hV.vertices_count] at hnb
  have hS := sortLoop_inv hnb
  have hoff : ∀ j, j ≤ file.vertices_count →
      st.g.offsets_[j]? = some (wrap (((declaredDegrees file.records).take j).sum)) :=
    fun j hj => hV.offsets j (by rw [hvl]; exact hj)
  have hlt := sum_take_lt_of_mono (declaredDegrees file.records) (declaredDegrees_lt hr)
    (by
      intro j hj
      rw [hlen] at hj
      have := hS.mono j hj
      rwa [getD_eq_of_getElem? (hoff j (by omega)), getD_eq_of_getElem? (hoff (j + 1) (by omega))]
        at this)
  have hoff2 : ∀ j, j ≤ file.vertices_count →
      g'.offsets_[j]? = some (((declaredDegrees file.records).take j).sum) := by
    intro j hj
    rw [foff]
    show st.g.offsets_[j]? = _
    rw [hoff j hj, wrap_of_lt (hlt j (by rw [hlen]; exact hj))]
  refine ⟨fn.trans hV.vertices_count, fm.trans hF.1, hn1, ?_, hoff2, ?_⟩
  · have := hlt file.vertices_count (by rw [hlen])
    rwa [← hlen, List.take_length] at this
  · intro v hv
    have hw : wrap (v + 1) = v + 1 := wrap_of_lt (by omega)
    have hv' : v < (declaredDegrees file.records).length := by rw [hlen]; exact hv
    simp only [getVertexDegree, hw, hoff2 v (by omega), hoff2 (v + 1) (by omega),
      Option.bind_eq_bind, Option.some_bind]
    rw [List.sum_take_succ _ v hv', List.getElem?_eq_getElem hv']
    have h1 := hlt (v + 1) (by omega)
    rw [List.sum_take_succ _ v hv'] at h1
    rw [uiSub_of_le (by omega) h1]
    simp

theorem pathFile_inRange : pathFile.InRange := by
  refine ⟨by decide, by decide, ?_⟩
  intro r hr
  simp only [pathFile, List.mem_cons, List.mem_singleton, List.not_mem_nil, or_false] at hr
  rcases hr with rfl | rfl | rfl | rfl | rfl <;> decide

theorem pathFile_inOrder : pathFile.VerticesInOrder := by
  unfold TextFile.VerticesInOrder
  decide

theorem pathFile_degreesMatch : pathFile.DegreesMatch := by
  refine ⟨by decide, by decide, by decide⟩

theorem pathFile_loads : loadGraphFromFile (fun _ => 0) Graph.new pathFile = some pathLoaded := by
  decide



/-! ## Counting labels -/

theorem countLabel_none {m : List (Nat × Nat)} {label : Nat} (a : Nat)
    (h : mapFind m label = none) :
    countLabel (m, a) label =
      (mapSet (mapSet m label 0) label (wrap (0 + 1)), if label > a then label else a) := by
  have h2 : mapFind (mapSet m label 0) label = some 0 := by rw [mapFind_mapSet]; simp
  simp only [countLabel, h, mapAccess, h2]

theorem countLabel_some {m : List (Nat × Nat)} {label x : Nat} (a : Nat)
    (h : mapFind m label = some x) :
    countLabel (m, a) label = (mapSet m label (wrap (x + 1)), a) := by
  simp only [countLabel, h, mapAccess]

theorem freqOf_countLabel (m : List (Nat × Nat)) (a label l : Nat) :
    freqOf (countLabel (m, a) label).1 l =
      if label = l then wrap (freqOf m l + 1) else freqOf m l := by
  cases h : mapFind m label with
  | none =>
    rw [countLabel_none a h]
    simp only [freqOf_mapSet]
    by_cases hl : label = l
    · subst hl; simp [freqOf, h]
    · simp [hl]
  | some x =>
    rw [countLabel_some a h]
    simp only [freqOf_mapSet]
    by_cases hl : label = l
    · subst hl; simp [freqOf, h]
    · simp [hl]

theorem freqOf_foldl_countLabel (labels : List Nat) (l : Nat) :
    ∀ (m : List (Nat × Nat)) (a : Nat), freqOf m l + labels.count l < UI_SIZE →
      freqOf (labels.foldl countLabel (m, a)).1 l = freqOf m l + labels.count l := by
  induction labels with
  | nil => intro m a _; simp
  | cons x xs ih =>
    intro m a hlt
    rw [List.foldl_cons]
    have hc : (x :: xs).count l = xs.count l + if x = l then 1 else 0 := by
      rw [List.count_cons]; simp
    rw [hc] at hlt ⊢
    have hstep := freqOf_countLabel m a x l
    have e : countLabel (m, a) x = ((countLabel (m, a) x).1, (countLabel (m, a) x).2) := rfl
    rw [e, ih]
    · rw [hstep]
      by_cases hx : x = l
      · simp only [hx, if_true] at hlt ⊢
        rw [wrap_of_lt (by omega)]; omega
      · simp only [hx, if_false] at hlt ⊢
        omega
    · rw [hstep]
      by_cases hx : x = l
      · simp only [hx, if_true] at hlt ⊢
        rw [wrap_of_lt (by omega)]; omega
      · simp only [hx, if_false] at hlt ⊢
        omega

/-- Keys of a frequency map. -/
theorem keys_mapSet (m : List (Nat × Nat)) (k x : Nat) :
    (mapSet m k x).map (fun p => p.1) =
      if mapFind m k = none then m.map (fun p => p.1) ++ [k] else m.map (fun p => p.1) := by
  induction m with
  | nil => simp [mapSet, mapFind]
  | cons p m ih =>
    obtain ⟨a, b⟩ := p
    by_cases hak : a = k
    · subst hak; simp [mapSet, mapFind]
    · simp only [mapSet, mapFind, hak, if_false, List.map_cons, ih]
      by_cases hf : mapFind m k = none <;> simp [hf]

theorem mapFind_eq_none_iff (m : List (Nat × Nat)) (k : Nat) :
    mapFind m k = none ↔ k ∉ m.map (fun p => p.1) := by
  induction m with
  | nil => simp [mapFind]
  | cons p m ih =>
    obtain ⟨a, b⟩ := p
    by_cases hak : a = k
    · subst hak; simp [mapFind]
    · simp only [mapFind, hak, if_false, ih, List.map_cons, List.mem_cons]
      constructor
      · intro h hc
        rcases hc with hc | hc
        · exact hak hc.symm
        · exact h hc
      · intro h hc
        exact h (Or.inr hc)

theorem nodup_keys_mapSet (m : List (Nat × Nat)) (k x : Nat)
    (h : (m.map (fun p => p.1)).Nodup) : ((mapSet m k x).map (fun p => p.1)).Nodup := by
  rw [keys_mapSet]
  by_cases hf : mapFind m k = none
  · rw [if_pos hf]
    rw [List.nodup_append]
    refine ⟨h, List.nodup_singleton _, ?_⟩
    intro a ha hb
    simp only [List.mem_singleton] at hb
    subst hb
    exact (mapFind_eq_none_iff m a).1 hf ha
  · rw [if_neg hf]; exact h

theorem nodup_keys_countLabel (m : List (Nat × Nat)) (a label : Nat)
    (h : (m.map (fun p => p.1)).Nodup) :
    ((countLabel (m, a) label).1.map (fun p => p.1)).Nodup := by
  cases hf : mapFind m label with
  | none =>
    rw [countLabel_none a hf]
    exact nodup_keys_mapSet _ _ _ (nodup_keys_mapSet _ _ _ h)
  | some x =>
    rw [countLabel_some a hf]
    exact nodup_keys_mapSet _ _ _ h

theorem nodup_keys_foldl_countLabel (labels : List Nat) :
    ∀ (m : List (Nat × Nat)) (a : Nat), (m.map (fun p => p.1)).Nodup →
      ((labels.foldl countLabel (m, a)).1.map (fun p => p.1)).Nodup := by
  induction labels with
  | nil => intro m a h; exact h
  | cons x xs ih =>
    intro m a h
    rw [List.foldl_cons]
    exact ih _ _ (nodup_keys_countLabel m a x h)

theorem mapFind_of_mem (m : List (Nat × Nat)) (h : (m.map (fun p => p.1)).Nodup) {k x : Nat}
    (hm : (k, x) ∈ m) : mapFind m k = some x := by
  induction m with
  | nil => cases hm
  | cons p m ih =>
    obtain ⟨a, b⟩ := p
    simp only [List.map_cons, List.nodup_cons] at h
    rcases List.mem_cons.1 hm with heq | hmem
    · cases heq; simp [mapFind]
    · have hak : a ≠ k := by
        intro hc
        subst hc
        exact h.1 (List.mem_map.2 ⟨(a, x), hmem, rfl⟩)
      simp only [mapFind, hak, if_false]
      exact ih h.2 hmem

theorem mem_of_mapFind (m : List (Nat × Nat)) {k x : Nat} (h : mapFind m k = some x) : (k, x) ∈ m := by
  induction m with
  | nil => simp [mapFind] at h
  | cons p m ih =>
    obtain ⟨a, b⟩ := p
    by_cases hak : a = k
    · subst hak
      simp only [mapFind, if_true, Option.some.injEq] at h
      subst h
      exact List.mem_cons_self _ _
    · simp only [mapFind, hak, if_false] at h
      exact List.mem_cons_of_mem _ (ih h)

/-! ## The largest frequency -/

theorem maxFrequency_spec (m : List (Nat × Nat)) :
    ∀ s, s ≤ maxFrequency m s ∧ (∀ e ∈ m, e.2 ≤ maxFrequency m s) ∧
      (maxFrequency m s = s ∨ ∃ e ∈ m, e.2 = maxFrequency m s) := by
  induction m with
  | nil => intro s; simp [maxFrequency]
  | cons p m ih =>
    intro s
    have hrec := ih (if p.2 > s then p.2 else s)
    have hdef : maxFrequency (p :: m) s = maxFrequency m (if p.2 > s then p.2 else s) := rfl
    rw [hdef]
    obtain ⟨h1, h2, h3⟩ := hrec
    by_cases hp : p.2 > s
    · simp only [if_pos hp] at h1 h2 h3 ⊢
      refine ⟨by omega, ?_, ?_⟩
      · intro e he
        rcases List.mem_cons.1 he with rfl | he
        · exact h1
        · exact h2 e he
      · rcases h3 with h3 | ⟨e, he, h3⟩
        · exact Or.inr ⟨p, List.mem_cons_self _ _, h3.symm⟩
        · exact Or.inr ⟨e, List.mem_cons_of_mem _ he, h3⟩
    · simp only [if_neg hp] at h1 h2 h3 ⊢
      refine ⟨h1, ?_, ?_⟩
      · intro e he
        rcases List.mem_cons.1 he with rfl | he
        · omega
        · exact h2 e he
      · rcases h3 with h3 | ⟨e, he, h3⟩
        · exact Or.inl h3
        · exact Or.inr ⟨e, List.mem_cons_of_mem _ he, h3⟩

theorem maxFrequency_zero_spec (m : List (Nat × Nat)) (h : (m.map (fun p => p.1)).Nodup) :
    (∀ l, freqOf m l ≤ maxFrequency m 0) ∧ ∃ l, freqOf m l = maxFrequency m 0 := by
  obtain ⟨_, h2, h3⟩ := maxFrequency_spec m 0
  have hle : ∀ l, freqOf m l ≤ maxFrequency m 0 := by
    intro l
    unfold freqOf
    cases hf : mapFind m l with
    | none => exact Nat.zero_le _
    | some x => exact h2 (l, x) (mem_of_mapFind m hf)
  refine ⟨hle, ?_⟩
  rcases h3 with h3 | ⟨e, he, h3⟩
  · exact ⟨0, by have := hle 0; omega⟩
  · refine ⟨e.1, ?_⟩
    unfold freqOf
    rw [mapFind_of_mem m h he]
    exact h3


/-! ## The compressed loader as a whole -/

theorem writeBlock_some {a b words : List Nat} {start : Nat} (h : writeBlock a start words = some b) :
    start + words.length ≤ a.length ∧ b.length = a.length ∧ b.take start = a.take start ∧
      (b.drop start).take words.length = words ∧
      b.drop (start + words.length) = a.drop (start + words.length) := by
  unfold writeBlock at h
  by_cases hc : start + words.length ≤ a.length
  · rw [if_pos hc] at h
    simp only [Option.some.injEq] at h
    subst h
    have hl1 : (a.take start).length = start := by rw [List.length_take]; omega
    refine ⟨hc, ?_, List.take_left' hl1, ?_, ?_⟩
    · simp only [List.length_append, hl1, List.length_drop]; omega
    · rw [List.drop_left' hl1]; exact List.take_left' rfl
    · rw [← List.append_assoc]
      exact List.drop_left' (by rw [List.length_append, hl1])
  · rw [if_neg hc] at h; cases h

theorem loadGraphFromFileCompressed_some {junk : Nat → Nat} {g g' : Graph} {file : Streams}
    (h : loadGraphFromFileCompressed junk g file = some g') :
    ∃ degrees offs0 offs st labels fr,
      writeBlock (newArray junk (file.vertexCount g)) 0
        ((file.degree.drop 3).take (file.vertexCount g)) = some degrees ∧
      writeAt (newArray junk (wrap (file.vertexCount g + 1))) 0 0 = some offs0 ∧
      (List.range (file.vertexCount g)).foldlM (prefixStep degrees) offs0 = some offs ∧
      (List.range (file.vertexCount g)).foldlM (adjacencyStep degrees offs)
        (newArray junk (file.edgeCount g * 2), file.edge, 0) = some st ∧
      writeBlock (newArray junk (file.vertexCount g)) 0 (file.label.take (file.vertexCount g)) =
        some labels ∧
      (List.range (file.vertexCount g)).foldlM (labelStep labels) (g.labels_frequency_, 0) = some fr ∧
      BuildReverseIndex junk { g with
        vertices_count_ := file.vertexCount g, edges_count_ := file.edgeCount g, offsets_ := offs,
        neighbors_ := st.1, max_degree_ := st.2.2, labels_ := labels, labels_frequency_ := fr.1,
        labels_count_ := labelsCount fr.1 fr.2,
        max_label_frequency_ := maxFrequency fr.1 g.max_label_frequency_ } = some g' := by
  simp only [loadGraphFromFileCompressed, Option.bind_eq_bind, Option.bind_eq_some] at h
  obtain ⟨degrees, hd, offs0, ho0, offs, ho, st, hst, labels, hl, fr, hfr, hg⟩ := h
  exact ⟨degrees, offs0, offs, st, labels, fr, hd, ho0, ho, hst, hl, hfr, hg⟩

theorem prefixStep_some {degrees offs offs' : List Nat} {k : Nat}
    (h : prefixStep degrees offs k = some offs') :
    ∃ prev d, offs[k]? = some prev ∧ degrees[k]? = some d ∧ k + 1 < offs.length ∧
      offs' = offs.set (k + 1) (wrap (prev + d)) := by
  simp only [prefixStep, Option.bind_eq_bind, Option.bind_eq_some, writeAt_some_iff] at h
  obtain ⟨prev, hp, d, hd, hlt, rfl⟩ := h
  exact ⟨prev, d, hp, hd, hlt, rfl⟩

/-- Invariant of the prefix-sum loop of the compressed loader. -/
theorem prefixLoop_inv {degrees offs0 offs : List Nat} {n : Nat} (h0 : offs0[0]? = some 0)
    (h : (List.range n).foldlM (prefixStep degrees) offs0 = some offs) :
    offs.length = offs0.length ∧ (0 < n → n < offs.length) ∧ offs[0]? = some 0 ∧
      ∀ k, k < n → ∃ prev d, offs[k]? = some prev ∧ degrees[k]? = some d ∧
        offs[k + 1]? = some (wrap (prev + d)) := by
  refine foldlM_range_partial (prefixStep degrees)
    (fun i s => s.length = offs0.length ∧ (0 < i → i < s.length) ∧ s[0]? = some 0 ∧
      ∀ k, k < i → ∃ prev d, s[k]? = some prev ∧ degrees[k]? = some d ∧
        s[k + 1]? = some (wrap (prev + d)))
    n offs0 ⟨rfl, fun h => absurd h (Nat.lt_irrefl 0), h0, fun k hk => absurd hk (Nat.not_lt_zero _)⟩
    ?_ h
  intro i _ s s' ⟨hlen, _, hz, hprev⟩ hstep
  obtain ⟨prev, d, hp, hd, hlt, rfl⟩ := prefixStep_some hstep
  refine ⟨by simp [hlen], fun _ => by simpa using hlt, ?_, ?_⟩
  · rw [List.getElem?_set_ne (by omega)]; exact hz
  · intro k hk
    by_cases hki : k = i
    · subst hki
      refine ⟨prev, d, ?_, hd, ?_⟩
      · rw [List.getElem?_set_ne (by omega)]; exact hp
      · rw [List.getElem?_set_self hlt]
    · obtain ⟨p2, d2, h1, h2, h3⟩ := hprev k (by omega)
      refine ⟨p2, d2, ?_, h2, ?_⟩
      · rw [List.getElem?_set_ne (by omega)]; exact h1
      · rw [List.getElem?_set_ne (by omega)]; exact h3

/-- The label loop of the compressed loader folds `countLabel` over the labels. -/
theorem labelLoop_eq {labels : List Nat} {n : Nat} {st fr : List (Nat × Nat) × Nat}
    (h : (List.range n).foldlM (labelStep labels) st = some fr) :
    n ≤ labels.length ∧ fr = (labels.take n).foldl countLabel st := by
  refine foldlM_range_partial (labelStep labels)
    (fun i s => i ≤ labels.length ∧ s = (labels.take i).foldl countLabel st) n st
    ⟨Nat.zero_le _, rfl⟩ ?_ h
  intro i _ s s' ⟨_, hs⟩ hstep
  simp only [labelStep, Option.bind_eq_bind, Option.bind_eq_some, Option.pure_def,
    Option.some.injEq] at hstep
  obtain ⟨label, hl, rfl⟩ := hstep
  have hi := (List.getElem?_eq_some_iff.1 hl).1
  refine ⟨hi, ?_⟩
  rw [List.take_succ, hl, List.foldl_append, ← hs]
  rfl

theorem loadGraphFromFileCompressed_count_lt {junk : Nat → Nat} {g g' : Graph} {file : Streams}
    (h : loadGraphFromFileCompressed junk g file = some g') :
    file.vertexCount g + 1 < UI_SIZE := by
  obtain ⟨degrees, offs0, offs, st, labels, fr, _, ho0, ho, _⟩ := loadGraphFromFileCompressed_some h
  obtain ⟨hlt0, rfl⟩ := writeAt_some_iff.1 ho0
  have hinv := prefixLoop_inv (List.getElem?_set_self hlt0) ho
  rw [length_newArray] at hlt0
  have h1 := hinv.2.1
  rw [hinv.1] at h1
  simp only [List.length_set, length_newArray] at h1
  unfold wrap at h1 hlt0
  unfold UI_SIZE
  by_cases hn : 0 < file.vertexCount g
  · have := h1 hn
    omega
  · omega

/-- Frequencies obtained by counting a label array from the empty map. -/
theorem frequencies_of_labels (L : List Nat) (hL : L.length < UI_SIZE) :
    (∀ l, freqOf (L.foldl countLabel ([], 0)).1 l = L.count l) ∧
    (∀ l, freqOf (L.foldl countLabel ([], 0)).1 l ≤ maxFrequency (L.foldl countLabel ([], 0)).1 0) ∧
    ∃ l, freqOf (L.foldl countLabel ([], 0)).1 l = maxFrequency (L.foldl countLabel ([], 0)).1 0 := by
  have hnd := nodup_keys_foldl_countLabel L [] 0 (by simp)
  obtain ⟨h1, h2⟩ := maxFrequency_zero_spec _ hnd
  refine ⟨?_, h1, h2⟩
  intro l
  have hc : L.count l ≤ L.length := List.count_le_length _ _
  rw [freqOf_foldl_countLabel L l [] 0 (by simp [freqOf, mapFind]; omega)]
  simp [freqOf, mapFind]

theorem frequenciesExact_of {g : Graph} {L : List Nat} (hlen : g.labels_.length = g.vertices_count_)
    (hL : g.labels_ = L) (hn : g.vertices_count_ < UI_SIZE)
    (hf : ∀ l, g.getLabelsFrequency l = freqOf (L.foldl countLabel ([], 0)).1 l)
    (hm : g.max_label_frequency_ = maxFrequency (L.foldl countLabel ([], 0)).1 0) :
    g.FrequenciesExact := by
  subst hL
  obtain ⟨h1, h2, l0, h3⟩ := frequencies_of_labels g.labels_ (by rw [hlen]; exact hn)
  have hvl : ∀ l, g.verticesLabelled l = g.labels_.count l := by
    intro l
    have := length_verticesWithLabel g.labels_ l
    unfold verticesWithLabel at this
    rw [hlen] at this
    exact this
  refine ⟨fun l => by rw [hf, h1, hvl], fun l => ?_, l0, ?_⟩
  · show g.getLabelsFrequency l ≤ g.max_label_frequency_
    rw [hf, hm]; exact h2 l
  · show g.getLabelsFrequency l0 = g.max_label_frequency_
    rw [hf, hm]; exact h3


theorem length_declaredLabels {file : TextFile} (hord : file.VerticesInOrder) :
    (declaredLabels file.records).length = file.vertices_count := by
  have := congrArg List.length hord
  simpa [vertexIds, declaredLabels] using this

/-- Labels stored by the text loader: the declared ones, in id order. -/
theorem loadRecords_labels {junk : Nat → Nat} {g : Graph} {file : TextFile} {st : TextState}
    (hn : file.vertices_count + 1 < UI_SIZE) (hord : file.VerticesInOrder)
    (h : loadRecords junk g file = some st) : st.g.labels_ = declaredLabels file.records := by
  obtain ⟨hV, _⟩ := loadRecords_vertex_inv junk g file hn hord h
  have hlen := length_declaredLabels hord
  have hvl : (vertexRecords file.records).length = file.vertices_count := by
    simpa [declaredLabels] using hlen
  apply List.ext_getElem?
  intro j
  by_cases hj : j < file.vertices_count
  · exact hV.labels j (by rw [hvl]; exact hj)
  · rw [List.getElem?_eq_none (by rw [hV.labels_length]; omega),
      List.getElem?_eq_none (by rw [hlen]; omega)]

theorem loadGraphFromFile_frequencies {junk : Nat → Nat} {g' : Graph} {file : TextFile}
    (hr : file.InRange) (hord : file.VerticesInOrder)
    (h : loadGraphFromFile junk Graph.new file = some g') : g'.FrequenciesExact := by
  obtain ⟨st, nb, hst, hnb, hbri⟩ := loadGraphFromFile_some h
  have hn1 := loadRecords_count_lt hr.1 hst
  obtain ⟨hV, _⟩ := loadRecords_vertex_inv junk Graph.new file hn1 hord hst
  have hlab := loadRecords_labels hn1 hord hst
  obtain ⟨fn, _, _, _, fmax, _, _, flab, _, _, ffreq⟩ := BuildReverseIndex_frame hbri
  have hfr : st.g.labels_frequency_ = ((declaredLabels file.records).foldl countLabel ([], 0)).1 := by
    have := congrArg Prod.fst hV.frequency
    exact this
  apply frequenciesExact_of (L := declaredLabels file.records)
  · rw [flab, fn]; show st.g.labels_.length = st.g.vertices_count_
    rw [hV.labels_length, hV.vertices_count]
  · rw [flab]; exact hlab
  · rw [fn]; show st.g.vertices_count_ < UI_SIZE
    rw [hV.vertices_count]; omega
  · intro l
    rw [ffreq l, getLabelsFrequency_eq]
    show freqOf st.g.labels_frequency_ l = _
    rw [hfr]
  · rw [fmax]
    show maxFrequency st.g.labels_frequency_ st.g.max_label_frequency_ = _
    rw [hfr, hV.max_label_frequency]
    rfl

theorem loadGraphFromFileCompressed_frequencies {junk : Nat → Nat} {g' : Graph} {file : Streams}
    (h : loadGraphFromFileCompressed junk Graph.new file = some g') : g'.FrequenciesExact := by
  have hn1 := loadGraphFromFileCompressed_count_lt h
  obtain ⟨degrees, offs0, offs, st, labels, fr, _, _, _, _, hl, hfr, hbri⟩ :=
    loadGraphFromFileCompressed_some h
  obtain ⟨fn, _, _, _, fmax, _, _, flab, _, _, ffreq⟩ := BuildReverseIndex_frame hbri
  obtain ⟨_, hlen, _, _, _⟩ := writeBlock_some hl
  rw [length_newArray] at hlen
  obtain ⟨_, hfold⟩ := labelLoop_eq hfr
  rw [← hlen, List.take_length] at hfold
  apply frequenciesExact_of (L := labels)
  · rw [flab, fn]; exact hlen
  · rw [flab]
  · rw [fn]; show file.vertexCount Graph.new < UI_SIZE
    omega
  · intro l
    rw [ffreq l, getLabelsFrequency_eq]
    show freqOf fr.1 l = _
    rw [hfold]; rfl
  · rw [fmax]
    show maxFrequency fr.1 Graph.new.max_label_frequency_ = _
    rw [hfold]; rfl

/-- The three streams written for `pathLoaded`. -/
theorem pathStreams_load :
    loadGraphFromFileCompressed (fun _ => 0) Graph.new
      { degree := [4, 3, 2, 1, 2, 1], edge := [1, 0, 2, 1], label := [5, 5, 7] } =
      some pathLoaded := by
  decide



/-! ## Reading slices through the accessors -/

theorem getElem?_eq_some_getD {l : List Nat} {i : Nat} (h : i < l.length) :
    l[i]? = some (l.getD i 0) := by
  simp [List.getD, List.getElem?_eq_getElem h]

theorem accessors_of_offsets (g : Graph) (v : Nat) (hv : v + 1 < g.offsets_.length)
    (hw : v + 1 < UI_SIZE) (hle : g.offsets_.getD v 0 ≤ g.offsets_.getD (v + 1) 0)
    (hb : g.offsets_.getD (v + 1) 0 ≤ g.neighbors_.length)
    (hu : g.offsets_.getD (v + 1) 0 < UI_SIZE) :
    g.getVertexNeighbors v = some (sliceOf g.offsets_ g.neighbors_ v) ∧
    g.getVertexDegree v = some (g.offsets_.getD (v + 1) 0 - g.offsets_.getD v 0) := by
  have h1 : g.offsets_[v]? = some (g.offsets_.getD v 0) := getElem?_eq_some_getD (by omega)
  have h2 : g.offsets_[v + 1]? = some (g.offsets_.getD (v + 1) 0) := getElem?_eq_some_getD hv
  have hsub := uiSub_of_le hle hu
  constructor
  · simp only [getVertexNeighbors, wrap_of_lt hw, h1, h2, Option.bind_eq_bind, Option.some_bind,
      hsub, view]
    rw [if_pos (by omega)]
    rfl
  · simp only [getVertexDegree, wrap_of_lt hw, h1, h2, Option.bind_eq_bind, Option.some_bind, hsub]
    rfl

/-! ## Array sizes in the record loop -/

theorem readRecord_lengths {st st' : TextState} {r : Record} (h : readRecord st r = some st') :
    st'.g.offsets_.length = st.g.offsets_.length ∧
    st'.g.neighbors_.length = st.g.neighbors_.length ∧
    st'.g.vertices_count_ = st.g.vertices_count_ := by
  cases r with
  | v id label degree =>
    simp only [readRecord, Option.bind_eq_bind, Option.bind_eq_some, Option.pure_def,
      Option.some.injEq, writeAt_some_iff] at h
    obtain ⟨labels, ⟨_, rfl⟩, base, _, offsets, ⟨_, rfl⟩, rfl⟩ := h
    simp
  | e b e =>
    obtain ⟨nb, hg, hlen, _⟩ := readRecord_edge_frame h
    rw [hg]
    exact ⟨rfl, hlen, rfl⟩

theorem loadRecords_lengths {junk : Nat → Nat} {g : Graph} {file : TextFile} {st : TextState}
    (h : loadRecords junk g file = some st) :
    st.g.offsets_.length = wrap (file.vertices_count + 1) ∧
    st.g.neighbors_.length = wrap (file.edges_count * 2) ∧
    st.g.vertices_count_ = file.vertices_count := by
  simp only [loadRecords, Option.bind_eq_bind, Option.bind_eq_some, writeAt_some_iff] at h
  obtain ⟨offs, ⟨_, rfl⟩, hfold⟩ := h
  refine foldlM_list_partial readRecord
    (fun _ s => s.g.offsets_.length = wrap (file.vertices_count + 1) ∧
      s.g.neighbors_.length = wrap (file.edges_count * 2) ∧
      s.g.vertices_count_ = file.vertices_count)
    file.records _ ⟨by simp [length_newArray], by simp [length_newArray], rfl⟩ ?_ hfold
  intro done x rest _ s s' hs hstep
  obtain ⟨h1, h2, h3⟩ := readRecord_lengths hstep
  exact ⟨h1.trans hs.1, h2.trans hs.2.1, h3.trans hs.2.2⟩

theorem wrap_lt (x : Nat) : wrap x < UI_SIZE := Nat.mod_lt _ (by decide)

/-- Every graph produced by the text loader has ascending slices. -/
theorem loadGraphFromFile_sorted {junk : Nat → Nat} {g g' : Graph} {file : TextFile}
    (h : loadGraphFromFile junk g file = some g') (v : Nat) (hv : v < g'.vertices_count_) :
    ∃ N, g'.getVertexNeighbors v = some N ∧ N.Pairwise (fun a b => a ≤ b) ∧
      N = sliceOf g'.offsets_ g'.neighbors_ v := by
  obtain ⟨st, nb, hst, hnb, hbri⟩ := loadGraphFromFile_some h
  obtain ⟨fn, _, _, _, _, foff, fnb, _, _, _, _⟩ := BuildReverseIndex_frame hbri
  obtain ⟨hlo, hln, _⟩ := loadRecords_lengths hst
  have hS := sortLoop_inv hnb
  have fn' : g'.vertices_count_ = st.g.vertices_count_ := fn
  have hv' : v < st.g.vertices_count_ := by omega
  have hpos : 0 < st.g.vertices_count_ := by omega
  have hchain := mono_chain (fun j => st.g.offsets_.getD j 0) _ hS.mono
  have hdef := hS.defined (v + 1) (by omega) hpos
  have hb1 : st.g.offsets_.getD (v + 1) 0 ≤ st.g.neighbors_.length :=
    le_trans (hchain (v + 1) _ (by omega) (le_refl _)) (hS.bound hpos)
  have hw1 := wrap_lt (file.vertices_count + 1)
  have hw2 := wrap_lt (file.edges_count * 2)
  have foff' : g'.offsets_ = st.g.offsets_ := foff
  have fnb' : g'.neighbors_ = nb := fnb
  have hacc := accessors_of_offsets g' v (by rw [foff']; exact hdef) (by omega)
    (by rw [foff']; exact hS.mono v hv')
    (by rw [foff', fnb', hS.length]; exact hb1)
    (by rw [foff']; omega)
  refine ⟨_, hacc.1, ?_, rfl⟩
  rw [foff', fnb']
  exact hS.sorted v hv'


/-! ## The adjacency loop of the compressed loader -/

theorem adjacencyStep_inv (degrees offs : List Nat) (len n : Nat) (h0 : offs[0]? = some 0)
    (hpre : ∀ k, k < n → ∃ prev d, offs[k]? = some prev ∧ degrees[k]? = some d ∧
      offs[k + 1]? = some (wrap (prev + d)))
    (i : Nat) (hi : i < n) (st st' : List Nat × List Nat × Nat)
    (h : AdjInv offs len i st.1) (hstep : adjacencyStep degrees offs st i = some st') :
    AdjInv offs len (i + 1) st'.1 := by
  obtain ⟨prev, d, hp, hd, hnext⟩ := hpre i hi
  have elo : offs.getD i 0 = prev := getD_eq_of_getElem? hp
  have ehi : offs.getD (i + 1) 0 = wrap (prev + d) := getD_eq_of_getElem? hnext
  have hchain := mono_chain (fun j => offs.getD j 0) i h.mono
  have hprev : prev < UI_SIZE := by
    rcases Nat.eq_zero_or_pos i with rfl | hpos
    · rw [h0] at hp
      cases hp
      decide
    · obtain ⟨p2, d2, _, _, h3⟩ := hpre (i - 1) (by omega)
      have e : i - 1 + 1 = i := by omega
      rw [e, hp] at h3
      cases h3
      exact wrap_lt _
  simp only [adjacencyStep, hd, Option.bind_eq_bind, Option.some_bind] at hstep
  by_cases hdpos : d > 0
  · rw [if_pos hdpos] at hstep
    simp only [hp, hnext, Option.bind_eq_bind, Option.some_bind, Option.bind_eq_some,
      Option.pure_def, Option.some.injEq] at hstep
    obtain ⟨nb1, hw, nb2, hs, rfl⟩ := hstep
    obtain ⟨_, hl1, ht1, _, _⟩ := writeBlock_some hw
    obtain ⟨hle, hbound, hl2, ht2, _, hslice⟩ := sortRange_some hs
    constructor
    · show nb2.length = len
      rw [hl2, hl1]; exact h.length
    · intro j hj
      by_cases hji : j = i
      · subst hji; rw [elo, ehi]; exact hle
      · exact h.mono j (by omega)
    · rw [ehi, ← h.length, ← hl1]; exact hbound
    · intro v hv
      show (sliceOf offs nb2 v).Pairwise _
      by_cases hvi : v = i
      · subst hvi
        unfold sliceOf
        rw [elo, ehi, hslice]
        exact List.sorted_insertionSort _ _
      · have hv' : v < i := by omega
        have h1 : offs.getD v 0 ≤ offs.getD (v + 1) 0 := h.mono v hv'
        have h2 : offs.getD (v + 1) 0 ≤ prev := by
          rw [← elo]; exact hchain (v + 1) i (by omega) (le_refl _)
        have : sliceOf offs nb2 v = sliceOf offs st.1 v := by
          unfold sliceOf
          exact slice_eq_of_take_eq (ht2.trans ht1) (by omega)
        rw [this]
        exact h.sorted v hv'
  · rw [if_neg hdpos] at hstep
    simp only [Option.pure_def, Option.some.injEq] at hstep
    subst hstep
    have hd0 : d = 0 := by omega
    subst hd0
    have ehi' : offs.getD (i + 1) 0 = prev := by
      rw [ehi, Nat.add_zero, wrap_of_lt hprev]
    constructor
    · exact h.length
    · intro j hj
      by_cases hji : j = i
      · subst hji; rw [elo, ehi']
      · exact h.mono j (by omega)
    · rw [ehi', ← elo]; exact h.bound
    · intro v hv
      by_cases hvi : v = i
      · subst hvi
        unfold sliceOf
        rw [elo, ehi']
        simp
      · exact h.sorted v (by omega)

/-- Every graph produced by the compressed loader has ascending slices. -/
theorem loadGraphFromFileCompressed_sorted {junk : Nat → Nat} {g g' : Graph} {file : Streams}
    (h : loadGraphFromFileCompressed junk g file = some g') (v : Nat) (hv : v < g'.vertices_count_) :
    ∃ N, g'.getVertexNeighbors v = some N ∧ N.Pairwise (fun a b => a ≤ b) ∧
      N = sliceOf g'.offsets_ g'.neighbors_ v := by
  have hn1 := loadGraphFromFileCompressed_count_lt h
  obtain ⟨degrees, offs0, offs, st, labels, fr, _, ho0, ho, hst, _, _, hbri⟩ :=
    loadGraphFromFileCompressed_some h
  obtain ⟨fn, _, _, _, _, foff, fnb, _, _, _, _⟩ := BuildReverseIndex_frame hbri
  have fn' : g'.vertices_count_ = file.vertexCount g := fn
  have foff' : g'.offsets_ = offs := foff
  have fnb' : g'.neighbors_ = st.1 := fnb
  obtain ⟨hlt0, rfl⟩ := writeAt_some_iff.1 ho0
  obtain ⟨hlen, hlast, hz, hpre⟩ := prefixLoop_inv (List.getElem?_set_self hlt0) ho
  have hA : AdjInv offs (file.edgeCount g * 2) (file.vertexCount g) st.1 := by
    refine foldlM_range_partial (adjacencyStep degrees offs)
      (fun i s => AdjInv offs (file.edgeCount g * 2) i s.1) (file.vertexCount g)
      (newArray junk (file.edgeCount g * 2), file.edge, 0) ?_ ?_ hst
    · exact ⟨by simp [length_newArray], fun j hj => absurd hj (Nat.not_lt_zero _),
        by rw [getD_eq_of_getElem? hz]; exact Nat.zero_le _,
        fun j hj => absurd hj (Nat.not_lt_zero _)⟩
    · intro i hi s s' hs hstep
      exact adjacencyStep_inv degrees offs _ _ hz hpre i hi s s' hs hstep
  have hv' : v < file.vertexCount g := by omega
  have hchain := mono_chain (fun j => offs.getD j 0) _ hA.mono
  have hb1 : offs.getD (v + 1) 0 ≤ st.1.length := by
    rw [hA.length]
    exact le_trans (hchain (v + 1) _ (by omega) (le_refl _)) hA.bound
  have hu : offs.getD (v + 1) 0 < UI_SIZE := by
    obtain ⟨p, d, _, _, h3⟩ := hpre v hv'
    rw [getD_eq_of_getElem? h3]
    exact wrap_lt _
  have hacc := accessors_of_offsets g' v (by rw [foff']; have := hlast (by omega); omega) (by omega)
    (by rw [foff']; exact hA.mono v hv')
    (by rw [foff', fnb']; exact hb1)
    (by rw [foff']; exact hu)
  refine ⟨_, hacc.1, ?_, rfl⟩
  rw [foff', fnb']
  exact hA.sorted v hv'


/-! ## The record loop: edge records -/

theorem endpointCount_append (a b : List (Nat × Nat)) (v : Nat) :
    endpointCount (a ++ b) v = endpointCount a v + endpointCount b v := by
  simp only [endpointCount, List.countP_append]; omega

theorem endpointCount_single (b e v : Nat) :
    endpointCount [(b, e)] v = (if b = v then 1 else 0) + (if e = v then 1 else 0) := by
  simp [endpointCount, List.countP_cons]

theorem oppositeEndpoints_append (a b : List (Nat × Nat)) (v : Nat) :
    oppositeEndpoints (a ++ b) v = oppositeEndpoints a v ++ oppositeEndpoints b v := by
  induction a with
  | nil => rfl
  | cons p a ih =>
    obtain ⟨x, y⟩ := p
    show oppositeEndpoints ((x, y) :: (a ++ b)) v = _
    simp only [oppositeEndpoints, ih, List.append_assoc]

theorem oppositeEndpoints_single (b e v : Nat) :
    oppositeEndpoints [(b, e)] v = (if b = v then [e] else []) ++ (if e = v then [b] else []) := by
  simp [oppositeEndpoints]

theorem sum_take_succ_le (l : List Nat) (j : Nat) : (l.take j).sum ≤ (l.take (j + 1)).sum := by
  by_cases hj : j < l.length
  · rw [List.sum_take_succ l j hj]; omega
  · rw [List.take_of_length_le (by omega), List.take_of_length_le (by omega)]

theorem sum_take_mono (l : List Nat) {a b : Nat} (h : a ≤ b) : (l.take a).sum ≤ (l.take b).sum :=
  mono_chain (fun j => (l.take j).sum) b (fun j _ => sum_take_succ_le l j) a b h (le_refl _)

theorem getD_of_lt {l : List Nat} {i : Nat} (h : i < l.length) : l.getD i 0 = l[i] := by
  simp [List.getD, List.getElem?_eq_getElem h]

theorem readRecord_edge_step (n : Nat) (degs : List Nat) (s0 : TextState)
    (hdl : degs.length = n) (hlen : s0.g.neighbors_.length = degs.sum) (hsum : degs.sum < UI_SIZE)
    (hoff : ∀ j, j ≤ n → s0.g.offsets_[j]? = some ((degs.take j).sum))
    (done : List (Nat × Nat)) (b e : Nat) (hbe : b ≠ e) (hb : b < n) (he : e < n)
    (hdeg : ∀ v, v < n → endpointCount (done ++ [(b, e)]) v ≤ degs.getD v 0)
    (st : TextState) (h : EdgeInv n degs s0 done st) :
    ∃ st', readRecord st (Record.e b e) = some st' ∧ EdgeInv n degs s0 (done ++ [(b, e)]) st' := by
  have hob : st.g.offsets_[b]? = some ((degs.take b).sum) := by
    rw [h.graph]; exact hoff b (by omega)
  have hoe : st.g.offsets_[e]? = some ((degs.take e).sum) := by
    rw [h.graph]; exact hoff e (by omega)
  have hcb := h.cursor b hb
  have hce := h.cursor e he
  -- room in the two slices
  have hroom : ∀ v, v < n → (degs.take v).sum + degs.getD v 0 = (degs.take (v + 1)).sum := by
    intro v hv
    rw [List.sum_take_succ degs v (by omega), getD_of_lt (by omega)]
  have hend : ∀ v, v ≤ n → (degs.take v).sum ≤ degs.sum := fun v _ => sum_take_le degs v
  have hcntb : endpointCount done b + 1 ≤ degs.getD b 0 := by
    have := hdeg b hb
    rw [endpointCount_append, endpointCount_single] at this
    simp only [if_true] at this
    omega
  have hcnte : endpointCount done e + 1 ≤ degs.getD e 0 := by
    have := hdeg e he
    rw [endpointCount_append, endpointCount_single] at this
    simp only [if_true] at this
    omega
  have hrb := hroom b hb
  have hre := hroom e he
  have hEb := hend (b + 1) (by omega)
  have hEe := hend (e + 1) (by omega)
  have hs1 : (degs.take b).sum + endpointCount done b < st.g.neighbors_.length := by
    rw [h.length, hlen]; omega
  have hs2 : (degs.take e).sum + endpointCount done e < st.g.neighbors_.length := by
    rw [h.length, hlen]; omega
  have hw1 : wrap ((degs.take b).sum + endpointCount done b) =
      (degs.take b).sum + endpointCount done b := wrap_of_lt (by rw [h.length, hlen] at hs1; omega)
  have hw2 : wrap ((degs.take e).sum + endpointCount done e) =
      (degs.take e).sum + endpointCount done e := wrap_of_lt (by rw [h.length, hlen] at hs2; omega)
  have hw3 : wrap (endpointCount done b + 1) = endpointCount done b + 1 := wrap_of_lt (by omega)
  have hw4 : wrap (endpointCount done e + 1) = endpointCount done e + 1 := wrap_of_lt (by omega)
  have hce' : (st.neighbors_offset.set b (endpointCount done b + 1))[e]? =
      some (endpointCount done e) := by
    rw [List.getElem?_set_ne hbe]; exact hce
  -- disjointness of the slices
  have hdisj : ∀ u v, u < n → v < n → u ≠ v →
      (degs.take u).sum + degs.getD u 0 ≤ (degs.take v).sum ∨
      (degs.take v).sum + degs.getD v 0 ≤ (degs.take u).sum := by
    intro u v hu hv huv
    rcases Nat.lt_or_gt_of_ne huv with hlt | hgt
    · left; rw [hroom u hu]; exact sum_take_mono degs (by omega)
    · right; rw [hroom v hv]; exact sum_take_mono degs (by omega)
  have hex : ∃ nb2 cur2,
      nb2 = (st.g.neighbors_.set ((degs.take b).sum + endpointCount done b) e).set
          ((degs.take e).sum + endpointCount done e) b ∧
      cur2 = (st.neighbors_offset.set b (endpointCount done b + 1)).set e
        (endpointCount done e + 1) := ⟨_, _, rfl, rfl⟩
  obtain ⟨nb2, cur2, hnb2, hcur2⟩ := hex
  refine ⟨{ st with g := { st.g with neighbors_ := nb2 }, neighbors_offset := cur2 }, ?_, ?_⟩
  · simp only [readRecord, hob, hoe, hcb, hce, Option.bind_eq_bind, Option.some_bind, hw1, hw2,
      hw3]
    rw [writeAt_eq_some _ hs1, Option.some_bind, writeAt_eq_some _ (by simpa using hs2),
      Option.some_bind, writeAt_eq_some _ (by rw [h.cursor_length]; exact hb), Option.some_bind,
      hce', Option.some_bind, hw4,
      writeAt_eq_some _ (by rw [List.length_set, h.cursor_length]; exact he), hnb2, hcur2]
    rfl
  · constructor
    · show ({ st.g with neighbors_ := nb2 } : Graph) = { s0.g with neighbors_ := nb2 }
      rw [h.graph]
    · exact h.max_label_id
    · show nb2.length = _
      rw [hnb2, List.length_set, List.length_set]; exact h.length
    · show cur2.length = n
      rw [hcur2, List.length_set, List.length_set]; exact h.cursor_length
    · intro v hv
      show cur2[v]? = _
      rw [hcur2, endpointCount_append, endpointCount_single]
      by_cases hve : v = e
      · subst hve
        rw [List.getElem?_set_self (by rw [List.length_set, h.cursor_length]; exact hv)]
        simp [hbe]
      · rw [List.getElem?_set_ne (fun hc => hve hc.symm)]
        by_cases hvb : v = b
        · subst hvb
          rw [List.getElem?_set_self (by rw [h.cursor_length]; exact hv)]
          simp [hve, Ne.symm hve]
        · rw [List.getElem?_set_ne (fun hc => hvb hc.symm), h.cursor v hv]
          simp [Ne.symm hvb, Ne.symm hve]
    · intro v hv
      show (nb2.drop _).take _ = _
      rw [hnb2, endpointCount_append, endpointCount_single, oppositeEndpoints_append,
        oppositeEndpoints_single]
      have hcv : endpointCount done v ≤ degs.getD v 0 := by
        have := hdeg v hv
        rw [endpointCount_append] at this
        omega
      by_cases hvb : v = b
      · subst hvb
        have hne : ¬ e = v := fun hc => hbe hc.symm
        simp only [if_true, hne, if_false, List.append_nil, Nat.add_zero]
        rw [take_drop_set_of_outside _ _ _ _ _ (by
          rcases hdisj e v he hv hne with hd | hd
          · left; omega
          · right; omega)]
        rw [take_drop_set_snoc _ _ _ _ hs1, h.slice v hv]
      · by_cases hve : v = e
        · subst hve
          have hne : ¬ b = v := hbe
          simp only [if_true, hne, if_false, List.nil_append, Nat.zero_add]
          rw [take_drop_set_snoc _ _ _ _ (by simpa using hs2)]
          rw [take_drop_set_of_outside _ _ _ _ _ (by
            rcases hdisj b v hb hv hne with hd | hd
            · left; omega
            · right; omega), h.slice v hv]
        · have hnb : ¬ b = v := fun hc => hvb hc.symm
          have hne : ¬ e = v := fun hc => hve hc.symm
          simp only [hnb, hne, if_false, List.nil_append, List.append_nil, Nat.add_zero]
          rw [take_drop_set_of_outside _ _ _ _ _ (by
            rcases hdisj e v he hv hne with hd | hd
            · left; omega
            · right; omega)]
          rw [take_drop_set_of_outside _ _ _ _ _ (by
            rcases hdisj b v hb hv hnb with hd | hd
            · left; omega
            · right; omega), h.slice v hv]


/-! ## The running maximum label and the size of the map -/

theorem length_mapSet_le (m : List (Nat × Nat)) (k x : Nat) :
    (mapSet m k x).length ≤ m.length + 1 := by
  have := congrArg List.length (keys_mapSet m k x)
  simp only [List.length_map] at this
  rw [this]
  split <;> simp

theorem length_mapSet_of_found {m : List (Nat × Nat)} {k y : Nat} (x : Nat)
    (h : mapFind m k = some y) : (mapSet m k x).length = m.length := by
  have := congrArg List.length (keys_mapSet m k x)
  simp only [List.length_map] at this
  rw [this, if_neg (by rw [h]; simp)]
  simp

theorem countLabel_maxid (m : List (Nat × Nat)) (a label : Nat)
    (hinv : ∀ k, mapFind m k ≠ none → k ≤ a) :
    (∀ k, mapFind (countLabel (m, a) label).1 k ≠ none → k ≤ (countLabel (m, a) label).2) ∧
    label ≤ (countLabel (m, a) label).2 ∧ a ≤ (countLabel (m, a) label).2 ∧
    ((countLabel (m, a) label).2 = a ∨ (countLabel (m, a) label).2 = label) ∧
    (countLabel (m, a) label).1.length ≤ m.length + 1 := by
  cases hf : mapFind m label with
  | none =>
    rw [countLabel_none a hf]
    have h2 : mapFind (mapSet m label 0) label = some 0 := by rw [mapFind_mapSet]; simp
    refine ⟨?_, ?_, ?_, ?_, ?_⟩
    · intro k hk
      simp only [mapFind_mapSet] at hk
      by_cases hkl : label = k
      · subst hkl
        show label ≤ if label > a then label else a
        split <;> omega
      · simp only [hkl, if_false] at hk
        have := hinv k hk
        show k ≤ if label > a then label else a
        split <;> omega
    · show label ≤ if label > a then label else a
      split <;> omega
    · show a ≤ if label > a then label else a
      split <;> omega
    · show (if label > a then label else a) = a ∨ (if label > a then label else a) = label
      split
      · exact Or.inr rfl
      · exact Or.inl rfl
    · show (mapSet (mapSet m label 0) label (wrap (0 + 1))).length ≤ _
      rw [length_mapSet_of_found _ h2]
      exact length_mapSet_le _ _ _
  | some x =>
    rw [countLabel_some a hf]
    refine ⟨?_, ?_, le_refl _, Or.inl rfl, ?_⟩
    · intro k hk
      simp only [mapFind_mapSet] at hk
      by_cases hkl : label = k
      · subst hkl
        exact hinv label (by rw [hf]; simp)
      · simp only [hkl, if_false] at hk
        exact hinv k hk
    · exact hinv label (by rw [hf]; simp)
    · show (mapSet m label (wrap (x + 1))).length ≤ _
      rw [length_mapSet_of_found _ hf]
      omega

theorem foldl_countLabel_maxid (labels : List Nat) :
    ∀ (m : List (Nat × Nat)) (a : Nat), (∀ k, mapFind m k ≠ none → k ≤ a) →
      (∀ k, mapFind (labels.foldl countLabel (m, a)).1 k ≠ none →
        k ≤ (labels.foldl countLabel (m, a)).2) ∧
      (∀ x ∈ labels, x ≤ (labels.foldl countLabel (m, a)).2) ∧
      a ≤ (labels.foldl countLabel (m, a)).2 ∧
      ((labels.foldl countLabel (m, a)).2 = a ∨ (labels.foldl countLabel (m, a)).2 ∈ labels) ∧
      (labels.foldl countLabel (m, a)).1.length ≤ m.length + labels.length := by
  induction labels with
  | nil =>
    intro m a hinv
    exact ⟨hinv, fun x hx => absurd hx (List.not_mem_nil _), le_refl _, Or.inl rfl, le_refl _⟩
  | cons x xs ih =>
    intro m a hinv
    obtain ⟨h1, h2, h3, h4, h5⟩ := countLabel_maxid m a x hinv
    obtain ⟨i1, i2, i3, i4, i5⟩ := ih (countLabel (m, a) x).1 (countLabel (m, a) x).2 h1
    rw [List.foldl_cons]
    have e : countLabel (m, a) x = ((countLabel (m, a) x).1, (countLabel (m, a) x).2) := rfl
    rw [e]
    refine ⟨i1, ?_, le_trans h3 i3, ?_, ?_⟩
    · intro y hy
      rcases List.mem_cons.1 hy with rfl | hy
      · exact le_trans h2 i3
      · exact i2 y hy
    · rcases i4 with i4 | i4
      · rcases h4 with h4 | h4
        · left; rw [i4, h4]
        · right; rw [i4, h4]; exact List.mem_cons_self _ _
      · right; exact List.mem_cons_of_mem _ i4
    · rw [List.length_cons]; omega

/-- The store that a loader hands to `BuildReverseIndex` is prepared for it,
provided the sizes fit. -/
theorem labelsReady_of_labels (g : Graph) (L : List Nat)
    (hn : g.vertices_count_ + 1 < UI_SIZE) (hlen : L.length = g.vertices_count_)
    (hfit : ∀ l ∈ L, l + 2 < UI_SIZE) (hlab : g.labels_ = L)
    (hfreq : g.labels_frequency_ = (L.foldl countLabel ([], 0)).1)
    (hcount : g.labels_count_ =
      labelsCount (L.foldl countLabel ([], 0)).1 (L.foldl countLabel ([], 0)).2) :
    g.LabelsReady := by
  obtain ⟨_, hmax, _, hmem, hsize⟩ := foldl_countLabel_maxid L [] 0
    (fun k hk => absurd rfl hk)
  obtain ⟨hf, _, _⟩ := frequencies_of_labels L (by omega)
  have hm2 : (L.foldl countLabel ([], 0)).2 + 2 < UI_SIZE := by
    rcases hmem with h0 | hin
    · rw [h0]; decide
    · exact hfit _ hin
  have hw : wrap ((L.foldl countLabel ([], 0)).2 + 1) = (L.foldl countLabel ([], 0)).2 + 1 :=
    wrap_of_lt (by omega)
  have hsz : wrap (L.foldl countLabel ([], 0)).1.length ≤ L.length := by
    simp only [List.length_nil, Nat.zero_add] at hsize
    exact le_trans (Nat.mod_le _ _) hsize
  have hcases : g.labels_count_ = wrap (L.foldl countLabel ([], 0)).1.length ∧
      (L.foldl countLabel ([], 0)).2 + 1 < g.labels_count_ ∨
      g.labels_count_ = (L.foldl countLabel ([], 0)).2 + 1 := by
    rw [hcount]
    unfold labelsCount
    rw [hw]
    split
    · left; exact ⟨rfl, by assumption⟩
    · right; rfl
  constructor
  · omega
  · rcases hcases with ⟨h1, _⟩ | h1 <;> omega
  · rw [hlab]; exact hlen
  · intro x hx
    rw [hlab] at hx
    have := hmax x hx
    rcases hcases with ⟨_, h1⟩ | h1 <;> omega
  · intro l _
    rw [getLabelsFrequency_eq, hfreq, hf, hlab]


/-! ## The text loader on a well-formed input -/

theorem vertexRecords_map_ofVertex (l : List (Nat × Nat × Nat)) :
    vertexRecords (l.map Record.ofVertex) = l := by
  induction l with
  | nil => rfl
  | cons r l ih => simp [Record.ofVertex, vertexRecords, ih]

theorem vertexRecords_map_ofEdge (l : List (Nat × Nat)) :
    vertexRecords (l.map Record.ofEdge) = [] := by
  induction l with
  | nil => rfl
  | cons r l ih => simp [Record.ofEdge, vertexRecords, ih]

theorem foldlM_map {σ α β : Type} (f : σ → β → Option σ) (g : α → β) (l : List α) (s : σ) :
    (l.map g).foldlM f s = l.foldlM (fun s x => f s (g x)) s := by
  induction l generalizing s with
  | nil => rfl
  | cons x l ih =>
    simp only [List.map_cons, List.foldlM, Option.bind_eq_bind]
    cases f s (g x) with
    | none => rfl
    | some s1 => simp only [Option.some_bind]; exact ih s1

theorem edgeBlock_total (n : Nat) (degs : List Nat) (s0 : TextState) (es : List (Nat × Nat))
    (hdl : degs.length = n) (hlen : s0.g.neighbors_.length = degs.sum) (hsum : degs.sum < UI_SIZE)
    (hoff : ∀ j, j ≤ n → s0.g.offsets_[j]? = some ((degs.take j).sum))
    (hcur : s0.neighbors_offset = List.replicate n 0)
    (hloops : ∀ e ∈ es, e.1 ≠ e.2) (hends : ∀ e ∈ es, e.1 < n ∧ e.2 < n)
    (hdegs : degs = (List.range n).map (endpointCount es)) :
    ∃ st, (es.map Record.ofEdge).foldlM readRecord s0 = some st ∧ EdgeInv n degs s0 es st := by
  rw [foldlM_map]
  refine foldlM_list_total (fun s (x : Nat × Nat) => readRecord s (Record.ofEdge x))
    (EdgeInv n degs s0) es s0 ?_ ?_
  · refine ⟨rfl, rfl, rfl, by rw [hcur]; simp, ?_, ?_⟩
    · intro v hv
      rw [hcur]
      simp [endpointCount, hv]
    · intro v _
      simp [endpointCount, oppositeEndpoints]
  · intro done x rest hl s hs
    obtain ⟨b, e⟩ := x
    have hx : (b, e) ∈ es := by rw [hl]; simp
    have hbe : b ≠ e := hloops _ hx
    obtain ⟨hb, he⟩ := hends _ hx
    refine readRecord_edge_step n degs s0 hdl hlen hsum hoff done b e hbe hb he ?_ s hs
    intro v hv
    rw [hdegs]
    have : ((List.range n).map (endpointCount es)).getD v 0 = endpointCount es v := by
      simp [List.getD, hv]
    rw [this]
    have e1 : es = (done ++ [(b, e)]) ++ rest := by simp [hl]
    rw [e1, endpointCount_append (done ++ [(b, e)]) rest]
    omega

/-- The record loop on a well-formed input: it is defined, and its final state
satisfies both the vertex and the edge invariant. -/
theorem loadRecords_total (junk : Nat → Nat) (g : Graph) (file : TextFile)
    (hn : file.vertices_count + 1 < UI_SIZE) (hm : file.edges_count * 2 < UI_SIZE)
    (hvf : file.VerticesFirst) (hord : file.VerticesInOrder) (hmatch : file.DegreesMatch)
    (hloops : file.NoSelfLoops) :
    ∃ s0 st, loadRecords junk g file = some st ∧
      VertexInv file.vertices_count g file.records s0 ∧
      EdgeInv file.vertices_count (declaredDegrees file.records) s0 (edgeRecords file.records) st ∧
      s0.g.neighbors_.length = file.edges_count * 2 ∧
      (declaredDegrees file.records).sum = file.edges_count * 2 ∧
      ∀ j, j ≤ file.vertices_count →
        s0.g.offsets_[j]? = some (((declaredDegrees file.records).take j).sum) := by
  obtain ⟨hcount, hends, hdd⟩ := hmatch
  have hlen := length_declaredDegrees hord
  have htotal : (declaredDegrees file.records).sum = file.edges_count * 2 := by
    rw [hdd, sum_endpointCount _ _ hends, hcount]; omega
  have hvr : vertexRecords ((vertexRecords file.records).map Record.ofVertex) =
      vertexRecords file.records := vertexRecords_map_ofVertex _
  -- vertex block
  obtain ⟨hV0, hF0⟩ := textStart_inv junk g file
  obtain ⟨s0, hs0, hV, hcur, hnb, _⟩ := vertexBlock_total file.vertices_count g hn
    ((vertexRecords file.records).map Record.ofVertex)
    (by
      intro r hr
      obtain ⟨t, _, rfl⟩ := List.mem_map.1 hr
      exact ⟨t.1, t.2.1, t.2.2, rfl⟩)
    (by
      have := hord
      unfold TextFile.VerticesInOrder at this
      simpa [vertexIds, hvr] using this)
    (textStart junk g file) hV0
  have hV' : VertexInv file.vertices_count g file.records s0 := by
    constructor
    · exact hV.vertices_count
    · exact hV.offsets_length
    · exact hV.labels_length
    · have := hV.offsets
      simpa [declaredDegrees, hvr] using this
    · have := hV.labels
      simpa [declaredLabels, hvr] using this
    · have := hV.frequency
      simpa [declaredLabels, hvr] using this
    · have := hV.max_degree
      simpa [declaredDegrees, hvr] using this
    · exact hV.max_label_frequency
  have hvl : (vertexRecords file.records).length = file.vertices_count := by
    simpa [declaredDegrees] using hlen
  have hoff : ∀ j, j ≤ file.vertices_count →
      s0.g.offsets_[j]? = some (((declaredDegrees file.records).take j).sum) := by
    intro j hj
    rw [hV'.offsets j (by rw [hvl]; exact hj)]
    have := sum_take_le (declaredDegrees file.records) j
    rw [wrap_of_lt (by omega)]
  have hnbl : s0.g.neighbors_.length = file.edges_count * 2 := by
    rw [hnb]
    show (newArray junk (wrap (file.edges_count * 2))).length = _
    rw [length_newArray, wrap_of_lt hm]
  -- edge block
  obtain ⟨st, hst, hE⟩ := edgeBlock_total file.vertices_count (declaredDegrees file.records) s0
    (edgeRecords file.records) hlen (by rw [hnbl, htotal]) (by omega) hoff
    (by rw [hcur]; rfl) hloops hends hdd
  refine ⟨s0, st, ?_, hV', hE, hnbl, htotal, hoff⟩
  rw [loadRecords_eq junk g file hn, hvf, List.foldlM_append, hs0]
  exact hst


/-- Partial correctness of the text loader on a well-formed input. -/
theorem loadGraphFromFile_loadedFrom {junk : Nat → Nat} {g g' : Graph} {file : TextFile}
    (hr : file.InRange) (hvf : file.VerticesFirst) (hord : file.VerticesInOrder)
    (hmatch : file.DegreesMatch) (hloops : file.NoSelfLoops)
    (h : loadGraphFromFile junk g file = some g') : LoadedFrom file g' := by
  obtain ⟨fn, _, hn1, hsum, hoff, hdeg⟩ := loadGraphFromFile_offsets_eq hr hord h
  have hdd := hmatch.2.2
  have htotal : (declaredDegrees file.records).sum = file.edges_count * 2 := by
    rw [hdd, sum_endpointCount _ _ hmatch.2.1, hmatch.1]; omega
  have hm : file.edges_count * 2 < UI_SIZE := by omega
  obtain ⟨s0, st, hst, hV, hE, hnbl, _, hoff0⟩ :=
    loadRecords_total junk g file hn1 hm hvf hord hmatch hloops
  obtain ⟨st', nb, hst', hnb, hbri⟩ := loadGraphFromFile_some h
  rw [hst] at hst'
  cases hst'
  obtain ⟨_, _, _, _, _, foff, fnb, flab, _, _, _⟩ := BuildReverseIndex_frame hbri
  have foff' : g'.offsets_ = st.g.offsets_ := foff
  have fnb' : g'.neighbors_ = nb := fnb
  have flab' : g'.labels_ = st.g.labels_ := flab
  have hS := sortLoop_inv hnb
  have hlen := length_declaredDegrees hord
  intro v hv
  refine ⟨?_, hdeg v hv, ?_⟩
  · show g'.labels_[v]? = _
    rw [flab', loadRecords_labels hn1 hord hst]
  · obtain ⟨N, hN, hsorted, hNeq⟩ := loadGraphFromFile_sorted h v (by rw [fn]; exact hv)
    refine ⟨N, hN, hsorted, ?_⟩
    rw [hNeq, foff', fnb']
    have hvc : st.g.vertices_count_ = file.vertices_count := by
      rw [hE.graph]; exact hV.vertices_count
    refine (hS.perm v (by rw [hvc]; exact hv)).trans ?_
    have hoffst : st.g.offsets_ = s0.g.offsets_ := by rw [hE.graph]
    have e1 : st.g.offsets_.getD v 0 = ((declaredDegrees file.records).take v).sum := by
      rw [hoffst]; exact getD_eq_of_getElem? (hoff0 v (by omega))
    have e2 : st.g.offsets_.getD (v + 1) 0 = ((declaredDegrees file.records).take (v + 1)).sum := by
      rw [hoffst]; exact getD_eq_of_getElem? (hoff0 (v + 1) (by omega))
    have e3 : ((declaredDegrees file.records).take (v + 1)).sum -
        ((declaredDegrees file.records).take v).sum = endpointCount (edgeRecords file.records) v := by
      rw [List.sum_take_succ _ v (by rw [hlen]; exact hv)]
      have : (declaredDegrees file.records)[v]? =
          some (endpointCount (edgeRecords file.records) v) := by
        rw [hdd]; simp [hv]
      rw [List.getElem?_eq_getElem (by rw [hlen]; exact hv)] at this
      have hx := Option.some.inj this
      omega
    unfold sliceOf
    rw [e1, e2, e3, hE.slice v hv]

/-- Total correctness of the text loader: on a well-formed input whose sizes
fit, the load is defined. -/
theorem loadGraphFromFile_total (junk : Nat → Nat) (file : TextFile)
    (hn : file.vertices_count + 1 < UI_SIZE) (hm : file.edges_count * 2 < UI_SIZE)
    (hfit : file.LabelsFit)
    (hvf : file.VerticesFirst) (hord : file.VerticesInOrder) (hmatch : file.DegreesMatch)
    (hloops : file.NoSelfLoops) :
    ∃ g', loadGraphFromFile junk Graph.new file = some g' := by
  obtain ⟨s0, st, hst, hV, hE, hnbl, htotal, hoff0⟩ :=
    loadRecords_total junk Graph.new file hn hm hvf hord hmatch hloops
  have hlen := length_declaredDegrees hord
  have hVst := (loadRecords_vertex_inv junk Graph.new file hn hord hst).1
  have hoffst : st.g.offsets_ = s0.g.offsets_ := by rw [hE.graph]
  have hvc := hVst.vertices_count
  -- sorting loop
  obtain ⟨nb, hnb, _⟩ := sortLoop_total st.g.offsets_ st.g.neighbors_ file.vertices_count
    (by rw [hVst.offsets_length]; omega)
    (by
      intro j hj
      rw [hoffst, getD_eq_of_getElem? (hoff0 j (by omega)),
        getD_eq_of_getElem? (hoff0 (j + 1) (by omega))]
      exact sum_take_succ_le _ _)
    (by
      rw [hoffst, getD_eq_of_getElem? (hoff0 _ (le_refl _)), hE.length, hnbl, ← htotal]
      exact sum_take_le _ _)
  -- reverse index
  have hlab := loadRecords_labels hn hord hst
  have hfr : st.g.labels_frequency_ = ((declaredLabels file.records).foldl countLabel ([], 0)).1 :=
    congrArg Prod.fst hVst.frequency
  have hmax : st.max_label_id = ((declaredLabels file.records).foldl countLabel ([], 0)).2 :=
    congrArg Prod.snd hVst.frequency
  obtain ⟨g', hg', _⟩ := BuildReverseIndex_total junk
    { st.g with
      labels_count_ := labelsCount st.g.labels_frequency_ st.max_label_id,
      max_label_frequency_ := maxFrequency st.g.labels_frequency_ st.g.max_label_frequency_,
      neighbors_ := nb }
    (labelsReady_of_labels _ (declaredLabels file.records) (by show st.g.vertices_count_ + 1 < _; omega)
      (by rw [length_declaredLabels hord]; exact hvc.symm) hfit hlab hfr
      (by show labelsCount st.g.labels_frequency_ st.max_label_id = _; rw [hfr, hmax]))
  refine ⟨g', ?_⟩
  rw [← hvc] at hnb
  unfold loadGraphFromFile
  rw [hst]
  simp only [Option.bind_eq_bind, Option.some_bind, hnb]
  exact hg'

theorem pathFile_verticesFirst : pathFile.VerticesFirst := by
  unfold TextFile.VerticesFirst
  decide

theorem pathFile_noSelfLoops : pathFile.NoSelfLoops := by
  unfold TextFile.NoSelfLoops
  decide



/-! ## Writing a store out -/

theorem length_degreesOf (offs : List Nat) (n : Nat) : (degreesOf offs n).length = n := by
  simp [degreesOf]

theorem getElem?_degreesOf (offs : List Nat) {n i : Nat} (h : i < n) :
    (degreesOf offs n)[i]? = some (offs.getD (i + 1) 0 - offs.getD i 0) := by
  simp [degreesOf, h]

theorem degreeLoop_total (junk : Nat → Nat) (offs : List Nat) (n : Nat)
    (hlen : offs.length = n + 1) (hlt : ∀ x ∈ offs, x < UI_SIZE)
    (hmono : ∀ j, j < n → offs.getD j 0 ≤ offs.getD (j + 1) 0) :
    (List.range n).foldlM (degreeStep offs) (newArray junk n) = some (degreesOf offs n) := by
  obtain ⟨ds, hds, hlen2, hP⟩ := foldlM_range_total (degreeStep offs)
    (fun i ds => ds.length = n ∧ ∀ k, k < i → ds[k]? = some (offs.getD (k + 1) 0 - offs.getD k 0))
    n (newArray junk n) ⟨length_newArray _ _, fun k hk => absurd hk (Nat.not_lt_zero _)⟩
    (by
      intro i hi s ⟨hl, hs⟩
      have h1 : offs[i + 1]? = some (offs.getD (i + 1) 0) := getElem?_eq_some_getD (by omega)
      have h2 : offs[i]? = some (offs.getD i 0) := getElem?_eq_some_getD (by omega)
      have hu : offs.getD (i + 1) 0 < UI_SIZE := by
        rw [getD_of_lt (show i + 1 < offs.length by omega)]
        exact hlt _ (List.getElem_mem _)
      refine ⟨s.set i (offs.getD (i + 1) 0 - offs.getD i 0), ?_, by simp [hl], ?_⟩
      · simp only [degreeStep, h1, h2, Option.bind_eq_bind, Option.some_bind,
          uiSub_of_le (hmono i hi) hu]
        exact writeAt_eq_some _ (by omega)
      · intro k hk
        by_cases hki : k = i
        · subst hki
          rw [List.getElem?_set_self (by omega)]
        · rw [List.getElem?_set_ne (fun hc => hki hc.symm)]
          exact hs k (by omega))
  rw [hds]
  congr 1
  apply List.ext_getElem?
  intro j
  by_cases hj : j < n
  · rw [hP j hj, getElem?_degreesOf offs hj]
  · rw [List.getElem?_eq_none (by omega), List.getElem?_eq_none (by rw [length_degreesOf]; omega)]

theorem view_zero_length (a : List Nat) : view a 0 a.length = some a := by
  simp [view]

/-! ## Reading it back -/

theorem writeBlock_full (a words : List Nat) (h : words.length = a.length) :
    writeBlock a 0 words = some words := by
  unfold writeBlock
  rw [if_pos (by omega)]
  simp [h]

theorem prefixLoop_total (offs : List Nat) (n : Nat) (junk : Nat → Nat)
    (hlen : offs.length = n + 1) (hz : offs[0]? = some 0) (hlt : ∀ x ∈ offs, x < UI_SIZE)
    (hmono : ∀ j, j < n → offs.getD j 0 ≤ offs.getD (j + 1) 0) :
    (List.range n).foldlM (prefixStep (degreesOf offs n)) ((newArray junk (n + 1)).set 0 0) =
      some offs := by
  obtain ⟨s, hs, hl, hP⟩ := foldlM_range_total (prefixStep (degreesOf offs n))
    (fun i s => s.length = n + 1 ∧ ∀ j, j ≤ i → s[j]? = offs[j]?)
    n ((newArray junk (n + 1)).set 0 0)
    ⟨by simp [length_newArray], by
      intro j hj
      have : j = 0 := by omega
      subst this
      rw [List.getElem?_set_self (by simp [length_newArray]), hz]⟩
    (by
      intro i hi s ⟨hl, hs⟩
      have h1 : s[i]? = some (offs.getD i 0) := by
        rw [hs i (le_refl _)]; exact getElem?_eq_some_getD (by omega)
      have hu : offs.getD (i + 1) 0 < UI_SIZE := by
        rw [getD_of_lt (show i + 1 < offs.length by omega)]
        exact hlt _ (List.getElem_mem _)
      have hm := hmono i hi
      have hw : wrap (offs.getD i 0 + (offs.getD (i + 1) 0 - offs.getD i 0)) =
          offs.getD (i + 1) 0 := by
        rw [wrap_of_lt (by omega)]; omega
      refine ⟨s.set (i + 1) (offs.getD (i + 1) 0), ?_, by simp [hl], ?_⟩
      · simp only [prefixStep, h1, getElem?_degreesOf offs hi, Option.bind_eq_bind,
          Option.some_bind, hw]
        exact writeAt_eq_some _ (by omega)
      · intro j hj
        by_cases hji : j = i + 1
        · subst hji
          rw [List.getElem?_set_self (by omega)]
          exact (getElem?_eq_some_getD (by omega)).symm
        · rw [List.getElem?_set_ne (fun hc => hji hc.symm)]
          exact hs j (by omega))
  rw [hs]
  congr 1
  apply List.ext_getElem?
  intro j
  by_cases hj : j ≤ n
  · exact hP j hj
  · rw [List.getElem?_eq_none (by omega), List.getElem?_eq_none (by omega)]

theorem labelLoop_total (labels : List Nat) (st : List (Nat × Nat) × Nat) :
    (List.range labels.length).foldlM (labelStep labels) st = some (labels.foldl countLabel st) := by
  obtain ⟨s, hs, hP⟩ := foldlM_range_total (labelStep labels)
    (fun i s => s = (labels.take i).foldl countLabel st) labels.length st rfl
    (by
      intro i hi s hs
      refine ⟨countLabel s labels[i], ?_, ?_⟩
      · simp [labelStep, List.getElem?_eq_getElem hi]
      · show countLabel s labels[i] = (labels.take (i + 1)).foldl countLabel st
        rw [List.take_succ, List.getElem?_eq_getElem hi, List.foldl_append, ← hs]
        rfl)
  rw [hs, hP, List.take_length]

theorem insertionSort_eq_self {l : List Nat} (h : l.Pairwise (fun a b => a ≤ b)) :
    l.insertionSort (fun a b => a ≤ b) = l :=
  List.Sorted.insertionSort_eq h

theorem sortRange_of_sorted (a : List Nat) (lo hi : Nat) (h1 : lo ≤ hi) (h2 : hi ≤ a.length)
    (hs : ((a.drop lo).take (hi - lo)).Pairwise (fun x y => x ≤ y)) :
    sortRange a lo hi = some a := by
  unfold sortRange
  rw [if_pos ⟨h1, h2⟩, insertionSort_eq_self hs]
  congr 1
  have e : a.drop hi = (a.drop lo).drop (hi - lo) := by
    rw [List.drop_drop]; congr 1; omega
  rw [e, List.take_append_drop, List.take_append_drop]


theorem Storable.offsets_lt {g : Graph} (hS : g.Storable) : ∀ x ∈ g.offsets_, x < UI_SIZE := by
  intro x hx
  obtain ⟨j, hj, rfl⟩ := List.getElem_of_mem hx
  have hchain := mono_chain (fun j => g.offsets_.getD j 0) g.vertices_count_ hS.offsets_mono
  have h1 := hchain j g.vertices_count_ (by have := hS.offsets_length; omega) (le_refl _)
  have h2 := getD_eq_of_getElem? hS.offsets_last
  have h3 : g.offsets_.getD j 0 = g.offsets_[j] := getD_of_lt hj
  have := hS.edges_lt
  simp only [] at h1
  omega

theorem Storable.offsets_le {g : Graph} (hS : g.Storable) {j : Nat} (hj : j ≤ g.vertices_count_) :
    g.offsets_.getD j 0 ≤ g.neighbors_.length := by
  have hchain := mono_chain (fun j => g.offsets_.getD j 0) g.vertices_count_ hS.offsets_mono
  have h1 := hchain j g.vertices_count_ hj (le_refl _)
  have h2 := getD_eq_of_getElem? hS.offsets_last
  have := hS.neighbors_length
  simp only [] at h1
  omega

theorem adjacencyStep_round (g : Graph) (hS : g.Storable) (i : Nat) (hi : i < g.vertices_count_)
    (st : List Nat × List Nat × Nat) (h : RoundInv g.offsets_ g.neighbors_ i st) :
    ∃ st', adjacencyStep (degreesOf g.offsets_ g.vertices_count_) g.offsets_ st i = some st' ∧
      RoundInv g.offsets_ g.neighbors_ (i + 1) st' := by
  have hlen := hS.offsets_length
  have hlo : g.offsets_[i]? = some (g.offsets_.getD i 0) := getElem?_eq_some_getD (by omega)
  have hhi : g.offsets_[i + 1]? = some (g.offsets_.getD (i + 1) 0) :=
    getElem?_eq_some_getD (by omega)
  have hm := hS.offsets_mono i hi
  have hb := hS.offsets_le (show i + 1 ≤ g.vertices_count_ by omega)
  simp only [adjacencyStep, getElem?_degreesOf g.offsets_ hi, Option.bind_eq_bind,
    Option.some_bind, hlo, hhi]
  by_cases hd : g.offsets_.getD (i + 1) 0 - g.offsets_.getD i 0 > 0
  · rw [if_pos hd]
    have hstream := h.stream
    have hwl : (st.2.1.take (g.offsets_.getD (i + 1) 0 - g.offsets_.getD i 0)).length =
        g.offsets_.getD (i + 1) 0 - g.offsets_.getD i 0 := by
      rw [List.length_take, hstream, List.length_drop]; omega
    have hex : ∃ nb1, writeBlock st.1 (g.offsets_.getD i 0)
        (st.2.1.take (g.offsets_.getD (i + 1) 0 - g.offsets_.getD i 0)) = some nb1 := by
      unfold writeBlock
      rw [if_pos (by rw [hwl, h.length]; omega)]
      exact ⟨_, rfl⟩
    obtain ⟨nb1, hnb1⟩ := hex
    obtain ⟨_, hl1, ht1, hmid, _⟩ := writeBlock_some hnb1
    rw [hwl] at hmid
    have hslice : (nb1.drop (g.offsets_.getD i 0)).take
        (g.offsets_.getD (i + 1) 0 - g.offsets_.getD i 0) = sliceOf g.offsets_ g.neighbors_ i := by
      rw [hmid, hstream]; rfl
    have hsort := sortRange_of_sorted nb1 (g.offsets_.getD i 0) (g.offsets_.getD (i + 1) 0) hm
      (by rw [hl1, h.length]; exact hb) (by rw [hslice]; exact hS.sorted i hi)
    refine ⟨(nb1, st.2.1.drop (g.offsets_.getD (i + 1) 0 - g.offsets_.getD i 0),
      if g.offsets_.getD (i + 1) 0 - g.offsets_.getD i 0 > st.2.2 then
        g.offsets_.getD (i + 1) 0 - g.offsets_.getD i 0 else st.2.2), ?_, ?_⟩
    · rw [hnb1]
      simp only [Option.some_bind, hsort, Option.pure_def]
    · constructor
      · show nb1.length = _
        rw [hl1]; exact h.length
      · show nb1.take _ = _
        have e2 : ∀ l : List Nat, l.take (g.offsets_.getD (i + 1) 0) =
            l.take (g.offsets_.getD i 0) ++
              (l.drop (g.offsets_.getD i 0)).take
                (g.offsets_.getD (i + 1) 0 - g.offsets_.getD i 0) := by
          intro l
          rw [← List.take_add]
          congr 1; omega
        rw [e2 nb1, e2 g.neighbors_, ht1, h.filled, hslice]
        rfl
      · show st.2.1.drop _ = _
        rw [hstream, List.drop_drop]
        congr 1; omega
  · rw [if_neg hd]
    have e : g.offsets_.getD (i + 1) 0 = g.offsets_.getD i 0 := by omega
    refine ⟨st, rfl, ?_⟩
    constructor
    · exact h.length
    · rw [e]; exact h.filled
    · rw [e]; exact h.stream

theorem adjacencyLoop_round (junk : Nat → Nat) (g : Graph) (hS : g.Storable) :
    ∃ st, (List.range g.vertices_count_).foldlM
        (adjacencyStep (degreesOf g.offsets_ g.vertices_count_) g.offsets_)
        (newArray junk (g.edges_count_ * 2), g.neighbors_, 0) = some st ∧
      st.1 = g.neighbors_ := by
  obtain ⟨st, hst, hR⟩ := foldlM_range_total
    (adjacencyStep (degreesOf g.offsets_ g.vertices_count_) g.offsets_)
    (RoundInv g.offsets_ g.neighbors_) g.vertices_count_
    (newArray junk (g.edges_count_ * 2), g.neighbors_, 0)
    ⟨by simp [length_newArray, hS.neighbors_length],
     by rw [getD_eq_of_getElem? hS.offsets_zero]; rfl,
     by rw [getD_eq_of_getElem? hS.offsets_zero]; rfl⟩
    (fun i hi s hs => adjacencyStep_round g hS i hi s hs)
  refine ⟨st, hst, ?_⟩
  have h1 := hR.filled
  have h2 := getD_eq_of_getElem? hS.offsets_last
  rw [h2, ← hS.neighbors_length, List.take_length] at h1
  rw [← h1]
  exact (List.take_of_length_le (by rw [hR.length])).symm


/-- The three streams written for a storable graph. -/
theorem storeComparessedGraph_eq (junk : Nat → Nat) (g : Graph) (hS : g.Storable) :
    storeComparessedGraph junk g = some
      { degree := [4, g.vertices_count_, g.edges_count_] ++ degreesOf g.offsets_ g.vertices_count_,
        edge := g.neighbors_, label := g.labels_ } := by
  have h1 := degreeLoop_total junk g.offsets_ g.vertices_count_ hS.offsets_length hS.offsets_lt
    hS.offsets_mono
  have h2 : view g.neighbors_ 0 (g.edges_count_ * 2) = some g.neighbors_ := by
    rw [← hS.neighbors_length]; exact view_zero_length _
  have h3 : view g.labels_ 0 g.vertices_count_ = some g.labels_ := by
    rw [← hS.labels_length]; exact view_zero_length _
  simp only [storeComparessedGraph, h1, h2, h3, Option.bind_eq_bind, Option.some_bind]
  rfl

/-- Loading the streams written for a storable graph rebuilds its arrays and
hands them to `BuildReverseIndex`. -/
theorem loadGraphFromFileCompressed_store (junk : Nat → Nat) (g : Graph) (hS : g.Storable) :
    ∃ max_degree, loadGraphFromFileCompressed junk Graph.new
      { degree := [4, g.vertices_count_, g.edges_count_] ++ degreesOf g.offsets_ g.vertices_count_,
        edge := g.neighbors_, label := g.labels_ } =
      BuildReverseIndex junk (g.reloaded max_degree) := by
  obtain ⟨st, hst, hnb⟩ := adjacencyLoop_round junk g hS
  refine ⟨st.2.2, ?_⟩
  have hd : writeBlock (newArray junk g.vertices_count_) 0
      ((degreesOf g.offsets_ g.vertices_count_).take g.vertices_count_) =
      some (degreesOf g.offsets_ g.vertices_count_) := by
    rw [List.take_of_length_le (by rw [length_degreesOf])]
    exact writeBlock_full _ _ (by rw [length_degreesOf, length_newArray])
  have hl : writeBlock (newArray junk g.vertices_count_) 0 (g.labels_.take g.vertices_count_) =
      some g.labels_ := by
    rw [List.take_of_length_le (by rw [hS.labels_length])]
    exact writeBlock_full _ _ (by rw [hS.labels_length, length_newArray])
  have ho0 : writeAt (newArray junk (g.vertices_count_ + 1)) 0 0 =
      some ((newArray junk (g.vertices_count_ + 1)).set 0 0) :=
    writeAt_eq_some _ (by simp [length_newArray])
  have ho := prefixLoop_total g.offsets_ g.vertices_count_ junk hS.offsets_length hS.offsets_zero
    hS.offsets_lt hS.offsets_mono
  have hfr := labelLoop_total g.labels_ (([] : List (Nat × Nat)), 0)
  rw [hS.labels_length] at hfr
  simp only [loadGraphFromFileCompressed, List.getElem?_cons_succ, List.getElem?_cons_zero,
    List.cons_append, List.nil_append, Option.getD_some, List.drop_succ_cons, List.drop_zero,
    wrap_of_lt hS.vertices_lt, hd, ho0, ho, hst, hl, Option.bind_eq_bind, Option.some_bind, hnb]
  have hfr' : List.foldlM (labelStep g.labels_) (Graph.new.labels_frequency_, 0)
      (List.range g.vertices_count_) = some (g.labels_.foldl countLabel ([], 0)) := hfr
  rw [hfr']
  rfl

theorem verticesLabelled_eq_count (g : Graph) (hlen : g.labels_.length = g.vertices_count_)
    (l : Nat) : g.verticesLabelled l = g.labels_.count l := by
  have := length_verticesWithLabel g.labels_ l
  unfold verticesWithLabel at this
  rw [hlen] at this
  exact this

theorem pathLoaded_storable : pathLoaded.Storable := by
  refine ⟨by decide, by decide, by decide, by decide, by decide, ?_, by decide, by decide, ?_⟩
  · intro j hj
    have : j = 0 ∨ j = 1 ∨ j = 2 := by
      have : j < 3 := hj
      omega
    rcases this with rfl | rfl | rfl <;> decide
  · intro v hv
    have : v = 0 ∨ v = 1 ∨ v = 2 := by
      have : v < 3 := hv
      omega
    rcases this with rfl | rfl | rfl <;> decide

theorem pathLoaded_frequencyCounts : pathLoaded.FrequencyCounts := by
  intro l
  rw [(loadGraphFromFile_frequencies pathFile_inRange pathFile_inOrder pathFile_loads).1 l]
  exact verticesLabelled_eq_count pathLoaded (by decide) l



/-! ## Core decomposition: consequences of the invariant -/

/-- The `vertices` array is sorted by core value. -/
theorem CoreInv.sorted {g : Graph} {i : Nat} {done : List Nat} {γ : Ghost}
    (h : CoreInv g i done γ) {p q : Nat} (hpq : p ≤ q) (hq : q < g.vertices_count_) :
    γ.c (γ.vert p) ≤ γ.c (γ.vert q) := by
  by_contra hc
  have hlt : γ.c (γ.vert q) < γ.c (γ.vert p) := by omega
  have hp : p < g.vertices_count_ := by omega
  have hmd := h.core_le _ (h.vert_lt p hp)
  have h1 := (h.bins (γ.c (γ.vert q) + 1) (by omega) q hq).2 (by omega)
  have h2 := (h.bins (γ.c (γ.vert q) + 1) (by omega) p hp).1 (by omega)
  omega

theorem CoreInv.pos_injective {g : Graph} {i : Nat} {done : List Nat} {γ : Ghost}
    (h : CoreInv g i done γ) {x y : Nat} (hx : x < g.vertices_count_)
    (hy : y < g.vertices_count_) (hxy : γ.pos x = γ.pos y) : x = y := by
  rw [← h.vert_pos x hx, ← h.vert_pos y hy, hxy]

/-- When the main loop has ended, every core value is the coreness. -/
theorem coreness_of_final (g : Graph) (hW : g.WellFormed) (γ : Ghost)
    (h : CoreInv g g.vertices_count_ [] γ) (v : Nat) (hv : v < g.vertices_count_) :
    g.IsCoreness v (γ.c v) := by
  constructor
  · refine ⟨(Finset.range g.vertices_count_).filter (fun x => γ.c v ≤ γ.c x), ?_, ?_, ?_⟩
    · simp [hv]
    · intro x hx
      simp only [Finset.mem_filter, Finset.mem_range] at hx
      exact hx.1
    · intro x hx
      simp only [Finset.mem_filter, Finset.mem_range] at hx
      refine le_trans hx.2 (le_trans (h.lower x hx.1) ?_)
      unfold degreeIn
      apply List.countP_mono_left
      intro y hy hp
      have hyn := hW.in_range x hx.1 y hy
      have hh : handled γ g.vertices_count_ [] y x = true := by
        simp [handled, h.pos_lt y hyn]
      simp only [hh, Bool.not_true, Bool.false_or, decide_eq_true_eq] at hp
      simp only [Finset.mem_filter, Finset.mem_range, decide_eq_true_eq]
      exact ⟨hyn, le_trans hx.2 hp⟩
  · intro k' S hvS hS
    obtain ⟨u, huS, hmin⟩ := Finset.exists_min_image S γ.pos ⟨v, hvS⟩
    have hun := hS.1 u huS
    have h1 := hS.2 u huS
    have h2 : g.degreeIn S u ≤ (g.adj u).countP (fun x => decide (γ.pos u < γ.pos x)) := by
      unfold degreeIn
      apply List.countP_mono_left
      intro y hy hp
      simp only [decide_eq_true_eq] at hp ⊢
      have hyn := hW.in_range u hun y hy
      have hle := hmin y hp
      have hne : γ.pos u ≠ γ.pos y := by
        intro hc
        have := h.pos_injective hun hyn hc
        subst this
        exact hW.no_self_loops u hun hy
      omega
    have h3 := h.upperB u hun (h.pos_lt u hun)
    have h4 := h.sorted (hmin v hvS) (h.pos_lt v hv)
    rw [h.vert_pos u hun, h.vert_pos v hv] at h4
    omega


/-! ## Counting over a duplicate-free list -/

theorem countP_le_succ_of_agree {l : List Nat} (hnd : l.Nodup) (a : Nat) (P Q : Nat → Bool)
    (h : ∀ x ∈ l, x ≠ a → P x = true → Q x = true) : l.countP P ≤ l.countP Q + 1 := by
  induction l with
  | nil => simp
  | cons y l ih =>
    have hnd' := (List.nodup_cons.1 hnd)
    by_cases hya : y = a
    · subst hya
      have hmono : l.countP P ≤ l.countP Q := by
        apply List.countP_mono_left
        intro x hx hp
        exact h x (List.mem_cons_of_mem _ hx) (fun hc => hnd'.1 (hc ▸ hx)) hp
      rw [List.countP_cons, List.countP_cons]
      have h1 : (if P y = true then 1 else 0) ≤ 1 := by split <;> omega
      omega
    · have ih' := ih hnd'.2 (fun x hx => h x (List.mem_cons_of_mem _ hx))
      rw [List.countP_cons, List.countP_cons]
      by_cases hp : P y = true
      · have hq := h y (List.mem_cons_self _ _) hya hp
        simp only [hp, hq, if_true]
        omega
      · have hp' : P y = false := by simpa using hp
        simp only [hp', Bool.false_eq_true, if_false]
        have : (0 : Nat) ≤ if Q y = true then 1 else 0 := Nat.zero_le _
        omega

theorem countP_succ_le_of_gain {l : List Nat} (hnd : l.Nodup) (a : Nat) (ha : a ∈ l)
    (P Q : Nat → Bool) (hP : P a = false) (hQ : Q a = true)
    (h : ∀ x ∈ l, x ≠ a → P x = true → Q x = true) : l.countP P + 1 ≤ l.countP Q := by
  induction l with
  | nil => cases ha
  | cons y l ih =>
    have hnd' := (List.nodup_cons.1 hnd)
    by_cases hya : y = a
    · subst hya
      have hmono : l.countP P ≤ l.countP Q := by
        apply List.countP_mono_left
        intro x hx hp
        exact h x (List.mem_cons_of_mem _ hx) (fun hc => hnd'.1 (hc ▸ hx)) hp
      rw [List.countP_cons, List.countP_cons]
      simp only [hP, hQ, if_true]
      simp
      omega
    · have hal : a ∈ l := by
        rcases List.mem_cons.1 ha with hc | hc
        · exact absurd hc.symm hya
        · exact hc
      have ih' := ih hnd'.2 hal (fun x hx => h x (List.mem_cons_of_mem _ hx))
      rw [List.countP_cons, List.countP_cons]
      by_cases hp : P y = true
      · have hq := h y (List.mem_cons_self _ _) hya hp
        simp only [hp, hq, if_true]
        omega
      · have hp' : P y = false := by simpa using hp
        simp only [hp', Bool.false_eq_true, if_false]
        have : (0 : Nat) ≤ if Q y = true then 1 else 0 := Nat.zero_le _
        omega

/-! ## Core decomposition: a neighbour that is not demoted -/

theorem handled_append {γ : Ghost} {i : Nat} {done : List Nat} {u x u0 : Nat} :
    handled γ i (done ++ [u]) x u0 =
      (handled γ i done x u0 || (decide (x = γ.vert i) && decide (u0 = u))) := by
  unfold handled
  by_cases h1 : γ.pos x < i <;> by_cases h2 : x = γ.vert i <;> by_cases h3 : u0 ∈ done <;>
    by_cases h4 : u0 = u <;> simp [h1, h2, h3, h4]

theorem InnerInv.skip {g : Graph} {i : Nat} {done : List Nat} {γ : Ghost} {u : Nat}
    (h : InnerInv g i done γ) (hle : γ.c u ≤ γ.c (γ.vert i)) :
    InnerInv g i (done ++ [u]) γ := by
  refine ⟨⟨h.inv.pos_lt, h.inv.vert_pos, h.inv.vert_lt, h.inv.pos_vert, h.inv.bins,
    h.inv.core_le, ?_, ?_, h.inv.upperB⟩, h.current⟩
  · intro u0 hu0
    refine le_trans (h.inv.lower u0 hu0) ?_
    apply List.countP_mono_left
    intro x _ hp
    rw [handled_append]
    by_cases hx : x = γ.vert i ∧ u0 = u
    · obtain ⟨rfl, rfl⟩ := hx
      simp [hle]
    · have : (decide (x = γ.vert i) && decide (u0 = u)) = false := by
        by_cases h1 : x = γ.vert i <;> by_cases h2 : u0 = u <;> simp [h1, h2] at hx ⊢
      rw [this, Bool.or_false]
      exact hp
  · intro u0 hu0 hpos
    refine le_trans (h.inv.upperA u0 hu0 hpos) ?_
    apply Nat.add_le_add_left
    apply List.countP_mono_left
    intro x _ hp
    rw [handled_append, hp]
    rfl


/-! ## Core decomposition: a demotion -/

/-- Facts about the bucket of a vertex `u` whose core value exceeds that of the
vertex at position `i`. -/
theorem CoreInv.bucket {g : Graph} {i : Nat} {done : List Nat} {γ : Ghost}
    (h : CoreInv g i done γ) (hi : i < g.vertices_count_) {u : Nat} (hun : u < g.vertices_count_)
    (hlt : γ.c (γ.vert i) < γ.c u) :
    i < γ.bin (γ.c u) ∧ γ.bin (γ.c u) ≤ γ.pos u ∧ γ.bin (γ.c u) < g.vertices_count_ ∧
    γ.c (γ.vert (γ.bin (γ.c u))) = γ.c u ∧ γ.vert (γ.bin (γ.c u)) < g.vertices_count_ ∧
    γ.pos (γ.vert (γ.bin (γ.c u))) = γ.bin (γ.c u) := by
  have hd := h.core_le u hun
  have hqn := h.pos_lt u hun
  have hvq := h.vert_pos u hun
  have h1 : i < γ.bin (γ.c u) := (h.bins _ hd i hi).2 hlt
  have h2 : γ.bin (γ.c u) ≤ γ.pos u := by
    by_contra hc
    have := (h.bins _ hd (γ.pos u) hqn).1 (by omega)
    rw [hvq] at this
    omega
  have h3 : γ.bin (γ.c u) < g.vertices_count_ := by omega
  have h4 : ¬ γ.c (γ.vert (γ.bin (γ.c u))) < γ.c u := by
    intro hc
    have := (h.bins _ hd _ h3).2 hc
    omega
  have h5 := h.sorted h2 hqn
  rw [hvq] at h5
  exact ⟨h1, h2, h3, by omega, h.vert_lt _ h3, h.pos_vert _ h3⟩

theorem demote_c (γ : Ghost) (u x : Nat) :
    (γ.demote u).c x = if x = u then γ.c u - 1 else γ.c x := by
  simp [Ghost.demote, Function.update_apply]

theorem demote_pos (γ : Ghost) (u x : Nat) :
    (γ.demote u).pos x = if x = γ.vert (γ.bin (γ.c u)) then γ.pos u
      else if x = u then γ.bin (γ.c u) else γ.pos x := by
  simp [Ghost.demote, Function.update_apply]

theorem demote_vert (γ : Ghost) (u p : Nat) :
    (γ.demote u).vert p = if p = γ.bin (γ.c u) then u
      else if p = γ.pos u then γ.vert (γ.bin (γ.c u)) else γ.vert p := by
  simp [Ghost.demote, Function.update_apply]

theorem demote_bin (γ : Ghost) (u d : Nat) :
    (γ.demote u).bin d = if d = γ.c u then γ.bin (γ.c u) + 1 else γ.bin d := by
  simp [Ghost.demote, Function.update_apply]

/-- The permutation part of the invariant survives a demotion. -/
theorem CoreInv.demote_perm {g : Graph} {i : Nat} {done : List Nat} {γ : Ghost}
    (h : CoreInv g i done γ) (hi : i < g.vertices_count_) {u : Nat} (hun : u < g.vertices_count_)
    (hlt : γ.c (γ.vert i) < γ.c u) :
    (∀ x, x < g.vertices_count_ → (γ.demote u).pos x < g.vertices_count_) ∧
    (∀ x, x < g.vertices_count_ → (γ.demote u).vert ((γ.demote u).pos x) = x) ∧
    (∀ p, p < g.vertices_count_ → (γ.demote u).vert p < g.vertices_count_) ∧
    (∀ p, p < g.vertices_count_ → (γ.demote u).pos ((γ.demote u).vert p) = p) := by
  obtain ⟨hib, hbq, hbn, hcw, hwn, hpw⟩ := h.bucket hi hun hlt
  have hqn := h.pos_lt u hun
  have hvq := h.vert_pos u hun
  refine ⟨?_, ?_, ?_, ?_⟩
  · intro x hx
    rw [demote_pos]
    split
    · exact hqn
    · split
      · exact hbn
      · exact h.pos_lt x hx
  · intro x hx
    rw [demote_pos]
    by_cases hxw : x = γ.vert (γ.bin (γ.c u))
    · rw [if_pos hxw, demote_vert]
      by_cases hqb : γ.pos u = γ.bin (γ.c u)
      · rw [if_pos hqb, hxw, ← hqb, hvq]
      · rw [if_neg hqb, if_pos rfl, hxw]
    · rw [if_neg hxw]
      by_cases hxu : x = u
      · rw [if_pos hxu, demote_vert, if_pos rfl, hxu]
      · rw [if_neg hxu, demote_vert]
        have h1 : γ.pos x ≠ γ.bin (γ.c u) := by
          intro hc
          apply hxw
          rw [← hc, h.vert_pos x hx]
        have h2 : γ.pos x ≠ γ.pos u := fun hc => hxu (h.pos_injective hx hun hc)
        rw [if_neg h1, if_neg h2, h.vert_pos x hx]
  · intro p hp
    rw [demote_vert]
    split
    · exact hun
    · split
      · exact hwn
      · exact h.vert_lt p hp
  · intro p hp
    rw [demote_vert]
    by_cases hpb : p = γ.bin (γ.c u)
    · rw [if_pos hpb, demote_pos]
      by_cases huw : u = γ.vert (γ.bin (γ.c u))
      · rw [if_pos huw, hpb]
        rw [huw, hpw] 
        rw [← huw]
      · rw [if_neg huw, if_pos rfl, hpb]
    · rw [if_neg hpb]
      by_cases hpq : p = γ.pos u
      · rw [if_pos hpq, demote_pos, if_pos rfl, hpq]
      · rw [if_neg hpq, demote_pos]
        have h1 : γ.vert p ≠ γ.vert (γ.bin (γ.c u)) := by
          intro hc
          apply hpb
          rw [← h.pos_vert p hp, hc, hpw]
        have h2 : γ.vert p ≠ u := by
          intro hc
          apply hpq
          rw [← h.pos_vert p hp, hc]
        rw [if_neg h1, if_neg h2, h.pos_vert p hp]


/-- The bucket boundaries survive a demotion. -/
theorem CoreInv.demote_bins {g : Graph} {i : Nat} {done : List Nat} {γ : Ghost}
    (h : CoreInv g i done γ) (hi : i < g.vertices_count_) {u : Nat} (hun : u < g.vertices_count_)
    (hlt : γ.c (γ.vert i) < γ.c u) :
    ∀ d, d ≤ g.max_degree_ → ∀ p, p < g.vertices_count_ →
      (p < (γ.demote u).bin d ↔ (γ.demote u).c ((γ.demote u).vert p) < d) := by
  obtain ⟨hib, hbq, hbn, hcw, hwn, hpw⟩ := h.bucket hi hun hlt
  have hqn := h.pos_lt u hun
  have hvq := h.vert_pos u hun
  have hd1 : 1 ≤ γ.c u := by omega
  intro d hd p hp
  have hold := h.bins d hd p hp
  have holdb := h.bins d hd _ hbn
  have holdq := h.bins d hd _ hqn
  rw [hvq] at holdq
  rw [hcw] at holdb
  rw [demote_bin, demote_vert, demote_c]
  by_cases hpb : p = γ.bin (γ.c u)
  · subst hpb
    rw [if_pos rfl, if_pos rfl]
    by_cases hdd : d = γ.c u
    · rw [if_pos hdd]; omega
    · rw [if_neg hdd]; omega
  · rw [if_neg hpb]
    by_cases hpq : p = γ.pos u
    · subst hpq
      rw [if_pos rfl]
      have hwu : γ.vert (γ.bin (γ.c u)) ≠ u := by
        intro hc
        apply hpb
        rw [← hpw, hc]
      rw [if_neg hwu, hcw]
      by_cases hdd : d = γ.c u
      · rw [if_pos hdd]; omega
      · rw [if_neg hdd]; omega
    · rw [if_neg hpq]
      have hvu : γ.vert p ≠ u := by
        intro hc
        apply hpq
        rw [← h.pos_vert p hp, hc]
      rw [if_neg hvu]
      by_cases hdd : d = γ.c u
      · rw [if_pos hdd]
        rw [hdd] at hold
        omega
      · rw [if_neg hdd]; exact hold

/-- Positions before `i` are the same before and after a demotion. -/
theorem CoreInv.demote_pos_lt {g : Graph} {i : Nat} {done : List Nat} {γ : Ghost}
    (h : CoreInv g i done γ) (hi : i < g.vertices_count_) {u : Nat} (hun : u < g.vertices_count_)
    (hlt : γ.c (γ.vert i) < γ.c u) (x : Nat) (k : Nat) (hk : k ≤ i) :
    ((γ.demote u).pos x < k ↔ γ.pos x < k) ∧ ((γ.demote u).pos x ≤ k ↔ γ.pos x ≤ k) := by
  obtain ⟨hib, hbq, hbn, hcw, hwn, hpw⟩ := h.bucket hi hun hlt
  rw [demote_pos]
  by_cases hxw : x = γ.vert (γ.bin (γ.c u))
  · rw [if_pos hxw, hxw, hpw]; omega
  · rw [if_neg hxw]
    by_cases hxu : x = u
    · rw [if_pos hxu, hxu]; omega
    · rw [if_neg hxu]
      exact ⟨Iff.rfl, Iff.rfl⟩

theorem CoreInv.demote_vert_i {g : Graph} {i : Nat} {done : List Nat} {γ : Ghost}
    (h : CoreInv g i done γ) (hi : i < g.vertices_count_) {u : Nat} (hun : u < g.vertices_count_)
    (hlt : γ.c (γ.vert i) < γ.c u) : (γ.demote u).vert i = γ.vert i := by
  obtain ⟨hib, hbq, hbn, hcw, hwn, hpw⟩ := h.bucket hi hun hlt
  rw [demote_vert, if_neg (by omega), if_neg (by omega)]

theorem InnerInv.demote {g : Graph} (hW : g.WellFormed) {i : Nat} {done : List Nat} {γ : Ghost}
    (h : InnerInv g i done γ) (hi : i < g.vertices_count_) {u : Nat}
    (hu : u ∈ g.adj (γ.vert i)) (hnd : u ∉ done) (hlt : γ.c (γ.vert i) < γ.c u) :
    InnerInv g i (done ++ [u]) (γ.demote u) := by
  have hvn := h.inv.vert_lt i hi
  have hun := hW.in_range _ hvn u hu
  have huv : u ≠ γ.vert i := fun hc => hW.no_self_loops _ hvn (hc ▸ hu)
  have hvu : γ.vert i ∈ g.adj u := (hW.symmetric u (γ.vert i) hun hvn).1 hu
  have hposv := h.inv.pos_vert i hi
  obtain ⟨hp1, hp2, hp3, hp4⟩ := h.inv.demote_perm hi hun hlt
  obtain ⟨hib, hbq, hbn, hcw, hwn, hpw⟩ := h.inv.bucket hi hun hlt
  have hvi := h.inv.demote_vert_i hi hun hlt
  have hpl := fun x k hk => h.inv.demote_pos_lt hi hun hlt x k hk
  have hd1 : 1 ≤ γ.c u := by omega
  -- the `handled` predicate after the step
  have hhand : ∀ x u0, handled (γ.demote u) i (done ++ [u]) x u0 =
      (handled γ i done x u0 || (decide (x = γ.vert i) && decide (u0 = u))) := by
    intro x u0
    rw [handled_append]
    unfold handled
    rw [hvi]
    have := (hpl x i (le_refl _)).1
    by_cases h1 : γ.pos x < i
    · have h2 := this.2 h1
      simp [h1, h2]
    · have h2 : ¬ (γ.demote u).pos x < i := fun hc => h1 (this.1 hc)
      simp [h1, h2]
  have hhv : handled γ i done (γ.vert i) u = false := by
    unfold handled
    simp [hposv, hnd]
  have hhu : ∀ u0, handled γ i done u u0 = false := by
    intro u0
    unfold handled
    have : ¬ γ.pos u < i := by omega
    simp [this, huv]
  refine ⟨⟨hp1, hp2, hp3, hp4, h.inv.demote_bins hi hun hlt, ?_, ?_, ?_, ?_⟩, ?_⟩
  · intro x hx
    rw [demote_c]
    have := h.inv.core_le x hx
    split
    · have := h.inv.core_le u hun; omega
    · exact this
  · -- lower
    intro u0 hu0
    rw [demote_c]
    by_cases hu0u : u0 = u
    · subst hu0u
      rw [if_pos rfl]
      have hold := h.inv.lower u0 hu0
      have hcnt := countP_le_succ_of_agree (hW.no_duplicates u0 hu0) (γ.vert i)
        (fun x => !(handled γ i done x u0) || decide (γ.c u0 ≤ γ.c x))
        (fun x => !(handled (γ.demote u0) i (done ++ [u0]) x u0) ||
          decide (γ.c u0 - 1 ≤ (γ.demote u0).c x))
        (by
          intro x hx hxv hp
          beta_reduce at hp ⊢
          rw [hhand, demote_c]
          have hxu : x ≠ u0 := fun hc => hW.no_self_loops u0 hu0 (hc ▸ hx)
          rw [if_neg hxu]
          have : (decide (x = γ.vert i) && decide (u0 = u0)) = false := by simp [hxv]
          rw [this, Bool.or_false]
          rcases Bool.or_eq_true_iff.1 hp with hp | hp
          · rw [hp]; rfl
          · have : γ.c u0 ≤ γ.c x := by simpa using hp
            have : γ.c u0 - 1 ≤ γ.c x := by omega
            simp [this])
      omega
    · rw [if_neg hu0u]
      refine le_trans (h.inv.lower u0 hu0) ?_
      apply List.countP_mono_left
      intro x hx hp
      beta_reduce at hp ⊢
      rw [hhand, demote_c]
      have hcond : (decide (x = γ.vert i) && decide (u0 = u)) = false := by simp [hu0u]
      rw [hcond, Bool.or_false]
      by_cases hxu : x = u
      · subst hxu
        rw [hhu u0]; rfl
      · rw [if_neg hxu]; exact hp
  · -- upperA
    intro u0 hu0 hpos
    have hpos' : i ≤ γ.pos u0 := by
      by_contra hc
      have := (hpl u0 i (le_refl _)).1.2 (by omega)
      omega
    have hold := h.inv.upperA u0 hu0 hpos'
    rw [demote_c]
    by_cases hu0u : u0 = u
    · subst hu0u
      rw [if_pos rfl]
      have hcnt := countP_succ_le_of_gain (hW.no_duplicates u0 hu0) (γ.vert i) hvu
        (fun x => handled γ i done x u0)
        (fun x => handled (γ.demote u0) i (done ++ [u0]) x u0) hhv
        (by beta_reduce; rw [hhand]; simp)
        (by
          intro x _ _ hp
          beta_reduce at hp ⊢
          rw [hhand, hp]; rfl)
      omega
    · rw [if_neg hu0u]
      refine le_trans hold ?_
      apply Nat.add_le_add_left
      apply List.countP_mono_left
      intro x _ hp
      beta_reduce at hp ⊢
      rw [hhand, hp]; rfl
  · -- upperB
    intro u0 hu0 hpos
    have hpos' : γ.pos u0 < i := (hpl u0 i (le_refl _)).1.1 hpos
    have hu0u : u0 ≠ u := fun hc => by rw [hc] at hpos'; omega
    have hold := h.inv.upperB u0 hu0 hpos'
    rw [demote_c, if_neg hu0u]
    refine le_trans ?_ hold
    apply List.countP_mono_left
    intro x _ hp
    simp only [decide_eq_true_eq] at hp ⊢
    have e1 : (γ.demote u).pos u0 = γ.pos u0 := by
      rw [demote_pos, if_neg (fun hc => by rw [hc, hpw] at hpos'; omega), if_neg hu0u]
    rw [e1] at hp
    by_contra hc
    have := (hpl x (γ.pos u0) (by omega)).2.2 (by omega)
    omega
  · -- the vertex being processed
    rw [hvi, demote_c, if_neg (fun hc => huv hc.symm)]
    refine le_trans ?_ h.current
    apply List.countP_mono_left
    intro x _ hp
    simp only [decide_eq_true_eq] at hp ⊢
    by_contra hc
    have := (hpl x i (le_refl _)).2.2 (by omega)
    omega


/-! ## Core decomposition: entering and leaving the inner loop -/

theorem CoreInv.enter {g : Graph} {i : Nat} {γ : Ghost} (h : CoreInv g i [] γ)
    (hi : i < g.vertices_count_) : InnerInv g i [] γ := by
  refine ⟨h, ?_⟩
  have hvn := h.vert_lt i hi
  have hposv := h.pos_vert i hi
  have hA := h.upperA _ hvn (by rw [hposv])
  have hsplit := List.length_eq_countP_add_countP (fun x => handled γ i [] x (γ.vert i))
    (g.adj (γ.vert i))
  have hmono : (g.adj (γ.vert i)).countP (fun x => decide (i < γ.pos x)) ≤
      (g.adj (γ.vert i)).countP (fun a => decide ¬ (handled γ i [] a (γ.vert i) = true)) := by
    apply List.countP_mono_left
    intro x _ hp
    simp only [decide_eq_true_eq] at hp
    have : ¬ γ.pos x < i := by omega
    simp [handled, this]
  omega

theorem InnerInv.leave {g : Graph} (hW : g.WellFormed) {i : Nat} {γ : Ghost}
    (h : InnerInv g i (g.adj (γ.vert i)) γ) (hi : i < g.vertices_count_) :
    CoreInv g (i + 1) [] γ := by
  have hvn := h.inv.vert_lt i hi
  have hposv := h.inv.pos_vert i hi
  have hhand : ∀ u0, u0 < g.vertices_count_ → ∀ x ∈ g.adj u0,
      handled γ (i + 1) [] x u0 = handled γ i (g.adj (γ.vert i)) x u0 := by
    intro u0 hu0 x hx
    have hxn := hW.in_range u0 hu0 x hx
    unfold handled
    by_cases h1 : γ.pos x < i
    · have : γ.pos x < i + 1 := by omega
      simp [h1, this]
    · by_cases h2 : γ.pos x = i
      · have hxv : x = γ.vert i := by rw [← h2, h.inv.vert_pos x hxn]
        have hmem : u0 ∈ g.adj (γ.vert i) := by
          rw [← hxv]
          exact (hW.symmetric x u0 hxn hu0).1 hx
        have : γ.pos x < i + 1 := by omega
        have h3 : γ.pos (γ.vert i) < i + 1 := by omega
        simp [this, hxv, hmem, h3]
      · have hne : x ≠ γ.vert i := by
          intro hc
          apply h2
          rw [hc, hposv]
        have : ¬ γ.pos x < i + 1 := by omega
        simp [h1, this, hne]
  refine ⟨h.inv.pos_lt, h.inv.vert_pos, h.inv.vert_lt, h.inv.pos_vert, h.inv.bins,
    h.inv.core_le, ?_, ?_, ?_⟩
  · intro u0 hu0
    refine le_trans (h.inv.lower u0 hu0) (le_of_eq ?_)
    apply List.countP_congr
    intro x hx
    rw [hhand u0 hu0 x hx]
  · intro u0 hu0 hpos
    refine le_trans (h.inv.upperA u0 hu0 (by omega)) (le_of_eq ?_)
    congr 1
    apply List.countP_congr
    intro x hx
    rw [hhand u0 hu0 x hx]
  · intro u0 hu0 hpos
    by_cases hlt : γ.pos u0 < i
    · exact h.inv.upperB u0 hu0 hlt
    · have hpi : γ.pos u0 = i := by omega
      have hu0v : u0 = γ.vert i := by rw [← hpi, h.inv.vert_pos u0 hu0]
      rw [hu0v, hposv]
      exact h.current

/-! ## Core decomposition: the working arrays -/

theorem Rep.get {l : List Int} {f : Nat → Nat} {n : Nat} (h : Rep l f n) {x : Nat} (hx : x < n) :
    l[x]? = some ((f x : Nat) : Int) := h.2 x hx

theorem Rep.read {l : List Int} {f : Nat → Nat} {n : Nat} (h : Rep l f n) {x : Nat} (hx : x < n) :
    readInt l ((x : Nat) : Int) = some ((f x : Nat) : Int) := by
  unfold readInt
  rw [if_pos (Int.ofNat_nonneg x), Int.toNat_ofNat]
  exact h.2 x hx

theorem Rep.set {l : List Int} {f : Nat → Nat} {n : Nat} (h : Rep l f n) (x v : Nat) :
    Rep (l.set x ((v : Nat) : Int)) (Function.update f x v) n := by
  refine ⟨by rw [List.length_set]; exact h.1, ?_⟩
  intro y hy
  by_cases hyx : y = x
  · subst hyx
    rw [List.getElem?_set_self (by rw [h.1]; exact hy), Function.update_same]
  · rw [List.getElem?_set_ne (fun hc => hyx hc.symm), Function.update_noteq hyx]
    exact h.2 y hy

theorem Rep.write {l : List Int} {f : Nat → Nat} {n : Nat} (h : Rep l f n) {x : Nat} (hx : x < n)
    (v : Nat) : writeInt l ((x : Nat) : Int) ((v : Nat) : Int) = some (l.set x ((v : Nat) : Int)) := by
  unfold writeInt
  rw [if_pos (Int.ofNat_nonneg x), Int.toNat_ofNat]
  exact writeAt_eq_some _ (by rw [h.1]; exact hx)

theorem Rep.congr {l : List Int} {f f' : Nat → Nat} {n : Nat} (h : Rep l f n)
    (hf : ∀ x, x < n → f x = f' x) : Rep l f' n :=
  ⟨h.1, fun x hx => by rw [← hf x hx]; exact h.2 x hx⟩

/-- The C++ demotion realises the ghost demotion. -/
theorem coreDemote_eq {g : Graph} {i : Nat} {done : List Nat} {γ : Ghost} {s : CoreState}
    (h : CoreInv g i done γ) (hR : Represents s γ g.vertices_count_ g.max_degree_)
    (hi : i < g.vertices_count_) {u : Nat} (hun : u < g.vertices_count_)
    (hlt : γ.c (γ.vert i) < γ.c u) :
    ∃ s', coreDemote s ((u : Nat) : Int) = some s' ∧
      Represents s' (γ.demote u) g.vertices_count_ g.max_degree_ := by
  obtain ⟨hib, hbq, hbn, hcw, hwn, hpw⟩ := h.bucket hi hun hlt
  obtain ⟨hRc, hRv, hRp, hRo⟩ := hR
  have hqn := h.pos_lt u hun
  have hd := h.core_le u hun
  have hd1 : 1 ≤ γ.c u := by omega
  have hdlt : γ.c u < g.max_degree_ + 1 := by omega
  have r1 := hRc.read hun
  have r2 := hRp.read hun
  have r3 := hRo.read hdlt
  have r4 := hRv.read hbn
  have e1 : ((γ.bin (γ.c u) : Nat) : Int) + 1 = ((γ.bin (γ.c u) + 1 : Nat) : Int) := by
    push_cast; rfl
  have e2 : ((γ.c u : Nat) : Int) - 1 = ((γ.c u - 1 : Nat) : Int) := by
    omega
  by_cases huw : u = γ.vert (γ.bin (γ.c u))
  · -- `u` is already the first vertex of its bucket
    have hcond : ¬ ((u : Nat) : Int) ≠ ((γ.vert (γ.bin (γ.c u)) : Nat) : Int) := by
      rw [← huw]; simp
    refine ⟨{ s with
        offset := s.offset.set (γ.c u) ((γ.bin (γ.c u) + 1 : Nat) : Int),
        core_table_ := s.core_table_.set u ((γ.c u - 1 : Nat) : Int) }, ?_, ?_⟩
    · simp only [coreDemote, r1, r2, r3, r4, Option.bind_eq_bind, Option.some_bind, if_neg hcond,
        Option.pure_def, e1, e2, hRo.write hdlt, hRc.write hun]
    · have hqb : γ.pos u = γ.bin (γ.c u) := by rw [← hpw, ← huw]
      refine ⟨hRc.set u _, ?_, ?_, hRo.set _ _⟩
      · apply hRv.congr
        intro p _
        rw [demote_vert]
        by_cases hpb : p = γ.bin (γ.c u)
        · rw [if_pos hpb, hpb, ← huw]
        · rw [if_neg hpb, if_neg (by rw [hqb]; exact hpb)]
      · apply hRp.congr
        intro x _
        rw [demote_pos]
        by_cases hxw : x = γ.vert (γ.bin (γ.c u))
        · rw [if_pos hxw, hxw, ← huw]
        · rw [if_neg hxw, if_neg (by rw [huw]; exact hxw)]
  · have hcond : ((u : Nat) : Int) ≠ ((γ.vert (γ.bin (γ.c u)) : Nat) : Int) := by
      intro hc
      exact huw (Int.ofNat_inj.1 hc)
    have hRp1 := hRp.set u (γ.bin (γ.c u))
    have hRv1 := hRv.set (γ.pos u) (γ.vert (γ.bin (γ.c u)))
    refine ⟨{ s with
        position := (s.position.set u ((γ.bin (γ.c u) : Nat) : Int)).set
          (γ.vert (γ.bin (γ.c u))) ((γ.pos u : Nat) : Int),
        vertices := (s.vertices.set (γ.pos u) ((γ.vert (γ.bin (γ.c u)) : Nat) : Int)).set
          (γ.bin (γ.c u)) ((u : Nat) : Int),
        offset := s.offset.set (γ.c u) ((γ.bin (γ.c u) + 1 : Nat) : Int),
        core_table_ := s.core_table_.set u ((γ.c u - 1 : Nat) : Int) }, ?_, ?_⟩
    · simp only [coreDemote, r1, r2, r3, r4, Option.bind_eq_bind, Option.some_bind, if_pos hcond,
        Option.pure_def, e1, e2, hRo.write hdlt, hRc.write hun, hRp.write hun, hRp1.write hwn,
        hRv.write hqn, hRv1.write hbn]
    · exact ⟨hRc.set u _, hRv1.set _ _, hRp1.set _ _, hRo.set _ _⟩


/-! ## Core decomposition: the main loop -/

theorem toInt_of_lt {x : Nat} (h : x < INT_SIZE) : toInt x = ((x : Nat) : Int) := by
  unfold INT_SIZE at h
  unfold toInt
  have hm : x % 4294967296 = x := Nat.mod_eq_of_lt (by omega)
  rw [hm, if_pos h]

theorem ofInt_of_lt {x : Nat} (h : x < INT_SIZE) : ofInt ((x : Nat) : Int) = x := by
  unfold INT_SIZE at h
  unfold ofInt
  have : ((x : Nat) : Int) % 4294967296 = ((x : Nat) : Int) := Int.emod_eq_of_lt (by omega) (by omega)
  rw [this, Int.toNat_ofNat]

/-- One neighbour entry of the inner loop. -/
theorem coreVisit_eq {g : Graph} (hW : g.WellFormed) {i : Nat} {done : List Nat} {γ : Ghost}
    {s : CoreState} (h : InnerInv g i done γ)
    (hR : Represents s γ g.vertices_count_ g.max_degree_) (hi : i < g.vertices_count_)
    {x : Nat} (hx : x ∈ g.adj (γ.vert i)) (hnd : x ∉ done) :
    ∃ s' γ', coreVisit ((γ.vert i : Nat) : Int) s x = some s' ∧
      Represents s' γ' g.vertices_count_ g.max_degree_ ∧ InnerInv g i (done ++ [x]) γ' ∧
      γ'.vert i = γ.vert i := by
  have hvn := h.inv.vert_lt i hi
  have hxn := hW.in_range _ hvn x hx
  have hxi : toInt x = ((x : Nat) : Int) := toInt_of_lt (lt_trans hxn hW.count_lt)
  have r1 := hR.1.read hxn
  have r2 := hR.1.read hvn
  by_cases hlt : γ.c (γ.vert i) < γ.c x
  · obtain ⟨s', hs', hR'⟩ := coreDemote_eq h.inv hR hi hxn hlt
    refine ⟨s', γ.demote x, ?_, hR', h.demote hW hi hx hnd hlt, h.inv.demote_vert_i hi hxn hlt⟩
    have hc : ((γ.c x : Nat) : Int) > ((γ.c (γ.vert i) : Nat) : Int) := by
      exact Int.ofNat_lt.2 hlt
    simp only [coreVisit, hxi, r1, r2, Option.bind_eq_bind, Option.some_bind, if_pos hc]
    exact hs'
  · refine ⟨s, γ, ?_, hR, h.skip (by omega), rfl⟩
    have hc : ¬ ((γ.c x : Nat) : Int) > ((γ.c (γ.vert i) : Nat) : Int) := by
      intro hc
      exact hlt (Int.ofNat_lt.1 hc)
    simp only [coreVisit, hxi, r1, r2, Option.bind_eq_bind, Option.some_bind, if_neg hc,
      Option.pure_def]

/-- One iteration of the main loop. -/
theorem coreProcess_eq {g : Graph} (hW : g.WellFormed) {i : Nat} {γ : Ghost}
    {s : CoreState} (h : CoreInv g i [] γ)
    (hR : Represents s γ g.vertices_count_ g.max_degree_) (hi : i < g.vertices_count_) :
    ∃ s' γ', coreProcess g s i = some s' ∧
      Represents s' γ' g.vertices_count_ g.max_degree_ ∧ CoreInv g (i + 1) [] γ' := by
  have hvn := h.vert_lt i hi
  have hv : s.vertices[i]? = some ((γ.vert i : Nat) : Int) := hR.2.1.get hi
  have hof : ofInt ((γ.vert i : Nat) : Int) = γ.vert i := ofInt_of_lt (lt_trans hvn hW.count_lt)
  have hnb := hW.shaped.getVertexNeighbors_adj hvn
  have hnodup := hW.no_duplicates _ hvn
  obtain ⟨s', hs', γ', hR', hI', hv'⟩ := foldlM_list_total (coreVisit ((γ.vert i : Nat) : Int))
    (fun done s => ∃ γ', Represents s γ' g.vertices_count_ g.max_degree_ ∧
      InnerInv g i done γ' ∧ γ'.vert i = γ.vert i)
    (g.adj (γ.vert i)) s ⟨γ, hR, h.enter hi, rfl⟩
    (by
      intro done x rest hl s1 ⟨γ1, hR1, hI1, hv1⟩
      have hx : x ∈ g.adj (γ1.vert i) := by
        rw [hv1, hl]; simp
      have hnd : x ∉ done := by
        rw [hl] at hnodup
        have := (List.nodup_append.1 hnodup).2.2
        intro hc
        exact this hc (List.mem_cons_self _ _)
      obtain ⟨s2, γ2, hs2, hR2, hI2, hv2⟩ := coreVisit_eq hW hI1 hR1 hi hx hnd
      rw [hv1] at hs2
      exact ⟨s2, hs2, γ2, hR2, hI2, by rw [hv2, hv1]⟩)
  refine ⟨s', γ', ?_, hR', ?_⟩
  · simp only [coreProcess, hv, hof, hnb, Option.bind_eq_bind, Option.some_bind]
    exact hs'
  · apply InnerInv.leave hW _ hi
    rw [hv']
    exact hI'

/-- The main loop runs to completion and keeps the invariant. -/
theorem coreLoop_eq {g : Graph} (hW : g.WellFormed) {γ : Ghost} {s : CoreState}
    (h : CoreInv g 0 [] γ) (hR : Represents s γ g.vertices_count_ g.max_degree_) :
    ∃ s' γ', (List.range g.vertices_count_).foldlM (coreProcess g) s = some s' ∧
      Represents s' γ' g.vertices_count_ g.max_degree_ ∧
      CoreInv g g.vertices_count_ [] γ' := by
  obtain ⟨s', hs', γ', hR', hI'⟩ := foldlM_range_total (coreProcess g)
    (fun i s => ∃ γ', Represents s γ' g.vertices_count_ g.max_degree_ ∧ CoreInv g i [] γ')
    g.vertices_count_ s ⟨γ, hR, h⟩
    (by
      intro i hi s1 ⟨γ1, hR1, hI1⟩
      obtain ⟨s2, γ2, hs2, hR2, hI2⟩ := coreProcess_eq hW hI1 hR1 hi
      exact ⟨s2, hs2, γ2, hR2, hI2⟩)
  exact ⟨s', γ', hs', hR', hI'⟩

/-- The closing loop that counts the vertices of core value above one is defined. -/
theorem coreLengthLoop_total (core : List Int) (n : Nat) (hn : core.length = n) (len : Nat) :
    ∃ r, (List.range n).foldlM (coreLengthStep core) len = some r := by
  obtain ⟨r, hr, _⟩ := foldlM_range_total (coreLengthStep core) (fun _ _ => True) n len trivial
    (by
      intro i hi s _
      have hlt : i < core.length := by omega
      refine ⟨if core[i] > 1 then wrap (s + 1) else s, ?_, trivial⟩
      simp only [coreLengthStep, List.getElem?_eq_getElem hlt, Option.bind_eq_bind,
        Option.some_bind, Option.pure_def])
  exact ⟨r, hr⟩


/-! ## Core decomposition: the initial bucket layout -/

theorem degreeCount_zero (g : Graph) (k : Nat) : g.degreeCount 0 k = 0 := rfl

theorem degreeCount_succ (g : Graph) (i k : Nat) :
    g.degreeCount (i + 1) k = g.degreeCount i k + if (g.adj i).length = k then 1 else 0 := by
  unfold degreeCount
  rw [List.range_succ, List.countP_append]
  by_cases h : (g.adj i).length = k
  · simp [h]
  · simp [h]

theorem degreeCount_mono (g : Graph) {i j : Nat} (h : i ≤ j) (k : Nat) :
    g.degreeCount i k ≤ g.degreeCount j k := by
  unfold degreeCount
  exact List.Sublist.countP_le _ (List.range_sublist.2 h)

theorem degreeCount_lt (g : Graph) {x n : Nat} (h : x < n) :
    g.degreeCount x (g.adj x).length < g.degreeCount n (g.adj x).length := by
  have h1 := g.degreeCount_succ x (g.adj x).length
  rw [if_pos rfl] at h1
  have h2 := g.degreeCount_mono (show x + 1 ≤ n from h) (g.adj x).length
  omega

theorem countP_lt_succ (d : Nat → Nat) (k : Nat) (l : List Nat) :
    l.countP (fun x => decide (d x < k + 1)) =
      l.countP (fun x => decide (d x < k)) + l.countP (fun x => decide (d x = k)) := by
  induction l with
  | nil => rfl
  | cons a l ih =>
    simp only [List.countP_cons, ih]
    by_cases h1 : d a < k
    · have h2 : d a < k + 1 := by omega
      have h3 : ¬ d a = k := by omega
      simp [h1, h2, h3]
      omega
    · by_cases h3 : d a = k
      · have h2 : d a < k + 1 := by omega
        simp [h1, h2, h3]
        omega
      · have h2 : ¬ d a < k + 1 := by omega
        simp [h1, h2, h3]

theorem degreeBelow_zero (g : Graph) : g.degreeBelow 0 = 0 := by
  unfold degreeBelow
  simp

theorem degreeBelow_succ (g : Graph) (k : Nat) :
    g.degreeBelow (k + 1) = g.degreeBelow k + g.degreeCount g.vertices_count_ k := by
  unfold degreeBelow degreeCount
  exact countP_lt_succ (fun x => (g.adj x).length) k _

theorem degreeBelow_mono (g : Graph) {k k' : Nat} (h : k ≤ k') :
    g.degreeBelow k ≤ g.degreeBelow k' := by
  unfold degreeBelow
  apply List.countP_mono_left
  intro x _ hx
  simp only [decide_eq_true_eq] at hx ⊢
  omega

theorem degreeBelow_le (g : Graph) (k : Nat) : g.degreeBelow k ≤ g.vertices_count_ := by
  unfold degreeBelow
  refine le_trans (List.countP_le_length _) ?_
  rw [List.length_range]

theorem degreeBelow_le_rank (g : Graph) (x : Nat) :
    g.degreeBelow (g.adj x).length ≤ g.degreeRank x := by
  unfold degreeRank
  omega

theorem degreeRank_lt_succ (g : Graph) {x : Nat} (hx : x < g.vertices_count_) :
    g.degreeRank x < g.degreeBelow ((g.adj x).length + 1) := by
  unfold degreeRank
  rw [degreeBelow_succ]
  have := g.degreeCount_lt hx
  omega

theorem degreeRank_lt (g : Graph) {x : Nat} (hx : x < g.vertices_count_) :
    g.degreeRank x < g.vertices_count_ :=
  lt_of_lt_of_le (g.degreeRank_lt_succ hx) (g.degreeBelow_le _)

theorem degreeRank_lt_of_lt (g : Graph) {x y : Nat} (hx : x < g.vertices_count_)
    (h : (g.adj x).length < (g.adj y).length) : g.degreeRank x < g.degreeRank y :=
  lt_of_lt_of_le (g.degreeRank_lt_succ hx)
    (le_trans (g.degreeBelow_mono h) (g.degreeBelow_le_rank y))

theorem degreeRank_lt_of_eq (g : Graph) {x y : Nat} (hxy : x < y)
    (h : (g.adj x).length = (g.adj y).length) : g.degreeRank x < g.degreeRank y := by
  unfold degreeRank
  rw [← h]
  have := g.degreeCount_lt hxy
  omega

theorem degreeRank_inj (g : Graph) {x y : Nat} (hx : x < g.vertices_count_)
    (hy : y < g.vertices_count_) (h : g.degreeRank x = g.degreeRank y) : x = y := by
  rcases Nat.lt_trichotomy (g.adj x).length (g.adj y).length with hd | hd | hd
  · have := g.degreeRank_lt_of_lt hx hd
    omega
  · rcases Nat.lt_trichotomy x y with hxy | hxy | hxy
    · have := g.degreeRank_lt_of_eq hxy hd
      omega
    · exact hxy
    · have := g.degreeRank_lt_of_eq hxy hd.symm
      omega
  · have := g.degreeRank_lt_of_lt hy hd
    omega

theorem degreeRank_surj (g : Graph) {p : Nat} (hp : p < g.vertices_count_) :
    ∃ x, x < g.vertices_count_ ∧ g.degreeRank x = p := by
  let f : Fin g.vertices_count_ → Fin g.vertices_count_ :=
    fun x => ⟨g.degreeRank x.1, g.degreeRank_lt x.2⟩
  have hinj : Function.Injective f := by
    intro a b hab
    have : g.degreeRank a.1 = g.degreeRank b.1 := congrArg Fin.val hab
    exact Fin.ext (g.degreeRank_inj a.2 b.2 this)
  obtain ⟨x, hx⟩ := (Finite.injective_iff_surjective.1 hinj) ⟨p, hp⟩
  exact ⟨x.1, x.2, congrArg Fin.val hx⟩

theorem degreeRank_lt_below_iff (g : Graph) {x : Nat} (hx : x < g.vertices_count_) (d : Nat) :
    g.degreeRank x < g.degreeBelow d ↔ (g.adj x).length < d := by
  constructor
  · intro h
    by_contra hc
    have h1 := g.degreeBelow_mono (show d ≤ (g.adj x).length by omega)
    have h2 := g.degreeBelow_le_rank x
    omega
  · intro h
    exact lt_of_lt_of_le (g.degreeRank_lt_succ hx) (g.degreeBelow_mono h)

theorem WellFormed.degree_le_count {g : Graph} (hW : g.WellFormed) {v : Nat}
    (hv : v < g.vertices_count_) : (g.adj v).length ≤ g.vertices_count_ := by
  have hsub : (g.adj v).toFinset ⊆ Finset.range g.vertices_count_ := by
    intro x hx
    rw [List.mem_toFinset] at hx
    exact Finset.mem_range.2 (hW.in_range v hv x hx)
  have hcard := Finset.card_le_card hsub
  rw [List.toFinset_card_of_nodup (hW.no_duplicates v hv), Finset.card_range] at hcard
  exact hcard

theorem WellFormed.max_degree_lt {g : Graph} (hW : g.WellFormed) : g.max_degree_ < INT_SIZE := by
  rcases hW.max_degree_attained with h | ⟨v, hv, h⟩
  · rw [h]; unfold INT_SIZE; omega
  · have := hW.degree_le_count hv
    have := hW.count_lt
    omega

/-- The layout produced by the set-up loops satisfies the main invariant. -/
theorem coreInv_initial {g : Graph} (hW : g.WellFormed) (vertices : List Int)
    (hvert : ∀ x, x < g.vertices_count_ → vertices[g.degreeRank x]? = some ((x : Nat) : Int)) :
    CoreInv g 0 [] (Ghost.initial g vertices) := by
  have hv : ∀ x, x < g.vertices_count_ → (Ghost.initial g vertices).vert (g.degreeRank x) = x := by
    intro x hx
    show (vertices.getD (g.degreeRank x) 0).toNat = x
    rw [List.getD_eq_getElem?_getD, hvert x hx, Option.getD_some, Int.toNat_ofNat]
  refine ⟨fun x hx => g.degreeRank_lt hx, hv, ?_, ?_, ?_, ?_, ?_, ?_, ?_⟩
  · intro p hp
    obtain ⟨x, hx, rfl⟩ := g.degreeRank_surj hp
    rw [hv x hx]; exact hx
  · intro p hp
    obtain ⟨x, hx, rfl⟩ := g.degreeRank_surj hp
    rw [hv x hx]; rfl
  · intro d _ p hp
    obtain ⟨x, hx, rfl⟩ := g.degreeRank_surj hp
    rw [hv x hx]
    exact g.degreeRank_lt_below_iff hx d
  · intro x hx
    exact hW.max_degree_ge x hx
  · intro u _
    show (g.adj u).length ≤ _
    refine le_of_eq ?_
    symm
    rw [List.countP_eq_length]
    intro x _
    simp [handled]
  · intro u _ _
    show (g.adj u).length ≤ (g.adj u).length + _
    omega
  · intro u _ h
    omega


/-! ## Core decomposition: the set-up loops -/

theorem length_newIntArray (junk : Nat → Nat) (k : Nat) : (newIntArray junk k).length = k := by
  simp [newIntArray]

theorem writeInt_cast {l : List Int} {x : Nat} (v : Int) (hx : x < l.length) :
    writeInt l ((x : Nat) : Int) v = some (l.set x v) := by
  unfold writeInt
  rw [if_pos (Int.ofNat_nonneg x), Int.toNat_ofNat]
  exact writeAt_eq_some _ hx

theorem reverse_range_eq (n : Nat) :
    (List.range n).reverse = (List.range n).map (fun j => n - 1 - j) := by
  have h := List.reverse_range' 0 n
  rw [← List.range_eq_range'] at h
  rw [h]
  simp

/-- First loop: the core values start as the degrees, and the bins count them. -/
theorem coreInitLoop_eq {g : Graph} (hW : g.WellFormed) (core bin : List Int)
    (hc : core.length = g.vertices_count_)
    (hb : Rep bin (fun k => g.degreeCount 0 k) (g.max_degree_ + 1)) :
    ∃ st, (List.range g.vertices_count_).foldlM (coreInitStep g) (core, bin) = some st ∧
      Rep st.1 (fun x => (g.adj x).length) g.vertices_count_ ∧
      Rep st.2 (fun k => g.degreeCount g.vertices_count_ k) (g.max_degree_ + 1) := by
  obtain ⟨st, hst, hl, hpre, hbin⟩ := foldlM_range_total (coreInitStep g)
    (fun i st => st.1.length = g.vertices_count_ ∧
      (∀ x, x < i → st.1[x]? = some (((g.adj x).length : Nat) : Int)) ∧
      Rep st.2 (fun k => g.degreeCount i k) (g.max_degree_ + 1))
    g.vertices_count_ (core, bin) ⟨hc, fun x hx => absurd hx (Nat.not_lt_zero x), hb⟩
    (by
      intro i hi st ⟨hl, hpre, hbin⟩
      have hd := hW.shaped.getVertexDegree_adj hi
      have hdm : (g.adj i).length ≤ g.max_degree_ := hW.max_degree_ge i hi
      have hdlt : (g.adj i).length < g.max_degree_ + 1 := by omega
      have hti : toInt (g.adj i).length = (((g.adj i).length : Nat) : Int) :=
        toInt_of_lt (lt_of_le_of_lt hdm hW.max_degree_lt)
      have hw : writeAt st.1 i (((g.adj i).length : Nat) : Int) =
          some (st.1.set i (((g.adj i).length : Nat) : Int)) :=
        writeAt_eq_some _ (by rw [hl]; exact hi)
      have r : readInt st.2 (((g.adj i).length : Nat) : Int) =
          some ((g.degreeCount i (g.adj i).length : Nat) : Int) := hbin.read hdlt
      have e1 : ((g.degreeCount i (g.adj i).length : Nat) : Int) + 1 =
          ((g.degreeCount i (g.adj i).length + 1 : Nat) : Int) := by push_cast; rfl
      have w := hbin.write hdlt (g.degreeCount i (g.adj i).length + 1)
      refine ⟨(st.1.set i (((g.adj i).length : Nat) : Int),
        st.2.set (g.adj i).length ((g.degreeCount i (g.adj i).length + 1 : Nat) : Int)),
        ?_, ?_, ?_, ?_⟩
      · simp only [coreInitStep, hd, hti, hw, r, e1, w, Option.bind_eq_bind, Option.some_bind,
          Option.pure_def]
      · show (st.1.set _ _).length = _
        rw [List.length_set]; exact hl
      · intro x hx
        show (st.1.set _ _)[x]? = _
        by_cases hxi : x = i
        · subst hxi
          rw [List.getElem?_set_self (by rw [hl]; exact hi)]
        · rw [List.getElem?_set_ne (fun hc => hxi hc.symm)]
          exact hpre x (by omega)
      · show Rep (st.2.set _ _) _ _
        apply (hbin.set (g.adj i).length (g.degreeCount i (g.adj i).length + 1)).congr
        intro k _
        rw [degreeCount_succ]
        by_cases hk : k = (g.adj i).length
        · subst hk
          rw [Function.update_same, if_pos rfl]
        · rw [Function.update_noteq hk, if_neg (fun hc => hk hc.symm)]
          rfl)
  exact ⟨st, hst, ⟨hl, hpre⟩, hbin⟩

/-- Second loop: the offsets become the bucket starts. -/
theorem coreOffsetLoop_eq (g : Graph) (degree_bin offset : List Int)
    (hb : Rep degree_bin (fun k => g.degreeCount g.vertices_count_ k) (g.max_degree_ + 1))
    (ho : offset.length = g.max_degree_ + 1) :
    ∃ st, (List.range (g.max_degree_ + 1)).foldlM (coreOffsetStep degree_bin) (offset, 0) =
        some st ∧ Rep st.1 g.degreeBelow (g.max_degree_ + 1) := by
  obtain ⟨st, hst, hl, hpre, _⟩ := foldlM_range_total (coreOffsetStep degree_bin)
    (fun i st => st.1.length = g.max_degree_ + 1 ∧
      (∀ k, k < i → st.1[k]? = some ((g.degreeBelow k : Nat) : Int)) ∧
      st.2 = ((g.degreeBelow i : Nat) : Int))
    (g.max_degree_ + 1) (offset, 0)
    ⟨ho, fun x hx => absurd hx (Nat.not_lt_zero x), by rw [degreeBelow_zero]; rfl⟩
    (by
      intro i hi st ⟨hl, hpre, hstart⟩
      have hw : writeAt st.1 i st.2 = some (st.1.set i st.2) :=
        writeAt_eq_some _ (by rw [hl]; exact hi)
      have r : degree_bin[i]? = some ((g.degreeCount g.vertices_count_ i : Nat) : Int) :=
        hb.get hi
      refine ⟨(st.1.set i st.2, st.2 + ((g.degreeCount g.vertices_count_ i : Nat) : Int)),
        ?_, ?_, ?_, ?_⟩
      · simp only [coreOffsetStep, hw, r, Option.bind_eq_bind, Option.some_bind, Option.pure_def]
      · show (st.1.set _ _).length = _
        rw [List.length_set]; exact hl
      · intro k hk
        show (st.1.set _ _)[k]? = _
        by_cases hki : k = i
        · subst hki
          rw [List.getElem?_set_self (by rw [hl]; exact hi), hstart]
        · rw [List.getElem?_set_ne (fun hc => hki hc.symm)]
          exact hpre k (by omega)
      · show st.2 + _ = _
        rw [hstart, degreeBelow_succ]
        push_cast; rfl)
  exact ⟨st, hst, hl, hpre⟩

/-- Third loop: every vertex is placed at its rank, and every offset has moved
to the end of its bucket. -/
theorem corePlaceLoop_eq {g : Graph} (hW : g.WellFormed) (s : CoreState)
    (hp : s.position.length = g.vertices_count_) (hv : s.vertices.length = g.vertices_count_)
    (ho : Rep s.offset g.degreeBelow (g.max_degree_ + 1)) :
    ∃ s', (List.range g.vertices_count_).foldlM (corePlaceStep g) s = some s' ∧
      s'.core_table_ = s.core_table_ ∧ Rep s'.position g.degreeRank g.vertices_count_ ∧
      s'.vertices.length = g.vertices_count_ ∧
      (∀ x, x < g.vertices_count_ → s'.vertices[g.degreeRank x]? = some ((x : Nat) : Int)) ∧
      Rep s'.offset (fun k => g.degreeBelow (k + 1)) (g.max_degree_ + 1) := by
  obtain ⟨s', hs', hc', hpl, hpp, hvl, hvv, hoff⟩ := foldlM_range_total (corePlaceStep g)
    (fun i s' => s'.core_table_ = s.core_table_ ∧ s'.position.length = g.vertices_count_ ∧
      (∀ x, x < i → s'.position[x]? = some ((g.degreeRank x : Nat) : Int)) ∧
      s'.vertices.length = g.vertices_count_ ∧
      (∀ x, x < i → s'.vertices[g.degreeRank x]? = some ((x : Nat) : Int)) ∧
      Rep s'.offset (fun k => g.degreeBelow k + g.degreeCount i k) (g.max_degree_ + 1))
    g.vertices_count_ s
    ⟨rfl, hp, fun x hx => absurd hx (Nat.not_lt_zero x), hv,
      fun x hx => absurd hx (Nat.not_lt_zero x), ho.congr (fun k _ => by rw [degreeCount_zero]; rfl)⟩
    (by
      intro i hi s1 ⟨hc1, hpl, hpp, hvl, hvv, hoff⟩
      have hd := hW.shaped.getVertexDegree_adj hi
      have hdm : (g.adj i).length ≤ g.max_degree_ := hW.max_degree_ge i hi
      have hdlt : (g.adj i).length < g.max_degree_ + 1 := by omega
      have hti : toInt (g.adj i).length = (((g.adj i).length : Nat) : Int) :=
        toInt_of_lt (lt_of_le_of_lt hdm hW.max_degree_lt)
      have r : readInt s1.offset (((g.adj i).length : Nat) : Int) =
          some ((g.degreeRank i : Nat) : Int) := hoff.read hdlt
      have hw : writeAt s1.position i ((g.degreeRank i : Nat) : Int) =
          some (s1.position.set i ((g.degreeRank i : Nat) : Int)) :=
        writeAt_eq_some _ (by rw [hpl]; exact hi)
      have hg : (s1.position.set i ((g.degreeRank i : Nat) : Int))[i]? =
          some ((g.degreeRank i : Nat) : Int) :=
        List.getElem?_set_self (by rw [hpl]; exact hi)
      have hwv : writeInt s1.vertices ((g.degreeRank i : Nat) : Int) ((i : Nat) : Int) =
          some (s1.vertices.set (g.degreeRank i) ((i : Nat) : Int)) :=
        writeInt_cast _ (by rw [hvl]; exact g.degreeRank_lt hi)
      have e1 : ((g.degreeRank i : Nat) : Int) + 1 = ((g.degreeRank i + 1 : Nat) : Int) := by
        push_cast; rfl
      have w := hoff.write hdlt (g.degreeRank i + 1)
      refine ⟨{ s1 with
          position := s1.position.set i ((g.degreeRank i : Nat) : Int),
          vertices := s1.vertices.set (g.degreeRank i) ((i : Nat) : Int),
          offset := s1.offset.set (g.adj i).length ((g.degreeRank i + 1 : Nat) : Int) },
        ?_, hc1, ?_, ?_, ?_, ?_, ?_⟩
      · simp only [corePlaceStep, hd, hti, r, hw, hg, hwv, e1, w, Option.bind_eq_bind,
          Option.some_bind, Option.pure_def]
      · show (s1.position.set _ _).length = _
        rw [List.length_set]; exact hpl
      · intro x hx
        show (s1.position.set _ _)[x]? = _
        by_cases hxi : x = i
        · subst hxi
          exact hg
        · rw [List.getElem?_set_ne (fun hc => hxi hc.symm)]
          exact hpp x (by omega)
      · show (s1.vertices.set _ _).length = _
        rw [List.length_set]; exact hvl
      · intro x hx
        show (s1.vertices.set _ _)[g.degreeRank x]? = _
        by_cases hxi : x = i
        · subst hxi
          rw [List.getElem?_set_self (by rw [hvl]; exact g.degreeRank_lt hi)]
        · have hne : g.degreeRank i ≠ g.degreeRank x := by
            intro hc
            exact hxi (g.degreeRank_inj (by omega) hi hc.symm)
          rw [List.getElem?_set_ne hne]
          exact hvv x (by omega)
      · show Rep (s1.offset.set _ _) _ _
        apply (hoff.set (g.adj i).length (g.degreeRank i + 1)).congr
        intro k _
        rw [degreeCount_succ]
        by_cases hk : k = (g.adj i).length
        · subst hk
          rw [Function.update_same, if_pos rfl]
          unfold degreeRank
          omega
        · rw [Function.update_noteq hk, if_neg (fun hc => hk hc.symm)]
          rfl)
  refine ⟨s', hs', hc', ⟨hpl, hpp⟩, hvl, hvv, hoff.congr ?_⟩
  intro k _
  show g.degreeBelow k + g.degreeCount g.vertices_count_ k = g.degreeBelow (k + 1)
  rw [degreeBelow_succ]

/-- Fourth loop and the assignment after it: every offset moves back to the
start of its bucket. -/
theorem coreShiftLoop_eq (g : Graph) (offset : List Int)
    (ho : Rep offset (fun k => g.degreeBelow (k + 1)) (g.max_degree_ + 1)) :
    ∃ o1, (List.range g.max_degree_).reverse.foldlM coreShiftStep offset = some o1 ∧
      writeAt o1 0 0 = some (o1.set 0 0) ∧
      Rep (o1.set 0 0) g.degreeBelow (g.max_degree_ + 1) := by
  rw [reverse_range_eq, foldlM_map]
  obtain ⟨o1, ho1, hl, hget⟩ := foldlM_range_total
    (fun s j => coreShiftStep s (g.max_degree_ - 1 - j))
    (fun j o => o.length = g.max_degree_ + 1 ∧ ∀ k, k < g.max_degree_ + 1 →
      o[k]? = some ((if g.max_degree_ - j < k then g.degreeBelow k
        else g.degreeBelow (k + 1) : Nat) : Int))
    g.max_degree_ offset
    ⟨ho.1, fun k hk => by rw [if_neg (by omega)]; exact ho.2 k hk⟩
    (by
      intro j hj o ⟨hl, hget⟩
      have r : o[g.max_degree_ - 1 - j]? =
          some ((g.degreeBelow (g.max_degree_ - 1 - j + 1) : Nat) : Int) := by
        rw [hget _ (by omega), if_neg (by omega)]
      have hw : writeAt o (g.max_degree_ - 1 - j + 1)
          ((g.degreeBelow (g.max_degree_ - 1 - j + 1) : Nat) : Int) = some (o.set _ _) :=
        writeAt_eq_some _ (by rw [hl]; omega)
      refine ⟨o.set (g.max_degree_ - 1 - j + 1)
        ((g.degreeBelow (g.max_degree_ - 1 - j + 1) : Nat) : Int), ?_, ?_, ?_⟩
      · simp only [coreShiftStep, r, hw, Option.bind_eq_bind, Option.some_bind]
      · rw [List.length_set]; exact hl
      · intro k hk
        by_cases hkk : k = g.max_degree_ - 1 - j + 1
        · subst hkk
          rw [List.getElem?_set_self (by rw [hl]; exact hk), if_pos (by omega)]
        · rw [List.getElem?_set_ne (fun hc => hkk hc.symm), hget k hk]
          by_cases hc : g.max_degree_ - j < k
          · rw [if_pos hc, if_pos (by omega)]
          · rw [if_neg hc, if_neg (by omega)])
  refine ⟨o1, ho1, writeAt_eq_some _ (by rw [hl]; omega), ?_, ?_⟩
  · rw [List.length_set]; exact hl
  · intro k hk
    by_cases hk0 : k = 0
    · subst hk0
      rw [List.getElem?_set_self (by rw [hl]; exact hk), degreeBelow_zero]
      rfl
    · rw [List.getElem?_set_ne (fun hc => hk0 hc.symm), hget k hk, if_pos (by omega)]


/-- The four set-up loops are defined on a well-formed store and establish the
main invariant. -/
theorem coreSetup_eq (junk : Nat → Nat) {g : Graph} (hW : g.WellFormed) :
    ∃ s0 γ, coreSetup junk g = some s0 ∧
      Represents s0 γ g.vertices_count_ g.max_degree_ ∧ CoreInv g 0 [] γ ∧
      ∀ x, x < g.vertices_count_ → γ.c x = (g.adj x).length := by
  have htn : toInt g.vertices_count_ = ((g.vertices_count_ : Nat) : Int) := toInt_of_lt hW.count_lt
  have htm : toInt g.max_degree_ = ((g.max_degree_ : Nat) : Int) := toInt_of_lt hW.max_degree_lt
  have hguard : ¬ (((g.vertices_count_ : Nat) : Int) < 0 ∨ ((g.max_degree_ : Nat) : Int) + 1 < 0) := by
    omega
  have hb1 : (((g.max_degree_ : Nat) : Int) + 1).toNat = g.max_degree_ + 1 := by omega
  obtain ⟨st, hst, hcore, hbin⟩ := coreInitLoop_eq hW (newIntArray junk g.vertices_count_)
    (List.replicate (g.max_degree_ + 1) (0 : Int)) (length_newIntArray _ _)
    ⟨List.length_replicate _ _, fun k hk => by
      rw [List.getElem?_replicate, if_pos hk]; rfl⟩
  obtain ⟨st2, hst2, hoff2⟩ := coreOffsetLoop_eq g st.2 (newIntArray junk (g.max_degree_ + 1))
    hbin (length_newIntArray _ _)
  obtain ⟨s, hs, hsc, hspos, hsvl, hsvv, hsoff⟩ := corePlaceLoop_eq hW
    { core_table_ := st.1, vertices := newIntArray junk g.vertices_count_,
      position := newIntArray junk g.vertices_count_, offset := st2.1 }
    (length_newIntArray _ _) (length_newIntArray _ _) hoff2
  obtain ⟨o1, ho1, hw0, hfin⟩ := coreShiftLoop_eq g s.offset hsoff
  have hI := coreInv_initial hW s.vertices hsvv
  refine ⟨{ s with offset := o1.set 0 0 }, Ghost.initial g s.vertices, ?_, ⟨?_, ?_, hspos, hfin⟩,
    hI, fun _ _ => rfl⟩
  · simp only [coreSetup, getVerticesCount, getGraphMaxDegree, htn, htm, if_neg hguard,
      Int.toNat_ofNat, hb1, hst, hst2, hs, ho1, hw0, Option.bind_eq_bind, Option.some_bind,
      Option.pure_def]
  · show Rep s.core_table_ _ _
    rw [hsc]
    exact hcore
  · refine ⟨hsvl, ?_⟩
    intro p hp
    obtain ⟨x, hx, rfl⟩ := g.degreeRank_surj hp
    have hv : (Ghost.initial g s.vertices).vert (g.degreeRank x) = x := hI.vert_pos x hx
    rw [hv]
    exact hsvv x hx


theorem pathGraph_wellFormed : pathGraph.WellFormed where
  shaped := pathGraph_shaped
  count_lt := by decide
  in_range := by
    intro v hv
    have : v = 0 ∨ v = 1 ∨ v = 2 := by
      have : v < 3 := hv
      omega
    rcases this with rfl | rfl | rfl <;> decide
  symmetric := pathGraph_symmetric
  no_self_loops := by
    intro v hv
    have : v = 0 ∨ v = 1 ∨ v = 2 := by
      have : v < 3 := hv
      omega
    rcases this with rfl | rfl | rfl <;> decide
  no_duplicates := by
    intro v hv
    have : v = 0 ∨ v = 1 ∨ v = 2 := by
      have : v < 3 := hv
      omega
    rcases this with rfl | rfl | rfl <;> decide
  max_degree_ge := by
    intro v hv
    have : v = 0 ∨ v = 1 ∨ v = 2 := by
      have : v < 3 := hv
      omega
    rcases this with rfl | rfl | rfl <;> decide
  max_degree_attained := Or.inr ⟨1, by decide, by decide⟩


/-! ## The writer, for an arbitrary store -/

theorem degreeLoop_eq (offs : List Nat) (n : Nat) (hlen : n + 1 ≤ offs.length)
    (d0 : List Nat) (hd : d0.length = n) :
    (List.range n).foldlM (degreeStep offs) d0 =
      some ((List.range n).map (fun i => uiSub (offs.getD (i + 1) 0) (offs.getD i 0))) := by
  obtain ⟨d, hd1, hl, hget⟩ := foldlM_range_total (degreeStep offs)
    (fun i d => d.length = n ∧
      ∀ j, j < i → d[j]? = some (uiSub (offs.getD (j + 1) 0) (offs.getD j 0)))
    n d0 ⟨hd, fun j hj => absurd hj (Nat.not_lt_zero j)⟩
    (by
      intro i hi d ⟨hl, hget⟩
      have h1 : offs[i + 1]? = some (offs.getD (i + 1) 0) := getElem?_eq_some_getD (by omega)
      have h2 : offs[i]? = some (offs.getD i 0) := getElem?_eq_some_getD (by omega)
      have hw := writeAt_eq_some (uiSub (offs.getD (i + 1) 0) (offs.getD i 0))
        (show i < d.length by omega)
      refine ⟨d.set i (uiSub (offs.getD (i + 1) 0) (offs.getD i 0)), ?_, ?_, ?_⟩
      · simp only [degreeStep, h1, h2, hw, Option.bind_eq_bind, Option.some_bind]
      · rw [List.length_set]; exact hl
      · intro j hj
        by_cases hji : j = i
        · subst hji
          rw [List.getElem?_set_self (by omega)]
        · rw [List.getElem?_set_ne (fun hc => hji hc.symm)]
          exact hget j (by omega))
  rw [hd1]
  congr 1
  apply List.ext_getElem?
  intro j
  by_cases hj : j < n
  · rw [hget j hj, List.getElem?_map, List.getElem?_range hj]
    rfl
  · rw [List.getElem?_eq_none (by omega), List.getElem?_eq_none (by simp; omega)]


/-! ## Ranking by degree -/

theorem rankCount_zero (d : Nat → Nat) (k : Nat) : rankCount d 0 k = 0 := rfl

theorem rankCount_succ (d : Nat → Nat) (i k : Nat) :
    rankCount d (i + 1) k = rankCount d i k + if d i = k then 1 else 0 := by
  unfold rankCount
  rw [List.range_succ, List.countP_append]
  by_cases h : d i = k
  · simp [h]
  · simp [h]

theorem rankCount_mono (d : Nat → Nat) {i j : Nat} (h : i ≤ j) (k : Nat) :
    rankCount d i k ≤ rankCount d j k := by
  unfold rankCount
  exact List.Sublist.countP_le _ (List.range_sublist.2 h)

theorem rankCount_lt (d : Nat → Nat) {x n : Nat} (h : x < n) :
    rankCount d x (d x) < rankCount d n (d x) := by
  have h1 := rankCount_succ d x (d x)
  rw [if_pos rfl] at h1
  have h2 := rankCount_mono d (show x + 1 ≤ n from h) (d x)
  omega

theorem rankBelow_zero (d : Nat → Nat) (n : Nat) : rankBelow d n 0 = 0 := by
  unfold rankBelow
  simp

theorem rankBelow_succ (d : Nat → Nat) (n k : Nat) :
    rankBelow d n (k + 1) = rankBelow d n k + rankCount d n k := by
  unfold rankBelow rankCount
  exact countP_lt_succ d k _

theorem rankBelow_mono (d : Nat → Nat) (n : Nat) {k k' : Nat} (h : k ≤ k') :
    rankBelow d n k ≤ rankBelow d n k' := by
  unfold rankBelow
  apply List.countP_mono_left
  intro x _ hx
  simp only [decide_eq_true_eq] at hx ⊢
  omega

theorem rankBelow_le (d : Nat → Nat) (n k : Nat) : rankBelow d n k ≤ n := by
  unfold rankBelow
  refine le_trans (List.countP_le_length _) ?_
  rw [List.length_range]

theorem rankBelow_le_rankOf (d : Nat → Nat) (n x : Nat) : rankBelow d n (d x) ≤ rankOf d n x := by
  unfold rankOf
  omega

theorem rankOf_lt_succ (d : Nat → Nat) {n x : Nat} (hx : x < n) :
    rankOf d n x < rankBelow d n (d x + 1) := by
  unfold rankOf
  rw [rankBelow_succ]
  have := rankCount_lt d hx
  omega

theorem rankOf_lt (d : Nat → Nat) {n x : Nat} (hx : x < n) : rankOf d n x < n :=
  lt_of_lt_of_le (rankOf_lt_succ d hx) (rankBelow_le d n _)

theorem rankOf_lt_of_lt (d : Nat → Nat) {n x y : Nat} (hx : x < n) (h : d x < d y) :
    rankOf d n x < rankOf d n y :=
  lt_of_lt_of_le (rankOf_lt_succ d hx)
    (le_trans (rankBelow_mono d n h) (rankBelow_le_rankOf d n y))

theorem rankOf_lt_of_eq (d : Nat → Nat) (n : Nat) {x y : Nat} (hxy : x < y) (h : d x = d y) :
    rankOf d n x < rankOf d n y := by
  unfold rankOf
  rw [← h]
  have := rankCount_lt d hxy
  omega

theorem rankOf_inj (d : Nat → Nat) {n x y : Nat} (hx : x < n) (hy : y < n)
    (h : rankOf d n x = rankOf d n y) : x = y := by
  rcases Nat.lt_trichotomy (d x) (d y) with hd | hd | hd
  · have := rankOf_lt_of_lt d hx hd
    omega
  · rcases Nat.lt_trichotomy x y with hxy | hxy | hxy
    · have := rankOf_lt_of_eq d n hxy hd
      omega
    · exact hxy
    · have := rankOf_lt_of_eq d n hxy hd.symm
      omega
  · have := rankOf_lt_of_lt d hy hd
    omega

theorem rankOf_surj (d : Nat → Nat) {n p : Nat} (hp : p < n) :
    ∃ x, x < n ∧ rankOf d n x = p := by
  let f : Fin n → Fin n := fun x => ⟨rankOf d n x.1, rankOf_lt d x.2⟩
  have hinj : Function.Injective f := by
    intro a b hab
    have : rankOf d n a.1 = rankOf d n b.1 := congrArg Fin.val hab
    exact Fin.ext (rankOf_inj d a.2 b.2 this)
  obtain ⟨x, hx⟩ := (Finite.injective_iff_surjective.1 hinj) ⟨p, hp⟩
  exact ⟨x.1, x.2, congrArg Fin.val hx⟩

theorem find_range_unique (p : Nat → Bool) {x : Nat} (hp : p x = true) :
    ∀ n, x < n → (∀ y, y < n → p y = true → y = x) → (List.range n).find? p = some x := by
  intro n
  induction n with
  | zero => intro h; omega
  | succ n ih =>
    intro hx huniq
    rw [List.range_succ, List.find?_append]
    by_cases hxn : x < n
    · rw [ih hxn (fun y hy hpy => huniq y (by omega) hpy)]
      rfl
    · have hxe : x = n := by omega
      have hnone : (List.range n).find? p = none := by
        rw [List.find?_eq_none]
        intro y hy hpy
        rw [List.mem_range] at hy
        have := huniq y (by omega) hpy
        omega
      rw [hnone, ← hxe]
      simp [hp]

/-- The search in `Ghost.setup` finds the vertex of a given rank. -/
theorem find_rankOf (d : Nat → Nat) {n x : Nat} (hx : x < n) :
    (List.range n).find? (fun y => decide (rankOf d n y = rankOf d n x)) = some x := by
  apply find_range_unique _ (by simp) n hx
  intro y hy hpy
  simp only [decide_eq_true_eq] at hpy
  exact rankOf_inj d hy hx hpy

theorem setup_vert_pos (g : Graph) {x : Nat} (hx : x < g.vertices_count_) :
    (Ghost.setup g).vert ((Ghost.setup g).pos x) = x := by
  show ((List.range g.vertices_count_).find?
    (fun y => decide (rankOf g.coreDegree g.vertices_count_ y =
      rankOf g.coreDegree g.vertices_count_ x))).getD 0 = x
  rw [find_rankOf g.coreDegree hx]
  rfl


/-! ## The set-up loops on an arbitrary store -/

theorem CoreReady.degree_eq {g : Graph} (hR : g.CoreReady) {i : Nat} (hi : i < g.vertices_count_) :
    g.getVertexDegree i = some (g.degree i) ∧
    toInt (g.degree i) = ((g.coreDegree i : Nat) : Int) ∧ g.coreDegree i ≤ g.coreMaxDegree := by
  obtain ⟨d, hd, h0, hle⟩ := hR.degree i hi
  have hdeg : g.degree i = d := by
    unfold Graph.degree
    rw [hd]
    rfl
  refine ⟨by rw [hdeg]; exact hd, ?_, ?_⟩
  · unfold coreDegree
    rw [hdeg, Int.toNat_of_nonneg h0]
  · unfold coreDegree
    rw [hdeg]
    exact hle

/-- First loop: the core values start as the degrees, and the bins count them. -/
theorem coreInitLoop_ready {g : Graph} (hR : g.CoreReady) (core bin : List Int)
    (hc : core.length = g.vertices_count_)
    (hb : Rep bin (fun k => rankCount g.coreDegree 0 k) (g.coreMaxDegree + 1)) :
    ∃ st, (List.range g.vertices_count_).foldlM (coreInitStep g) (core, bin) = some st ∧
      Rep st.1 g.coreDegree g.vertices_count_ ∧
      Rep st.2 (fun k => rankCount g.coreDegree g.vertices_count_ k) (g.coreMaxDegree + 1) := by
  obtain ⟨st, hst, hl, hpre, hbin⟩ := foldlM_range_total (coreInitStep g)
    (fun i st => st.1.length = g.vertices_count_ ∧
      (∀ x, x < i → st.1[x]? = some ((g.coreDegree x : Nat) : Int)) ∧
      Rep st.2 (fun k => rankCount g.coreDegree i k) (g.coreMaxDegree + 1))
    g.vertices_count_ (core, bin) ⟨hc, fun x hx => absurd hx (Nat.not_lt_zero x), hb⟩
    (by
      intro i hi st ⟨hl, hpre, hbin⟩
      obtain ⟨hd, hti, hdm⟩ := hR.degree_eq hi
      have hdlt : g.coreDegree i < g.coreMaxDegree + 1 := by omega
      have hw : writeAt st.1 i ((g.coreDegree i : Nat) : Int) =
          some (st.1.set i ((g.coreDegree i : Nat) : Int)) :=
        writeAt_eq_some _ (by rw [hl]; exact hi)
      have r : readInt st.2 ((g.coreDegree i : Nat) : Int) =
          some ((rankCount g.coreDegree i (g.coreDegree i) : Nat) : Int) := hbin.read hdlt
      have e1 : ((rankCount g.coreDegree i (g.coreDegree i) : Nat) : Int) + 1 =
          ((rankCount g.coreDegree i (g.coreDegree i) + 1 : Nat) : Int) := by push_cast; rfl
      have w := hbin.write hdlt (rankCount g.coreDegree i (g.coreDegree i) + 1)
      refine ⟨(st.1.set i ((g.coreDegree i : Nat) : Int),
        st.2.set (g.coreDegree i) ((rankCount g.coreDegree i (g.coreDegree i) + 1 : Nat) : Int)),
        ?_, ?_, ?_, ?_⟩
      · simp only [coreInitStep, hd, hti, hw, r, e1, w, Option.bind_eq_bind, Option.some_bind,
          Option.pure_def]
      · show (st.1.set _ _).length = _
        rw [List.length_set]; exact hl
      · intro x hx
        show (st.1.set _ _)[x]? = _
        by_cases hxi : x = i
        · subst hxi
          rw [List.getElem?_set_self (by rw [hl]; exact hi)]
        · rw [List.getElem?_set_ne (fun hc => hxi hc.symm)]
          exact hpre x (by omega)
      · show Rep (st.2.set _ _) _ _
        apply (hbin.set (g.coreDegree i) (rankCount g.coreDegree i (g.coreDegree i) + 1)).congr
        intro k _
        rw [rankCount_succ]
        by_cases hk : k = (g.coreDegree i)
        · subst hk
          rw [Function.update_same, if_pos rfl]
        · rw [Function.update_noteq hk, if_neg (fun hc => hk hc.symm)]
          rfl)
  exact ⟨st, hst, ⟨hl, hpre⟩, hbin⟩

/-- Second loop: the offsets become the bucket starts. -/
theorem coreOffsetLoop_ready (g : Graph) (degree_bin offset : List Int)
    (hb : Rep degree_bin (fun k => rankCount g.coreDegree g.vertices_count_ k) (g.coreMaxDegree + 1))
    (ho : offset.length = g.coreMaxDegree + 1) :
    ∃ st, (List.range (g.coreMaxDegree + 1)).foldlM (coreOffsetStep degree_bin) (offset, 0) =
        some st ∧ Rep st.1 (rankBelow g.coreDegree g.vertices_count_) (g.coreMaxDegree + 1) := by
  obtain ⟨st, hst, hl, hpre, _⟩ := foldlM_range_total (coreOffsetStep degree_bin)
    (fun i st => st.1.length = g.coreMaxDegree + 1 ∧
      (∀ k, k < i → st.1[k]? = some ((rankBelow g.coreDegree g.vertices_count_ k : Nat) : Int)) ∧
      st.2 = ((rankBelow g.coreDegree g.vertices_count_ i : Nat) : Int))
    (g.coreMaxDegree + 1) (offset, 0)
    ⟨ho, fun x hx => absurd hx (Nat.not_lt_zero x), by rw [rankBelow_zero]; rfl⟩
    (by
      intro i hi st ⟨hl, hpre, hstart⟩
      have hw : writeAt st.1 i st.2 = some (st.1.set i st.2) :=
        writeAt_eq_some _ (by rw [hl]; exact hi)
      have r : degree_bin[i]? = some ((rankCount g.coreDegree g.vertices_count_ i : Nat) : Int) :=
        hb.get hi
      refine ⟨(st.1.set i st.2, st.2 + ((rankCount g.coreDegree g.vertices_count_ i : Nat) : Int)),
        ?_, ?_, ?_, ?_⟩
      · simp only [coreOffsetStep, hw, r, Option.bind_eq_bind, Option.some_bind, Option.pure_def]
      · show (st.1.set _ _).length = _
        rw [List.length_set]; exact hl
      · intro k hk
        show (st.1.set _ _)[k]? = _
        by_cases hki : k = i
        · subst hki
          rw [List.getElem?_set_self (by rw [hl]; exact hi), hstart]
        · rw [List.getElem?_set_ne (fun hc => hki hc.symm)]
          exact hpre k (by omega)
      · show st.2 + _ = _
        rw [hstart, rankBelow_succ]
        push_cast; rfl)
  exact ⟨st, hst, hl, hpre⟩

/-- Third loop: every vertex is placed at its rank, and every offset has moved
to the end of its bucket. -/
theorem corePlaceLoop_ready {g : Graph} (hR : g.CoreReady) (s : CoreState)
    (hp : s.position.length = g.vertices_count_) (hv : s.vertices.length = g.vertices_count_)
    (ho : Rep s.offset (rankBelow g.coreDegree g.vertices_count_) (g.coreMaxDegree + 1)) :
    ∃ s', (List.range g.vertices_count_).foldlM (corePlaceStep g) s = some s' ∧
      s'.core_table_ = s.core_table_ ∧ Rep s'.position (rankOf g.coreDegree g.vertices_count_) g.vertices_count_ ∧
      s'.vertices.length = g.vertices_count_ ∧
      (∀ x, x < g.vertices_count_ → s'.vertices[rankOf g.coreDegree g.vertices_count_ x]? = some ((x : Nat) : Int)) ∧
      Rep s'.offset (fun k => rankBelow g.coreDegree g.vertices_count_ (k + 1)) (g.coreMaxDegree + 1) := by
  obtain ⟨s', hs', hc', hpl, hpp, hvl, hvv, hoff⟩ := foldlM_range_total (corePlaceStep g)
    (fun i s' => s'.core_table_ = s.core_table_ ∧ s'.position.length = g.vertices_count_ ∧
      (∀ x, x < i → s'.position[x]? = some ((rankOf g.coreDegree g.vertices_count_ x : Nat) : Int)) ∧
      s'.vertices.length = g.vertices_count_ ∧
      (∀ x, x < i → s'.vertices[rankOf g.coreDegree g.vertices_count_ x]? = some ((x : Nat) : Int)) ∧
      Rep s'.offset (fun k => rankBelow g.coreDegree g.vertices_count_ k + rankCount g.coreDegree i k) (g.coreMaxDegree + 1))
    g.vertices_count_ s
    ⟨rfl, hp, fun x hx => absurd hx (Nat.not_lt_zero x), hv,
      fun x hx => absurd hx (Nat.not_lt_zero x), ho.congr (fun k _ => by rw [rankCount_zero]; rfl)⟩
    (by
      intro i hi s1 ⟨hc1, hpl, hpp, hvl, hvv, hoff⟩
      obtain ⟨hd, hti, hdm⟩ := hR.degree_eq hi
      have hdlt : g.coreDegree i < g.coreMaxDegree + 1 := by omega
      have r : readInt s1.offset ((g.coreDegree i : Nat) : Int) =
          some ((rankOf g.coreDegree g.vertices_count_ i : Nat) : Int) := hoff.read hdlt
      have hw : writeAt s1.position i ((rankOf g.coreDegree g.vertices_count_ i : Nat) : Int) =
          some (s1.position.set i ((rankOf g.coreDegree g.vertices_count_ i : Nat) : Int)) :=
        writeAt_eq_some _ (by rw [hpl]; exact hi)
      have hg : (s1.position.set i ((rankOf g.coreDegree g.vertices_count_ i : Nat) : Int))[i]? =
          some ((rankOf g.coreDegree g.vertices_count_ i : Nat) : Int) :=
        List.getElem?_set_self (by rw [hpl]; exact hi)
      have hwv : writeInt s1.vertices ((rankOf g.coreDegree g.vertices_count_ i : Nat) : Int) ((i : Nat) : Int) =
          some (s1.vertices.set (rankOf g.coreDegree g.vertices_count_ i) ((i : Nat) : Int)) :=
        writeInt_cast _ (by rw [hvl]; exact rankOf_lt g.coreDegree hi)
      have e1 : ((rankOf g.coreDegree g.vertices_count_ i : Nat) : Int) + 1 = ((rankOf g.coreDegree g.vertices_count_ i + 1 : Nat) : Int) := by
        push_cast; rfl
      have w := hoff.write hdlt (rankOf g.coreDegree g.vertices_count_ i + 1)
      refine ⟨{ s1 with
          position := s1.position.set i ((rankOf g.coreDegree g.vertices_count_ i : Nat) : Int),
          vertices := s1.vertices.set (rankOf g.coreDegree g.vertices_count_ i) ((i : Nat) : Int),
          offset := s1.offset.set (g.coreDegree i) ((rankOf g.coreDegree g.vertices_count_ i + 1 : Nat) : Int) },
        ?_, hc1, ?_, ?_, ?_, ?_, ?_⟩
      · simp only [corePlaceStep, hd, hti, r, hw, hg, hwv, e1, w, Option.bind_eq_bind,
          Option.some_bind, Option.pure_def]
      · show (s1.position.set _ _).length = _
        rw [List.length_set]; exact hpl
      · intro x hx
        show (s1.position.set _ _)[x]? = _
        by_cases hxi : x = i
        · subst hxi
          exact hg
        · rw [List.getElem?_set_ne (fun hc => hxi hc.symm)]
          exact hpp x (by omega)
      · show (s1.vertices.set _ _).length = _
        rw [List.length_set]; exact hvl
      · intro x hx
        show (s1.vertices.set _ _)[rankOf g.coreDegree g.vertices_count_ x]? = _
        by_cases hxi : x = i
        · subst hxi
          rw [List.getElem?_set_self (by rw [hvl]; exact rankOf_lt g.coreDegree hi)]
        · have hne : rankOf g.coreDegree g.vertices_count_ i ≠ rankOf g.coreDegree g.vertices_count_ x := by
            intro hc
            exact hxi (rankOf_inj g.coreDegree (by omega) hi hc.symm)
          rw [List.getElem?_set_ne hne]
          exact hvv x (by omega)
      · show Rep (s1.offset.set _ _) _ _
        apply (hoff.set (g.coreDegree i) (rankOf g.coreDegree g.vertices_count_ i + 1)).congr
        intro k _
        rw [rankCount_succ]
        by_cases hk : k = (g.coreDegree i)
        · subst hk
          rw [Function.update_same, if_pos rfl]
          unfold rankOf
          omega
        · rw [Function.update_noteq hk, if_neg (fun hc => hk hc.symm)]
          rfl)
  refine ⟨s', hs', hc', ⟨hpl, hpp⟩, hvl, hvv, hoff.congr ?_⟩
  intro k _
  show rankBelow g.coreDegree g.vertices_count_ k + rankCount g.coreDegree g.vertices_count_ k = rankBelow g.coreDegree g.vertices_count_ (k + 1)
  rw [rankBelow_succ]

/-- Fourth loop and the assignment after it: every offset moves back to the
start of its bucket. -/
theorem coreShiftLoop_ready (g : Graph) (offset : List Int)
    (ho : Rep offset (fun k => rankBelow g.coreDegree g.vertices_count_ (k + 1)) (g.coreMaxDegree + 1)) :
    ∃ o1, (List.range g.coreMaxDegree).reverse.foldlM coreShiftStep offset = some o1 ∧
      writeAt o1 0 0 = some (o1.set 0 0) ∧
      Rep (o1.set 0 0) (rankBelow g.coreDegree g.vertices_count_) (g.coreMaxDegree + 1) := by
  rw [reverse_range_eq, foldlM_map]
  obtain ⟨o1, ho1, hl, hget⟩ := foldlM_range_total
    (fun s j => coreShiftStep s (g.coreMaxDegree - 1 - j))
    (fun j o => o.length = g.coreMaxDegree + 1 ∧ ∀ k, k < g.coreMaxDegree + 1 →
      o[k]? = some ((if g.coreMaxDegree - j < k then rankBelow g.coreDegree g.vertices_count_ k
        else rankBelow g.coreDegree g.vertices_count_ (k + 1) : Nat) : Int))
    g.coreMaxDegree offset
    ⟨ho.1, fun k hk => by rw [if_neg (by omega)]; exact ho.2 k hk⟩
    (by
      intro j hj o ⟨hl, hget⟩
      have r : o[g.coreMaxDegree - 1 - j]? =
          some ((rankBelow g.coreDegree g.vertices_count_ (g.coreMaxDegree - 1 - j + 1) : Nat) : Int) := by
        rw [hget _ (by omega), if_neg (by omega)]
      have hw : writeAt o (g.coreMaxDegree - 1 - j + 1)
          ((rankBelow g.coreDegree g.vertices_count_ (g.coreMaxDegree - 1 - j + 1) : Nat) : Int) = some (o.set _ _) :=
        writeAt_eq_some _ (by rw [hl]; omega)
      refine ⟨o.set (g.coreMaxDegree - 1 - j + 1)
        ((rankBelow g.coreDegree g.vertices_count_ (g.coreMaxDegree - 1 - j + 1) : Nat) : Int), ?_, ?_, ?_⟩
      · simp only [coreShiftStep, r, hw, Option.bind_eq_bind, Option.some_bind]
      · rw [List.length_set]; exact hl
      · intro k hk
        by_cases hkk : k = g.coreMaxDegree - 1 - j + 1
        · subst hkk
          rw [List.getElem?_set_self (by rw [hl]; exact hk), if_pos (by omega)]
        · rw [List.getElem?_set_ne (fun hc => hkk hc.symm), hget k hk]
          by_cases hc : g.coreMaxDegree - j < k
          · rw [if_pos hc, if_pos (by omega)]
          · rw [if_neg hc, if_neg (by omega)])
  refine ⟨o1, ho1, writeAt_eq_some _ (by rw [hl]; omega), ?_, ?_⟩
  · rw [List.length_set]; exact hl
  · intro k hk
    by_cases hk0 : k = 0
    · subst hk0
      rw [List.getElem?_set_self (by rw [hl]; exact hk), rankBelow_zero]
      rfl
    · rw [List.getElem?_set_ne (fun hc => hk0 hc.symm), hget k hk, if_pos (by omega)]


/-! ## What a defined run of the set-up loops tells about the store -/

theorem readInt_some {α : Type} {l : List α} {i : Int} {b : α} (h : readInt l i = some b) :
    0 ≤ i ∧ i.toNat < l.length ∧ l[i.toNat]? = some b := by
  unfold readInt at h
  by_cases hi : 0 ≤ i
  · rw [if_pos hi] at h
    refine ⟨hi, ?_, h⟩
    by_contra hc
    rw [List.getElem?_eq_none (by omega)] at h
    cases h
  · rw [if_neg hi] at h
    cases h

theorem writeInt_some {α : Type} {l l' : List α} {i : Int} {b : α} (h : writeInt l i b = some l') :
    0 ≤ i ∧ i.toNat < l.length ∧ l' = l.set i.toNat b := by
  unfold writeInt at h
  by_cases hi : 0 ≤ i
  · rw [if_pos hi] at h
    exact ⟨hi, writeAt_some_iff.1 h⟩
  · rw [if_neg hi] at h
    cases h

theorem coreInitStep_some {g : Graph} {st st' : List Int × List Int} {i : Nat}
    (h : coreInitStep g st i = some st') :
    st'.2.length = st.2.length ∧
    ∃ d, g.getVertexDegree i = some d ∧ 0 ≤ toInt d ∧ (toInt d).toNat < st.2.length := by
  simp only [coreInitStep, Option.bind_eq_bind, Option.bind_eq_some, Option.pure_def,
    Option.some.injEq] at h
  obtain ⟨d, hd, core, _, b, hb, bin, hbin, rfl⟩ := h
  obtain ⟨h0, hlt, _⟩ := readInt_some hb
  obtain ⟨_, _, hset⟩ := writeInt_some hbin
  refine ⟨?_, d, hd, h0, hlt⟩
  show bin.length = _
  rw [hset, List.length_set]

theorem coreInitLoop_some {g : Graph} {n : Nat} {st0 st : List Int × List Int}
    (h : (List.range n).foldlM (coreInitStep g) st0 = some st) :
    st.2.length = st0.2.length ∧
    ∀ x, x < n → ∃ d, g.getVertexDegree x = some d ∧ 0 ≤ toInt d ∧
      (toInt d).toNat < st0.2.length := by
  refine foldlM_range_partial (coreInitStep g)
    (fun i st => st.2.length = st0.2.length ∧
      ∀ x, x < i → ∃ d, g.getVertexDegree x = some d ∧ 0 ≤ toInt d ∧
        (toInt d).toNat < st0.2.length)
    n st0 ⟨rfl, fun x hx => absurd hx (Nat.not_lt_zero x)⟩ ?_ h
  intro i _ s s' ⟨hl, hall⟩ hstep
  obtain ⟨hl', d, hd, h0, hlt⟩ := coreInitStep_some hstep
  refine ⟨by rw [hl', hl], ?_⟩
  intro x hx
  by_cases hxi : x = i
  · subst hxi
    exact ⟨d, hd, h0, by rw [← hl]; exact hlt⟩
  · exact hall x (by omega)

theorem coreOffsetLoop_length {degree_bin : List Int} {n : Nat} {st0 st : List Int × Int}
    (h : (List.range n).foldlM (coreOffsetStep degree_bin) st0 = some st) :
    st.1.length = st0.1.length := by
  refine foldlM_range_partial (coreOffsetStep degree_bin)
    (fun _ st => st.1.length = st0.1.length) n st0 rfl ?_ h
  intro i _ s s' hl hstep
  simp only [coreOffsetStep, Option.bind_eq_bind, Option.bind_eq_some, Option.pure_def,
    Option.some.injEq] at hstep
  obtain ⟨o, ho, b, _, rfl⟩ := hstep
  show o.length = _
  rw [(writeAt_some_iff.1 ho).2, List.length_set, hl]

theorem corePlaceLoop_length {g : Graph} {n : Nat} {s0 s : CoreState}
    (h : (List.range n).foldlM (corePlaceStep g) s0 = some s) :
    s.offset.length = s0.offset.length := by
  refine foldlM_range_partial (corePlaceStep g)
    (fun _ s => s.offset.length = s0.offset.length) n s0 rfl ?_ h
  intro i _ s s' hl hstep
  simp only [corePlaceStep, Option.bind_eq_bind, Option.bind_eq_some, Option.pure_def,
    Option.some.injEq] at hstep
  obtain ⟨d, _, o, _, position, _, p, _, vertices, _, o2, _, offset, hoff, rfl⟩ := hstep
  show offset.length = _
  rw [(writeInt_some hoff).2.2, List.length_set, hl]

theorem coreShiftLoop_length {l : List Nat} {o0 o : List Int}
    (h : l.foldlM coreShiftStep o0 = some o) : o.length = o0.length := by
  refine foldlM_list_partial coreShiftStep (fun _ o => o.length = o0.length) l o0 rfl ?_ h
  intro done x rest _ s s' hl hstep
  simp only [coreShiftStep, Option.bind_eq_bind, Option.bind_eq_some] at hstep
  obtain ⟨v, _, hw⟩ := hstep
  rw [(writeAt_some_iff.1 hw).2, List.length_set, hl]


/-- A defined run of the set-up loops shows that the store is ready for them. -/
theorem coreSetup_some {junk : Nat → Nat} {g : Graph} {s0 : CoreState}
    (hui : g.vertices_count_ < UI_SIZE) (h : coreSetup junk g = some s0) : g.CoreReady := by
  by_cases hg : toInt g.vertices_count_ < 0 ∨ toInt g.max_degree_ + 1 < 0
  · simp only [coreSetup, getVerticesCount, getGraphMaxDegree, if_pos hg, Option.bind_eq_bind,
      Option.none_bind] at h
    cases h
  · simp only [coreSetup, getVerticesCount, getGraphMaxDegree, if_neg hg, Option.bind_eq_bind,
      Option.bind_eq_some, Option.pure_def, Option.some_bind, Option.some.injEq] at h
    obtain ⟨st, hst, st2, hst2, s, hs, o1, ho1, o2, ho2, _⟩ := h
    have hn0 : 0 ≤ toInt g.vertices_count_ := by omega
    have hcount : g.vertices_count_ < INT_SIZE := by
      unfold toInt at hn0
      unfold UI_SIZE at hui
      unfold INT_SIZE
      have hm : g.vertices_count_ % 4294967296 = g.vertices_count_ := Nat.mod_eq_of_lt hui
      rw [hm] at hn0
      by_contra hc
      rw [if_neg (by omega)] at hn0
      omega
    have htn : (toInt g.vertices_count_).toNat = g.vertices_count_ := by
      rw [toInt_of_lt hcount, Int.toNat_ofNat]
    rw [htn] at hst hs
    obtain ⟨hl1, hdeg⟩ := coreInitLoop_some hst
    have hl2 := coreOffsetLoop_length hst2
    have hl3 := corePlaceLoop_length hs
    have hl4 := coreShiftLoop_length ho1
    have hpos := (writeAt_some_iff.1 ho2).1
    have hbins : 0 < (toInt g.max_degree_ + 1).toNat := by
      have e3 : s.offset.length = (toInt g.max_degree_ + 1).toNat := by
        rw [hl3]
        show st2.1.length = _
        rw [hl2]
        exact length_newIntArray _ _
      omega
    have hmd : 0 ≤ toInt g.max_degree_ := by omega
    refine ⟨hcount, hmd, ?_⟩
    intro x hx
    obtain ⟨d, hd, h0, hlt⟩ := hdeg x hx
    refine ⟨d, hd, h0, ?_⟩
    have e1 : (List.replicate (toInt g.max_degree_ + 1).toNat (0 : Int)).length =
        (toInt g.max_degree_ + 1).toNat := List.length_replicate _ _
    have hlt' : (toInt d).toNat < (toInt g.max_degree_ + 1).toNat := by
      rw [← e1]; exact hlt
    unfold coreMaxDegree
    omega

/-- On a store that is ready for them, the set-up loops are defined and leave
the working arrays in the state `Ghost.setup`, whatever the fresh arrays held. -/
theorem coreSetup_ready (junk : Nat → Nat) {g : Graph} (hR : g.CoreReady) :
    ∃ s0, coreSetup junk g = some s0 ∧
      Represents s0 (Ghost.setup g) g.vertices_count_ g.coreMaxDegree := by
  have htn : toInt g.vertices_count_ = ((g.vertices_count_ : Nat) : Int) := toInt_of_lt hR.count_lt
  have hmd := hR.max_degree_nonneg
  have hguard : ¬ (((g.vertices_count_ : Nat) : Int) < 0 ∨ toInt g.max_degree_ + 1 < 0) := by
    omega
  have hb1 : (toInt g.max_degree_ + 1).toNat = g.coreMaxDegree + 1 := by
    unfold coreMaxDegree
    omega
  obtain ⟨st, hst, hcore, hbin⟩ := coreInitLoop_ready hR (newIntArray junk g.vertices_count_)
    (List.replicate (g.coreMaxDegree + 1) (0 : Int)) (length_newIntArray _ _)
    ⟨List.length_replicate _ _, fun k hk => by
      rw [List.getElem?_replicate, if_pos hk]; rfl⟩
  obtain ⟨st2, hst2, hoff2⟩ := coreOffsetLoop_ready g st.2 (newIntArray junk (g.coreMaxDegree + 1))
    hbin (length_newIntArray _ _)
  obtain ⟨s, hs, hsc, hspos, hsvl, hsvv, hsoff⟩ := corePlaceLoop_ready hR
    { core_table_ := st.1, vertices := newIntArray junk g.vertices_count_,
      position := newIntArray junk g.vertices_count_, offset := st2.1 }
    (length_newIntArray _ _) (length_newIntArray _ _) hoff2
  obtain ⟨o1, ho1, hw0, hfin⟩ := coreShiftLoop_ready g s.offset hsoff
  have ho1' : (List.range (toInt g.max_degree_).toNat).reverse.foldlM coreShiftStep s.offset =
      some o1 := ho1
  refine ⟨{ s with offset := o1.set 0 0 }, ?_, ⟨?_, ?_, hspos, hfin⟩⟩
  · simp only [coreSetup, getVerticesCount, getGraphMaxDegree, htn, if_neg hguard,
      Int.toNat_ofNat, hb1, hst, hst2, hs, ho1', hw0, Option.bind_eq_bind, Option.some_bind,
      Option.pure_def]
  · show Rep s.core_table_ _ _
    rw [hsc]
    exact hcore
  · refine ⟨hsvl, ?_⟩
    intro p hp
    obtain ⟨x, hx, rfl⟩ := rankOf_surj g.coreDegree hp
    have hv : (Ghost.setup g).vert (rankOf g.coreDegree g.vertices_count_ x) = x :=
      setup_vert_pos g hx
    rw [hv]
    exact hsvv x hx

theorem Rep.unique_list {l l' : List Int} {f : Nat → Nat} {n : Nat} (h : Rep l f n) (h' : Rep l' f n) :
    l = l' := by
  apply List.ext_getElem?
  intro x
  by_cases hx : x < n
  · rw [h.2 x hx, h'.2 x hx]
  · rw [List.getElem?_eq_none (by rw [h.1]; omega), List.getElem?_eq_none (by rw [h'.1]; omega)]

theorem Represents.unique_state {s s' : CoreState} {γ : Ghost} {n md : Nat}
    (h : Represents s γ n md) (h' : Represents s' γ n md) : s = s' := by
  obtain ⟨h1, h2, h3, h4⟩ := h
  obtain ⟨h1', h2', h3', h4'⟩ := h'
  cases s
  cases s'
  simp only [CoreState.mk.injEq]
  exact ⟨h1.unique_list h1', h2.unique_list h2', h3.unique_list h3', h4.unique_list h4'⟩

/-- The working arrays on entry to the main loop do not depend on what the
freshly allocated arrays held. -/
theorem coreSetup_fresh {junk : Nat → Nat} (junk2 : Nat → Nat) {g : Graph} {s0 : CoreState}
    (hui : g.vertices_count_ < UI_SIZE) (h : coreSetup junk g = some s0) :
    coreSetup junk2 g = some s0 ∧
      Represents s0 (Ghost.setup g) g.vertices_count_ g.coreMaxDegree := by
  have hR := coreSetup_some hui h
  obtain ⟨s1, hs1, hR1⟩ := coreSetup_ready junk hR
  obtain ⟨s2, hs2, hR2⟩ := coreSetup_ready junk2 hR
  rw [h] at hs1
  have e1 : s0 = s1 := Option.some.inj hs1
  rw [hs2, e1]
  exact ⟨congrArg some (hR2.unique_state hR1), hR1⟩


/-! ## The main loop on an arbitrary store: core values stay within bounds -/

theorem coreDemote_bounds {n M : Nat} {s s' : CoreState} {u : Int} (hb : CoreBounds n M s)
    (hpos : ∀ c, readInt s.core_table_ u = some c → 1 ≤ c)
    (h : coreDemote s u = some s') : CoreBounds n M s' := by
  unfold coreDemote at h
  simp only [Option.bind_eq_bind, Option.pure_def] at h
  rw [Option.bind_eq_some] at h
  obtain ⟨cur, _, h⟩ := h
  rw [Option.bind_eq_some] at h
  obtain ⟨pu, _, h⟩ := h
  rw [Option.bind_eq_some] at h
  obtain ⟨pw, _, h⟩ := h
  rw [Option.bind_eq_some] at h
  obtain ⟨w, _, h⟩ := h
  have hex : ∃ s1 : CoreState, s1.core_table_ = s.core_table_ ∧
      ∃ c core, readInt s1.core_table_ u = some c ∧
        writeInt s1.core_table_ u (c - 1) = some core ∧ s'.core_table_ = core := by
    by_cases huw : u ≠ w
    · rw [if_pos huw] at h
      simp only [Option.bind_eq_some, Option.some.injEq] at h
      obtain ⟨s1, ⟨p1, _, p2, _, v1, _, v2, _, rfl⟩, o, _, off, _, c, hc, core, hcore, rfl⟩ := h
      exact ⟨_, rfl, c, core, hc, hcore, rfl⟩
    · rw [if_neg huw] at h
      simp only [Option.bind_eq_some, Option.some.injEq] at h
      obtain ⟨s1, rfl, o, _, off, _, c, hc, core, hcore, rfl⟩ := h
      exact ⟨_, rfl, c, core, hc, hcore, rfl⟩
  obtain ⟨s1, hs1c, c, core, hc, hcore, hs'⟩ := hex
  rw [hs1c] at hc hcore
  have hc1 := hpos c hc
  obtain ⟨_, hlt, hget⟩ := readInt_some hc
  obtain ⟨_, _, hset⟩ := writeInt_some hcore
  have hcle : c ≤ ((M : Nat) : Int) := (hb.2 c (List.getElem?_mem hget)).2
  refine ⟨?_, ?_⟩
  · rw [hs', hset, List.length_set]
    exact hb.1
  · intro x hx
    have hx' : x ∈ (s.core_table_.set u.toNat (c - 1)) := by
      rw [← hset, ← hs']; exact hx
    rcases List.mem_or_eq_of_mem_set hx' with hm | rfl
    · exact hb.2 x hm
    · omega

theorem coreVisit_bounds {n M : Nat} {s s' : CoreState} {v : Int} {x : Nat}
    (hb : CoreBounds n M s) (h : coreVisit v s x = some s') : CoreBounds n M s' := by
  simp only [coreVisit, Option.bind_eq_bind, Option.bind_eq_some] at h
  obtain ⟨cu, hcu, cv, hcv, hrest⟩ := h
  by_cases hgt : cu > cv
  · rw [if_pos hgt] at hrest
    refine coreDemote_bounds hb ?_ hrest
    intro c hc
    rw [hcu] at hc
    have hce : cu = c := Option.some.inj hc
    have hcv0 := (hb.2 cv (List.getElem?_mem (readInt_some hcv).2.2)).1
    omega
  · rw [if_neg hgt] at hrest
    rw [← Option.some.inj hrest]
    exact hb

theorem coreProcess_bounds {g : Graph} {n M : Nat} {s s' : CoreState} {i : Nat}
    (hb : CoreBounds n M s) (h : coreProcess g s i = some s') : CoreBounds n M s' := by
  simp only [coreProcess, Option.bind_eq_bind, Option.bind_eq_some] at h
  obtain ⟨v, _, nb, _, hfold⟩ := h
  exact foldlM_list_partial (coreVisit v) (fun _ s => CoreBounds n M s) nb s hb
    (fun _ _ _ _ _ _ hs hstep => coreVisit_bounds hs hstep) hfold

theorem coreLoop_bounds {g : Graph} {n M k : Nat} {s0 s : CoreState} (hb : CoreBounds n M s0)
    (h : (List.range k).foldlM (coreProcess g) s0 = some s) : CoreBounds n M s :=
  foldlM_range_partial (coreProcess g) (fun _ s => CoreBounds n M s) k s0 hb
    (fun _ _ _ _ hs hstep => coreProcess_bounds hs hstep) h

theorem coreBounds_setup {g : Graph} (hR : g.CoreReady) {s0 : CoreState}
    (h : Represents s0 (Ghost.setup g) g.vertices_count_ g.coreMaxDegree) :
    CoreBounds g.vertices_count_ g.coreMaxDegree s0 := by
  refine ⟨h.1.1, ?_⟩
  intro x hx
  obtain ⟨i, hi, rfl⟩ := List.getElem_of_mem hx
  have hin : i < g.vertices_count_ := by rw [← h.1.1]; exact hi
  have hget := h.1.2 i hin
  rw [List.getElem?_eq_getElem hi] at hget
  rw [Option.some.inj hget]
  have hle : g.coreDegree i ≤ g.coreMaxDegree := (hR.degree_eq hin).2.2
  have hc : (Ghost.setup g).c i = g.coreDegree i := rfl
  rw [hc]
  omega

/-- The closing loop counts the cells of `core_table_` that exceed one. -/
theorem coreLengthLoop_eq (core : List Int) (n : Nat) (hn : n ≤ core.length) (len0 : Nat)
    (hlt : len0 + n < UI_SIZE) :
    (List.range n).foldlM (coreLengthStep core) len0 =
      some (len0 + (List.range n).countP (fun i => decide (core.getD i 0 > 1))) := by
  obtain ⟨r, hr, hP⟩ := foldlM_range_total (coreLengthStep core)
    (fun i len => len = len0 + (List.range i).countP (fun i => decide (core.getD i 0 > 1)))
    n len0 (by simp)
    (by
      intro i hi s hs
      have hlt' : i < core.length := by omega
      have hget : core[i]? = some (core.getD i 0) := by
        simp [List.getD, List.getElem?_eq_getElem hlt']
      have hcnt : (List.range i).countP (fun i => decide (core.getD i 0 > 1)) ≤ i := by
        refine le_trans (List.countP_le_length _) ?_
        rw [List.length_range]
      refine ⟨if core.getD i 0 > 1 then wrap (s + 1) else s, ?_, ?_⟩
      · simp only [coreLengthStep, hget, Option.bind_eq_bind, Option.some_bind, Option.pure_def]
      · show (if core.getD i 0 > 1 then wrap (s + 1) else s) =
          len0 + (List.range (i + 1)).countP (fun i => decide (core.getD i 0 > 1))
        have h1 : ([i]).countP (fun i => decide (core.getD i 0 > 1)) =
            if core.getD i 0 > 1 then 1 else 0 := by
          by_cases hc : core.getD i 0 > 1
          · rw [if_pos hc, List.countP_cons_of_pos _ _ (by simpa using hc)]
            rfl
          · rw [if_neg hc, List.countP_cons_of_neg _ _ (by simpa using hc)]
            rfl
        rw [List.range_succ, List.countP_append, h1]
        by_cases hc : core.getD i 0 > 1
        · rw [if_pos hc, if_pos hc, wrap_of_lt (by omega)]
          omega
        · rw [if_neg hc, if_neg hc]
          omega)
  rw [hr, hP]


/-! ## `buildCoreTable` as a whole -/

theorem buildCoreTable_some {junk : Nat → Nat} {g g' : Graph}
    (h : buildCoreTable junk g = some g') :
    ∃ s0 s len, coreSetup junk g = some s0 ∧
      (List.range (toInt g.vertices_count_).toNat).foldlM (coreProcess g) s0 = some s ∧
      (List.range g.vertices_count_).foldlM (coreLengthStep s.core_table_) g.core_length_ =
        some len ∧
      g' = { g with core_table_ := s.core_table_, core_length_ := len } := by
  simp only [buildCoreTable, getVerticesCount, Option.bind_eq_bind, Option.bind_eq_some,
    Option.pure_def, Option.some.injEq] at h
  obtain ⟨s0, hs0, s, hs, len, hlen, rfl⟩ := h
  exact ⟨s0, s, len, hs0, hs, hlen, rfl⟩

theorem buildCoreTable_of_run {junk : Nat → Nat} {g : Graph} {s0 s : CoreState} {len : Nat}
    (hs0 : coreSetup junk g = some s0)
    (hs : (List.range (toInt g.vertices_count_).toNat).foldlM (coreProcess g) s0 = some s)
    (hlen : (List.range g.vertices_count_).foldlM (coreLengthStep s.core_table_) g.core_length_ =
      some len) :
    buildCoreTable junk g = some { g with core_table_ := s.core_table_, core_length_ := len } := by
  simp only [buildCoreTable, getVerticesCount, hs0, hs, hlen, Option.bind_eq_bind,
    Option.some_bind, Option.pure_def]

/-- A defined run of `buildCoreTable`: the store is ready for the set-up loops,
the working arrays on entry to the main loop are `Ghost.setup`, and the core
values stay between `0` and `max_degree_`. -/
theorem buildCoreTable_run {junk : Nat → Nat} {g g' : Graph}
    (hui : g.vertices_count_ < UI_SIZE) (h : buildCoreTable junk g = some g') :
    g.CoreReady ∧ ∃ s0 s, coreSetup junk g = some s0 ∧
      Represents s0 (Ghost.setup g) g.vertices_count_ g.coreMaxDegree ∧
      (List.range g.vertices_count_).foldlM (coreProcess g) s0 = some s ∧
      CoreBounds g.vertices_count_ g.coreMaxDegree s ∧
      (List.range g.vertices_count_).foldlM (coreLengthStep s.core_table_) g.core_length_ =
        some g'.core_length_ ∧
      g' = { g with core_table_ := s.core_table_, core_length_ := g'.core_length_ } := by
  obtain ⟨s0, s, len, hs0, hs, hlen, rfl⟩ := buildCoreTable_some h
  have hR := coreSetup_some hui hs0
  have hrep := (coreSetup_fresh junk hui hs0).2
  have htn : (toInt g.vertices_count_).toNat = g.vertices_count_ := by
    rw [toInt_of_lt hR.count_lt, Int.toNat_ofNat]
  rw [htn] at hs
  exact ⟨hR, s0, s, hs0, hrep, hs, coreLoop_bounds (coreBounds_setup hR hrep) hs, hlen, rfl⟩

theorem getVertexDegree_congr {ga gb : Graph} (ho : gb.offsets_ = ga.offsets_) :
    gb.getVertexDegree = ga.getVertexDegree := by
  funext v
  simp only [getVertexDegree, ho]

theorem getVertexNeighbors_congr {ga gb : Graph} (ho : gb.offsets_ = ga.offsets_)
    (hnb : gb.neighbors_ = ga.neighbors_) : gb.getVertexNeighbors = ga.getVertexNeighbors := by
  funext v
  simp only [getVertexNeighbors, ho, hnb]

theorem coreInitStep_congr {ga gb : Graph} (ho : gb.offsets_ = ga.offsets_) :
    coreInitStep gb = coreInitStep ga := by
  funext st i
  simp only [coreInitStep, getVertexDegree_congr ho]

theorem corePlaceStep_congr {ga gb : Graph} (ho : gb.offsets_ = ga.offsets_) :
    corePlaceStep gb = corePlaceStep ga := by
  funext st i
  simp only [corePlaceStep, getVertexDegree_congr ho]

theorem coreProcess_congr {ga gb : Graph} (ho : gb.offsets_ = ga.offsets_)
    (hnb : gb.neighbors_ = ga.neighbors_) : coreProcess gb = coreProcess ga := by
  funext s i
  simp only [coreProcess, getVertexNeighbors_congr ho hnb]

theorem coreSetup_congr (junk : Nat → Nat) {ga gb : Graph}
    (hn : gb.vertices_count_ = ga.vertices_count_) (hmd : gb.max_degree_ = ga.max_degree_)
    (ho : gb.offsets_ = ga.offsets_) : coreSetup junk gb = coreSetup junk ga := by
  simp only [coreSetup, getVerticesCount, getGraphMaxDegree, hn, hmd, coreInitStep_congr ho,
    corePlaceStep_congr ho]

/-- The core table that `buildCoreTable` computes is determined by
`vertices_count_`, `max_degree_`, `offsets_` and `neighbors_`: it depends neither
on the other members (among them an earlier core table) nor on what the freshly
allocated arrays held. -/
theorem buildCoreTable_core_table {junk : Nat → Nat} (junk2 : Nat → Nat) {ga ga' : Graph}
    (gb : Graph) (hui : ga.vertices_count_ < UI_SIZE)
    (hn : gb.vertices_count_ = ga.vertices_count_) (hmd : gb.max_degree_ = ga.max_degree_)
    (ho : gb.offsets_ = ga.offsets_) (hnb : gb.neighbors_ = ga.neighbors_)
    (h : buildCoreTable junk ga = some ga') :
    ∃ gb', buildCoreTable junk2 gb = some gb' ∧ gb'.core_table_ = ga'.core_table_ := by
  obtain ⟨hR, s0, s, hs0, _, hs, hb, _, hga'⟩ := buildCoreTable_run hui h
  have hs0b : coreSetup junk2 gb = some s0 := by
    rw [coreSetup_congr junk2 hn hmd ho]
    exact (coreSetup_fresh junk2 hui hs0).1
  have htn : (toInt gb.vertices_count_).toNat = ga.vertices_count_ := by
    rw [hn, toInt_of_lt hR.count_lt, Int.toNat_ofNat]
  have hsb : (List.range (toInt gb.vertices_count_).toNat).foldlM (coreProcess gb) s0 = some s := by
    rw [htn, coreProcess_congr ho hnb]
    exact hs
  obtain ⟨len, hlen⟩ := coreLengthLoop_total s.core_table_ gb.vertices_count_
    (by rw [hn]; exact hb.1) gb.core_length_
  refine ⟨_, buildCoreTable_of_run hs0b hsb hlen, ?_⟩
  rw [hga']

/-- The result of `buildCoreTable` does not depend on what the freshly
allocated arrays held. -/
theorem buildCoreTable_fresh {junk : Nat → Nat} (junk2 : Nat → Nat) {g g' : Graph}
    (hui : g.vertices_count_ < UI_SIZE) (h : buildCoreTable junk g = some g') :
    buildCoreTable junk2 g = some g' := by
  obtain ⟨hR, s0, s, hs0, _, hs, hb, hlen, hg'⟩ := buildCoreTable_run hui h
  have htn : (toInt g.vertices_count_).toNat = g.vertices_count_ := by
    rw [toInt_of_lt hR.count_lt, Int.toNat_ofNat]
  have hs' : (List.range (toInt g.vertices_count_).toNat).foldlM (coreProcess g) s0 = some s := by
    rw [htn]; exact hs
  rw [buildCoreTable_of_run (coreSetup_fresh junk2 hui hs0).1 hs' hlen]
  exact congrArg some hg'.symm


/-! ## The sample store with a 2-core -/

theorem pendantCycle_buildCoreTable :
    buildCoreTable (fun _ => 0) pendantCycleGraph = some pendantCycleCored := by
  decide

theorem pendantCycle_buildCoreTable_again :
    buildCoreTable (fun _ => 0) pendantCycleCored = some pendantCycleTwice := by
  decide

theorem pendantCycleFile_loads :
    loadGraphFromFile (fun _ => 0) Graph.new pendantCycleFile = some pendantCycleLoaded := by
  decide


/-! ## Freshly loaded graphs -/

theorem readRecord_core_length {st st' : TextState} {r : Record}
    (h : readRecord st r = some st') : st'.g.core_length_ = st.g.core_length_ := by
  cases r with
  | v id label degree =>
    simp only [readRecord, Option.bind_eq_bind, Option.bind_eq_some, Option.pure_def,
      Option.some.injEq] at h
    obtain ⟨labels, _, base, _, offsets, _, rfl⟩ := h
    rfl
  | e b e =>
    simp only [readRecord, Option.bind_eq_bind, Option.bind_eq_some, Option.pure_def,
      Option.some.injEq] at h
    obtain ⟨ob, _, cb, _, nb, _, oe, _, ce, _, nb2, _, c1, _, cur, _, c2, _, cur2, _, rfl⟩ := h
    rfl

theorem loadRecords_core_length {junk : Nat → Nat} {g : Graph} {file : TextFile} {st : TextState}
    (h : loadRecords junk g file = some st) : st.g.core_length_ = g.core_length_ := by
  simp only [loadRecords, Option.bind_eq_bind, Option.bind_eq_some, writeAt_some_iff] at h
  obtain ⟨offs, ⟨_, rfl⟩, hfold⟩ := h
  exact foldlM_list_partial readRecord (fun _ s => s.g.core_length_ = g.core_length_)
    file.records _ rfl (fun _ _ _ _ _ _ hs hstep => (readRecord_core_length hstep).trans hs) hfold

theorem FreshlyLoaded.fresh {g : Graph} (h : g.FreshlyLoaded) :
    g.core_length_ = 0 ∧ g.vertices_count_ < UI_SIZE := by
  rcases h with ⟨junk, file, hr, hload⟩ | ⟨junk, file, hload⟩
  · obtain ⟨st, nb, hst, _, hbri⟩ := loadGraphFromFile_some hload
    obtain ⟨fn, _, _, _, _, _, _, _, _, fcl, _⟩ := BuildReverseIndex_frame hbri
    obtain ⟨_, _, hn⟩ := loadRecords_lengths hst
    have hcl := loadRecords_core_length hst
    have fn' : g.vertices_count_ = st.g.vertices_count_ := fn
    have fcl' : g.core_length_ = st.g.core_length_ := fcl
    refine ⟨by rw [fcl', hcl]; rfl, ?_⟩
    rw [fn', hn]
    exact hr.1
  · have hlt := loadGraphFromFileCompressed_count_lt hload
    obtain ⟨_, _, _, _, _, _, _, _, _, _, _, _, hbri⟩ := loadGraphFromFileCompressed_some hload
    obtain ⟨fn, _, _, _, _, _, _, _, _, fcl, _⟩ := BuildReverseIndex_frame hbri
    have fn' : g.vertices_count_ = file.vertexCount Graph.new := fn
    have fcl' : g.core_length_ = Graph.new.core_length_ := fcl
    refine ⟨by rw [fcl']; rfl, ?_⟩
    rw [fn']
    omega

/-- On a well-formed store `buildCoreTable` is defined, and every core value of
the result is the coreness value held by some ghost state satisfying the final
invariant. -/
theorem buildCoreTable_wellFormed (junk : Nat → Nat) {g : Graph} (hW : g.WellFormed) :
    ∃ g' γ, buildCoreTable junk g = some g' ∧
      Rep g'.core_table_ γ.c g.vertices_count_ ∧ CoreInv g g.vertices_count_ [] γ := by
  obtain ⟨s0, γ0, hs0, hR0, hI0, _⟩ := coreSetup_eq junk hW
  obtain ⟨s, γ, hs, hR, hI⟩ := coreLoop_eq hW hI0 hR0
  obtain ⟨len, hlen⟩ := coreLengthLoop_total s.core_table_ g.vertices_count_ hR.1.1 g.core_length_
  have htn : (toInt g.vertices_count_).toNat = g.vertices_count_ := by
    rw [toInt_of_lt hW.count_lt, Int.toNat_ofNat]
  have hs' : (List.range (toInt g.vertices_count_).toNat).foldlM (coreProcess g) s0 = some s := by
    rw [htn]; exact hs
  exact ⟨_, γ, buildCoreTable_of_run hs0 hs' hlen, hR.1, hI⟩

theorem ofInt_of_bounds {c : Int} (h0 : 0 ≤ c) (h1 : c < 4294967296) :
    ((ofInt c : Nat) : Int) = c := by
  unfold ofInt
  rw [Int.emod_eq_of_lt h0 h1, Int.toNat_of_nonneg h0]

theorem coreMaxDegree_lt (g : Graph) : g.coreMaxDegree < INT_SIZE := by
  unfold coreMaxDegree toInt INT_SIZE
  split <;> omega


theorem pendantCycleFile_inRange : pendantCycleFile.InRange := by
  refine ⟨by decide, by decide, ?_⟩
  intro r hr
  simp only [pendantCycleFile, List.mem_cons, List.mem_singleton, List.not_mem_nil, or_false] at hr
  rcases hr with rfl | rfl | rfl | rfl | rfl | rfl | rfl | rfl | rfl | rfl <;> decide

theorem pendantCycleLoaded_fresh : pendantCycleLoaded.FreshlyLoaded :=
  Or.inl ⟨fun _ => 0, pendantCycleFile, pendantCycleFile_inRange, pendantCycleFile_loads⟩


/-! ## Core decomposition: every intermediate state -/

/-- The main loop up to any position. -/
theorem coreLoop_upto {g : Graph} (hW : g.WellFormed) {γ : Ghost} {s : CoreState}
    (h : CoreInv g 0 [] γ) (hR : Represents s γ g.vertices_count_ g.max_degree_)
    {i : Nat} (hi : i ≤ g.vertices_count_) :
    ∃ s' γ', (List.range i).foldlM (coreProcess g) s = some s' ∧
      Represents s' γ' g.vertices_count_ g.max_degree_ ∧ CoreInv g i [] γ' := by
  obtain ⟨s', hs', γ', hR', hI'⟩ := foldlM_range_total (coreProcess g)
    (fun i s => ∃ γ', Represents s γ' g.vertices_count_ g.max_degree_ ∧ CoreInv g i [] γ')
    i s ⟨γ, hR, h⟩
    (by
      intro k hk s1 ⟨γ1, hR1, hI1⟩
      obtain ⟨s2, γ2, hs2, hR2, hI2⟩ := coreProcess_eq hW hI1 hR1 (by omega)
      exact ⟨s2, hs2, γ2, hR2, hI2⟩)
  exact ⟨s', γ', hs', hR', hI'⟩

/-- The inner loop up to any neighbour. -/
theorem coreInner_upto {g : Graph} (hW : g.WellFormed) {i : Nat} {γ : Ghost}
    {s : CoreState} (h : CoreInv g i [] γ)
    (hR : Represents s γ g.vertices_count_ g.max_degree_) (hi : i < g.vertices_count_)
    (j : Nat) :
    ∃ s' γ', ((g.adj (γ.vert i)).take j).foldlM (coreVisit ((γ.vert i : Nat) : Int)) s = some s' ∧
      Represents s' γ' g.vertices_count_ g.max_degree_ ∧
      InnerInv g i ((g.adj (γ.vert i)).take j) γ' ∧ γ'.vert i = γ.vert i := by
  have hvn := h.vert_lt i hi
  have hnodup := hW.no_duplicates _ hvn
  obtain ⟨s', hs', γ', hR', hI', hv'⟩ := foldlM_list_total (coreVisit ((γ.vert i : Nat) : Int))
    (fun done s => ∃ γ', Represents s γ' g.vertices_count_ g.max_degree_ ∧
      InnerInv g i done γ' ∧ γ'.vert i = γ.vert i)
    ((g.adj (γ.vert i)).take j) s ⟨γ, hR, h.enter hi, rfl⟩
    (by
      intro done x rest hl s1 ⟨γ1, hR1, hI1, hv1⟩
      have hfull : g.adj (γ.vert i) = done ++ x :: (rest ++ (g.adj (γ.vert i)).drop j) := by
        have := List.take_append_drop j (g.adj (γ.vert i))
        rw [hl] at this
        exact this.symm.trans (by simp)
      have hx : x ∈ g.adj (γ1.vert i) := by
        rw [hv1, hfull]; simp
      have hnd : x ∉ done := by
        rw [hfull] at hnodup
        have := (List.nodup_append.1 hnodup).2.2
        intro hc
        exact this hc (List.mem_cons_self _ _)
      obtain ⟨s2, γ2, hs2, hR2, hI2, hv2⟩ := coreVisit_eq hW hI1 hR1 hi hx hnd
      rw [hv1] at hs2
      exact ⟨s2, hs2, γ2, hR2, hI2, by rw [hv2, hv1]⟩)
  exact ⟨s', γ', hs', hR', hI', hv'⟩

theorem Rep.nonneg {l : List Int} {f : Nat → Nat} {n : Nat} (h : Rep l f n) :
    ∀ x ∈ l, 0 ≤ x := by
  intro x hx
  obtain ⟨k, hk, rfl⟩ := List.getElem_of_mem hx
  have hget := h.2 k (by rw [← h.1]; exact hk)
  rw [List.getElem?_eq_getElem hk] at hget
  rw [Option.some.inj hget]
  exact Int.ofNat_nonneg _

/-- Every state that the main loop of `buildCoreTable` goes through on a
well-formed store: it is defined, it represents a ghost state satisfying the
inner invariant. -/
theorem coreStateAt_eq (junk : Nat → Nat) {g : Graph} (hW : g.WellFormed) {i : Nat}
    (hi : i < g.vertices_count_) (j : Nat) :
    ∃ s γ, coreStateAt junk g i j = some s ∧
      Represents s γ g.vertices_count_ g.max_degree_ ∧
      InnerInv g i ((g.adj (γ.vert i)).take j) γ := by
  obtain ⟨s0, γ0, hs0, hR0, hI0, _⟩ := coreSetup_eq junk hW
  obtain ⟨s1, γ1, hs1, hR1, hI1⟩ := coreLoop_upto hW hI0 hR0 (le_of_lt hi)
  obtain ⟨s, γ, hs, hR, hI, hv⟩ := coreInner_upto hW hI1 hR1 hi j
  have hvn := hI1.vert_lt i hi
  have hvi : s1.vertices[i]? = some ((γ1.vert i : Nat) : Int) := hR1.2.1.get hi
  have hof : ofInt ((γ1.vert i : Nat) : Int) = γ1.vert i := ofInt_of_lt (lt_trans hvn hW.count_lt)
  have hnb := hW.shaped.getVertexNeighbors_adj hvn
  refine ⟨s, γ, ?_, hR, by rw [hv]; exact hI⟩
  simp only [coreStateAt, hs0, hs1, hvi, hof, hnb, Option.bind_eq_bind, Option.some_bind]
  exact hs


theorem pendantCycleGraph_wellFormed : pendantCycleGraph.WellFormed where
  shaped := ⟨by decide, by decide, by decide, by decide, by decide⟩
  count_lt := by decide
  in_range := by
    intro v hv
    have : v = 0 ∨ v = 1 ∨ v = 2 ∨ v = 3 ∨ v = 4 := by
      have : v < 5 := hv
      omega
    rcases this with rfl | rfl | rfl | rfl | rfl <;> decide
  symmetric := by
    intro u v hu hv
    have hu5 : u = 0 ∨ u = 1 ∨ u = 2 ∨ u = 3 ∨ u = 4 := by
      have : u < 5 := hu
      omega
    have hv5 : v = 0 ∨ v = 1 ∨ v = 2 ∨ v = 3 ∨ v = 4 := by
      have : v < 5 := hv
      omega
    rcases hu5 with rfl | rfl | rfl | rfl | rfl <;>
      rcases hv5 with rfl | rfl | rfl | rfl | rfl <;> decide
  no_self_loops := by
    intro v hv
    have : v = 0 ∨ v = 1 ∨ v = 2 ∨ v = 3 ∨ v = 4 := by
      have : v < 5 := hv
      omega
    rcases this with rfl | rfl | rfl | rfl | rfl <;> decide
  no_duplicates := by
    intro v hv
    have : v = 0 ∨ v = 1 ∨ v = 2 ∨ v = 3 ∨ v = 4 := by
      have : v < 5 := hv
      omega
    rcases this with rfl | rfl | rfl | rfl | rfl <;> decide
  max_degree_ge := by
    intro v hv
    have : v = 0 ∨ v = 1 ∨ v = 2 ∨ v = 3 ∨ v = 4 := by
      have : v < 5 := hv
      omega
    rcases this with rfl | rfl | rfl | rfl | rfl <;> decide
  max_degree_attained := Or.inr ⟨0, by decide, by decide⟩


/-! ## Neighbour-label histograms -/

theorem sum_values_mapSet (m : List (Nat × Nat)) (k y : Nat) :
    ((mapSet m k y).map (fun p => p.2)).sum + freqOf m k = (m.map (fun p => p.2)).sum + y := by
  induction m with
  | nil => simp [mapSet, freqOf, mapFind]
  | cons a m ih =>
    obtain ⟨k', x⟩ := a
    by_cases hk : k' = k
    · subst hk
      simp [mapSet, freqOf, mapFind]
      omega
    · have hf : freqOf ((k', x) :: m) k = freqOf m k := by
        simp [freqOf, mapFind, hk]
      rw [hf]
      simp only [mapSet, if_neg hk, List.map_cons, List.sum_cons]
      omega

theorem freqOf_of_mapFind_none {m : List (Nat × Nat)} {k : Nat} (h : mapFind m k = none) :
    freqOf m k = 0 := by
  simp [freqOf, h]

theorem freqOf_of_mapFind_some {m : List (Nat × Nat)} {k x : Nat} (h : mapFind m k = some x) :
    freqOf m k = x := by
  simp [freqOf, h]

theorem Shaped.adj_length_lt {g : Graph} (hS : g.Shaped) {v : Nat} (hv : v < g.vertices_count_) :
    (g.adj v).length < UI_SIZE := by
  obtain ⟨lo, hi, _, _, hle, hhi, h, _⟩ := hS.neighbors_eq hv
  have hlt := hS.neighbors_lt
  simp only [adj, h, Option.getD_some, List.length_take, List.length_drop]
  omega

theorem labelledIn_append_single (g : Graph) (N : List Nat) (x l : Nat) :
    g.labelledIn (N ++ [x]) l =
      g.labelledIn N l + if g.getVertexLabel x = some l then 1 else 0 := by
  unfold labelledIn
  rw [List.countP_append]
  by_cases h : g.getVertexLabel x = some l
  · rw [if_pos h, List.countP_cons_of_pos _ _ (by simpa using h)]
    rfl
  · rw [if_neg h, List.countP_cons_of_neg _ _ (by simpa using h)]
    rfl

theorem labelledIn_le (g : Graph) (N : List Nat) (l : Nat) : g.labelledIn N l ≤ N.length :=
  List.countP_le_length _

/-- One neighbour more: the histogram stays a histogram. -/
theorem nlfStep_histogram {g : Graph} {N : List Nat} {m : List (Nat × Nat)} {x label : Nat}
    (h : g.IsHistogram N m) (hx : g.getVertexLabel x = some label)
    (hlt : N.length + 1 < UI_SIZE) :
    ∃ m', nlfStep g m x = some m' ∧ g.IsHistogram (N ++ [x]) m' := by
  obtain ⟨hnd, hfind, hsum⟩ := h
  have hcle := g.labelledIn_le N label
  have hw1 : wrap (0 + 1) = 1 := rfl
  have hcnt : ∀ l, g.labelledIn (N ++ [x]) l =
      g.labelledIn N l + if label = l then 1 else 0 := by
    intro l
    rw [labelledIn_append_single, hx]
    by_cases hl : label = l
    · rw [if_pos hl, if_pos (by rw [hl])]
    · rw [if_neg hl, if_neg (fun hc => hl (Option.some.inj hc))]
  cases hm : mapFind m label with
  | none =>
    have hc0 : g.labelledIn N label = 0 := by
      have := hfind label
      rw [hm] at this
      by_contra hc
      rw [if_neg hc] at this
      cases this
    have hfound : mapFind (mapSet m label 0) label = some 0 := by
      rw [mapFind_mapSet, if_pos rfl]
    refine ⟨mapSet (mapSet m label 0) label 1, ?_, ?_, ?_, ?_⟩
    · simp only [nlfStep, hx, hm, mapAccess, hfound, hw1, Option.bind_eq_bind, Option.some_bind,
        Option.pure_def]
    · exact nodup_keys_mapSet _ _ _ (nodup_keys_mapSet _ _ _ hnd)
    · intro l
      rw [mapFind_mapSet, mapFind_mapSet, hcnt l]
      by_cases hl : label = l
      · subst hl
        rw [if_pos rfl, if_pos rfl, hc0, if_neg (by omega)]
      · rw [if_neg hl, if_neg hl, if_neg hl, Nat.add_zero]
        exact hfind l
    · have h1 := sum_values_mapSet (mapSet m label 0) label 1
      have h2 := sum_values_mapSet m label 0
      rw [freqOf_of_mapFind_some hfound] at h1
      rw [freqOf_of_mapFind_none hm] at h2
      rw [List.length_append, List.length_singleton]
      omega
  | some c =>
    have hcc : c = g.labelledIn N label ∧ g.labelledIn N label ≠ 0 := by
      have := hfind label
      rw [hm] at this
      by_cases hc : g.labelledIn N label = 0
      · rw [if_pos hc] at this
        cases this
      · rw [if_neg hc] at this
        exact ⟨Option.some.inj this, hc⟩
    have hw : wrap (c + 1) = c + 1 := wrap_of_lt (by omega)
    refine ⟨mapSet m label (c + 1), ?_, ?_, ?_, ?_⟩
    · simp only [nlfStep, hx, hm, mapAccess, hw, Option.bind_eq_bind, Option.some_bind,
        Option.pure_def]
    · exact nodup_keys_mapSet _ _ _ hnd
    · intro l
      rw [mapFind_mapSet, hcnt l]
      by_cases hl : label = l
      · subst hl
        rw [if_pos rfl, if_pos rfl, if_neg (by omega), hcc.1]
      · rw [if_neg hl, if_neg hl, Nat.add_zero]
        exact hfind l
    · have h1 := sum_values_mapSet m label (c + 1)
      rw [freqOf_of_mapFind_some hm] at h1
      rw [List.length_append, List.length_singleton]
      omega

theorem isHistogram_nil (g : Graph) : g.IsHistogram [] [] := by
  refine ⟨List.nodup_nil, ?_, rfl⟩
  intro l
  rfl

/-- The inner loop of `BuildNLF` builds the histogram of the neighbour list. -/
theorem nlfLoop_histogram {g : Graph} (N : List Nat) (hlab : ∀ u ∈ N, u < g.labels_.length)
    (hlt : N.length < UI_SIZE) :
    ∃ m, N.foldlM (nlfStep g) [] = some m ∧ g.IsHistogram N m := by
  refine foldlM_list_total (nlfStep g) (fun done m => g.IsHistogram done m) N []
    (isHistogram_nil g) ?_
  intro done x rest hl m hm
  have hx : x ∈ N := by rw [hl]; simp
  have hlen : done.length + 1 ≤ N.length := by
    rw [hl, List.length_append, List.length_cons]
    omega
  have hxl : g.getVertexLabel x = some (g.labels_.getD x 0) :=
    getElem?_eq_some_getD (hlab x hx)
  exact nlfStep_histogram hm hxl (by omega)

/-- The outer loop of `BuildNLF`: one histogram per vertex. -/
theorem BuildNLF_eq {g : Graph} (hS : g.Shaped)
    (hlab : ∀ v, v < g.vertices_count_ → ∀ u ∈ g.adj v, u < g.labels_.length) :
    ∃ nlf, BuildNLF g = some nlf ∧ nlf.length = g.vertices_count_ ∧
      ∀ v, v < g.vertices_count_ → ∃ m, nlf[v]? = some m ∧ g.IsHistogram (g.adj v) m := by
  obtain ⟨nlf, hnlf, hl, hdone, _⟩ := foldlM_range_total (nlfVertexStep g)
    (fun i nlf => nlf.length = g.vertices_count_ ∧
      (∀ v, v < i → ∃ m, nlf[v]? = some m ∧ g.IsHistogram (g.adj v) m) ∧
      ∀ v, i ≤ v → v < g.vertices_count_ → nlf[v]? = some [])
    g.vertices_count_ (List.replicate g.vertices_count_ [])
    ⟨List.length_replicate _ _, fun v hv => absurd hv (Nat.not_lt_zero v),
      fun v _ hv => by rw [List.getElem?_replicate, if_pos hv]⟩
    (by
      intro i hi nlf ⟨hl, hdone, hrest⟩
      have hnb := hS.getVertexNeighbors_adj hi
      have h0 := hrest i (le_refl i) hi
      obtain ⟨m, hm, hH⟩ := nlfLoop_histogram (g.adj i) (hlab i hi) (hS.adj_length_lt hi)
      have hw := writeAt_eq_some m (show i < nlf.length by rw [hl]; exact hi)
      refine ⟨nlf.set i m, ?_, ?_, ?_, ?_⟩
      · simp only [nlfVertexStep, hnb, h0, hm, hw, Option.bind_eq_bind, Option.some_bind]
      · rw [List.length_set]; exact hl
      · intro v hv
        by_cases hvi : v = i
        · subst hvi
          exact ⟨m, List.getElem?_set_self (by rw [hl]; exact hi), hH⟩
        · rw [List.getElem?_set_ne (fun hc => hvi hc.symm)]
          exact hdone v (by omega)
      · intro v hv hvn
        rw [List.getElem?_set_ne (by omega)]
        exact hrest v (by omega) hvn)
  exact ⟨nlf, hnlf, hl, hdone⟩


theorem pathGraph_labelled :
    ∀ v, v < pathGraph.vertices_count_ → ∀ u ∈ pathGraph.adj v, u < pathGraph.labels_.length := by
  intro v hv
  have : v = 0 ∨ v = 1 ∨ v = 2 := by
    have : v < 3 := hv
    omega
  rcases this with rfl | rfl | rfl <;> decide


/-! ## Edge records: the two slots written by each record -/

/-- An edge record between two different vertices, read in a state that
satisfies the edge invariant, writes two distinct slots. -/
theorem readRecord_edge_slots (n : Nat) (degs : List Nat) (s0 : TextState)
    (hdl : degs.length = n) (hlen : s0.g.neighbors_.length = degs.sum) (hsum : degs.sum < UI_SIZE)
    (hoff : ∀ j, j ≤ n → s0.g.offsets_[j]? = some ((degs.take j).sum))
    (done : List (Nat × Nat)) (b e : Nat) (hbe : b ≠ e) (hb : b < n) (he : e < n)
    (hdeg : ∀ v, v < n → endpointCount (done ++ [(b, e)]) v ≤ degs.getD v 0)
    (st st' : TextState) (h : EdgeInv n degs s0 done st)
    (hstep : readRecord st (Record.e b e) = some st') : WritesTwoSlots st b e st' := by
  have hob : st.g.offsets_[b]? = some ((degs.take b).sum) := by
    rw [h.graph]; exact hoff b (by omega)
  have hoe : st.g.offsets_[e]? = some ((degs.take e).sum) := by
    rw [h.graph]; exact hoff e (by omega)
  have hcb := h.cursor b hb
  have hce := h.cursor e he
  have hroom : ∀ v, v < n → (degs.take v).sum + degs.getD v 0 = (degs.take (v + 1)).sum := by
    intro v hv
    rw [List.sum_take_succ degs v (by omega), getD_of_lt (by omega)]
  have hend : ∀ v, v ≤ n → (degs.take v).sum ≤ degs.sum := fun v _ => sum_take_le degs v
  have hcntb : endpointCount done b + 1 ≤ degs.getD b 0 := by
    have := hdeg b hb
    rw [endpointCount_append, endpointCount_single] at this
    simp only [if_true] at this
    omega
  have hcnte : endpointCount done e + 1 ≤ degs.getD e 0 := by
    have := hdeg e he
    rw [endpointCount_append, endpointCount_single] at this
    simp only [if_true] at this
    omega
  have hrb := hroom b hb
  have hre := hroom e he
  have hEb := hend (b + 1) (by omega)
  have hEe := hend (e + 1) (by omega)
  have hs1 : (degs.take b).sum + endpointCount done b < st.g.neighbors_.length := by
    rw [h.length, hlen]; omega
  have hs2 : (degs.take e).sum + endpointCount done e < st.g.neighbors_.length := by
    rw [h.length, hlen]; omega
  have hw1 : wrap ((degs.take b).sum + endpointCount done b) =
      (degs.take b).sum + endpointCount done b := wrap_of_lt (by rw [h.length, hlen] at hs1; omega)
  have hw2 : wrap ((degs.take e).sum + endpointCount done e) =
      (degs.take e).sum + endpointCount done e := wrap_of_lt (by rw [h.length, hlen] at hs2; omega)
  have hw3 : wrap (endpointCount done b + 1) = endpointCount done b + 1 := wrap_of_lt (by omega)
  have hw4 : wrap (endpointCount done e + 1) = endpointCount done e + 1 := wrap_of_lt (by omega)
  have hce' : (st.neighbors_offset.set b (endpointCount done b + 1))[e]? =
      some (endpointCount done e) := by
    rw [List.getElem?_set_ne hbe]; exact hce
  have hdisj : (degs.take b).sum + degs.getD b 0 ≤ (degs.take e).sum ∨
      (degs.take e).sum + degs.getD e 0 ≤ (degs.take b).sum := by
    rcases Nat.lt_or_gt_of_ne hbe with hlt | hgt
    · left; rw [hroom b hb]; exact sum_take_mono degs (by omega)
    · right; rw [hroom e he]; exact sum_take_mono degs (by omega)
  have hex : ∃ nb2 cur2,
      nb2 = (st.g.neighbors_.set ((degs.take b).sum + endpointCount done b) e).set
          ((degs.take e).sum + endpointCount done e) b ∧
      cur2 = (st.neighbors_offset.set b (endpointCount done b + 1)).set e
        (endpointCount done e + 1) := ⟨_, _, rfl, rfl⟩
  obtain ⟨nb2, cur2, hnb2, hcur2⟩ := hex
  have hrun : readRecord st (Record.e b e) =
      some { st with g := { st.g with neighbors_ := nb2 }, neighbors_offset := cur2 } := by
    simp only [readRecord, hob, hoe, hcb, hce, Option.bind_eq_bind, Option.some_bind, hw1, hw2,
      hw3]
    rw [writeAt_eq_some _ hs1, Option.some_bind, writeAt_eq_some _ (by simpa using hs2),
      Option.some_bind, writeAt_eq_some _ (by rw [h.cursor_length]; exact hb), Option.some_bind,
      hce', Option.some_bind, hw4,
      writeAt_eq_some _ (by rw [List.length_set, h.cursor_length]; exact he), hnb2, hcur2]
    rfl
  rw [hrun] at hstep
  have hst' := (Option.some.inj hstep).symm
  refine ⟨_, _, _, _, hob, hoe, hcb, hce, ?_, hs1, hs2, ?_, ?_, ?_⟩
  · rcases hdisj with hd | hd <;> omega
  · rw [hst', hnb2]
  · rw [hst', hcur2]
  · rw [hst']

/-- The edge block up to any of its records. -/
theorem edgeBlock_upto (n : Nat) (degs : List Nat) (s0 : TextState) (es : List (Nat × Nat))
    (hdl : degs.length = n) (hlen : s0.g.neighbors_.length = degs.sum) (hsum : degs.sum < UI_SIZE)
    (hoff : ∀ j, j ≤ n → s0.g.offsets_[j]? = some ((degs.take j).sum))
    (hcur : s0.neighbors_offset = List.replicate n 0)
    (hloops : ∀ e ∈ es, e.1 ≠ e.2) (hends : ∀ e ∈ es, e.1 < n ∧ e.2 < n)
    (hdegs : degs = (List.range n).map (endpointCount es))
    (done rest : List (Nat × Nat)) (hsplit : es = done ++ rest) :
    (∀ v, v < n → endpointCount done v ≤ degs.getD v 0) ∧
    ∃ st, (done.map Record.ofEdge).foldlM readRecord s0 = some st ∧ EdgeInv n degs s0 done st := by
  have hle : ∀ (d r : List (Nat × Nat)), es = d ++ r → ∀ v, v < n →
      endpointCount d v ≤ degs.getD v 0 := by
    intro d r hdr v hv
    rw [hdegs]
    have : ((List.range n).map (endpointCount es)).getD v 0 = endpointCount es v := by
      simp [List.getD, hv]
    rw [this, hdr, endpointCount_append d r]
    omega
  refine ⟨hle done rest hsplit, ?_⟩
  rw [foldlM_map]
  refine foldlM_list_total (fun s (x : Nat × Nat) => readRecord s (Record.ofEdge x))
    (EdgeInv n degs s0) done s0 ?_ ?_
  · refine ⟨rfl, rfl, rfl, by rw [hcur]; simp, ?_, ?_⟩
    · intro v hv
      rw [hcur]
      simp [endpointCount, hv]
    · intro v _
      simp [endpointCount, oppositeEndpoints]
  · intro d x r hl s hs
    obtain ⟨b, e⟩ := x
    have hx : (b, e) ∈ es := by rw [hsplit, hl]; simp
    have hbe : b ≠ e := hloops _ hx
    obtain ⟨hb, he⟩ := hends _ hx
    refine readRecord_edge_step n degs s0 hdl hlen hsum hoff d b e hbe hb he ?_ s hs
    exact hle (d ++ [(b, e)]) (r ++ rest) (by rw [hsplit, hl]; simp)


/-- The vertex block of a well-formed input: it is defined, and its final state
is the start that the edge block needs. -/
theorem vertexBlock_start (junk : Nat → Nat) (g : Graph) (file : TextFile)
    (hn : file.vertices_count + 1 < UI_SIZE) (hm : file.edges_count * 2 < UI_SIZE)
    (hord : file.VerticesInOrder) (hmatch : file.DegreesMatch) :
    ∃ s0, ((vertexRecords file.records).map Record.ofVertex).foldlM readRecord
        (textStart junk g file) = some s0 ∧
      (declaredDegrees file.records).length = file.vertices_count ∧
      s0.g.neighbors_.length = (declaredDegrees file.records).sum ∧
      (declaredDegrees file.records).sum = file.edges_count * 2 ∧
      (∀ j, j ≤ file.vertices_count →
        s0.g.offsets_[j]? = some (((declaredDegrees file.records).take j).sum)) ∧
      s0.neighbors_offset = List.replicate file.vertices_count 0 := by
  obtain ⟨hcount, hends, hdd⟩ := hmatch
  have hlen := length_declaredDegrees hord
  have htotal : (declaredDegrees file.records).sum = file.edges_count * 2 := by
    rw [hdd, sum_endpointCount _ _ hends, hcount]; omega
  have hvr : vertexRecords ((vertexRecords file.records).map Record.ofVertex) =
      vertexRecords file.records := vertexRecords_map_ofVertex _
  obtain ⟨hV0, hF0⟩ := textStart_inv junk g file
  obtain ⟨s0, hs0, hV, hcur, hnb, _⟩ := vertexBlock_total file.vertices_count g hn
    ((vertexRecords file.records).map Record.ofVertex)
    (by
      intro r hr
      obtain ⟨t, _, rfl⟩ := List.mem_map.1 hr
      exact ⟨t.1, t.2.1, t.2.2, rfl⟩)
    (by
      have := hord
      unfold TextFile.VerticesInOrder at this
      simpa [vertexIds, hvr] using this)
    (textStart junk g file) hV0
  have hoffs : ∀ j, j ≤ (vertexRecords file.records).length →
      s0.g.offsets_[j]? = some (wrap (((declaredDegrees file.records).take j).sum)) := by
    have := hV.offsets
    simpa [declaredDegrees, hvr] using this
  have hvl : (vertexRecords file.records).length = file.vertices_count := by
    simpa [declaredDegrees] using hlen
  have hoff : ∀ j, j ≤ file.vertices_count →
      s0.g.offsets_[j]? = some (((declaredDegrees file.records).take j).sum) := by
    intro j hj
    rw [hoffs j (by rw [hvl]; exact hj)]
    have := sum_take_le (declaredDegrees file.records) j
    rw [wrap_of_lt (by omega)]
  have hnbl : s0.g.neighbors_.length = file.edges_count * 2 := by
    rw [hnb]
    show (newArray junk (wrap (file.edges_count * 2))).length = _
    rw [length_newArray, wrap_of_lt hm]
  exact ⟨s0, hs0, hlen, by rw [hnbl, htotal], htotal, hoff, by rw [hcur]; rfl⟩


/-! ## The label count -/

theorem readRecord_frequency {st st' : TextState} {r : Record}
    (h : readRecord st r = some st') :
    (st'.g.labels_frequency_, st'.max_label_id) =
      (declaredLabels [r]).foldl countLabel (st.g.labels_frequency_, st.max_label_id) := by
  cases r with
  | v id label degree =>
    simp only [readRecord, Option.bind_eq_bind, Option.bind_eq_some, Option.pure_def,
      Option.some.injEq] at h
    obtain ⟨labels, _, base, _, offsets, _, rfl⟩ := h
    rfl
  | e b e =>
    simp only [readRecord, Option.bind_eq_bind, Option.bind_eq_some, Option.pure_def,
      Option.some.injEq] at h
    obtain ⟨ob, _, cb, _, nb, _, oe, _, ce, _, nb2, _, c1, _, cur, _, c2, _, cur2, _, rfl⟩ := h
    rfl

/-- Whatever the records are, a defined record loop leaves the frequency map and
the running maximum that the declared labels produce one after the other. -/
theorem loadRecords_frequency {junk : Nat → Nat} {g : Graph} {file : TextFile} {st : TextState}
    (h : loadRecords junk g file = some st) :
    (st.g.labels_frequency_, st.max_label_id) =
      (declaredLabels file.records).foldl countLabel (g.labels_frequency_, 0) := by
  simp only [loadRecords, Option.bind_eq_bind, Option.bind_eq_some, writeAt_some_iff] at h
  obtain ⟨offs, ⟨_, rfl⟩, hfold⟩ := h
  refine foldlM_list_partial readRecord
    (fun done s => (s.g.labels_frequency_, s.max_label_id) =
      (declaredLabels done).foldl countLabel (g.labels_frequency_, 0))
    file.records _ rfl ?_ hfold
  intro done x rest _ s s' hs hstep
  rw [declaredLabels_append, List.foldl_append, ← hs]
  exact readRecord_frequency hstep

theorem mem_keys_countLabel (m : List (Nat × Nat)) (a label k : Nat) :
    k ∈ (countLabel (m, a) label).1.map (fun p => p.1) ↔
      k ∈ m.map (fun p => p.1) ∨ k = label := by
  cases hm : mapFind m label with
  | none =>
    rw [countLabel_none a hm]
    have hf : mapFind (mapSet m label 0) label ≠ none := by
      rw [mapFind_mapSet, if_pos rfl]
      simp
    show k ∈ (mapSet (mapSet m label 0) label (wrap (0 + 1))).map (fun p => p.1) ↔ _
    rw [keys_mapSet, if_neg hf, keys_mapSet, if_pos hm, List.mem_append, List.mem_singleton]
  | some x =>
    rw [countLabel_some a hm]
    have hf : mapFind m label ≠ none := by rw [hm]; simp
    show k ∈ (mapSet m label (wrap (x + 1))).map (fun p => p.1) ↔ _
    rw [keys_mapSet, if_neg hf]
    constructor
    · exact Or.inl
    · rintro (h | rfl)
      · exact h
      · by_contra hc
        exact hf ((mapFind_eq_none_iff m k).2 hc)

theorem mem_keys_foldl_countLabel (L : List Nat) (k : Nat) :
    ∀ (m : List (Nat × Nat)) (a : Nat),
      k ∈ (L.foldl countLabel (m, a)).1.map (fun p => p.1) ↔ k ∈ m.map (fun p => p.1) ∨ k ∈ L := by
  induction L with
  | nil => intro m a; simp
  | cons x L ih =>
    intro m a
    rw [List.foldl_cons]
    have hpair : countLabel (m, a) x = ((countLabel (m, a) x).1, (countLabel (m, a) x).2) := rfl
    rw [hpair, ih, mem_keys_countLabel, List.mem_cons]
    constructor
    · rintro ((h | h) | h)
      · exact Or.inl h
      · exact Or.inr (Or.inl h)
      · exact Or.inr (Or.inr h)
    · rintro (h | h | h)
      · exact Or.inl (Or.inl h)
      · exact Or.inl (Or.inr h)
      · exact Or.inr h

/-- The frequency map built from the labels `L` has one entry per distinct label. -/
theorem length_foldl_countLabel (L : List Nat) :
    (L.foldl countLabel ([], 0)).1.length = L.dedup.length := by
  have hnd := nodup_keys_foldl_countLabel L [] 0 List.nodup_nil
  have hset : ((L.foldl countLabel ([], 0)).1.map (fun p => p.1)).toFinset = L.toFinset := by
    ext k
    rw [List.mem_toFinset, List.mem_toFinset, mem_keys_foldl_countLabel]
    simp
  have h1 := List.toFinset_card_of_nodup hnd
  rw [hset, List.card_toFinset, List.length_map] at h1
  exact h1.symm

theorem dedup_length_le (L : List Nat) (B : Nat) (h : ∀ x ∈ L, x < B) : L.dedup.length ≤ B := by
  rw [← List.card_toFinset]
  have hsub : L.toFinset ⊆ Finset.range B := by
    intro x hx
    rw [List.mem_toFinset] at hx
    exact Finset.mem_range.2 (h x hx)
  have := Finset.card_le_card hsub
  rw [Finset.card_range] at this
  exact this

/-- The label count computed from the labels `L`, none of which is the largest
`ui` value: the larger of the number of distinct labels and the largest label
plus one. -/
theorem labelsCount_ge (L : List Nat) (hfit : ∀ l ∈ L, l + 1 < UI_SIZE) :
    L.dedup.length ≤ labelsCount (L.foldl countLabel ([], 0)).1 (L.foldl countLabel ([], 0)).2 ∧
    ∀ l ∈ L, l + 1 ≤ labelsCount (L.foldl countLabel ([], 0)).1 (L.foldl countLabel ([], 0)).2 := by
  obtain ⟨_, hmax, _, hmem, _⟩ := foldl_countLabel_maxid L [] 0 (by
    intro k hk
    exact absurd rfl hk)
  have hlen := length_foldl_countLabel L
  have hdd : L.dedup.length < UI_SIZE := by
    have := dedup_length_le L (UI_SIZE - 1) (fun x hx => by have := hfit x hx; omega)
    have hU : 1 < UI_SIZE := by decide
    omega
  have hm1 : (L.foldl countLabel ([], 0)).2 + 1 < UI_SIZE := by
    rcases hmem with h0 | hin
    · rw [h0]; decide
    · exact hfit _ hin
  unfold labelsCount
  rw [hlen, wrap_of_lt (by omega), wrap_of_lt hm1]
  refine ⟨?_, ?_⟩
  · split <;> omega
  · intro l hl
    have := hmax l hl
    split <;> omega


theorem reverseOffsetLoop_length {n : Nat} {st0 st : List Nat × List (Nat × Nat) × Nat}
    (h : (List.range n).foldlM reverseOffsetStep st0 = some st) :
    st.1.length = st0.1.length := by
  refine foldlM_range_partial reverseOffsetStep (fun _ st => st.1.length = st0.1.length)
    n st0 rfl ?_ h
  intro i _ s s' hl hstep
  simp only [reverseOffsetStep, Option.bind_eq_bind, Option.bind_eq_some, Option.pure_def,
    Option.some.injEq, writeAt_some_iff] at hstep
  obtain ⟨offs, ⟨_, rfl⟩, rfl⟩ := hstep
  show (s.1.set _ _).length = _
  rw [List.length_set, hl]

theorem reverseFillLoop_labels {labels : List Nat} {n : Nat} {st0 st : List Nat × List Nat}
    (h : (List.range n).foldlM (reverseFillStep labels) st0 = some st) :
    ∀ i, i < n → ∃ label, labels[i]? = some label ∧ wrap (label + 1) < st0.1.length := by
  refine ( foldlM_range_partial (reverseFillStep labels)
    (fun k st => st.1.length = st0.1.length ∧
      ∀ i, i < k → ∃ label, labels[i]? = some label ∧ wrap (label + 1) < st0.1.length)
    n st0 ⟨rfl, fun i hi => absurd hi (Nat.not_lt_zero i)⟩ ?_ h).2
  intro k _ s s' ⟨hl, hall⟩ hstep
  simp only [reverseFillStep, Option.bind_eq_bind, Option.bind_eq_some, Option.pure_def,
    Option.some.injEq, writeAt_some_iff] at hstep
  obtain ⟨label, hlab, slot, _, offs, ⟨hlt, rfl⟩, index, _, rfl⟩ := hstep
  refine ⟨?_, ?_⟩
  · show (s.1.set _ _).length = _
    rw [List.length_set, hl]
  · intro i hi
    by_cases hik : i = k
    · subst hik
      exact ⟨label, hlab, by rw [← hl]; exact hlt⟩
    · exact hall i (by omega)

/-- A defined `BuildReverseIndex` addressed its offset array by `label + 1` for
the label of every vertex, inside the `labels_count_ + 1` cells of the array. -/
theorem BuildReverseIndex_labels {junk : Nat → Nat} {g g' : Graph}
    (h : BuildReverseIndex junk g = some g') :
    ∀ i, i < g.vertices_count_ →
      ∃ label, g.labels_[i]? = some label ∧ wrap (label + 1) < wrap (g.labels_count_ + 1) := by
  simp only [BuildReverseIndex, Option.bind_eq_bind, Option.bind_eq_some, Option.pure_def,
    Option.some.injEq, writeAt_some_iff] at h
  obtain ⟨offs, ⟨_, rfl⟩, st, hst, st2, hst2, _⟩ := h
  have hl1 := reverseOffsetLoop_length hst
  have hl : st.1.length = wrap (g.labels_count_ + 1) := by
    rw [hl1]
    show ((newArray junk (wrap (g.labels_count_ + 1))).set 0 0).length = _
    rw [List.length_set, length_newArray]
  intro i hi
  obtain ⟨label, hlab, hlt⟩ := reverseFillLoop_labels hst2 i hi
  exact ⟨label, hlab, by rw [← hl]; exact hlt⟩

/-- After a defined `BuildReverseIndex`, every vertex label that is not the
largest `ui` value lies below `labels_count_`. -/
theorem BuildReverseIndex_label_lt {junk : Nat → Nat} {g g' : Graph}
    (h : BuildReverseIndex junk g = some g') {v l : Nat} (hv : v < g'.getVerticesCount)
    (hl : g'.getVertexLabel v = some l) (hfit : l + 1 < UI_SIZE) : l < g'.getLabelsCount := by
  obtain ⟨fn, _, fc, _, _, _, _, flab, _, _, _⟩ := BuildReverseIndex_frame h
  have hv' : v < g.vertices_count_ := by rw [← fn]; exact hv
  obtain ⟨label, hlab, hlt⟩ := BuildReverseIndex_labels h v hv'
  have hl' : g.labels_[v]? = some l := by rw [← flab]; exact hl
  rw [hl'] at hlab
  have hle : l = label := Option.some.inj hlab
  rw [← hle, wrap_of_lt hfit] at hlt
  have hwle : wrap (g.labels_count_ + 1) ≤ g.labels_count_ + 1 := Nat.mod_le _ _
  show l < g'.labels_count_
  rw [fc]
  omega


/-! ## Core values that are zero stay zero -/

/-- The only cell of `core_table_` that a demotion changes. -/
theorem coreDemote_core {s s' : CoreState} {u : Int} (h : coreDemote s u = some s') :
    ∃ c, readInt s.core_table_ u = some c ∧
      s'.core_table_ = s.core_table_.set u.toNat (c - 1) := by
  unfold coreDemote at h
  simp only [Option.bind_eq_bind, Option.pure_def] at h
  rw [Option.bind_eq_some] at h
  obtain ⟨cur, _, h⟩ := h
  rw [Option.bind_eq_some] at h
  obtain ⟨pu, _, h⟩ := h
  rw [Option.bind_eq_some] at h
  obtain ⟨pw, _, h⟩ := h
  rw [Option.bind_eq_some] at h
  obtain ⟨w, _, h⟩ := h
  have hex : ∃ s1 : CoreState, s1.core_table_ = s.core_table_ ∧
      ∃ c core, readInt s1.core_table_ u = some c ∧
        writeInt s1.core_table_ u (c - 1) = some core ∧ s'.core_table_ = core := by
    by_cases huw : u ≠ w
    · rw [if_pos huw] at h
      simp only [Option.bind_eq_some, Option.some.injEq] at h
      obtain ⟨s1, ⟨p1, _, p2, _, v1, _, v2, _, rfl⟩, o, _, off, _, c, hc, core, hcore, rfl⟩ := h
      exact ⟨_, rfl, c, core, hc, hcore, rfl⟩
    · rw [if_neg huw] at h
      simp only [Option.bind_eq_some, Option.some.injEq] at h
      obtain ⟨s1, rfl, o, _, off, _, c, hc, core, hcore, rfl⟩ := h
      exact ⟨_, rfl, c, core, hc, hcore, rfl⟩
  obtain ⟨s1, hs1c, c, core, hc, hcore, hs'⟩ := hex
  rw [hs1c] at hc hcore
  exact ⟨c, hc, by rw [hs', (writeInt_some hcore).2.2]⟩

theorem coreVisit_zero {n M : Nat} {s s' : CoreState} {v : Int} {x z : Nat}
    (hb : CoreBounds n M s) (hz : s.core_table_[z]? = some 0)
    (h : coreVisit v s x = some s') : s'.core_table_[z]? = some 0 := by
  simp only [coreVisit, Option.bind_eq_bind, Option.bind_eq_some] at h
  obtain ⟨cu, hcu, cv, hcv, hrest⟩ := h
  by_cases hgt : cu > cv
  · rw [if_pos hgt] at hrest
    obtain ⟨c, hc, hset⟩ := coreDemote_core hrest
    rw [hcu] at hc
    have hce : cu = c := Option.some.inj hc
    have hcv0 := (hb.2 cv (List.getElem?_mem (readInt_some hcv).2.2)).1
    have hne : (toInt x).toNat ≠ z := by
      intro hc'
      have hget := (readInt_some hcu).2.2
      rw [hc', hz] at hget
      have : (0 : Int) = cu := Option.some.inj hget
      omega
    rw [hset, List.getElem?_set_ne hne]
    exact hz
  · rw [if_neg hgt] at hrest
    rw [← Option.some.inj hrest]
    exact hz

theorem coreProcess_zero {g : Graph} {n M : Nat} {s s' : CoreState} {i z : Nat}
    (hb : CoreBounds n M s) (hz : s.core_table_[z]? = some 0)
    (h : coreProcess g s i = some s') : s'.core_table_[z]? = some 0 := by
  simp only [coreProcess, Option.bind_eq_bind, Option.bind_eq_some] at h
  obtain ⟨v, _, nb, _, hfold⟩ := h
  exact ( foldlM_list_partial (coreVisit v)
    (fun _ s => CoreBounds n M s ∧ s.core_table_[z]? = some 0) nb s ⟨hb, hz⟩
    (fun _ _ _ _ _ _ hs hstep => ⟨coreVisit_bounds hs.1 hstep, coreVisit_zero hs.1 hs.2 hstep⟩)
    hfold).2

theorem coreLoop_zero {g : Graph} {n M k : Nat} {s0 s : CoreState} {z : Nat}
    (hb : CoreBounds n M s0) (hz : s0.core_table_[z]? = some 0)
    (h : (List.range k).foldlM (coreProcess g) s0 = some s) : s.core_table_[z]? = some 0 :=
  ( foldlM_range_partial (coreProcess g)
    (fun _ s => CoreBounds n M s ∧ s.core_table_[z]? = some 0) k s0 ⟨hb, hz⟩
    (fun _ _ _ _ hs hstep => ⟨coreProcess_bounds hs.1 hstep, coreProcess_zero hs.1 hs.2 hstep⟩)
    h).2

/-- The closing loop leaves `core_length_` as it was when no core value exceeds one. -/
theorem coreLengthLoop_unchanged (core : List Int) (n : Nat) (hn : n ≤ core.length)
    (hall : ∀ x ∈ core, x ≤ 1) (len0 : Nat) :
    (List.range n).foldlM (coreLengthStep core) len0 = some len0 := by
  obtain ⟨r, hr, hP⟩ := foldlM_range_total (coreLengthStep core) (fun _ len => len = len0)
    n len0 rfl
    (by
      intro i hi s hs
      have hlt : i < core.length := by omega
      have hget : core[i]? = some (core.getD i 0) := by
        simp [List.getD, List.getElem?_eq_getElem hlt]
      have hle := hall _ (List.getElem?_mem hget)
      refine ⟨s, ?_, hs⟩
      simp only [coreLengthStep, hget, Option.bind_eq_bind, Option.some_bind, Option.pure_def]
      rw [if_neg (by omega)])
  rw [hr, hP]

/-- In a defined run of `buildCoreTable`, a vertex of degree `0` ends with the
core value `0`. -/
theorem buildCoreTable_zero {junk : Nat → Nat} {g g' : Graph}
    (hui : g.vertices_count_ < UI_SIZE) (h : buildCoreTable junk g = some g')
    {v : Nat} (hv : v < g.vertices_count_) (hd : g.coreDegree v = 0) :
    g'.core_table_[v]? = some 0 := by
  obtain ⟨hR, s0, s, _, hrep, hs, _, _, hg'⟩ := buildCoreTable_run hui h
  have h0 : s0.core_table_[v]? = some 0 := by
    have := hrep.1.2 v hv
    have hc : (Ghost.setup g).c v = g.coreDegree v := rfl
    rw [hc, hd] at this
    exact this
  have hz := coreLoop_zero (coreBounds_setup hR hrep) h0 hs
  rw [hg']
  exact hz

/-! ## Isolated vertices and stores without edges -/

/-- In every run of `buildCoreTable`, a vertex whose `getVertexDegree` is `0` gets
core value `0`; when `max_degree_ = 0`, every vertex gets core value `0` and
`core_length_` is left as it was before the call. -/
theorem buildCoreTable_edgeless {junk : Nat → Nat} {g g' : Graph}
    (hui : g.vertices_count_ < UI_SIZE) (h : buildCoreTable junk g = some g') :
    (∀ v, v < g.vertices_count_ → g.getVertexDegree v = some 0 →
      g'.getCoreValue v = some 0) ∧
    (g.max_degree_ = 0 →
      (∀ v, v < g.vertices_count_ → g'.getCoreValue v = some 0) ∧
      g'.get2CoreSize = g.get2CoreSize) := by
  have hval : ∀ v, v < g.vertices_count_ → g.coreDegree v = 0 →
      g'.getCoreValue v = some 0 := by
    intro v hv hd
    unfold getCoreValue
    rw [buildCoreTable_zero hui h hv hd]
    rfl
  refine ⟨?_, ?_⟩
  · intro v hv hdeg
    apply hval v hv
    unfold coreDegree degree
    rw [hdeg]
    rfl
  · intro hmd
    obtain ⟨hR, s0, s, _, _, _, hb, hlen, hg'⟩ := buildCoreTable_run hui h
    have hM : g.coreMaxDegree = 0 := by
      unfold coreMaxDegree
      rw [hmd]
      rfl
    refine ⟨?_, ?_⟩
    · intro v hv
      apply hval v hv
      have := (hR.degree_eq hv).2.2
      omega
    · have hun := coreLengthLoop_unchanged s.core_table_ g.vertices_count_
        (le_of_eq hb.1.symm)
        (fun x hx => by
          have := (hb.2 x hx).2
          rw [hM] at this
          omega)
        g.core_length_
      rw [hun] at hlen
      exact (Option.some.inj hlen).symm

theorem edgelessFile_loads :
    loadGraphFromFile (fun _ => 0) Graph.new edgelessFile = some edgelessLoaded := by
  decide

theorem edgelessLoaded_buildCoreTable :
    buildCoreTable (fun _ => 0) edgelessLoaded =
      some { edgelessLoaded with core_table_ := [0, 0] } := by
  decide


/-! ## Label frequencies when every vertex id has one record -/

/-- What a defined record loop does to the labels: each vertex record addresses
a cell of `offsets_`, and when no id is declared twice each declared label is
the one stored for its vertex. -/
theorem loadRecords_labelled {junk : Nat → Nat} {g : Graph} {file : TextFile} {st : TextState}
    (h : loadRecords junk g file = some st) :
    st.g.labels_.length = file.vertices_count ∧
    st.g.max_label_frequency_ = g.max_label_frequency_ ∧
    (∀ r ∈ vertexRecords file.records, r.1 < wrap (file.vertices_count + 1)) ∧
    ((vertexIds file.records).Nodup →
      ∀ r ∈ vertexRecords file.records, st.g.labels_[r.1]? = some r.2.1) := by
  simp only [loadRecords, Option.bind_eq_bind, Option.bind_eq_some, writeAt_some_iff] at h
  obtain ⟨offs, ⟨_, rfl⟩, hfold⟩ := h
  have key := foldlM_list_partial readRecord
    (fun done s => s.g.labels_.length = file.vertices_count ∧
      s.g.offsets_.length = wrap (file.vertices_count + 1) ∧
      s.g.max_label_frequency_ = g.max_label_frequency_ ∧
      (∀ r ∈ vertexRecords done, r.1 < wrap (file.vertices_count + 1)) ∧
      ((vertexIds done).Nodup → ∀ r ∈ vertexRecords done, s.g.labels_[r.1]? = some r.2.1))
    file.records _
    ⟨by simp [length_newArray], by simp [length_newArray], rfl,
      by simp [vertexRecords], by simp [vertexRecords]⟩ ?_ hfold
  · exact ⟨key.1, key.2.2.1, key.2.2.2.1, key.2.2.2.2⟩
  intro done x rest _ s s' hs hstep
  obtain ⟨hlab, hoffl, hmax, hlt, hget⟩ := hs
  cases x with
  | v id label degree =>
    simp only [readRecord, Option.bind_eq_bind, Option.bind_eq_some, Option.pure_def,
      Option.some.injEq, writeAt_some_iff] at hstep
    obtain ⟨labels, ⟨hid, rfl⟩, base, hbase, offsets, ⟨_, rfl⟩, rfl⟩ := hstep
    have hidl : id < s.g.offsets_.length := (List.getElem?_eq_some_iff.1 hbase).1
    have hvr : vertexRecords (done ++ [Record.v id label degree]) =
        vertexRecords done ++ [(id, label, degree)] := by
      rw [vertexRecords_append]; rfl
    have hvi : vertexIds (done ++ [Record.v id label degree]) = vertexIds done ++ [id] := by
      rw [vertexIds_append]; rfl
    refine ⟨by simp [hlab], by simp [hoffl], hmax, ?_, ?_⟩
    · intro r hr
      rw [hvr, List.mem_append, List.mem_singleton] at hr
      rcases hr with hr | rfl
      · exact hlt r hr
      · show id < _
        rw [← hoffl]; exact hidl
    · intro hnd r hr
      rw [hvi, List.nodup_append] at hnd
      obtain ⟨hnd1, _, hdisj⟩ := hnd
      rw [hvr, List.mem_append, List.mem_singleton] at hr
      rcases hr with hr | rfl
      · have hne : id ≠ r.1 := by
          intro he
          exact hdisj (List.mem_map_of_mem (fun r => r.1) hr) (by simp [he])
        show (s.g.labels_.set id label)[r.1]? = some r.2.1
        rw [List.getElem?_set_ne hne]
        exact hget hnd1 r hr
      · show (s.g.labels_.set id label)[id]? = some label
        rw [List.getElem?_set_eq_of_lt _ hid]
  | e b e =>
    obtain ⟨nb, hg, _⟩ := readRecord_edge_frame hstep
    have hvr : vertexRecords (done ++ [Record.e b e]) = vertexRecords done := by
      rw [vertexRecords_append]; simp [vertexRecords]
    have hvi : vertexIds (done ++ [Record.e b e]) = vertexIds done := by
      unfold vertexIds; rw [hvr]
    rw [hvr, hvi, hg]
    exact ⟨hlab, hoffl, hmax, hlt, hget⟩

/-- With one vertex record per id, the header count is a `ui` value whenever the
record loop is defined. -/
theorem loadRecords_perm_count_lt {junk : Nat → Nat} {g : Graph} {file : TextFile}
    {st : TextState} (hone : file.OneRecordPerVertex)
    (h : loadRecords junk g file = some st) : file.vertices_count < UI_SIZE := by
  obtain ⟨_, _, hlt, _⟩ := loadRecords_labelled h
  by_cases hn : file.vertices_count = 0
  · rw [hn]; decide
  · have hmem : file.vertices_count - 1 ∈ vertexIds file.records :=
      hone.symm.subset (List.mem_range.2 (by omega))
    unfold vertexIds at hmem
    obtain ⟨r, hr, hr1⟩ := List.mem_map.1 hmem
    have h1 := hlt r hr
    have h2 := wrap_lt (file.vertices_count + 1)
    have hr1' : r.1 = file.vertices_count - 1 := hr1
    omega

/-- With one vertex record per id, the stored labels are the declared labels up
to their order. -/
theorem loadRecords_labels_perm {junk : Nat → Nat} {g : Graph} {file : TextFile}
    {st : TextState} (hone : file.OneRecordPerVertex)
    (h : loadRecords junk g file = some st) :
    st.g.labels_.Perm (declaredLabels file.records) := by
  obtain ⟨hlen, _, _, hget⟩ := loadRecords_labelled h
  have hnd : (vertexIds file.records).Nodup := hone.symm.nodup (List.nodup_range _)
  have hget := hget hnd
  have h1 : declaredLabels file.records =
      (vertexIds file.records).map (fun v => st.g.labels_.getD v 0) := by
    unfold declaredLabels vertexIds
    rw [List.map_map]
    apply List.map_congr_left
    intro r hr
    simp [List.getD, hget r hr]
  have h2 : st.g.labels_ = (List.range file.vertices_count).map (fun v => st.g.labels_.getD v 0) := by
    apply List.ext_getElem?
    intro j
    by_cases hj : j < file.vertices_count
    · rw [List.getElem?_map, List.getElem?_range hj]
      simp [List.getD, List.getElem?_eq_getElem (hlen.symm ▸ hj)]
    · rw [List.getElem?_eq_none (by rw [hlen]; omega),
        List.getElem?_eq_none (by simp; omega)]
  rw [h1]
  nth_rewrite 1 [h2]
  exact (hone.map _).symm

theorem frequenciesExact_of_perm {g : Graph} {L : List Nat}
    (hlen : g.labels_.length = g.vertices_count_)
    (hL : g.labels_.Perm L) (hn : g.vertices_count_ < UI_SIZE)
    (hf : ∀ l, g.getLabelsFrequency l = freqOf (L.foldl countLabel ([], 0)).1 l)
    (hm : g.max_label_frequency_ = maxFrequency (L.foldl countLabel ([], 0)).1 0) :
    g.FrequenciesExact := by
  obtain ⟨h1, h2, l0, h3⟩ := frequencies_of_labels L
    (by rw [← hL.length_eq, hlen]; exact hn)
  refine ⟨fun l => ?_, fun l => ?_, l0, ?_⟩
  · rw [hf, h1, verticesLabelled_eq_count g hlen, hL.count_eq]
  · show g.getLabelsFrequency l ≤ g.max_label_frequency_
    rw [hf, hm]; exact h2 l
  · show g.getLabelsFrequency l0 = g.max_label_frequency_
    rw [hf, hm]; exact h3

/-- Frequencies after the text loader on an input with one vertex record per
id. -/
theorem loadGraphFromFile_frequencies_perm {junk : Nat → Nat} {g' : Graph} {file : TextFile}
    (hone : file.OneRecordPerVertex)
    (h : loadGraphFromFile junk Graph.new file = some g') : g'.FrequenciesExact := by
  obtain ⟨st, nb, hst, hnb, hbri⟩ := loadGraphFromFile_some h
  have hn := loadRecords_perm_count_lt hone hst
  obtain ⟨hlen, hmax, _, _⟩ := loadRecords_labelled hst
  obtain ⟨_, _, hcount⟩ := loadRecords_lengths hst
  have hperm := loadRecords_labels_perm hone hst
  obtain ⟨fn, _, _, _, fmax, _, _, flab, _, _, ffreq⟩ := BuildReverseIndex_frame hbri
  have hfr : st.g.labels_frequency_ = ((declaredLabels file.records).foldl countLabel ([], 0)).1 := by
    have := congrArg Prod.fst (loadRecords_frequency hst)
    exact this
  apply frequenciesExact_of_perm (L := declaredLabels file.records)
  · rw [flab, fn]; show st.g.labels_.length = st.g.vertices_count_
    rw [hlen, hcount]
  · rw [flab]; exact hperm
  · rw [fn]; show st.g.vertices_count_ < UI_SIZE
    rw [hcount]; exact hn
  · intro l
    rw [ffreq l, getLabelsFrequency_eq]
    show freqOf st.g.labels_frequency_ l = _
    rw [hfr]
  · rw [fmax]
    show maxFrequency st.g.labels_frequency_ st.g.max_label_frequency_ = _
    rw [hfr, hmax]
    rfl

theorem pathFile_oneRecordPerVertex : pathFile.OneRecordPerVertex := by
  unfold TextFile.OneRecordPerVertex
  rw [pathFile_inOrder]

theorem repeatedVertexFile_loads :
    loadGraphFromFile (fun _ => 0) Graph.new repeatedVertexFile = some repeatedVertexLoaded := by
  decide


theorem edgelessFile_inRange : edgelessFile.InRange := by
  refine ⟨by decide, by decide, ?_⟩
  intro r hr
  simp only [edgelessFile, List.mem_cons, List.mem_singleton, List.not_mem_nil, or_false] at hr
  rcases hr with rfl | rfl <;> decide

theorem edgelessLoaded_fresh : edgelessLoaded.FreshlyLoaded :=
  Or.inl ⟨fun _ => 0, edgelessFile, edgelessFile_inRange, edgelessFile_loads⟩

theorem edgelessLoaded_wellFormed : edgelessLoaded.WellFormed where
  shaped := ⟨by decide, by decide, by decide, by decide, by decide⟩
  count_lt := by decide
  in_range := by
    intro v hv
    have : v = 0 ∨ v = 1 := by
      have : v < 2 := hv
      omega
    rcases this with rfl | rfl <;> decide
  symmetric := by
    intro u v hu hv
    have hu2 : u = 0 ∨ u = 1 := by
      have : u < 2 := hu
      omega
    have hv2 : v = 0 ∨ v = 1 := by
      have : v < 2 := hv
      omega
    rcases hu2 with rfl | rfl <;> rcases hv2 with rfl | rfl <;> decide
  no_self_loops := by
    intro v hv
    have : v = 0 ∨ v = 1 := by
      have : v < 2 := hv
      omega
    rcases this with rfl | rfl <;> decide
  no_duplicates := by
    intro v hv
    have : v = 0 ∨ v = 1 := by
      have : v < 2 := hv
      omega
    rcases this with rfl | rfl <;> decide
  max_degree_ge := by
    intro v hv
    have : v = 0 ∨ v = 1 := by
      have : v < 2 := hv
      omega
    rcases this with rfl | rfl <;> decide
  max_degree_attained := Or.inl rfl

end Graph
end SubgraphMatching

namespace SubgraphMatching
namespace Graph

/-! ## C1: `buildCoreTable` computes the coreness of every vertex -/

/-- **C1.** On a well-formed adjacency store (CSR shape, every neighbour id a
vertex, adjacency symmetric, no self-loops, no duplicate neighbours,
`max_degree_` the largest vertex degree, vertex count representable in `int`),
`buildCoreTable` returns, and afterwards `getCoreValue v` is the coreness of
`v` for every vertex `v`: some set of vertices containing `v` induces a
subgraph of minimum degree at least `getCoreValue v`, and no set containing
`v` induces one of larger minimum degree. -/
theorem buildCoreTable_coreness (junk : Nat → Nat) (g : Graph) (hW : g.WellFormed) :
    ∃ g', buildCoreTable junk g = some g' ∧
      ∀ v, v < g.vertices_count_ → ∃ k, g'.getCoreValue v = some k ∧ g'.IsCoreness v k := by
  obtain ⟨s0, γ0, hs0, hR0, hI0, _⟩ := coreSetup_eq junk hW
  obtain ⟨s, γ, hs, hR, hI⟩ := coreLoop_eq hW hI0 hR0
  obtain ⟨len, hlen⟩ := coreLengthLoop_total s.core_table_ g.vertices_count_ hR.1.1 g.core_length_
  have htn : (toInt g.getVerticesCount).toNat = g.vertices_count_ := by
    show (toInt g.vertices_count_).toNat = _
    rw [toInt_of_lt hW.count_lt, Int.toNat_ofNat]
  refine ⟨{ g with core_table_ := s.core_table_, core_length_ := len }, ?_, ?_⟩
  · simp only [buildCoreTable, hs0, htn, hs, hlen, Option.bind_eq_bind, Option.some_bind,
      Option.pure_def]
  · intro v hv
    refine ⟨γ.c v, ?_, coreness_of_final g hW γ hI v hv⟩
    show (s.core_table_[v]?).map ofInt = _
    rw [hR.1.get hv, Option.map_some']
    exact congrArg some (ofInt_of_lt (lt_of_le_of_lt (hI.core_le v hv) hW.max_degree_lt))

/-- Instance of C1 on the path `0 - 1 - 2`. -/
theorem buildCoreTable_coreness_witness :
    pathGraph.WellFormed ∧ ∃ g', buildCoreTable (fun _ => 0) pathGraph = some g' ∧
      ∀ v, v < pathGraph.vertices_count_ →
        ∃ k, g'.getCoreValue v = some k ∧ g'.IsCoreness v k :=
  ⟨pathGraph_wellFormed, buildCoreTable_coreness (fun _ => 0) pathGraph pathGraph_wellFormed⟩

end Graph
end SubgraphMatching

namespace SubgraphMatching
namespace Graph

/-- **C2.** For a text input with header counts `n` and `m`, one vertex record
per id `0 .. n-1` in increasing id order preceding the edge records, `m` edge
records `(u, v)` with `u != v` and `u, v < n`, and every declared degree equal to
the number of edge records at that vertex: the load is defined (sizes and labels
fitting the 32-bit types), and after it, for every vertex `v`,
`getVertexLabel(v)` is the declared label, `getVertexDegree(v)` the declared
degree, and `getVertexNeighbors(v)` the ascending sorted list of the opposite
endpoints of the edge records at `v`. -/
theorem loadGraphFromFile_spec (junk : Nat → Nat) (file : TextFile)
    (hr : file.InRange) (hvf : file.VerticesFirst) (hord : file.VerticesInOrder)
    (hmatch : file.DegreesMatch) (hloops : file.NoSelfLoops) :
    (file.vertices_count + 1 < UI_SIZE → file.edges_count * 2 < UI_SIZE → file.LabelsFit →
      ∃ g', loadGraphFromFile junk Graph.new file = some g') ∧
    ∀ g', loadGraphFromFile junk Graph.new file = some g' → LoadedFrom file g' :=
  ⟨fun hn hm hfit => loadGraphFromFile_total junk file hn hm hfit hvf hord hmatch hloops,
   fun _ h => loadGraphFromFile_loadedFrom hr hvf hord hmatch hloops h⟩

theorem loadGraphFromFile_spec_witness :
    pathLoaded.getVertexLabel 2 = some 7 ∧ pathLoaded.getVertexDegree 1 = some 2 ∧
    pathLoaded.getVertexNeighbors 1 = some [0, 2] ∧
    oppositeEndpoints (edgeRecords pathFile.records) 1 = [0, 2] ∧
    LoadedFrom pathFile pathLoaded :=
  ⟨by decide, by decide, by decide, by decide,
   (loadGraphFromFile_spec (fun _ => 0) pathFile pathFile_inRange pathFile_verticesFirst
     pathFile_inOrder pathFile_degreesMatch pathFile_noSelfLoops).2 pathLoaded pathFile_loads⟩

end Graph
end SubgraphMatching

namespace SubgraphMatching
namespace Graph

/-- **C3 (amended).** For every graph `G` of CSR shape (offsets non-decreasing,
`offsets[0] = 0`, `offsets[vertexCount] = 2 * edgeCount`) with sorted adjacency
slices whose label-frequency map counts the vertices of each label:
`storeComparessedGraph(G)` is defined, and every graph that
`loadGraphFromFileCompressed` builds from the three streams on a fresh `Graph`
has the same `vertexCount`, `edgeCount`, `offsets`, `neighbors`, `labels` and
label frequencies as `G`; the load is defined when `label + 2` fits `ui` for
every label. -/
theorem store_load_round_trip (junk junk2 : Nat → Nat) (g : Graph) (hS : g.Storable)
    (hF : g.FrequencyCounts) :
    ∃ s, storeComparessedGraph junk g = some s ∧
      (∀ g', loadGraphFromFileCompressed junk2 Graph.new s = some g' →
        g'.getVerticesCount = g.getVerticesCount ∧ g'.getEdgesCount = g.getEdgesCount ∧
        g'.offsets_ = g.offsets_ ∧ g'.neighbors_ = g.neighbors_ ∧ g'.labels_ = g.labels_ ∧
        ∀ l, g'.getLabelsFrequency l = g.getLabelsFrequency l) ∧
      ((∀ l ∈ g.labels_, l + 2 < UI_SIZE) →
        ∃ g', loadGraphFromFileCompressed junk2 Graph.new s = some g') := by
  refine ⟨_, storeComparessedGraph_eq junk g hS, ?_, ?_⟩
  · intro g' h
    obtain ⟨maxd, hload⟩ := loadGraphFromFileCompressed_store junk2 g hS
    rw [hload] at h
    obtain ⟨fn, fm, _, _, _, foff, fnb, flab, _, _, ffreq⟩ := BuildReverseIndex_frame h
    refine ⟨fn, fm, foff, fnb, flab, ?_⟩
    intro l
    rw [ffreq l, hF l, getLabelsFrequency_eq]
    exact (frequencies_of_labels g.labels_
      (by rw [hS.labels_length]; have := hS.vertices_lt; omega)).1 l
  · intro hfit
    obtain ⟨maxd, hload⟩ := loadGraphFromFileCompressed_store junk2 g hS
    rw [hload]
    obtain ⟨g', hg', _⟩ := BuildReverseIndex_total junk2 (g.reloaded maxd)
      (labelsReady_of_labels (g.reloaded maxd) g.labels_ hS.vertices_lt hS.labels_length hfit
        rfl rfl rfl)
    exact ⟨g', hg'⟩

/-- **C3 (counterexample).** The graph loaded from a text input that declares
vertex `0` twice satisfies `offsets[0] = 0`, `offsets[vertexCount] = 2 * edgeCount`
and has sorted slices, yet writing it out and loading the streams into a fresh
graph changes the frequency of label `5` from `3` to `2`. -/
theorem store_load_changes_frequency :
    loadGraphFromFile (fun _ => 0) Graph.new repeatedVertexFile = some repeatedVertexLoaded ∧
    repeatedVertexLoaded.offsets_[0]? = some 0 ∧
    repeatedVertexLoaded.offsets_[repeatedVertexLoaded.getVerticesCount]? =
      some (2 * repeatedVertexLoaded.getEdgesCount) ∧
    repeatedVertexLoaded.Storable ∧
    ∃ s g', storeComparessedGraph (fun _ => 0) repeatedVertexLoaded = some s ∧
      loadGraphFromFileCompressed (fun _ => 0) Graph.new s = some g' ∧
      repeatedVertexLoaded.getLabelsFrequency 5 = 3 ∧ g'.getLabelsFrequency 5 = 2 := by
  refine ⟨by decide, by decide, by decide, ?_, ?_⟩
  · refine ⟨by decide, by decide, by decide, by decide, by decide, ?_, by decide, by decide, ?_⟩
    · intro j hj
      have : j = 0 ∨ j = 1 := by
        have : j < 2 := hj
        omega
      rcases this with rfl | rfl <;> decide
    · intro v hv
      have : v = 0 ∨ v = 1 := by
        have : v < 2 := hv
        omega
      rcases this with rfl | rfl <;> decide
  · exact ⟨{ degree := [4, 2, 0, 0, 0], edge := [], label := [5, 5] },
      { repeatedVertexLoaded with
        max_label_frequency_ := 2,
        labels_frequency_ := [(5, 2), (0, 0), (1, 0), (2, 0), (3, 0), (4, 0)] },
      by decide, by decide, by decide, by decide⟩

theorem store_load_round_trip_witness :
    pathLoaded.Storable ∧ pathLoaded.FrequencyCounts ∧
    ∃ s, storeComparessedGraph (fun _ => 0) pathLoaded = some s ∧
      (∀ g', loadGraphFromFileCompressed (fun _ => 0) Graph.new s = some g' →
        g'.getVerticesCount = pathLoaded.getVerticesCount ∧
        g'.getEdgesCount = pathLoaded.getEdgesCount ∧
        g'.offsets_ = pathLoaded.offsets_ ∧ g'.neighbors_ = pathLoaded.neighbors_ ∧
        g'.labels_ = pathLoaded.labels_ ∧
        ∀ l, g'.getLabelsFrequency l = pathLoaded.getLabelsFrequency l) ∧
      ((∀ l ∈ pathLoaded.labels_, l + 2 < UI_SIZE) →
        ∃ g', loadGraphFromFileCompressed (fun _ => 0) Graph.new s = some g') :=
  ⟨pathLoaded_storable, pathLoaded_frequencyCounts,
   store_load_round_trip (fun _ => 0) (fun _ => 0) pathLoaded pathLoaded_storable
     pathLoaded_frequencyCounts⟩

end Graph
end SubgraphMatching

namespace SubgraphMatching
namespace Graph

/-- **C4 (amended).** For every graph produced by `loadGraphFromFile` or by
`loadGraphFromFileCompressed` and every vertex `i`, the adjacency slice
`neighbors_[offsets_[i] .. offsets_[i+1])` is defined and sorted ascending
(non-decreasing: a neighbour that the input lists twice is stored twice). -/
theorem loaders_sorted (junk : Nat → Nat) (g g' : Graph) :
    (∀ file : TextFile, loadGraphFromFile junk g file = some g' →
      ∀ i, i < g'.getVerticesCount →
        ∃ N, g'.getVertexNeighbors i = some N ∧ N.Pairwise (fun a b => a ≤ b)) ∧
    (∀ file : Streams, loadGraphFromFileCompressed junk g file = some g' →
      ∀ i, i < g'.getVerticesCount →
        ∃ N, g'.getVertexNeighbors i = some N ∧ N.Pairwise (fun a b => a ≤ b)) := by
  constructor
  · intro file h i hi
    obtain ⟨N, h1, h2, _⟩ := loadGraphFromFile_sorted h i hi
    exact ⟨N, h1, h2⟩
  · intro file h i hi
    obtain ⟨N, h1, h2, _⟩ := loadGraphFromFileCompressed_sorted h i hi
    exact ⟨N, h1, h2⟩

/-- **C4 (counterexample).** The text input that lists the edge `0 - 1` twice
loads into a graph whose slice of vertex `0` is `[1, 1]`: ascending, not
strictly ascending. -/
theorem loadGraphFromFile_not_strict :
    loadGraphFromFile (fun _ => 0) Graph.new doubleEdgeFile = some doubleEdgeLoaded ∧
    doubleEdgeLoaded.getVertexNeighbors 0 = some [1, 1] ∧
    ¬ doubleEdgeLoaded.StrictSlices := by
  refine ⟨by decide, by decide, ?_⟩
  intro h
  have h0 := h 0 (by decide)
  revert h0
  decide

theorem loaders_sorted_witness :
    (∀ i, i < pathLoaded.getVerticesCount →
        ∃ N, pathLoaded.getVertexNeighbors i = some N ∧ N.Pairwise (fun a b => a ≤ b)) ∧
    (∀ i, i < pathLoaded.getVerticesCount →
        ∃ N, pathLoaded.getVertexNeighbors i = some N ∧ N.Pairwise (fun a b => a ≤ b)) :=
  ⟨(loaders_sorted (fun _ => 0) Graph.new pathLoaded).1 pathFile pathFile_loads,
   (loaders_sorted (fun _ => 0) Graph.new pathLoaded).2 _ pathStreams_load⟩

end Graph
end SubgraphMatching

namespace SubgraphMatching
namespace Graph

/-- **C5.** For a text input whose vertex records come in increasing id order
and whose declared degrees match the edge records, every graph the text loader
produces has `offsets_[0] = 0`, `offsets_[vertices_count_] = 2 * edges_count_`,
every `getVertexDegree(v)` defined, and the degrees sum to `2 * edges_count_`. -/
theorem loadGraphFromFile_offsets (junk : Nat → Nat) (g g' : Graph) (file : TextFile)
    (hr : file.InRange) (hord : file.VerticesInOrder) (hmatch : file.DegreesMatch)
    (h : loadGraphFromFile junk g file = some g') :
    g'.offsets_[0]? = some 0 ∧
    g'.offsets_[g'.getVerticesCount]? = some (2 * g'.getEdgesCount) ∧
    (∀ v, v < g'.getVerticesCount → (g'.getVertexDegree v).isSome) ∧
    ((List.range g'.getVerticesCount).map g'.degree).sum = 2 * g'.getEdgesCount := by
  obtain ⟨hn, hm, hn1, hsum, hoff, hdeg⟩ := loadGraphFromFile_offsets_eq hr hord h
  obtain ⟨hcount, hends, hdd⟩ := hmatch
  have hlen := length_declaredDegrees hord
  have htotal : (declaredDegrees file.records).sum = 2 * file.edges_count := by
    rw [hdd, sum_endpointCount _ _ hends, hcount]
  have hdv : ∀ v, v < file.vertices_count →
      g'.getVertexDegree v = some (endpointCount (edgeRecords file.records) v) := by
    intro v hv
    rw [hdeg v hv, hdd]
    simp [hv]
  refine ⟨?_, ?_, ?_, ?_⟩
  · simpa using hoff 0 (Nat.zero_le _)
  · show g'.offsets_[g'.vertices_count_]? = some (2 * g'.edges_count_)
    rw [hn, hm, hoff _ (le_refl _), ← hlen, List.take_length, htotal]
  · intro v hv
    rw [hdv v (by rw [← hn]; exact hv)]
    rfl
  · show ((List.range g'.vertices_count_).map g'.degree).sum = 2 * g'.edges_count_
    have e : (List.range g'.vertices_count_).map g'.degree =
        (List.range file.vertices_count).map (endpointCount (edgeRecords file.records)) := by
      rw [hn]
      apply List.map_congr_left
      intro v hv
      simp [degree, hdv v (List.mem_range.1 hv)]
    rw [e, sum_endpointCount _ _ hends, hcount, hm]

theorem loadGraphFromFile_offsets_witness :
    pathLoaded.offsets_[0]? = some 0 ∧
    pathLoaded.offsets_[pathLoaded.getVerticesCount]? = some (2 * pathLoaded.getEdgesCount) ∧
    (∀ v, v < pathLoaded.getVerticesCount → (pathLoaded.getVertexDegree v).isSome) ∧
    ((List.range pathLoaded.getVerticesCount).map pathLoaded.degree).sum =
      2 * pathLoaded.getEdgesCount :=
  loadGraphFromFile_offsets (fun _ => 0) Graph.new pathLoaded pathFile pathFile_inRange
    pathFile_inOrder pathFile_degreesMatch pathFile_loads

end Graph
end SubgraphMatching

namespace SubgraphMatching
namespace Graph

/-- **C6.** On a store whose frequency map counts the vertices of each label and
whose labels are all below `labels_count_`, `BuildReverseIndex` is defined and
afterwards, for every label `l < labels_count_`, `getVerticesByLabel(l)` is the
list of the vertices `v` with `getVertexLabel(v) = l` in ascending order; hence
every vertex lies in exactly one bucket and the bucket lengths sum to
`vertices_count_`. -/
theorem BuildReverseIndex_spec (junk : Nat → Nat) (g : Graph) (hR : g.LabelsReady) :
    ∃ g', BuildReverseIndex junk g = some g' ∧
      (∀ l, l < g.labels_count_ → g'.getVerticesByLabel l =
        some ((List.range g'.vertices_count_).filter
          (fun v => decide (g'.getVertexLabel v = some l)))) ∧
      (∀ v, v < g'.vertices_count_ → ∃ l, l < g.labels_count_ ∧
        ∀ l', l' < g.labels_count_ → (v ∈ (g'.getVerticesByLabel l').getD [] ↔ l' = l)) ∧
      ((List.range g.labels_count_).map
        (fun l => ((g'.getVerticesByLabel l).getD []).length)).sum = g'.vertices_count_ := by
  obtain ⟨g', hrun, hbuckets⟩ := BuildReverseIndex_total junk g hR
  obtain ⟨hn, _, _, _, _, _, _, hlab, _, _, _⟩ := BuildReverseIndex_frame hrun
  have hb : ∀ l, l < g.labels_count_ → g'.getVerticesByLabel l =
      some ((List.range g'.vertices_count_).filter
        (fun v => decide (g'.getVertexLabel v = some l))) := by
    intro l hl
    rw [hbuckets l hl, hn, ← hR.labels_length]
    simp only [verticesWithLabel, getVertexLabel, hlab]
  refine ⟨g', hrun, hb, ?_, ?_⟩
  · intro v hv
    have hvl : v < g.labels_.length := by rw [hR.labels_length, ← hn]; exact hv
    refine ⟨g.labels_[v], hR.labels_lt _ (List.getElem_mem hvl), ?_⟩
    intro l' hl'
    rw [hb l' hl']
    simp only [Option.getD_some, List.mem_filter, List.mem_range, hv, true_and, getVertexLabel,
      hlab, List.getElem?_eq_getElem hvl, decide_eq_true_eq, Option.some.injEq]
    exact eq_comm
  · have e : (List.range g.labels_count_).map
        (fun l => ((g'.getVerticesByLabel l).getD []).length) =
        (List.range g.labels_count_).map (fun l => g.labels_.count l) := by
      apply List.map_congr_left
      intro l hl
      rw [hbuckets l (List.mem_range.1 hl), Option.getD_some, length_verticesWithLabel]
    rw [e, sum_count_range, bucketStart_eq_length _ _ hR.labels_lt, hR.labels_length, hn]

theorem BuildReverseIndex_spec_witness :
    BuildReverseIndex (fun _ => 0) labelledGraph =
      some { labelledGraph with
        reverse_index_offsets_ := [0, 1, 3], reverse_index_ := [1, 0, 2],
        labels_frequency_ := [(1, 2), (0, 1)] } ∧
    ∃ g', BuildReverseIndex (fun _ => 0) labelledGraph = some g' ∧
      (∀ l, l < labelledGraph.labels_count_ → g'.getVerticesByLabel l =
        some ((List.range g'.vertices_count_).filter
          (fun v => decide (g'.getVertexLabel v = some l)))) ∧
      (∀ v, v < g'.vertices_count_ → ∃ l, l < labelledGraph.labels_count_ ∧
        ∀ l', l' < labelledGraph.labels_count_ →
          (v ∈ (g'.getVerticesByLabel l').getD [] ↔ l' = l)) ∧
      ((List.range labelledGraph.labels_count_).map
        (fun l => ((g'.getVerticesByLabel l).getD []).length)).sum = g'.vertices_count_ :=
  ⟨by decide, BuildReverseIndex_spec (fun _ => 0) labelledGraph labelledGraph_ready⟩

end Graph
end SubgraphMatching

namespace SubgraphMatching
namespace Graph

/-- **C7.** On a store of CSR shape with ascending slices, `checkEdgeExistence(u, v)`
is defined and answers whether the vertex of larger-or-equal degree occurs in the
slice of the vertex of smaller degree (on a tie: whether `u` occurs in the slice
of `v`); on a symmetric store this is whether `v` is a neighbour of `u`. -/
theorem checkEdgeExistence_spec (g : Graph) (hS : g.Shaped) (hsorted : g.SortedSlices)
    (hfit : g.DegreesFitInt) (u v : Nat) (hu : u < g.vertices_count_) (hv : v < g.vertices_count_) :
    g.getVertexDegree u = some (g.adj u).length ∧
    g.getVertexDegree v = some (g.adj v).length ∧
    g.checkEdgeExistence u v =
      some (if g.degree u < g.degree v then decide (v ∈ g.adj u) else decide (u ∈ g.adj v)) ∧
    (g.Symmetric → g.checkEdgeExistence u v = some (decide (v ∈ g.adj u))) := by
  have hdu : g.degree u = (g.adj u).length := by simp [degree, hS.getVertexDegree_adj hu]
  have hdv : g.degree v = (g.adj v).length := by simp [degree, hS.getVertexDegree_adj hv]
  refine ⟨hS.getVertexDegree_adj hu, hS.getVertexDegree_adj hv, ?_, ?_⟩
  · rw [hdu, hdv]; exact checkEdgeExistence_eq g hS hsorted hfit u v hu hv
  · intro hsym
    rw [checkEdgeExistence_eq g hS hsorted hfit u v hu hv]
    by_cases hlt : (g.adj u).length < (g.adj v).length
    · simp [hlt]
    · simp only [hlt, if_false]
      congr 1
      exact decide_eq_decide.2 (hsym u v hu hv)

theorem checkEdgeExistence_spec_witness :
    pathGraph.checkEdgeExistence 0 1 = some true ∧
    pathGraph.checkEdgeExistence 0 1 =
      some (if pathGraph.degree 0 < pathGraph.degree 1 then decide (1 ∈ pathGraph.adj 0)
        else decide (0 ∈ pathGraph.adj 1)) :=
  ⟨by decide,
   (checkEdgeExistence_spec pathGraph pathGraph_shaped pathGraph_sorted pathGraph_fit 0 1
      (by decide) (by decide)).2.2.1⟩


end Graph
end SubgraphMatching

namespace SubgraphMatching
namespace Graph

/-- **C8.** On a store of CSR shape with ascending, symmetric adjacency,
`checkEdgeExistence(u, v)` and `checkEdgeExistence(v, u)` are both defined and
return the same answer. -/
theorem checkEdgeExistence_symm (g : Graph) (hS : g.Shaped) (hsorted : g.SortedSlices)
    (hfit : g.DegreesFitInt) (hsym : g.Symmetric) (u v : Nat)
    (hu : u < g.vertices_count_) (hv : v < g.vertices_count_) :
    (g.checkEdgeExistence u v).isSome ∧ g.checkEdgeExistence u v = g.checkEdgeExistence v u := by
  rw [checkEdgeExistence_eq g hS hsorted hfit u v hu hv,
    checkEdgeExistence_eq g hS hsorted hfit v u hv hu]
  refine ⟨rfl, ?_⟩
  have h := hsym u v hu hv
  by_cases h1 : (g.adj u).length < (g.adj v).length
  · have h2 : ¬ (g.adj v).length < (g.adj u).length := by omega
    simp only [h1, h2, if_true, if_false]
  · by_cases h2 : (g.adj v).length < (g.adj u).length
    · simp only [h1, h2, if_true, if_false]
    · simp only [h1, h2, if_false]
      congr 1
      exact decide_eq_decide.2 h

theorem checkEdgeExistence_symm_witness :
    pathGraph.checkEdgeExistence 2 1 = some true ∧
    (pathGraph.checkEdgeExistence 2 1).isSome ∧
    pathGraph.checkEdgeExistence 2 1 = pathGraph.checkEdgeExistence 1 2 :=
  ⟨by decide,
   checkEdgeExistence_symm pathGraph pathGraph_shaped pathGraph_sorted pathGraph_fit
     pathGraph_symmetric 2 1 (by decide) (by decide)⟩

end Graph
end SubgraphMatching

namespace SubgraphMatching
namespace Graph

/-- **C9 (amended).** After either loader has run on a newly constructed `Graph`
(its call of `BuildReverseIndex` included), the text loader on an input with
exactly one vertex record for each vertex id `0 .. n-1`, in any order: for every
label `l`, `getLabelsFrequency(l)` is the number of vertices `v` with
`getVertexLabel(v) = l` (hence `0` for a label no vertex carries), it never
exceeds `getGraphMaxLabelFrequency()`, and some label attains that maximum. -/
theorem getLabelsFrequency_spec (junk : Nat → Nat) (g' : Graph) :
    (∀ file : TextFile, file.OneRecordPerVertex →
      loadGraphFromFile junk Graph.new file = some g' → g'.FrequenciesExact) ∧
    (∀ file : Streams, loadGraphFromFileCompressed junk Graph.new file = some g' →
      g'.FrequenciesExact) :=
  ⟨fun _ hone h => loadGraphFromFile_frequencies_perm hone h,
   fun _ h => loadGraphFromFileCompressed_frequencies h⟩

/-- **C9 (counterexample).** The text input `t 2 0 / v 0 5 0 / v 0 5 0 / v 1 5 0`
declares vertex `0` twice.  Loaded into a newly constructed `Graph` it gives two
vertices, both with `getVertexLabel(v) = 5`, and `getLabelsFrequency(5) = 3`:
the loader counts vertex records, not vertices. -/
theorem loadGraphFromFile_repeated_vertex :
    ∃ g', loadGraphFromFile (fun _ => 0) Graph.new repeatedVertexFile = some g' ∧
      g'.getVerticesCount = 2 ∧ g'.getVertexLabel 0 = some 5 ∧ g'.getVertexLabel 1 = some 5 ∧
      g'.verticesLabelled 5 = 2 ∧ g'.getLabelsFrequency 5 = 3 ∧
      g'.getGraphMaxLabelFrequency = 3 ∧ ¬ g'.FrequenciesExact :=
  ⟨repeatedVertexLoaded, repeatedVertexFile_loads, by decide, by decide, by decide, by decide,
    by decide, by decide, fun h => absurd (h.1 5) (by decide)⟩

/-- Instance of C9 (amended) on the text and the streams of the path
`0 - 1 - 2` with labels `5, 5, 7`. -/
theorem getLabelsFrequency_spec_witness :
    pathFile.OneRecordPerVertex ∧
    loadGraphFromFile (fun _ => 0) Graph.new pathFile = some pathLoaded ∧
    pathLoaded.getLabelsFrequency 5 = 2 ∧ pathLoaded.getLabelsFrequency 6 = 0 ∧
    pathLoaded.getGraphMaxLabelFrequency = 2 ∧ pathLoaded.FrequenciesExact ∧
    pathLoaded.FrequenciesExact :=
  ⟨pathFile_oneRecordPerVertex, pathFile_loads, by decide, by decide, by decide,
   (getLabelsFrequency_spec (fun _ => 0) pathLoaded).1 pathFile pathFile_oneRecordPerVertex
     pathFile_loads,
   (getLabelsFrequency_spec (fun _ => 0) pathLoaded).2 _ pathStreams_load⟩

end Graph
end SubgraphMatching

namespace SubgraphMatching
namespace Graph

/-- **C10 (amended).** `loadGraphFromFileCompressed` reads the first word of the
degree stream and never uses it: whether the load is defined, and the graph it
constructs, do not depend on that word.  In particular a stream whose first word
is not `4` loads exactly like the same stream with first word `4`. -/
theorem loadGraphFromFileCompressed_ignores_int_size (junk : Nat → Nat) (g : Graph)
    (int_size : Nat) (rest edge label : List Nat) :
    loadGraphFromFileCompressed junk g { degree := int_size :: rest, edge := edge, label := label } =
      loadGraphFromFileCompressed junk g { degree := 4 :: rest, edge := edge, label := label } := by
  rfl

/-- **C10 (counterexample).** A degree stream whose first word is `5` is loaded
without any failure: the one-vertex graph it describes is constructed. -/
theorem loadGraphFromFileCompressed_accepts_wrong_int_size :
    ([5, 1, 0, 0] : List Nat).head? ≠ some 4 ∧
    loadGraphFromFileCompressed (fun _ => 0) Graph.new
        { degree := [5, 1, 0, 0], edge := [], label := [3] } =
      some { Graph.new with
        vertices_count_ := 1, edges_count_ := 0, labels_count_ := 4, max_label_frequency_ := 1,
        offsets_ := [0, 0], labels_ := [3],
        reverse_index_offsets_ := [0, 0, 0, 0, 1], reverse_index_ := [0],
        labels_frequency_ := [(3, 1), (0, 0), (1, 0), (2, 0)] } := by
  decide

end Graph
end SubgraphMatching

namespace SubgraphMatching
namespace Graph

/-! ## C11: the three streams written by `storeComparessedGraph` -/

/-- **C11.** For every graph whose arrays have the sizes its counters announce
(`vertices_count_ + 1` offsets, at least `2 * edges_count_` neighbour cells, at
least `vertices_count_` labels), `storeComparessedGraph` is defined and emits: a
degree stream of exactly `3 + vertices_count_` words
`[4, vertices_count_, edges_count_, degree(0), ..]` where `degree(i)` is
`offsets_[i + 1] - offsets_[i]` in `ui` arithmetic, which is `getVertexDegree(i)`;
an edge stream equal to the first `2 * edges_count_` cells of `neighbors_`; and a
label stream equal to the first `vertices_count_` cells of `labels_`. -/
theorem storeComparessedGraph_spec (junk : Nat → Nat) (g : Graph)
    (hn : g.vertices_count_ < UI_SIZE)
    (ho : g.vertices_count_ + 1 ≤ g.offsets_.length)
    (he : g.edges_count_ * 2 ≤ g.neighbors_.length)
    (hl : g.vertices_count_ ≤ g.labels_.length) :
    ∃ s, storeComparessedGraph junk g = some s ∧
      s.degree = [4, g.vertices_count_, g.edges_count_] ++
        (List.range g.vertices_count_).map
          (fun i => uiSub (g.offsets_.getD (i + 1) 0) (g.offsets_.getD i 0)) ∧
      s.degree.length = 3 + g.vertices_count_ ∧
      (∀ i, i < g.vertices_count_ → s.degree[3 + i]? = g.getVertexDegree i) ∧
      s.edge = g.neighbors_.take (g.edges_count_ * 2) ∧
      s.label = g.labels_.take g.vertices_count_ := by
  have hdeg := degreeLoop_eq g.offsets_ g.vertices_count_ ho
    (newArray junk g.vertices_count_) (length_newArray _ _)
  have hv1 : view g.neighbors_ 0 (g.edges_count_ * 2) =
      some (g.neighbors_.take (g.edges_count_ * 2)) := by
    unfold view
    rw [if_pos (by omega), List.drop_zero]
  have hv2 : view g.labels_ 0 g.vertices_count_ = some (g.labels_.take g.vertices_count_) := by
    unfold view
    rw [if_pos (by omega), List.drop_zero]
  refine ⟨Streams.mk ([4, g.vertices_count_, g.edges_count_] ++
        (List.range g.vertices_count_).map
          (fun i => uiSub (g.offsets_.getD (i + 1) 0) (g.offsets_.getD i 0)))
      (g.neighbors_.take (g.edges_count_ * 2))
      (g.labels_.take g.vertices_count_), ?_, rfl, ?_, ?_, rfl, rfl⟩
  · simp only [storeComparessedGraph, hdeg, hv1, hv2, Option.bind_eq_bind, Option.some_bind,
      Option.pure_def]
  · simp
    omega
  · intro i hi
    have h3 : ([4, g.vertices_count_, g.edges_count_] ++
        (List.range g.vertices_count_).map
          (fun i => uiSub (g.offsets_.getD (i + 1) 0) (g.offsets_.getD i 0)))[3 + i]? =
        some (uiSub (g.offsets_.getD (i + 1) 0) (g.offsets_.getD i 0)) := by
      rw [List.getElem?_append_right (by simp)]
      simp [List.getElem?_range hi]
    have hw : wrap (i + 1) = i + 1 := wrap_of_lt (by unfold UI_SIZE at *; omega)
    have h1 : g.offsets_[i + 1]? = some (g.offsets_.getD (i + 1) 0) :=
      getElem?_eq_some_getD (by omega)
    have h2 : g.offsets_[i]? = some (g.offsets_.getD i 0) := getElem?_eq_some_getD (by omega)
    rw [h3]
    simp only [getVertexDegree, hw, h1, h2, Option.bind_eq_bind, Option.some_bind, Option.pure_def]

/-- Instance of C11 on the store loaded from the path `0 - 1 - 2`. -/
theorem storeComparessedGraph_spec_witness :
    ∃ s, storeComparessedGraph (fun _ => 0) pathLoaded = some s ∧
      s.degree = [4, pathLoaded.vertices_count_, pathLoaded.edges_count_] ++
        (List.range pathLoaded.vertices_count_).map
          (fun i => uiSub (pathLoaded.offsets_.getD (i + 1) 0) (pathLoaded.offsets_.getD i 0)) ∧
      s.degree.length = 3 + pathLoaded.vertices_count_ ∧
      (∀ i, i < pathLoaded.vertices_count_ → s.degree[3 + i]? = pathLoaded.getVertexDegree i) ∧
      s.edge = pathLoaded.neighbors_.take (pathLoaded.edges_count_ * 2) ∧
      s.label = pathLoaded.labels_.take pathLoaded.vertices_count_ :=
  storeComparessedGraph_spec (fun _ => 0) pathLoaded (by decide) (by decide) (by decide) (by decide)

end Graph
end SubgraphMatching

namespace SubgraphMatching
namespace Graph

/-! ## C12: the 2-core size after the first call of `buildCoreTable` -/

/-- **C12.** On a freshly loaded graph (the result of either loader on a newly
constructed `Graph`), every result of `buildCoreTable` has `getCoreValue(v)`
defined for every vertex `v` and `get2CoreSize()` equal to the number of
vertices `v` with `getCoreValue(v) > 1`; the call is defined when the store is
well-formed. -/
theorem get2CoreSize_spec (junk : Nat → Nat) (g : Graph) (hload : g.FreshlyLoaded) :
    (g.WellFormed → ∃ g', buildCoreTable junk g = some g') ∧
    ∀ g', buildCoreTable junk g = some g' →
      (∀ v, v < g'.getVerticesCount → (g'.getCoreValue v).isSome) ∧
      g'.get2CoreSize =
        ((List.range g'.getVerticesCount).filter (fun v => decide (1 < g'.coreValue v))).length := by
  refine ⟨fun hW => ?_, ?_⟩
  · obtain ⟨g', _, h, _⟩ := buildCoreTable_wellFormed junk hW
    exact ⟨g', h⟩
  · intro g' h
    obtain ⟨hfresh, hui⟩ := hload.fresh
    obtain ⟨hR, s0, s, _, _, _, hb, hlen, hg'⟩ := buildCoreTable_run hui h
    have hct : g'.core_table_ = s.core_table_ := by rw [hg']
    have hn : g'.getVerticesCount = g.vertices_count_ := by
      unfold getVerticesCount
      rw [hg']
    have hval : ∀ v, v < g.vertices_count_ →
        g'.getCoreValue v = some (ofInt (s.core_table_.getD v 0)) ∧
        0 ≤ s.core_table_.getD v 0 ∧ s.core_table_.getD v 0 < 4294967296 := by
      intro v hv
      have hvl : v < s.core_table_.length := by rw [hb.1]; exact hv
      have hget : s.core_table_[v]? = some (s.core_table_.getD v 0) := by
        simp [List.getD, List.getElem?_eq_getElem hvl]
      have hbd := hb.2 _ (List.getElem?_mem hget)
      have hM := g.coreMaxDegree_lt
      unfold INT_SIZE at hM
      refine ⟨?_, hbd.1, by omega⟩
      unfold getCoreValue
      rw [hct, hget]
      rfl
    refine ⟨?_, ?_⟩
    · intro v hv
      rw [(hval v (by rw [← hn]; exact hv)).1]
      rfl
    · have hcount := coreLengthLoop_eq s.core_table_ g.vertices_count_ (le_of_eq hb.1.symm) 0
        (by unfold UI_SIZE at *; omega)
      rw [hfresh, hcount] at hlen
      have hlen' : g'.core_length_ =
          0 + (List.range g.vertices_count_).countP
            (fun i => decide (s.core_table_.getD i 0 > 1)) := (Option.some.inj hlen).symm
      unfold get2CoreSize
      rw [hlen', hn, ← List.countP_eq_length_filter, Nat.zero_add]
      apply List.countP_congr
      intro v hv
      rw [List.mem_range] at hv
      obtain ⟨hv1, hv2, hv3⟩ := hval v hv
      have hcv : g'.coreValue v = ofInt (s.core_table_.getD v 0) := by
        unfold coreValue
        rw [hv1]
        rfl
      have hcast := ofInt_of_bounds hv2 hv3
      simp only [decide_eq_true_eq]
      rw [hcv]
      constructor
      · intro hgt
        omega
      · intro hgt
        omega

/-- Instance of C12 on the graph loaded from the text of the 4-cycle with a
pendant vertex, on which `buildCoreTable` is defined. -/
theorem get2CoreSize_spec_witness :
    pendantCycleLoaded.FreshlyLoaded ∧
    (buildCoreTable (fun _ => 0) pendantCycleLoaded).isSome = true ∧
    ((pendantCycleLoaded.WellFormed →
        ∃ g', buildCoreTable (fun _ => 0) pendantCycleLoaded = some g') ∧
      ∀ g', buildCoreTable (fun _ => 0) pendantCycleLoaded = some g' →
        (∀ v, v < g'.getVerticesCount → (g'.getCoreValue v).isSome) ∧
        g'.get2CoreSize =
          ((List.range g'.getVerticesCount).filter
            (fun v => decide (1 < g'.coreValue v))).length) :=
  ⟨pendantCycleLoaded_fresh, by decide,
    get2CoreSize_spec (fun _ => 0) pendantCycleLoaded pendantCycleLoaded_fresh⟩

end Graph
end SubgraphMatching

namespace SubgraphMatching
namespace Graph

/-! ## C13: a second call of `buildCoreTable` -/

/-- **C13 (failing input).** On the store of the 4-cycle with a pendant vertex,
whatever the freshly allocated arrays hold, the first call of `buildCoreTable`
gives `get2CoreSize() = 4` and a second call on the unchanged store leaves every
core value as it was but gives `get2CoreSize() = 8`: `core_length_` is
incremented from its previous value and never reset. -/
theorem buildCoreTable_twice_core_length (junk junk2 : Nat → Nat) :
    ∃ g1 g2, buildCoreTable junk pendantCycleGraph = some g1 ∧
      buildCoreTable junk2 g1 = some g2 ∧
      g2.core_table_ = g1.core_table_ ∧ g1.get2CoreSize = 4 ∧ g2.get2CoreSize = 8 :=
  ⟨pendantCycleCored, pendantCycleTwice,
    buildCoreTable_fresh junk (by decide) pendantCycle_buildCoreTable,
    buildCoreTable_fresh junk2 (by decide) pendantCycle_buildCoreTable_again,
    by decide, by decide, by decide⟩

end Graph
end SubgraphMatching

namespace SubgraphMatching
namespace Graph

/-! ## C14: the core table does not depend on an earlier core table -/

/-- **C14.** For every store on which `buildCoreTable` is defined, a second call
on the result is defined and yields the same `core_table_` (hence the same
`getCoreValue(v)` for every `v`), whatever the freshly allocated arrays hold on
either call; more generally every store with the same `vertices_count_`,
`max_degree_`, `offsets_` and `neighbors_` gets the same core table, so the table
does not depend on a previously computed core table. -/
theorem buildCoreTable_twice_same_table (junk junk2 : Nat → Nat) (g g1 : Graph)
    (hui : g.vertices_count_ < UI_SIZE) (h : buildCoreTable junk g = some g1) :
    (∃ g2, buildCoreTable junk2 g1 = some g2 ∧ g2.core_table_ = g1.core_table_ ∧
      ∀ v, g2.getCoreValue v = g1.getCoreValue v) ∧
    ∀ gb : Graph, gb.vertices_count_ = g.vertices_count_ → gb.max_degree_ = g.max_degree_ →
      gb.offsets_ = g.offsets_ → gb.neighbors_ = g.neighbors_ →
      ∃ gb', buildCoreTable junk2 gb = some gb' ∧ gb'.core_table_ = g1.core_table_ := by
  have hall : ∀ gb : Graph, gb.vertices_count_ = g.vertices_count_ →
      gb.max_degree_ = g.max_degree_ → gb.offsets_ = g.offsets_ → gb.neighbors_ = g.neighbors_ →
      ∃ gb', buildCoreTable junk2 gb = some gb' ∧ gb'.core_table_ = g1.core_table_ :=
    fun gb hn hmd ho hnb => buildCoreTable_core_table junk2 gb hui hn hmd ho hnb h
  refine ⟨?_, hall⟩
  obtain ⟨s0, s, len, _, _, _, hg1⟩ := buildCoreTable_some h
  obtain ⟨g2, hg2, htab⟩ := hall g1 (by rw [hg1]) (by rw [hg1]) (by rw [hg1]) (by rw [hg1])
  refine ⟨g2, hg2, htab, ?_⟩
  intro v
  unfold getCoreValue
  rw [htab]

/-- Instance of C14 on the 4-cycle with a pendant vertex. -/
theorem buildCoreTable_twice_same_table_witness :
    (∃ g2, buildCoreTable (fun _ => 1) pendantCycleCored = some g2 ∧
      g2.core_table_ = pendantCycleCored.core_table_ ∧
      ∀ v, g2.getCoreValue v = pendantCycleCored.getCoreValue v) ∧
    ∀ gb : Graph, gb.vertices_count_ = pendantCycleGraph.vertices_count_ →
      gb.max_degree_ = pendantCycleGraph.max_degree_ →
      gb.offsets_ = pendantCycleGraph.offsets_ → gb.neighbors_ = pendantCycleGraph.neighbors_ →
      ∃ gb', buildCoreTable (fun _ => 1) gb = some gb' ∧
        gb'.core_table_ = pendantCycleCored.core_table_ :=
  buildCoreTable_twice_same_table (fun _ => 0) (fun _ => 1) pendantCycleGraph pendantCycleCored
    (by decide) pendantCycle_buildCoreTable

end Graph
end SubgraphMatching

namespace SubgraphMatching
namespace Graph

/-! ## C15: the neighbour-label histograms built by `BuildNLF` -/

/-- **C15.** On a store of CSR shape in which every neighbour id indexes
`labels_`, `BuildNLF` is defined and afterwards, for every vertex `v`, the
histogram `getVertexNLF(v)` has distinct keys, maps every label `l` to the number
of neighbours of `v` whose label is `l`, has no entry for a label that no
neighbour carries, and its values sum to `getVertexDegree(v)`. -/
theorem BuildNLF_spec (g : Graph) (hS : g.Shaped)
    (hlab : ∀ v, v < g.vertices_count_ → ∀ u ∈ g.adj v, u < g.labels_.length) :
    ∃ nlf, BuildNLF g = some nlf ∧
      ∀ v, v < g.vertices_count_ → ∃ m, getVertexNLF nlf v = some m ∧
        (m.map (fun p => p.1)).Nodup ∧
        (∀ l, mapFind m l =
          if g.labelledIn (g.adj v) l = 0 then none else some (g.labelledIn (g.adj v) l)) ∧
        g.getVertexNeighbors v = some (g.adj v) ∧
        g.getVertexDegree v = some ((m.map (fun p => p.2)).sum) := by
  obtain ⟨nlf, hnlf, _, hall⟩ := BuildNLF_eq hS hlab
  refine ⟨nlf, hnlf, ?_⟩
  intro v hv
  obtain ⟨m, hm, hnd, hfind, hsum⟩ := hall v hv
  refine ⟨m, hm, hnd, hfind, hS.getVertexNeighbors_adj hv, ?_⟩
  rw [hsum]
  exact hS.getVertexDegree_adj hv

/-- Instance of C15 on the path `0 - 1 - 2` with labels `5, 5, 7`. -/
theorem BuildNLF_spec_witness :
    BuildNLF pathGraph = some [[(5, 1)], [(5, 1), (7, 1)], [(5, 1)]] ∧
    ∃ nlf, BuildNLF pathGraph = some nlf ∧
      ∀ v, v < pathGraph.vertices_count_ → ∃ m, getVertexNLF nlf v = some m ∧
        (m.map (fun p => p.1)).Nodup ∧
        (∀ l, mapFind m l =
          if pathGraph.labelledIn (pathGraph.adj v) l = 0 then none
          else some (pathGraph.labelledIn (pathGraph.adj v) l)) ∧
        pathGraph.getVertexNeighbors v = some (pathGraph.adj v) ∧
        pathGraph.getVertexDegree v = some ((m.map (fun p => p.2)).sum) :=
  ⟨by decide, BuildNLF_spec pathGraph pathGraph_shaped pathGraph_labelled⟩

end Graph
end SubgraphMatching

namespace SubgraphMatching
namespace Graph

/-! ## C16: the concrete text scenario -/

/-- **C16.** Loading the text input `t 3 2`, `v 0 5 1`, `v 1 5 2`, `v 2 7 1`,
`e 0 1`, `e 1 2` into a fresh graph is defined whatever the freshly allocated
arrays hold, and gives `getVerticesCount() = 3`, `getEdgesCount() = 2`,
`getVertexDegree(1) = 2`, `getVertexNeighbors(1) = [0, 2]`,
`getLabelsFrequency(5) = 2` and `getLabelsFrequency(7) = 1`. -/
theorem loadGraphFromFile_pathFile (junk : Nat → Nat) :
    ∃ g', loadGraphFromFile junk Graph.new pathFile = some g' ∧
      g'.getVerticesCount = 3 ∧ g'.getEdgesCount = 2 ∧
      g'.getVertexDegree 1 = some 2 ∧ g'.getVertexNeighbors 1 = some [0, 2] ∧
      g'.getLabelsFrequency 5 = 2 ∧ g'.getLabelsFrequency 7 = 1 := by
  obtain ⟨g', h⟩ := loadGraphFromFile_total junk pathFile (by decide) (by decide)
    (by unfold TextFile.LabelsFit; decide)
    pathFile_verticesFirst pathFile_inOrder pathFile_degreesMatch pathFile_noSelfLoops
  have hL := loadGraphFromFile_loadedFrom pathFile_inRange pathFile_verticesFirst
    pathFile_inOrder pathFile_degreesMatch pathFile_noSelfLoops h
  obtain ⟨hn, hm, _, _, _, _⟩ := loadGraphFromFile_offsets_eq pathFile_inRange pathFile_inOrder h
  have hF := (loadGraphFromFile_frequencies pathFile_inRange pathFile_inOrder h).1
  obtain ⟨hl0, _, _⟩ := hL 0 (by decide)
  obtain ⟨hl1, hd1, N, hN, hsorted, hperm⟩ := hL 1 (by decide)
  obtain ⟨hl2, _, _⟩ := hL 2 (by decide)
  have hn' : g'.vertices_count_ = 3 := hn
  have hr3 : List.range 3 = [0, 1, 2] := rfl
  have hl0' : g'.getVertexLabel 0 = some 5 := hl0
  have hl1' : g'.getVertexLabel 1 = some 5 := hl1
  have hl2' : g'.getVertexLabel 2 = some 7 := hl2
  have hN2 : N = [0, 2] :=
    List.eq_of_perm_of_sorted hperm hsorted (by decide)
  refine ⟨g', h, hn, hm, hd1, by rw [hN, hN2], ?_, ?_⟩
  · rw [hF 5]
    unfold verticesLabelled
    rw [hn', hr3]
    simp [List.filter_cons, hl0', hl1', hl2']
  · rw [hF 7]
    unfold verticesLabelled
    rw [hn', hr3]
    simp [List.filter_cons, hl0', hl1', hl2']

end Graph
end SubgraphMatching

namespace SubgraphMatching
namespace Graph

/-! ## C17: the concrete core-decomposition scenario -/

/-- **C17.** On the store of the 4-cycle `0 - 1 - 2 - 3 - 0` with vertex `4`
adjacent only to vertex `0`, `buildCoreTable` is defined whatever the freshly
allocated arrays hold, and yields the core values `[2, 2, 2, 2, 1]` and
`get2CoreSize() = 4`. -/
theorem buildCoreTable_pendantCycle (junk : Nat → Nat) :
    ∃ g', buildCoreTable junk pendantCycleGraph = some g' ∧
      g'.core_table_ = [2, 2, 2, 2, 1] ∧
      (List.range 5).map g'.getCoreValue = [some 2, some 2, some 2, some 2, some 1] ∧
      g'.get2CoreSize = 4 :=
  ⟨pendantCycleCored, buildCoreTable_fresh junk (by decide) pendantCycle_buildCoreTable,
    by decide, by decide, by decide⟩

end Graph
end SubgraphMatching

namespace SubgraphMatching
namespace Graph

/-! ## C18: `buildCoreTable` stays inside its arrays on a well-formed store -/

/-- **C18.** On a well-formed store (CSR shape, every neighbour id a vertex,
adjacency symmetric without self-loops or duplicates, `max_degree_` the largest
degree, possibly `0`), `buildCoreTable` is defined: no read or write of
`core_table_`, `vertices`, `position`, `degree_bin` or `offset` leaves its array.
The same holds for every state the main loop goes through (position `i`, after
`j` neighbours): the state is defined, no core value is negative, and when the
next neighbour `u` has a larger core value than `vertices[i]`, the cell
`offset[core_table_[u]]` is defined and is a position below `vertices_count_`,
and the demotion of `u` is defined.  No core value of the result is negative. -/
theorem buildCoreTable_safe (junk : Nat → Nat) (g : Graph) (hW : g.WellFormed) :
    (∃ g', buildCoreTable junk g = some g' ∧ g'.core_table_.length = g.vertices_count_ ∧
      ∀ x ∈ g'.core_table_, 0 ≤ x) ∧
    ∀ i j, i < g.vertices_count_ →
      ∃ s, coreStateAt junk g i j = some s ∧ (∀ x ∈ s.core_table_, 0 ≤ x) ∧
        ∀ (v : Int) (nb : List Nat) (u : Nat) (cu cv : Int),
          s.vertices[i]? = some v → g.getVertexNeighbors (ofInt v) = some nb →
          nb[j]? = some u → readInt s.core_table_ (toInt u) = some cu →
          readInt s.core_table_ v = some cv → cu > cv →
          ∃ p, readInt s.offset cu = some p ∧ 0 ≤ p ∧ p < ((g.vertices_count_ : Nat) : Int) ∧
            (coreDemote s (toInt u)).isSome = true := by
  refine ⟨?_, ?_⟩
  · obtain ⟨g', γ, h, hrep, _⟩ := buildCoreTable_wellFormed junk hW
    exact ⟨g', h, hrep.1, hrep.nonneg⟩
  · intro i j hi
    obtain ⟨s, γ, hs, hR, hI⟩ := coreStateAt_eq junk hW hi j
    refine ⟨s, hs, hR.1.nonneg, ?_⟩
    intro v nb u cu cv hv hnb hu hcu hcv hgt
    have hvn := hI.inv.vert_lt i hi
    have hvi : s.vertices[i]? = some ((γ.vert i : Nat) : Int) := hR.2.1.get hi
    rw [hvi] at hv
    have hve : ((γ.vert i : Nat) : Int) = v := Option.some.inj hv
    subst hve
    rw [ofInt_of_lt (lt_trans hvn hW.count_lt), hW.shaped.getVertexNeighbors_adj hvn] at hnb
    have hnbe : g.adj (γ.vert i) = nb := Option.some.inj hnb
    subst hnbe
    have hun : u < g.vertices_count_ := hW.in_range _ hvn u (List.getElem?_mem hu)
    rw [toInt_of_lt (lt_trans hun hW.count_lt)] at hcu ⊢
    rw [hR.1.read hun] at hcu
    rw [hR.1.read hvn] at hcv
    have hcue : ((γ.c u : Nat) : Int) = cu := Option.some.inj hcu
    have hcve : ((γ.c (γ.vert i) : Nat) : Int) = cv := Option.some.inj hcv
    subst hcue
    subst hcve
    have hlt : γ.c (γ.vert i) < γ.c u := Int.ofNat_lt.1 hgt
    obtain ⟨_, _, hbn, _, _, _⟩ := hI.inv.bucket hi hun hlt
    have hd := hI.inv.core_le u hun
    obtain ⟨s', hs', _⟩ := coreDemote_eq hI.inv hR hi hun hlt
    refine ⟨((γ.bin (γ.c u) : Nat) : Int), hR.2.2.2.read (by omega), Int.ofNat_nonneg _,
      Int.ofNat_lt.2 hbn, ?_⟩
    rw [hs']
    rfl

/-- Instance of C18 on the 4-cycle with a pendant vertex. -/
theorem buildCoreTable_safe_witness :
    pendantCycleGraph.WellFormed ∧
    ((∃ g', buildCoreTable (fun _ => 0) pendantCycleGraph = some g' ∧
        g'.core_table_.length = pendantCycleGraph.vertices_count_ ∧
        ∀ x ∈ g'.core_table_, 0 ≤ x) ∧
      ∀ i j, i < pendantCycleGraph.vertices_count_ →
        ∃ s, coreStateAt (fun _ => 0) pendantCycleGraph i j = some s ∧
          (∀ x ∈ s.core_table_, 0 ≤ x) ∧
          ∀ (v : Int) (nb : List Nat) (u : Nat) (cu cv : Int),
            s.vertices[i]? = some v → pendantCycleGraph.getVertexNeighbors (ofInt v) = some nb →
            nb[j]? = some u → readInt s.core_table_ (toInt u) = some cu →
            readInt s.core_table_ v = some cv → cu > cv →
            ∃ p, readInt s.offset cu = some p ∧ 0 ≤ p ∧
              p < ((pendantCycleGraph.vertices_count_ : Nat) : Int) ∧
              (coreDemote s (toInt u)).isSome = true) :=
  ⟨pendantCycleGraph_wellFormed,
    buildCoreTable_safe (fun _ => 0) pendantCycleGraph pendantCycleGraph_wellFormed⟩

end Graph
end SubgraphMatching

namespace SubgraphMatching
namespace Graph

/-! ## C19: the slots written by the edge records -/

/-- **C19 (amended).** In the text loader, on an input with one vertex record
per id in increasing order before the edge records, in-range endpoints, no edge
record joining a vertex to itself, and declared degrees equal to the number of
edge-record endpoints at each vertex: every edge record `(b, e)` is read in a
defined state in which the cursors of `b` and `e` count the endpoints seen so
far, writes `e` into the slot `offsets_[b] + cursor[b]` and `b` into the slot
`offsets_[e] + cursor[e]`, two distinct cells, and advances the two cursors by one
each; after all records `neighbors_` has `2 * edges_count_` cells, the cursor of
every vertex is its number of endpoints, and the slice of every vertex lists the
opposite endpoints of its edge records (in file order), so that every cell has
been written once. -/
theorem loadGraphFromFile_edge_slots (junk : Nat → Nat) (file : TextFile)
    (hn : file.vertices_count + 1 < UI_SIZE) (hm : file.edges_count * 2 < UI_SIZE)
    (hvf : file.VerticesFirst) (hord : file.VerticesInOrder) (hmatch : file.DegreesMatch)
    (hloops : file.NoSelfLoops) :
    (∀ done b e rest, edgeRecords file.records = done ++ (b, e) :: rest →
      ∃ st st', ((vertexRecords file.records).map Record.ofVertex ++
          done.map Record.ofEdge).foldlM readRecord (textStart junk Graph.new file) = some st ∧
        readRecord st (Record.e b e) = some st' ∧ WritesTwoSlots st b e st' ∧
        st.neighbors_offset[b]? = some (endpointCount done b) ∧
        st.neighbors_offset[e]? = some (endpointCount done e)) ∧
    ∃ st, loadRecords junk Graph.new file = some st ∧
      st.g.neighbors_.length = file.edges_count * 2 ∧
      ∀ v, v < file.vertices_count →
        st.neighbors_offset[v]? = some (endpointCount (edgeRecords file.records) v) ∧
        sliceOf st.g.offsets_ st.g.neighbors_ v =
          oppositeEndpoints (edgeRecords file.records) v := by
  obtain ⟨s0, hs0, hdl, hlen, htotal, hoff, hcur⟩ :=
    vertexBlock_start junk Graph.new file hn hm hord hmatch
  obtain ⟨hcount, hends, hdd⟩ := hmatch
  have hsum : (declaredDegrees file.records).sum < UI_SIZE := by omega
  refine ⟨?_, ?_⟩
  · intro done b e rest hsplit
    obtain ⟨hle, st, hst, hE⟩ := edgeBlock_upto file.vertices_count
      (declaredDegrees file.records) s0 (edgeRecords file.records) hdl hlen hsum hoff hcur
      hloops hends hdd done ((b, e) :: rest) hsplit
    have hx : (b, e) ∈ edgeRecords file.records := by rw [hsplit]; simp
    have hbe : b ≠ e := hloops _ hx
    obtain ⟨hb, he⟩ := hends _ hx
    have hdeg := (edgeBlock_upto file.vertices_count (declaredDegrees file.records) s0
      (edgeRecords file.records) hdl hlen hsum hoff hcur hloops hends hdd
      (done ++ [(b, e)]) rest (by rw [hsplit]; simp)).1
    obtain ⟨st', hst', _⟩ := readRecord_edge_step file.vertices_count
      (declaredDegrees file.records) s0 hdl hlen hsum hoff done b e hbe hb he hdeg st hE
    refine ⟨st, st', ?_, hst', ?_, hE.cursor b hb, hE.cursor e he⟩
    · rw [List.foldlM_append, hs0]
      exact hst
    · exact readRecord_edge_slots file.vertices_count (declaredDegrees file.records) s0 hdl hlen
        hsum hoff done b e hbe hb he hdeg st st' hE hst'
  · obtain ⟨_, st, hst, hE⟩ := edgeBlock_upto file.vertices_count
      (declaredDegrees file.records) s0 (edgeRecords file.records) hdl hlen hsum hoff hcur
      hloops hends hdd (edgeRecords file.records) [] (by simp)
    refine ⟨st, ?_, ?_, ?_⟩
    · rw [loadRecords_eq junk Graph.new file hn, hvf, List.foldlM_append]
      rw [hs0]
      exact hst
    · rw [hE.length, hlen, htotal]
    · intro v hv
      refine ⟨hE.cursor v hv, ?_⟩
      have ho1 : st.g.offsets_[v]? = some (((declaredDegrees file.records).take v).sum) := by
        rw [hE.graph]; exact hoff v (by omega)
      have ho2 : st.g.offsets_[v + 1]? =
          some (((declaredDegrees file.records).take (v + 1)).sum) := by
        rw [hE.graph]; exact hoff (v + 1) (by omega)
      have hd : (declaredDegrees file.records).getD v 0 =
          endpointCount (edgeRecords file.records) v := by
        rw [hdd]
        simp [List.getD, hv]
      have hs := List.sum_take_succ (declaredDegrees file.records) v (by omega)
      rw [← getD_of_lt (by omega), hd] at hs
      unfold sliceOf
      rw [getD_eq_of_getElem? ho1, getD_eq_of_getElem? ho2, hs, Nat.add_sub_cancel_left]
      exact hE.slice v hv

/-- **C19 (counterexample).** On the input `t 1 1 / v 0 5 2 / e 0 0`, whose
declared degree `2` is the number of endpoints at vertex `0`, the edge record
writes the single slot `0` twice and advances the cursor by two: the slot `1`
keeps what the fresh array held (here `7`), and the slice of vertex `0` of the
loaded graph is `[0, 7]`, not the opposite endpoints `[0, 0]`. -/
theorem loadGraphFromFile_self_loop :
    selfLoopFile.DegreesMatch ∧
    (loadRecords (fun _ => 7) Graph.new selfLoopFile).map
      (fun st => (st.g.neighbors_, st.neighbors_offset)) = some ([0, 7], [2]) ∧
    (loadGraphFromFile (fun _ => 7) Graph.new selfLoopFile).map
      (fun g => g.getVertexNeighbors 0) = some (some [0, 7]) ∧
    oppositeEndpoints (edgeRecords selfLoopFile.records) 0 = [0, 0] := by
  refine ⟨⟨by decide, by decide, by decide⟩, by decide, by decide, by decide⟩

/-- Instance of the amended C19 on the path `0 - 1 - 2`. -/
theorem loadGraphFromFile_edge_slots_witness :
    (∀ done b e rest, edgeRecords pathFile.records = done ++ (b, e) :: rest →
      ∃ st st', ((vertexRecords pathFile.records).map Record.ofVertex ++
          done.map Record.ofEdge).foldlM readRecord (textStart (fun _ => 0) Graph.new pathFile) =
            some st ∧
        readRecord st (Record.e b e) = some st' ∧ WritesTwoSlots st b e st' ∧
        st.neighbors_offset[b]? = some (endpointCount done b) ∧
        st.neighbors_offset[e]? = some (endpointCount done e)) ∧
    ∃ st, loadRecords (fun _ => 0) Graph.new pathFile = some st ∧
      st.g.neighbors_.length = pathFile.edges_count * 2 ∧
      ∀ v, v < pathFile.vertices_count →
        st.neighbors_offset[v]? = some (endpointCount (edgeRecords pathFile.records) v) ∧
        sliceOf st.g.offsets_ st.g.neighbors_ v =
          oppositeEndpoints (edgeRecords pathFile.records) v :=
  loadGraphFromFile_edge_slots (fun _ => 0) pathFile (by decide) (by decide)
    pathFile_verticesFirst pathFile_inOrder pathFile_degreesMatch pathFile_noSelfLoops

end Graph
end SubgraphMatching

namespace SubgraphMatching
namespace Graph

/-! ## C20: the label count bounds the label ids -/

/-- **C20 (amended).** After either loader on a fresh graph, for every input
whose label ids are all below the largest `ui` value (so that `max_label_id + 1`
does not wrap): `getLabelsCount()` is at least the number of distinct labels and
at least every label id plus one, and `getVertexLabel(v) < getLabelsCount()` for
every vertex `v` (in the text loader: for every vertex whose label is below the
largest `ui` value, which is every vertex when the input has one vertex record
per id). -/
theorem getLabelsCount_spec (junk : Nat → Nat) (g' : Graph) :
    (∀ file : TextFile, loadGraphFromFile junk Graph.new file = some g' →
      (∀ l ∈ declaredLabels file.records, l + 1 < UI_SIZE) →
      (declaredLabels file.records).dedup.length ≤ g'.getLabelsCount ∧
      (∀ l ∈ declaredLabels file.records, l + 1 ≤ g'.getLabelsCount) ∧
      (∀ v l, v < g'.getVerticesCount → g'.getVertexLabel v = some l → l + 1 < UI_SIZE →
        l < g'.getLabelsCount) ∧
      (file.InRange → file.VerticesInOrder → ∀ v, v < g'.getVerticesCount →
        ∃ l, g'.getVertexLabel v = some l ∧ l < g'.getLabelsCount)) ∧
    (∀ file : Streams, loadGraphFromFileCompressed junk Graph.new file = some g' →
      (∀ l ∈ g'.labels_, l + 1 < UI_SIZE) →
      g'.labels_.dedup.length ≤ g'.getLabelsCount ∧
      (∀ l ∈ g'.labels_, l + 1 ≤ g'.getLabelsCount) ∧
      ∀ v, v < g'.getVerticesCount → ∃ l, g'.getVertexLabel v = some l ∧ l < g'.getLabelsCount) := by
  refine ⟨?_, ?_⟩
  · intro file h hfit
    obtain ⟨st, nb, hst, _, hbri⟩ := loadGraphFromFile_some h
    obtain ⟨fn, _, fc, _, _, _, _, flab, _, _, _⟩ := BuildReverseIndex_frame hbri
    have hfr := loadRecords_frequency hst
    have hfr1 : st.g.labels_frequency_ =
        ((declaredLabels file.records).foldl countLabel ([], 0)).1 := congrArg Prod.fst hfr
    have hfr2 : st.max_label_id =
        ((declaredLabels file.records).foldl countLabel ([], 0)).2 := congrArg Prod.snd hfr
    have hcount : g'.getLabelsCount =
        labelsCount ((declaredLabels file.records).foldl countLabel ([], 0)).1
          ((declaredLabels file.records).foldl countLabel ([], 0)).2 := by
      show g'.labels_count_ = _
      rw [fc]
      show labelsCount st.g.labels_frequency_ st.max_label_id = _
      rw [hfr1, hfr2]
    obtain ⟨hge1, hge2⟩ := labelsCount_ge (declaredLabels file.records) hfit
    have h3 : ∀ v l, v < g'.getVerticesCount → g'.getVertexLabel v = some l → l + 1 < UI_SIZE →
        l < g'.getLabelsCount := fun v l hv hl hl1 => BuildReverseIndex_label_lt hbri hv hl hl1
    refine ⟨by rw [hcount]; exact hge1, fun l hl => by rw [hcount]; exact hge2 l hl, h3, ?_⟩
    intro hr hord v hv
    have hn1 := loadRecords_count_lt hr.1 hst
    have hlab := loadRecords_labels hn1 hord hst
    have hlabels : g'.labels_ = declaredLabels file.records := by
      rw [flab]; exact hlab
    have hlen : (declaredLabels file.records).length = file.vertices_count := by
      have := congrArg List.length hord
      simpa [vertexIds, declaredLabels] using this
    have hvn : v < (declaredLabels file.records).length := by
      rw [hlen, ← (loadRecords_lengths hst).2.2]
      have fn' : g'.vertices_count_ = st.g.vertices_count_ := fn
      rw [← fn']
      exact hv
    have hget : g'.getVertexLabel v = some ((declaredLabels file.records).getD v 0) := by
      unfold getVertexLabel
      rw [hlabels]
      exact getElem?_eq_some_getD hvn
    have hmem : (declaredLabels file.records).getD v 0 ∈ declaredLabels file.records :=
      List.getElem?_mem (getElem?_eq_some_getD hvn)
    exact ⟨_, hget, h3 v _ hv hget (hfit _ hmem)⟩
  · intro file h hfit
    have hn1 := loadGraphFromFileCompressed_count_lt h
    obtain ⟨degrees, offs0, offs, st, labels, fr, _, _, _, _, hl, hfr, hbri⟩ :=
      loadGraphFromFileCompressed_some h
    obtain ⟨fn, _, fc, _, _, _, _, flab, _, _, _⟩ := BuildReverseIndex_frame hbri
    obtain ⟨_, hlen, _, _, _⟩ := writeBlock_some hl
    rw [length_newArray] at hlen
    obtain ⟨_, hfold⟩ := labelLoop_eq hfr
    rw [← hlen, List.take_length] at hfold
    have hlabels : g'.labels_ = labels := flab
    have hfold' : fr = labels.foldl countLabel ([], 0) := hfold
    have hcount : g'.getLabelsCount =
        labelsCount (labels.foldl countLabel ([], 0)).1 (labels.foldl countLabel ([], 0)).2 := by
      show g'.labels_count_ = _
      rw [fc]
      show labelsCount fr.1 fr.2 = _
      rw [hfold']
    rw [hlabels] at hfit ⊢
    obtain ⟨hge1, hge2⟩ := labelsCount_ge labels hfit
    refine ⟨by rw [hcount]; exact hge1, fun l hl => by rw [hcount]; exact hge2 l hl, ?_⟩
    intro v hv
    have hvn : v < labels.length := by
      rw [hlen]
      have fn' : g'.vertices_count_ = file.vertexCount Graph.new := fn
      rw [← fn']
      exact hv
    have hget : g'.getVertexLabel v = some (labels.getD v 0) := by
      unfold getVertexLabel
      rw [hlabels]
      exact getElem?_eq_some_getD hvn
    have hmem : labels.getD v 0 ∈ labels :=
      List.getElem?_mem (getElem?_eq_some_getD hvn)
    exact ⟨_, hget, BuildReverseIndex_label_lt hbri hv hget (hfit _ hmem)⟩

/-- **C20 (counterexample).** The input `t 1 0 / v 0 4294967295 0` is loaded
without any failure, with `getLabelsCount() = 1` (one distinct label;
`max_label_id + 1` wraps to `0`) although the label of vertex `0` is
`4294967295`. -/
theorem loadGraphFromFile_max_label :
    (loadGraphFromFile (fun _ => 0) Graph.new maxLabelFile).map
      (fun g => (g.getVertexLabel 0, g.getLabelsCount)) = some (some 4294967295, 1) ∧
    ¬ (4294967295 + 1 ≤ 1) := by
  refine ⟨by decide, by decide⟩

/-- Instance of the amended C20 on the graph loaded from the path `0 - 1 - 2`. -/
theorem getLabelsCount_spec_witness :
    ((∀ l ∈ declaredLabels pathFile.records, l + 1 < UI_SIZE) ∧
      (declaredLabels pathFile.records).dedup.length ≤ pathLoaded.getLabelsCount ∧
      (∀ l ∈ declaredLabels pathFile.records, l + 1 ≤ pathLoaded.getLabelsCount) ∧
      (∀ v l, v < pathLoaded.getVerticesCount → pathLoaded.getVertexLabel v = some l →
        l + 1 < UI_SIZE → l < pathLoaded.getLabelsCount) ∧
      (pathFile.InRange → pathFile.VerticesInOrder → ∀ v, v < pathLoaded.getVerticesCount →
        ∃ l, pathLoaded.getVertexLabel v = some l ∧ l < pathLoaded.getLabelsCount)) ∧
    pathLoaded.getLabelsCount = 8 :=
  ⟨⟨by decide, (getLabelsCount_spec (fun _ => 0) pathLoaded).1 pathFile pathFile_loads
    (by decide)⟩, by decide⟩

end Graph
end SubgraphMatching

namespace SubgraphMatching
namespace Graph

/-! ## C21: isolated vertices and graphs without edges -/

/-- **C21.** For every store, every result of `buildCoreTable` has
`getCoreValue(v) = 0` for every vertex `v` with `getVertexDegree(v) = 0`; when
`max_degree_ = 0`, every result has `getCoreValue(v) = 0` for all vertices `v`,
and on a freshly loaded graph (the result of either loader on a newly
constructed `Graph`) it has `get2CoreSize() = 0`.  The call is defined when the
store is well-formed. -/
theorem buildCoreTable_isolated (junk : Nat → Nat) (g : Graph)
    (hui : g.vertices_count_ < UI_SIZE) :
    (g.WellFormed → ∃ g', buildCoreTable junk g = some g') ∧
    ∀ g', buildCoreTable junk g = some g' →
      (∀ v, v < g.vertices_count_ → g.getVertexDegree v = some 0 →
        g'.getCoreValue v = some 0) ∧
      (g.max_degree_ = 0 →
        (∀ v, v < g.vertices_count_ → g'.getCoreValue v = some 0) ∧
        (g.FreshlyLoaded → g'.get2CoreSize = 0)) := by
  refine ⟨fun hW => ?_, ?_⟩
  · obtain ⟨g', _, h, _⟩ := buildCoreTable_wellFormed junk hW
    exact ⟨g', h⟩
  · intro g' h
    obtain ⟨h1, h2⟩ := buildCoreTable_edgeless hui h
    refine ⟨h1, fun hmd => ⟨(h2 hmd).1, fun hload => ?_⟩⟩
    rw [(h2 hmd).2]
    exact hload.fresh.1

/-- Instance of C21 on the graph loaded from the text of two isolated vertices:
it is freshly loaded, well-formed and without edges, `buildCoreTable` is defined
on it, and the result has core values `0`, `0` and `get2CoreSize() = 0`. -/
theorem buildCoreTable_isolated_witness :
    edgelessLoaded.FreshlyLoaded ∧ edgelessLoaded.max_degree_ = 0 ∧
    edgelessLoaded.getVertexDegree 0 = some 0 ∧
    ∃ g', buildCoreTable (fun _ => 0) edgelessLoaded = some g' ∧
      g'.getCoreValue 0 = some 0 ∧
      (∀ v, v < edgelessLoaded.vertices_count_ → g'.getCoreValue v = some 0) ∧
      g'.get2CoreSize = 0 := by
  have hthm := buildCoreTable_isolated (fun _ => 0) edgelessLoaded (by decide)
  obtain ⟨g', hg'⟩ := hthm.1 edgelessLoaded_wellFormed
  obtain ⟨h1, h2⟩ := hthm.2 g' hg'
  obtain ⟨h3, h4⟩ := h2 (by decide)
  exact ⟨edgelessLoaded_fresh, by decide, by decide, g', hg',
    h1 0 (by decide) (by decide), h3, h4 edgelessLoaded_fresh⟩

end Graph
end SubgraphMatching
